import Mathlib

/-!
# powwow: escaping codec, escape-aware width, and the mark / substitution engine

A shallow embedding of `src/src/utils.c`.

Conventions of the embedding

* A `char` is a natural number (a byte, `0 .. 255`); a C string is the list of
  the bytes that precede its terminating NUL.
* A pointer into the line being scanned is an offset into that line; a pointer
  that may be `NULL` is an `Option Nat`, `none` standing for `NULL`.
* The line given to `ptrmaddmarks` / `ptrmaddsubst` is a buffer of `len` bytes,
  the list `text`, which may hold NUL bytes, followed by a NUL byte; `strstr`
  and `strlen` on a pointer into it read up to the first NUL byte.
* A function whose C execution would dereference `NULL`, or would pass a
  negative length to the buffer routines, returns `none`.
* Loops that C leaves unbounded take a `fuel` argument; `none` is also the
  answer when the fuel runs out.
* Memory allocation is assumed to succeed (`MEM_ERROR` is never raised).
-/

namespace Powwow

/-! ## Definitions -/

/-- Values that `utils.c` takes from `defines.h` and from the delimiter tables,
neither of which is among the sources: the second escape character `ESC2`, the
string `SPECIAL_CHARS`, and the delimiter set currently selected,
`DELIM = delim_list[delim_mode]` (with `DELIM_LEN` its length). -/
structure Defines where
  /-- The second escape byte, `ESC2`. -/
  ESC2 : Nat
  /-- The printable bytes that `ptrmescape` protects with a backslash. -/
  SPECIAL_CHARS : List Nat
  /-- The word delimiters, `DELIM`. -/
  DELIM : List Nat

/-- Modelled from the spec: `defines.h` is not among the sources. The stock
values of the three parameters: `ESC2` is the backquote, `SPECIAL_CHARS` is
`{}();"=` and the delimiters of the normal mode are the blank and `;`. -/
def stockDefines : Defines :=
  { ESC2 := 96
    SPECIAL_CHARS := [123, 125, 40, 41, 59, 34, 61]
    DELIM := [32, 59] }

/-- Modelled from the spec: the macro `ESC` of `defines.h`, which is not among
the sources. It is the backslash (§4.6: "backslash + octal"); it is also the
byte that `ptrmescape` prints in front of an octal escape and that
`memunescape` expects there. -/
def ESC : Nat := 92

/-- Modelled from the spec: the macro `ISODIGIT` of `defines.h`, which is not
among the sources: `c` is an octal digit, `'0' .. '7'` (§4.6: "3-digit octal
escape"). -/
def ISODIGIT (c : Nat) : Bool := decide (48 ≤ c) && decide (c ≤ 55)

/-- Modelled from the spec: the macro `ISMARKWILDCARD` of `defines.h`, which is
not among the sources: `c` is one of the two wildcard markers, `&` and `$`
(§4.7; the comments of `match_mark_or_subst` name the same two). -/
def ISMARKWILDCARD (c : Nat) : Bool := c == 38 || c == 36

/-- `isalpha` in the C locale. -/
def isalpha (c : Nat) : Bool :=
  (decide (65 ≤ c) && decide (c ≤ 90)) || (decide (97 ≤ c) && decide (c ≤ 122))

/-! ### `printstrlen` -/

/-- The three states of the scanner of `printstrlen`. -/
inductive PState where
  | NORM
  | ESCAPE
  | BRACKET
  deriving DecidableEq, Repr

/-- The `for` loop of `printstrlen`: `l` is the running width, the list is
what is left of the string (the loop also stops at a NUL byte). -/
def printstrlenLoop (cols : Nat) : PState → Nat → List Nat → Nat
  | _, l, [] => l
  | state, l, c :: s =>
    if c = 0 then l
    else
      match state with
      | .NORM =>
        if c = 27 then printstrlenLoop cols .ESCAPE l s
        else if (c &&& 128 ≠ 0) ∨ 32 ≤ c then printstrlenLoop cols .NORM (l + 1) s
        else if c = 13 then printstrlenLoop cols .NORM ((l / cols) * cols) s
        else printstrlenLoop cols .NORM l s
      | .ESCAPE =>
        printstrlenLoop cols (if c = 91 then .BRACKET else .NORM) l s
      | .BRACKET =>
        printstrlenLoop cols (if isalpha c then .NORM else .BRACKET) l s

/-- `printstrlen(s)`; `cols` is the global terminal width. -/
def printstrlen (cols : Nat) (s : List Nat) : Nat :=
  printstrlenLoop cols .NORM 0 s

/-! ### The escaping codec -/

/-- The three states of `memunescape`. -/
inductive UState where
  | NORM
  | ESCSINGLE
  | ESCAPE
  deriving DecidableEq, Repr

/-- The byte written for an octal escape with digits `a b c`:
`((a-'0') << 6) | ((b-'0') << 3) | (c-'0')`, stored into a `char`. -/
def octalValue (a b c : Nat) : Nat :=
  (((a - 48) <<< 6) ||| ((b - 48) <<< 3) ||| (c - 48)) % 256

/-- The `while (lenp)` loop of `memunescape`: the list holds the `lenp` bytes
still to be read, the result is the list of bytes written through `p`.
Reading never falls behind writing, so the bytes read are those of the input.
The fall-through from `NORM` into `ESCSINGLE` is the next turn of the loop in
state `ESCSINGLE` (taken only while `lenp` is not zero). The first `ESCSINGLE`
clause is the case `lenp >= 3`, the second the case `lenp < 3`. -/
def memunescapeLoop (d : Defines) : UState → List Nat → List Nat
  | _, [] => []
  | .NORM, c :: s =>
    if c ≠ ESC then c :: memunescapeLoop d .NORM s
    else memunescapeLoop d .ESCSINGLE s
  | .ESCSINGLE, c :: c1 :: c2 :: s2 =>
    if c = ESC then c :: memunescapeLoop d .ESCAPE (c1 :: c2 :: s2)
    else if c = d.ESC2 then ESC :: memunescapeLoop d .NORM (c1 :: c2 :: s2)
    else if ISODIGIT c && ISODIGIT c1 && ISODIGIT c2 then
      octalValue c c1 c2 :: memunescapeLoop d .NORM s2
    else c :: memunescapeLoop d .NORM (c1 :: c2 :: s2)
  | .ESCSINGLE, c :: s =>
    if c = ESC then c :: memunescapeLoop d .ESCAPE s
    else if c = d.ESC2 then ESC :: memunescapeLoop d .NORM s
    else c :: memunescapeLoop d .NORM s
  | .ESCAPE, c :: s =>
    if c = ESC then c :: memunescapeLoop d .ESCAPE s
    else if c = d.ESC2 then ESC :: memunescapeLoop d .NORM s
    else c :: memunescapeLoop d .NORM s

/-- `memunescape(p, lenp)` on a buffer holding the bytes `p` (at least `lenp`
of them): the pair of the buffer after the call and the returned length. The
decoded bytes are written over the start of the buffer and followed by a NUL;
the bytes behind it are left as they were. -/
def memunescape (d : Defines) (p : List Nat) (lenp : Nat) : List Nat × Nat :=
  match p with
  | [] => (p, 0)
  | c :: _ =>
    if c = 0 then (p, 0)
    else
      let out := memunescapeLoop d .NORM (p.take lenp)
      (out ++ 0 :: p.drop (out.length + 1), out.length)

/-- `sprintf(p, "\\%03o", (int)(byte)c)`: a backslash and three octal digits. -/
def octalEscape (c : Nat) : List Nat :=
  [92, 48 + (c % 256) / 64, 48 + ((c % 256) / 8) % 8, 48 + (c % 256) % 8]

/-- The part of the loop body of `ptrmescape` that writes one byte `c` which
is not `ESC`; `escape` says that the local `state` is `ESCAPE`. A byte outside
`' ' .. '~'` becomes an octal escape, a printable one is copied, behind a
backslash when `state` is `ESCAPE` or the byte is in `SPECIAL_CHARS`. -/
def escapeByte (d : Defines) (escape : Bool) (c : Nat) : List Nat :=
  if c < 32 ∨ c > 126 then octalEscape c
  else if escape = true ∨ c ∈ d.SPECIAL_CHARS then [ESC, c]
  else [c]

/-- The `while (srclen)` loop of `ptrmescape` over the `srclen` bytes still to
be read. `inrun` says that the inner loop copying a run of `ESC` has copied at
least one byte and is still running. -/
def ptrmescapeLoop (d : Defines) : Bool → List Nat → List Nat
  | false, [] => []
  | true, [] => [d.ESC2]
  | false, c :: s =>
    if c = ESC then ESC :: ptrmescapeLoop d true s
    else escapeByte d false c ++ ptrmescapeLoop d false s
  | true, c :: s =>
    if c = ESC then ESC :: ptrmescapeLoop d true s
    else if c = d.ESC2 then d.ESC2 :: (escapeByte d false c ++ ptrmescapeLoop d false s)
    else escapeByte d true c ++ ptrmescapeLoop d false s

/-- `ptrmescape(dst, src, srclen, append)`: the contents of `dst` afterwards. -/
def ptrmescape (d : Defines) (dst src : List Nat) (srclen : Nat) (append : Bool) :
    List Nat :=
  if srclen = 0 then (if append then dst else [])
  else (if append then dst else []) ++ ptrmescapeLoop d false (src.take srclen)

/-- The `while (*src)` loop of `escape_specials`: as `ptrmescapeLoop`, but the
input ends at its first NUL byte. -/
def escape_specialsLoop (d : Defines) : Bool → List Nat → List Nat
  | false, [] => []
  | true, [] => [d.ESC2]
  | false, c :: s =>
    if c = 0 then []
    else if c = ESC then ESC :: escape_specialsLoop d true s
    else escapeByte d false c ++ escape_specialsLoop d false s
  | true, c :: s =>
    if c = 0 then [d.ESC2]
    else if c = ESC then ESC :: escape_specialsLoop d true s
    else if c = d.ESC2 then
      d.ESC2 :: (escapeByte d false c ++ escape_specialsLoop d false s)
    else escapeByte d true c ++ escape_specialsLoop d false s

/-- `escape_specials(dst, src)`: the string written to `dst`. -/
def escape_specials (d : Defines) (src : List Nat) : List Nat :=
  escape_specialsLoop d false src

/-! ### The pattern matcher `match_mark_or_subst` -/

/-- The part of `basenode` that the engine uses: the pattern, the flag `mbeg`
(match only at the start of the line), the flag `wild` (the pattern holds a
wildcard) and the bounds of the last match, `start` and `end`, as offsets into
the line (`none` is `NULL`). -/
structure basenode where
  pattern : List Nat
  mbeg : Int
  wild : Bool
  start : Option Nat
  end_ : Option Nat
  deriving DecidableEq, Repr

/-- A `marknode`: a `basenode` and the attribute code of the mark. -/
structure marknode where
  b : basenode
  attrcode : Nat
  deriving DecidableEq, Repr

/-- A `substnode`: a `basenode` and the replacement text. -/
structure substnode where
  b : basenode
  replacement : List Nat
  deriving DecidableEq, Repr

/-- The offset, in the C string `hay`, of the first occurrence of `pat`. -/
def strstrFrom (pat : List Nat) : List Nat → Option Nat
  | [] => if pat.isPrefixOf [] then some 0 else none
  | c :: t =>
    if pat.isPrefixOf (c :: t) then some 0 else (strstrFrom pat t).map (· + 1)

/-- The C string that starts at offset `p` of the line `text`: the bytes from
`p` up to the first NUL byte. The buffer that holds the line ends with a NUL
byte behind the last byte of `text` (the line is a C string, or the data of a
counted string, which carries a final NUL), so the string ends with `text` at
the latest. -/
def cstr (text : List Nat) (p : Nat) : List Nat :=
  (text.drop p).takeWhile (· != 0)

/-- `strlen(p)` where `p` points at offset `p` of the line `text`. -/
def strlen (text : List Nat) (p : Nat) : Nat :=
  (cstr text p).length

/-- `strstr(src, pat)` where `src` points at offset `src` of the line `text`:
the offset in `text` of the first occurrence of `pat` in the C string at `src`,
which ends at the first NUL byte; `pat` is a C string, given as its bytes
before the NUL. -/
def strstr (text : List Nat) (src : Nat) (pat : List Nat) : Option Nat :=
  (strstrFrom pat (cstr text src)).map (· + src)

/-- The two `while` loops of `first_valid`, counting the bytes stepped over;
`esc` selects the second loop, which also steps over a `ch` that follows `ESC`;
`prev` is `p[-1]`. -/
def first_validScan (ch : Nat) (esc : Bool) : Nat → List Nat → Nat
  | _, [] => 0
  | prev, c :: r =>
    if c ≠ ch ∨ (esc = true ∧ prev = ESC) then 1 + first_validScan ch esc c r else 0

/-- `first_valid(p, ch)`, as the number of bytes between `p` and the result. -/
def first_valid (d : Defines) (p : List Nat) (ch : Nat) : Nat :=
  match p with
  | [] => 0
  | c :: r =>
    if c ≠ ch then 1 + first_validScan ch (!(ch == d.ESC2 || ch == ESC)) c r else 0

/-- The index of the first byte of a list that lies in the set `c`. -/
def firstIn (c : List Nat) : List Nat → Option Nat
  | [] => none
  | b :: t => if b ∈ c then some 0 else (firstIn c t).map (· + 1)

/-- The index of the last byte of a list that lies in the set `c`. -/
def lastIn (c : List Nat) : List Nat → Option Nat
  | [] => none
  | b :: t =>
    match lastIn c t with
    | some i => some (i + 1)
    | none => if b ∈ c then some 0 else none

/-- Modelled from the spec: `memchrs` is declared outside the sources given.
`memchrs(p, lenp, c, lenc)` is the first of the `lenp` bytes at `p` that is one
of the bytes of `c` (a delimiter inside the captured span, §4.7), `NULL` when
there is none or `lenp <= 0`. Here `p` is an offset into `text`. -/
def memchrs (text : List Nat) (p : Nat) (lenp : Int) (c : List Nat) : Option Nat :=
  (firstIn c ((text.drop p).take lenp.toNat)).map (· + p)

/-- Modelled from the spec: `memrchrs` is declared outside the sources given.
`memrchrs(p, lenp, c, lenc)` is the last of the `lenp` bytes at `p` that is one
of the bytes of `c`, `NULL` when there is none or `lenp <= 0`. -/
def memrchrs (text : List Nat) (p : Nat) (lenp : Int) (c : List Nat) : Option Nat :=
  (lastIn c ((text.drop p).take lenp.toNat)).map (· + p)

/-- The locals of `match_mark_or_subst` that live across turns of its loop,
with the node being matched. -/
structure MState where
  src : Option Nat
  nsrc : Option Nat
  prm : Option Nat
  endprm : Option Nat
  mbeg : Int
  mword : Bool
  bp : basenode
  deriving DecidableEq, Repr

/-- The length of the literal segment at the head of `pat`: the distance to
`npat`, the nearer of `first_valid(pat, '&')` and `first_valid(pat, '$')`. -/
def npatOffset (d : Defines) (pat : List Nat) : Nat :=
  if first_valid d pat 36 < first_valid d pat 38 then first_valid d pat 36
  else first_valid d pat 38

/-- The outcome of a part of the loop body: `crash` (a `NULL` is dereferenced),
`ret0` (the function returns 0, leaving the node as given) or `go` (the body
goes on in the state given). -/
inductive Step where
  | crash
  | ret0 (bp : basenode)
  | go (st : MState)
  deriving DecidableEq, Repr

/-- The block `if (*mpat) ... else if (prm) ... else ...` of the loop body:
it finds the literal segment `mpat` and sets `nsrc`, `endprm`, `mbeg`,
`bp->start` and `bp->end`. -/
def matchSegment (text : List Nat) (mpat : List Nat) (st : MState) : Step :=
  if mpat ≠ [] then
    match st.src with
    | none => .crash
    | some src =>
      match strstr text src mpat with
      | none => .ret0 st.bp
      | some nsrc =>
        if 0 < st.mbeg ∧ nsrc ≠ src then .ret0 st.bp
        else
          .go { st with
                nsrc := some nsrc
                mbeg := if 0 < st.mbeg then 0 else st.mbeg
                endprm := some nsrc
                bp := { st.bp with
                        start := if st.bp.start.isNone then
                                   (if st.prm.isSome then some src else some nsrc)
                                 else st.bp.start
                        end_ := some (nsrc + mpat.length) } }
  else
    match st.prm with
    | some prm =>
      .go { st with endprm := some (prm + strlen text prm)
                    bp := { st.bp with end_ := some (prm + strlen text prm) } }
    | none => .go { st with bp := { st.bp with end_ := st.src } }

/-- The block `if (mword) ...` of the loop body, the post-processing of a `$`
parameter; `patEmpty` is `!*pat`. -/
def matchWord (d : Defines) (text : List Nat) (patEmpty : Bool) (st : MState) : Step :=
  if st.mword then
    match st.prm with
    | none => .ret0 st.bp
    | some prm =>
      let endprm := st.endprm.getD 0
      if st.mbeg = -1 then
        let p : Int :=
          if patEmpty then -1
          else
            match memrchrs text prm ((endprm : Int) - prm - 1) d.DELIM with
            | some tmp => (tmp : Int) - prm
            | none => -1
        let prm2 := ((prm : Int) + p + 1).toNat
        .go { st with prm := some prm2, bp := { st.bp with start := some prm2 } }
      else if patEmpty then
        match memchrs text prm (strlen text prm) d.DELIM with
        | some tmp => .go { st with endprm := some tmp, bp := { st.bp with end_ := some tmp } }
        | none => .go st
      else
        match memchrs text prm ((endprm : Int) - prm) d.DELIM with
        | some _ => .ret0 st.bp
        | none => .go st
  else .go st

/-- The head of the loop body, `if (ISMARKWILDCARD(c)) { ... }`, for the
pattern byte `c`: a wildcard sets `prm = src`; `$` sets `mword`, `&` sets
`bp->start = src` unless a start is already there. -/
def matchOpen (c : Nat) (st : MState) : MState :=
  if ISMARKWILDCARD c then
    { st with
      prm := st.src
      mword := if c = 36 then true else st.mword
      bp := if c ≠ 36 ∧ st.bp.start.isNone then { st.bp with start := st.src }
            else st.bp }
  else st

/-- The pattern behind the `++pat` that steps over a wildcard `c`. -/
def turnPat (c : Nat) (rest : List Nat) : List Nat :=
  if ISMARKWILDCARD c then rest else c :: rest

/-- The tail of the loop body: `if (prm) mbeg = mword = 0;` and
`src = nsrc + strlen(mpat);` with `mlen` the length of `mpat`. -/
def matchClose (mlen : Nat) (st : MState) : MState :=
  { src := st.nsrc.map (· + mlen)
    nsrc := st.nsrc
    prm := st.prm
    endprm := st.endprm
    mbeg := if st.prm.isSome then 0 else st.mbeg
    mword := if st.prm.isSome then false else st.mword
    bp := st.bp }

/-- Sequencing of the parts of the loop body: a crash or a `return 0` ends the
body, otherwise the next part runs in the state reached. -/
def Step.andThen (s : Step) (f : MState → Step) : Step :=
  match s with
  | .crash => .crash
  | .ret0 bp => .ret0 bp
  | .go st => f st

/-- One turn of the loop `while (pat && (c = *pat))` with `c :: rest` the
pattern left: the head, the literal segment `mpat` (copied from `pat` up to
`npat`), the search of the segment, the post-processing of a `$` and the tail
of the body. -/
def matchTurn (d : Defines) (text : List Nat) (c : Nat) (rest : List Nat) (st : MState) :
    Step :=
  let pat := turnPat c rest
  let mpat := pat.take (npatOffset d pat)
  (matchSegment text mpat (matchOpen c st)).andThen fun st2 =>
    (matchWord d text pat.isEmpty st2).andThen fun st3 =>
      .go (matchClose mpat.length st3)

/-- The loop `while (pat && (c = *pat))` of `match_mark_or_subst`; the list is
what is left of the pattern, the empty list standing also for `pat == NULL`
(the turn ends with `pat = npat`). Every turn consumes at least one byte of the
pattern, so a fuel above the length of the pattern is never used up. -/
def matchLoop (d : Defines) (text : List Nat) :
    Nat → List Nat → MState → Option (Bool × basenode)
  | 0, _, _ => none
  | _ + 1, [], st => some (true, st.bp)
  | fuel + 1, c :: rest, st =>
    match matchTurn d text c rest st with
    | .crash => none
    | .ret0 bp => some (false, bp)
    | .go st1 =>
      matchLoop d text fuel ((turnPat c rest).drop (npatOffset d (turnPat c rest))) st1

/-- The locals of `match_mark_or_subst` when its loop is entered for a pattern
with wildcards: `bp->start = NULL`, and `mbeg = - mbeg - 1` when the pattern
starts with a wildcard. -/
def matchInit (bp : basenode) (src : Nat) : MState :=
  { src := some src
    nsrc := none
    prm := none
    endprm := none
    mbeg := if (bp.pattern.head?.map ISMARKWILDCARD).getD false then - bp.mbeg - 1
            else bp.mbeg
    mword := false
    bp := { bp with start := none } }

/-- `match_mark_or_subst(bp, src)`, where `src` points at offset `src` of the
line `text`: `none` when the C code dereferences `NULL`, else the returned
value (1 as `true`) and the node as the call leaves it. -/
def match_mark_or_subst (d : Defines) (text : List Nat) (bp : basenode) (src : Nat) :
    Option (Bool × basenode) :=
  if bp.wild = false then
    match strstr text src bp.pattern with
    | some nsrc =>
      some (true, { bp with start := some nsrc, end_ := some (nsrc + bp.pattern.length) })
    | none => some (false, bp)
  else
    matchLoop d text (bp.pattern.length + 1) bp.pattern (matchInit bp src)

/-! ### The scan loops `ptrmaddmarks` and `ptrmaddsubst` -/

/-- The address of a pointer into the line, as a number: `NULL` is 0 and the
offset `n` is `n + 1`, so that `NULL` lies below every pointer into the line. -/
def addr : Option Nat → Nat
  | none => 0
  | some n => n + 1

/-- The comparison `p < q` of two pointers. -/
def ptrLt (p q : Option Nat) : Bool := decide (addr p < addr q)

/-- The test `!mfirst || mp->b.start < mfirst->b.start`. -/
def beforeFirst (start : Option Nat) : Option (Nat × basenode) → Bool
  | none => true
  | some (_, mf) => ptrLt start mf.start

/-- One entry in the `for` loop of `ptrmaddmarks` / `ptrmaddsubst`: the value
of `matched` and the node afterwards. `line` is the scan start, `start` the
local flag that is 1 until the first match is applied; `lineend` is the length
of `text`. A match kept from an earlier turn is valid when its start is not
`NULL` and not before `line`; an entry that fails is parked at `lineend`. -/
def scanEntry (d : Defines) (text : List Nat) (line : Nat) (start : Bool)
    (bp : basenode) : Option (Bool × basenode) :=
  if bp.start.isSome ∧ ¬ ptrLt bp.start (some line) then some (true, bp)
  else if bp.mbeg = 0 ∨ start = true then
    match match_mark_or_subst d text bp line with
    | none => none
    | some (true, bp1) => some (true, bp1)
    | some (false, bp1) => some (false, { bp1 with start := some text.length })
  else some (false, { bp with start := some text.length })

/-- The `for` loop of `ptrmaddmarks` / `ptrmaddsubst` from the entry of index
`i` on; `mfirst` is the entry chosen so far, with its index. The result is the
list of the nodes afterwards and the final `mfirst`. -/
def scanPass (d : Defines) (text : List Nat) (line : Nat) (start : Bool) :
    List basenode → Nat → Option (Nat × basenode) →
    Option (List basenode × Option (Nat × basenode))
  | [], _, mfirst => some ([], mfirst)
  | bp :: rest, i, mfirst =>
    match scanEntry d text line start bp with
    | none => none
    | some (matched, bp1) =>
      let mfirst1 :=
        if matched = true ∧ ptrLt bp1.start (some text.length) = true ∧
            beforeFirst bp1.start mfirst = true
        then some (i, bp1) else mfirst
      match scanPass d text line start rest (i + 1) mfirst1 with
      | none => none
      | some (rest1, m) => some (bp1 :: rest1, m)

/-- The `do ... while (mfirst)` loop of `ptrmaddmarks` and the `ptrmcat` that
follows it. `attr_string` gives the begin and end strings of an attribute
code; `bs` are the `b` parts of the markers, `dst` is the output so far. The
result is `none` when the entry chosen has a `NULL` bound or bounds that are
not in the order `line <= start <= end <= lineend` (the lengths passed to
`ptrmcat` would be negative), and when the fuel runs out. -/
def ptrmaddmarksLoop (d : Defines) (attr_string : Nat → List Nat × List Nat)
    (markers : List marknode) (text : List Nat) :
    Nat → Nat → Bool → List basenode → List Nat → Option (List Nat)
  | 0, _, _, _, _ => none
  | fuel + 1, line, start, bs, dst =>
    match scanPass d text line start bs 0 none with
    | none => none
    | some (_, none) => some (dst ++ text.drop line)
    | some (bs1, some (i, mf)) =>
      match mf.start, mf.end_, markers[i]? with
      | some s, some e, some mp =>
        if line ≤ s ∧ s ≤ e ∧ e ≤ text.length then
          ptrmaddmarksLoop d attr_string markers text fuel e false bs1
            (dst ++ (text.drop line).take (s - line) ++ (attr_string mp.attrcode).1
              ++ (text.drop s).take (e - s) ++ (attr_string mp.attrcode).2)
        else none
      | _, _, _ => none

/-- `ptrmaddmarks(dst, line, len)` with `len` the length of `line`: the text
left in `dst`. `markers` is the global list. -/
def ptrmaddmarks (d : Defines) (attr_string : Nat → List Nat × List Nat)
    (markers : List marknode) (fuel : Nat) (line : List Nat) : Option (List Nat) :=
  if line = [] then some []
  else
    ptrmaddmarksLoop d attr_string markers line fuel 0 true
      (markers.map (fun mp => { mp.b with start := none })) []

/-- The `do ... while (sfirst)` loop of `ptrmaddsubst` and the `ptrmcat` that
follows it; `none` as for `ptrmaddmarksLoop`. -/
def ptrmaddsubstLoop (d : Defines) (substitutions : List substnode) (text : List Nat) :
    Nat → Nat → Bool → List basenode → List Nat → Option (List Nat)
  | 0, _, _, _, _ => none
  | fuel + 1, line, start, bs, dst =>
    match scanPass d text line start bs 0 none with
    | none => none
    | some (_, none) => some (dst ++ text.drop line)
    | some (bs1, some (i, sf)) =>
      match sf.start, sf.end_, substitutions[i]? with
      | some s, some e, some sp =>
        if line ≤ s ∧ s ≤ e ∧ e ≤ text.length then
          ptrmaddsubstLoop d substitutions text fuel e false bs1
            (dst ++ (text.drop line).take (s - line) ++ sp.replacement)
        else none
      | _, _, _ => none

/-- `ptrmaddsubst(dst, line, len)` with `len` the length of `line`: the text
left in `dst`. `substitutions` is the global list. -/
def ptrmaddsubst (d : Defines) (substitutions : List substnode) (fuel : Nat)
    (line : List Nat) : Option (List Nat) :=
  if line = [] then some []
  else
    ptrmaddsubstLoop d substitutions line fuel 0 true
      (substitutions.map (fun sp => { sp.b with start := none })) []

/-! ### The data of the worked examples -/

/-- The line `fatal ERROR occurred`. -/
def lineFatal : List Nat :=
  [102, 97, 116, 97, 108, 32, 69, 82, 82, 79, 82, 32, 111, 99, 99, 117, 114, 114, 101, 100]

/-- The wildcard entry `&ERROR&`, not anchored. -/
def nodeERROR : basenode := ⟨[38, 69, 82, 82, 79, 82, 38], 0, true, none, none⟩

/-- The wildcard entry `$foo`, anchored at the start of the line. -/
def nodeFoo : basenode := ⟨[36, 102, 111, 111], 1, true, none, none⟩

/-- The attribute strings of red: `ESC [ 3 1 m` and `ESC [ 0 m`. -/
def attrRed : Nat → List Nat × List Nat :=
  fun _ => ([27, 91, 51, 49, 109], [27, 91, 48, 109])

/-- The address that a later entry has to lie below in order to replace the
entry chosen so far: the start of `mfirst`, or the address `E` of the end of
the line when `mfirst` is still `NULL`. -/
def bestKey (E : Nat) : Option (Nat × basenode) → Nat
  | none => E
  | some (_, mf) => addr mf.start

/-- An entry without wildcards and without the anchor, not yet matched. -/
def plainNode (pattern : List Nat) : basenode := ⟨pattern, 0, false, none, none⟩

/-! ### Reference functions of the engine -/

/-- Replacing, from left to right, the occurrences of `P` by `R`: where `P`
occurs at the position reached, `R` is written and the bytes of the occurrence
are stepped over (`skip` counts those still to step over); otherwise one byte
is copied. What is written is not read again. -/
def replaceFrom (P R : List Nat) : Nat → List Nat → List Nat
  | _, [] => []
  | skip + 1, _ :: t => replaceFrom P R skip t
  | 0, c :: t =>
    if P.isPrefixOf (c :: t) then R ++ replaceFrom P R (P.length - 1) t
    else c :: replaceFrom P R 0 t

/-- The line `L` with each leftmost, non-overlapping occurrence of `P`
replaced by `R`. -/
def replaceAll (P R L : List Nat) : List Nat := replaceFrom P R 0 L

/-- The relation "`out` is the line `L` with attribute strings inserted":
`out` arises from `L` by putting, around consecutive spans of `L` that do not
overlap, the begin and end strings of markers of the list; nothing else is
added and no byte of `L` is changed or dropped. -/
inductive MarkedUp (attr_string : Nat → List Nat × List Nat) (markers : List marknode) :
    List Nat → List Nat → Prop where
  | plain (t : List Nat) : MarkedUp attr_string markers t t
  | mark (pre mid : List Nat) (mp : marknode) (rest out : List Nat) :
      mp ∈ markers → MarkedUp attr_string markers rest out →
      MarkedUp attr_string markers (pre ++ mid ++ rest)
        (pre ++ (attr_string mp.attrcode).1 ++ mid ++ (attr_string mp.attrcode).2 ++ out)

/-- The naive engine, one turn: `match_mark_or_subst` is run for every entry of
the list on the line from `line` on, and the entry chosen is the one with the
earliest start before the end of the line, the first in the list among equal
starts. `none` when a run meets `NULL`. -/
def naivePass (d : Defines) (text : List Nat) (line : Nat) :
    List basenode → Nat → Option (Nat × basenode) → Option (Option (Nat × basenode))
  | [], _, best => some best
  | bp :: rest, i, best =>
    match match_mark_or_subst d text bp line with
    | none => none
    | some (ok, bp1) =>
      naivePass d text line rest (i + 1)
        (if ok = true ∧ ptrLt bp1.start (some text.length) = true ∧
            beforeFirst bp1.start best = true
         then some (i, bp1) else best)

/-- The naive substitution engine: every turn runs `naivePass` on the entries
as registered, applies the entry chosen as `ptrmaddsubst` does and goes on
behind the match; when no entry is chosen the rest of the line is appended. -/
def naiveSubstLoop (d : Defines) (substitutions : List substnode) (text : List Nat) :
    Nat → Nat → List Nat → Option (List Nat)
  | 0, _, _ => none
  | fuel + 1, line, dst =>
    match naivePass d text line (substitutions.map (fun sp => sp.b)) 0 none with
    | none => none
    | some none => some (dst ++ text.drop line)
    | some (some (i, sf)) =>
      match sf.start, sf.end_, substitutions[i]? with
      | some s, some e, some sp =>
        if line ≤ s ∧ s ≤ e ∧ e ≤ text.length then
          naiveSubstLoop d substitutions text fuel e
            (dst ++ (text.drop line).take (s - line) ++ sp.replacement)
        else none
      | _, _, _ => none

/-- The naive substitution engine on a whole line. -/
def naiveSubst (d : Defines) (substitutions : List substnode) (fuel : Nat)
    (line : List Nat) : Option (List Nat) :=
  if line = [] then some [] else naiveSubstLoop d substitutions line fuel 0 []

/-- The naive mark engine: as `naiveSubstLoop`, applying the entry chosen as
`ptrmaddmarks` does. -/
def naiveMarksLoop (d : Defines) (attr_string : Nat → List Nat × List Nat)
    (markers : List marknode) (text : List Nat) :
    Nat → Nat → List Nat → Option (List Nat)
  | 0, _, _ => none
  | fuel + 1, line, dst =>
    match naivePass d text line (markers.map (fun mp => mp.b)) 0 none with
    | none => none
    | some none => some (dst ++ text.drop line)
    | some (some (i, mf)) =>
      match mf.start, mf.end_, markers[i]? with
      | some s, some e, some mp =>
        if line ≤ s ∧ s ≤ e ∧ e ≤ text.length then
          naiveMarksLoop d attr_string markers text fuel e
            (dst ++ (text.drop line).take (s - line) ++ (attr_string mp.attrcode).1
              ++ (text.drop s).take (e - s) ++ (attr_string mp.attrcode).2)
        else none
      | _, _, _ => none

/-- The naive mark engine on a whole line. -/
def naiveMarks (d : Defines) (attr_string : Nat → List Nat × List Nat)
    (markers : List marknode) (fuel : Nat) (line : List Nat) : Option (List Nat) :=
  if line = [] then some [] else naiveMarksLoop d attr_string markers line fuel 0 []

/-- The line `x a y x1y`. -/
def lineXY : List Nat := [120, 32, 97, 32, 121, 32, 120, 49, 121]
/-- The substitutions `x$y` (to `Z`) and `a` (to `b`), neither anchored. -/
def substXY : List substnode :=
  [⟨⟨[120, 36, 121], 0, true, none, none⟩, [90]⟩, ⟨plainNode [97], [98]⟩]

/-! ### Relations used to compare the engines -/

/-- The order of two pointers of two runs of the matcher that are compared:
both are `NULL`, or both are set and the first is not behind the second. -/
def SrcLe : Option Nat → Option Nat → Prop
  | none, none => True
  | some x, some y => x ≤ y
  | _, _ => False

/-- Two states of the matcher, of a run started at a scan start and of a run
started further right, in a pattern without `$`: no `$` is pending, `mbeg` is
not positive, and `src` and `nsrc` of the first run are not behind those of
the second. -/
def Sim (s s2 : MState) : Prop :=
  s.mword = false ∧ s2.mword = false ∧ s.mbeg ≤ 0 ∧ s2.mbeg ≤ 0 ∧
  SrcLe s.src s2.src ∧ SrcLe s.nsrc s2.nsrc

/-- The outcomes of a part of the loop body in two such runs: either both
crash, or both return 0, or the first goes on and the second returns 0, or
both go on in states related by `Sim`. -/
def StepSim : Step → Step → Prop
  | .crash, .crash => True
  | .ret0 _, .ret0 _ => True
  | .go _, .ret0 _ => True
  | .go s, .go s2 => Sim s s2
  | _, _ => False

/-- Two nodes of the same entry: they differ at most in the bounds `start` and
`end` of the last match. -/
def Agree (b n : basenode) : Prop :=
  b.pattern = n.pattern ∧ b.mbeg = n.mbeg ∧ b.wild = n.wild

/-- A pointer of a run of the matcher lies in the C string that ends at
offset `z`: it is `NULL`, or the C string at it ends at `z`. -/
def InStr (text : List Nat) (z : Nat) : Option Nat → Prop
  | none => True
  | some p => p + strlen text p = z

/-- The pointers `src`, `nsrc` and `prm` of a state of the matcher lie in the
C string that ends at offset `z`. -/
def Bounded (text : List Nat) (z : Nat) (s : MState) : Prop :=
  InStr text z s.src ∧ InStr text z s.nsrc ∧ InStr text z s.prm

/-- The state with `bp->end` replaced. -/
def setEnd (e : Option Nat) (s : MState) : MState :=
  { s with bp := { s.bp with end_ := e } }

/-- The state after the first turn of the loop for a pattern that starts with
a literal segment of length `mlen`, found at offset `p`. -/
def afterLiteral (bp : basenode) (p mlen : Nat) : MState :=
  { src := some (p + mlen), nsrc := some p, prm := none, endprm := some p, mbeg := 0
    mword := false, bp := { bp with start := some p, end_ := some (p + mlen) } }

/-- The node `b` holds, for the entry registered as `n`, what a run of
`match_mark_or_subst` from `line` gives: the node it returns with a match, or
a node parked at the end of the line when it returns 0. -/
def Fresh (d : Defines) (text : List Nat) (line : Nat) (b n : basenode) : Prop :=
  Agree b n ∧
  (match_mark_or_subst d text n line = some (true, b) ∨
   ((∃ o, match_mark_or_subst d text n line = some (false, o)) ∧ b.start = some text.length))

/-- The node `b` belongs to the entry registered as `n`, and a match it keeps
that does not start before `line` is what a run from `line` gives. -/
def Kept (d : Defines) (text : List Nat) (line : Nat) (b n : basenode) : Prop :=
  Agree b n ∧ ∀ s, b.start = some s → line ≤ s → Fresh d text line b n

/-- An entry whose kept results can be trusted: a run does not depend on the
bounds left in the node by an earlier run; a run that returns 0 from a scan
start returns 0 from every later one that lies in the same C string (not
behind the first NUL byte); a match that starts at or behind a later scan start
is what the run from there returns; and a match ends within the C string at
the scan start. -/
structure Stable (d : Defines) (text : List Nat) (n : basenode) : Prop where
  indep : ∀ (b : basenode) (line : Nat), Agree b n →
    (match_mark_or_subst d text b line = none ∧ match_mark_or_subst d text n line = none) ∨
    (∃ o o2, match_mark_or_subst d text b line = some (false, o) ∧
      match_mark_or_subst d text n line = some (false, o2) ∧ Agree o n) ∨
    (∃ o, match_mark_or_subst d text b line = some (true, o) ∧
      match_mark_or_subst d text n line = some (true, o) ∧ Agree o n)
  fail_later : ∀ (a b : Nat), a ≤ b → b ≤ a + strlen text a →
    (∃ o, match_mark_or_subst d text n a = some (false, o)) →
    ∃ o2, match_mark_or_subst d text n b = some (false, o2)
  keep_later : ∀ (a b : Nat) (o : basenode) (s : Nat),
    match_mark_or_subst d text n a = some (true, o) → o.start = some s → a ≤ b → b ≤ s →
    match_mark_or_subst d text n b = some (true, o)
  end_le : ∀ (a : Nat) (o : basenode) (e : Nat),
    match_mark_or_subst d text n a = some (true, o) → o.end_ = some e →
    e ≤ a + strlen text a

/-- An entry that is not anchored and is either without wildcards
(`wild = 0`) or has a non-empty pattern in which `$` does not occur. -/
def NoDollar (n : basenode) : Prop :=
  n.mbeg = 0 ∧ (n.wild = false ∨ (n.pattern ≠ [] ∧ 36 ∉ n.pattern))

/-- The substitutions `a&b` (to `x`) and `b` (to `yb`), neither anchored. -/
def substAB : List substnode :=
  [⟨⟨[97, 38, 98], 0, true, none, none⟩, [120]⟩, ⟨plainNode [98], [121, 98]⟩]

/-- The conditions on the missing constants under which the codec round-trips
on printable text: `ESC2` differs from `ESC` and is not special, and no special
character is an octal digit. -/
def DefinesOK (d : Defines) : Prop :=
  d.ESC2 ≠ ESC ∧ d.ESC2 ∉ d.SPECIAL_CHARS ∧ ∀ c ∈ d.SPECIAL_CHARS, ISODIGIT c = false

/-! ### The line editor of `edit.c`: state and terminal helpers

The terminal output and the screen origin (`line0`, `col0`) are not part of
the state; of the functions that draw, only the effect on the variables below
is kept. -/

/-- Sizes that `edit.c` takes from `defines.h`, which is not among the sources:
the size `BUFSIZE` of the edit buffer, the number `MAX_HIST` of history slots,
the number `MAX_WORDS` of nodes of the completion ring and the least length
`MIN_WORDLEN` of a word kept for completion. -/
structure Sizes where
  BUFSIZE : Nat
  MAX_HIST : Nat
  MAX_WORDS : Nat
  MIN_WORDLEN : Nat

/-- Modelled from the spec: `defines.h` is not among the sources. The stock
values of the four sizes, at which the closed statements are evaluated; the
statements with a parameter of type `Sizes` hold for all values. -/
def stockSizes : Sizes :=
  { BUFSIZE := 4096, MAX_HIST := 2000, MAX_WORDS := 512, MIN_WORDLEN := 3 }

/-- The editing functions that `last_edit_cmd` is compared with; `other` is any
other function. -/
inductive EditFn where
  | complete_word
  | complete_line
  | upcase_word
  | downcase_word
  | other
  deriving DecidableEq, Repr

/-- A node of the completion ring `words[]`: the word (`none` is `NULL`), the
links `next` and `prev` (indices into the ring) and the flags. -/
structure wordnode where
  word : Option (List Nat)
  next : Nat
  prev : Nat
  flags : Nat
  deriving DecidableEq, Repr

/-- The variables of the editor. `edbuf` is the text held in the buffer, up to
its terminating NUL: a byte read at or behind its end is NUL, a byte written
there is outside what is modelled. `hist` and `words` are the arrays, as maps
from the index. `cw_curr_word`, `cw_comp_len` and `cw_root_len` are the static
variables of `complete_word`. -/
structure Editor where
  edbuf : List Nat
  edlen : Nat
  pos : Nat
  line_status : Int
  noecho : Bool
  flashback : Bool
  excursion : Nat
  verbatim : Bool
  inserted_next : List Nat
  prefixstr : List Nat
  hist : Nat → Option (List Nat)
  curline : Nat
  pickline : Nat
  words : Nat → wordnode
  wordindex : Nat
  static_words : List (List Nat)
  last_edit_cmd : EditFn
  cw_curr_word : Int
  cw_comp_len : Nat
  cw_root_len : Nat

/-- The array `a` with the slot `i` set to `v`. -/
def setAt {α : Type} (a : Nat → α) (i : Nat) (v : α) : Nat → α :=
  fun j => if j = i then v else a j

/-- The editor when the program starts: all variables are zero, the buffer is
empty, no history slot and no ring node holds a string. -/
def bootEditor : Editor :=
  { edbuf := [], edlen := 0, pos := 0, line_status := 0, noecho := false
    flashback := false, excursion := 0, verbatim := false
    inserted_next := [], prefixstr := []
    hist := fun _ => none, curline := 0, pickline := 0
    words := fun _ => ⟨none, 0, 0, 0⟩, wordindex := 0, static_words := []
    last_edit_cmd := .other, cw_curr_word := 0, cw_comp_len := 0, cw_root_len := 0 }

/-- The byte `edbuf[i]`. -/
def Editor.byte (s : Editor) (i : Nat) : Nat := s.edbuf.getD i 0

/-- `strchr(DELIM, c) != NULL`: `c` is a delimiter or the NUL that ends
`DELIM`. -/
def inDELIM (d : Defines) (c : Nat) : Bool := decide (c = 0) || decide (c ∈ d.DELIM)

/-- Modelled from the spec: the macro `IS_DELIM` of `defines.h`, which is not
among the sources: `c` is in the delimiter set (§4.2, "a configurable
delimiter set"). The NUL that ends the buffer counts as a delimiter, as with
`strchr`: the loops of `upcase_word` and `downcase_word` stop there on
`IS_DELIM` alone. -/
def IS_DELIM (d : Defines) (c : Nat) : Bool := inDELIM d c

/-- Modelled from the spec: `input_moveto` is defined outside the sources
given. `moveTo(offset)` "clamps nothing"; it moves the cursor to the offset
(§4.2, and §8: after `moveTo(offset)` the cursor offset is `offset`). -/
def input_moveto (s : Editor) (new_pos : Nat) : Editor :=
  { s with pos := new_pos }

/-- Modelled from the spec: `input_overtype_follow` is defined outside the
sources given. `overtypeFollow(byte)` mutates the text at the cursor and
advances the cursor by one (§4.2); at the end of the text there is no byte to
overtype and nothing changes. -/
def input_overtype_follow (s : Editor) (c : Nat) : Editor :=
  if s.pos < s.edlen then { s with edbuf := s.edbuf.set s.pos c, pos := s.pos + 1 }
  else s

/-- Modelled from the spec: `input_insert_follow_chars` is defined outside the
sources given. `insert(bytes)` puts the `n` bytes at the cursor, shifting the
tail, and advances the cursor by one per byte; an insertion whose resulting
length would exceed `MaxLine - 2` is rejected and changes nothing (§4.2, §7,
§8). -/
def input_insert_follow_chars (z : Sizes) (s : Editor) (str : List Nat) (n : Nat) :
    Editor :=
  if s.edlen + n ≤ z.BUFSIZE - 2 ∧ 2 ≤ z.BUFSIZE then
    { s with edbuf := s.edbuf.take s.pos ++ str.take n ++ s.edbuf.drop s.pos
             edlen := s.edlen + n
             pos := s.pos + n }
  else s

/-- Modelled from the spec: `input_delete_nofollow_chars` is defined outside
the sources given. `deleteChars(n)` deletes forward from the cursor, shifting
the tail left and shrinking the length; the cursor stays (§4.2). At most the
bytes behind the cursor are deleted. -/
def input_delete_nofollow_chars (s : Editor) (n : Nat) : Editor :=
  { s with edbuf := s.edbuf.take s.pos ++ s.edbuf.drop (s.pos + min n (s.edlen - s.pos))
           edlen := s.edlen - min n (s.edlen - s.pos) }

/-- The effect of `clear_input_line(deleteprompt)` on the variables modelled,
for `deleteprompt == 0`: the line is marked as not drawn. (With `deleteprompt`
set the function calls `status(1)`, which is outside the sources.) -/
def clear_input_line0 (s : Editor) : Editor :=
  { s with line_status := 1 }

/-- The effect of `draw_input_line()` on the variables modelled: unless the
line is drawn already or echo is off, the line is marked as drawn. -/
def draw_input_line (s : Editor) : Editor :=
  if s.line_status = 0 ∨ s.noecho = true then s else { s with line_status := 0 }

/-- Modelled from the spec: the macro `ISRPAREN` of `defines.h`, which is not
among the sources: a closing bracket `)`, `]` or `}` (§4.2, the
matching-parenthesis flash). -/
def ISRPAREN (c : Nat) : Bool := c == 41 || c == 93 || c == 125

/-- Modelled from the spec: the macro `ISLPAREN` of `defines.h`, which is not
among the sources: an opening bracket `(`, `[` or `{`. -/
def ISLPAREN (c : Nat) : Bool := c == 40 || c == 91 || c == 123

/-- Modelled from the spec: the macro `LPAREN` of `defines.h`, which is not
among the sources: the opening bracket that matches the closing bracket `c`. -/
def LPAREN (c : Nat) : Nat := if c = 41 then 40 else if c = 93 then 91 else 123

/-- The `for` loop of `flashparen`, scanning backward with `i = k - 1` and the
depth `lev`: the index where the loop breaks, `none` when it runs out with
`i < 0` (also through `i = -1`). -/
def flashparenScan (s : Editor) (c : Nat) : Nat → Int → Option Nat
  | 0, _ => none
  | k + 1, lev =>
    if ISRPAREN (s.byte k) then flashparenScan s c k (lev + 1)
    else if ISLPAREN (s.byte k) then
      if lev - 1 = 0 then (if LPAREN c = s.byte k then some k else none)
      else flashparenScan s c k (lev - 1)
    else flashparenScan s c k lev

/-- `flashparen(c)`: with the line drawn, the matching opening bracket is
looked for and, when found, flashed. -/
def flashparen (s : Editor) (c : Nat) : Editor :=
  if s.line_status ≠ 0 then s
  else
    match flashparenScan s c s.pos 0 with
    | some i => { s with flashback := true, excursion := i }
    | none => s

/-- The editor that holds the text `t` with the cursor at `p` and the line
status `ls`, all else as when the program starts. -/
def editorAt (t : List Nat) (p : Nat) (ls : Int) : Editor :=
  { bootEditor with edbuf := t, edlen := t.length, pos := p, line_status := ls }

/-- `putbackcursor()`. -/
def putbackcursor (s : Editor) : Editor := { s with flashback := false }

/-- `insert_char(c)`. -/
def insert_char (z : Sizes) (s : Editor) (c : Nat) : Editor :=
  if ((c &&& 128 ≠ 0) ∨ (32 ≤ c ∧ c ≤ 126)) ∧ s.edlen < z.BUFSIZE - 2 then
    let s1 := if s.flashback then putbackcursor s else s
    let s2 := input_insert_follow_chars z s1 [c] 1
    if ISRPAREN c then flashparen s2 c else s2
  else s

/-- The buffer after `c = edbuf[j]; edbuf[j] = edbuf[i]; edbuf[i] = c`. -/
def swapBytes (l : List Nat) (i j : Nat) : List Nat :=
  (l.set j (l.getD i 0)).set i (l.getD j 0)

/-- `transpose_chars()`: `j` and `i` are the two offsets swapped. -/
def transpose_chars (s : Editor) : Editor :=
  if 1 < s.pos ∨ (0 < s.pos ∧ s.pos < s.edlen) then
    let j := if s.pos < s.edlen then s.pos else s.pos - 1
    let i := if s.pos < s.edlen then s.pos - 1 else s.pos - 2
    let buf := swapBytes s.edbuf i j
    if s.line_status = 0 then
      { s with edbuf := buf, pos := if s.pos < s.edlen then s.pos + 1 else s.pos }
    else { s with edbuf := buf, pos := s.pos + 1 }
  else s

/-! ### The line editor: history and the completion ring -/

/-- The ring with `words[i].next = v`. -/
def setNext (w : Nat → wordnode) (i v : Nat) : Nat → wordnode :=
  setAt w i { w i with next := v }

/-- The ring with `words[i].prev = v`. -/
def setPrev (w : Nat → wordnode) (i v : Nat) : Nat → wordnode :=
  setAt w i { w i with prev := v }

/-- The ring with `words[i].word = v`. -/
def setWord (w : Nat → wordnode) (i : Nat) (v : Option (List Nat)) : Nat → wordnode :=
  setAt w i { w i with word := v }

/-- The ring with `words[i].flags = v`. -/
def setFlags (w : Nat → wordnode) (i v : Nat) : Nat → wordnode :=
  setAt w i { w i with flags := v }

/-- `demote_word(i)` on the ring `w` with the given `wordindex`: the four
statements in their order, every read made on the ring as the statements
before it left it. -/
def demote_word (w : Nat → wordnode) (wordindex i : Nat) : Nat → wordnode :=
  let w1 := setNext w (w i).prev (w i).next
  let w2 := setPrev w1 (w1 i).next (w1 i).prev
  let w3 := setNext w2 i wordindex
  let w4 := setPrev w3 i (w3 wordindex).prev
  let w5 := setNext w4 (w4 wordindex).prev i
  setPrev w5 wordindex i

/-- `put_word(s)`. -/
def put_word (s : Editor) (str : List Nat) : Editor :=
  let w1 := setFlags (setWord s.words s.wordindex (some str)) s.wordindex 0
  let r := (w1 s.wordindex).prev
  let w2 := demote_word w1 s.wordindex r
  let w3 := if (w2 r).word.isSome then setWord w2 r none else w2
  { s with words := w3, wordindex := r }

/-- `put_static_word(s)`: the word is appended to the table of static words. -/
def put_static_word (s : Editor) (str : List Nat) : Editor :=
  { s with static_words := s.static_words ++ [str] }

/-- `default_completions()`: `commands` is the list of the commands (defined
outside the sources), each with its name and whether it has a function; every
command with a function is put as `#name` among the static words; then the
ring is linked. -/
def default_completions (z : Sizes) (s : Editor) (commands : List (List Nat × Bool)) :
    Editor :=
  let s1 := (commands.filter (fun c => c.2)).foldl
    (fun t c => put_static_word t (35 :: c.1)) s
  let w1 : Nat → wordnode := fun i =>
    if i < z.MAX_WORDS then { s1.words i with prev := i - 1, next := i + 1 } else s1.words i
  let w2 := setPrev w1 0 (z.MAX_WORDS - 1)
  { s1 with words := setNext w2 (z.MAX_WORDS - 1) 0 }

/-- The tokens that the calls `strtok(str, DELIM)`, `strtok(NULL, DELIM)`, ...
return: the maximal runs of bytes that are not in `DELIM`. `cur` is the token
under way, reversed. -/
def strtokAll (d : Defines) : List Nat → List Nat → List (List Nat)
  | [], cur => if cur = [] then [] else [cur.reverse]
  | c :: t, cur =>
    if c ∈ d.DELIM then
      (if cur = [] then strtokAll d t [] else cur.reverse :: strtokAll d t [])
    else strtokAll d t (c :: cur)

/-- `put_history(str)`. -/
def put_history (d : Defines) (z : Sizes) (s : Editor) (str : List Nat) : Editor :=
  let s1 := { s with hist := setAt s.hist s.curline (some str)
                     curline := if s.curline + 1 = z.MAX_HIST then 0 else s.curline + 1 }
  ((strtokAll d str []).filter
      (fun p => decide (z.MIN_WORDLEN ≤ p.length) && decide (p.head? ≠ some 35))).foldl
    put_word s1

/-- `to_history()`. -/
def to_history (d : Defines) (z : Sizes) (s : Editor) : Editor :=
  if s.edlen = 0 then s
  else
    let s1 := put_history d z (clear_input_line0 s) s.edbuf
    { s1 with pickline := s1.curline, edbuf := [], pos := 0, edlen := 0 }

/-- The body that `prev_line` and `next_line` share, with `i` the slot to load.
Nothing happens when `hist[i]` is NULL. Otherwise `hist[pickline]` is freed
when it differs from the buffer, a copy of the buffer is stored there when the
slot is NULL, `pickline` becomes `i`, the line is cleared from the screen and
`hist[pickline]`, read after the store, is copied into the buffer. -/
def recall_line (s : Editor) (i : Nat) : Editor :=
  match s.hist i with
  | none => s
  | some _ =>
    let hist1 :=
      if (s.hist s.pickline).isSome ∧ s.hist s.pickline ≠ some s.edbuf then
        setAt s.hist s.pickline none
      else s.hist
    let hist2 :=
      if hist1 s.pickline = none then setAt hist1 s.pickline (some s.edbuf) else hist1
    let s1 := clear_input_line0 { s with hist := hist2, pickline := i }
    { s1 with edbuf := (hist2 i).getD [], pos := ((hist2 i).getD []).length
              edlen := ((hist2 i).getD []).length }

/-- `prev_line()`. -/
def prev_line (z : Sizes) (s : Editor) : Editor :=
  recall_line s (if s.pickline = 0 then z.MAX_HIST - 1 else s.pickline - 1)

/-- `next_line()`. -/
def next_line (z : Sizes) (s : Editor) : Editor :=
  recall_line s (if s.pickline + 1 = z.MAX_HIST then 0 else s.pickline + 1)

/-- The end of `enter_line()`: the buffer for the next line is `inserted_next`,
or else `prefixstr`, or else empty, and `pos = edlen = strlen(edbuf)`. -/
def enter_line_reload (s : Editor) : Editor :=
  let s6 :=
    if s.inserted_next ≠ [] then
      { s with edbuf := s.inserted_next, inserted_next := [], line_status := 1 }
    else if s.prefixstr ≠ [] then { s with edbuf := s.prefixstr, line_status := 1 }
    else { s with edbuf := [] }
  { s6 with pos := s6.edbuf.length, edlen := s6.edbuf.length }

/-- The history part of `enter_line()`: `p` is the entry stored last, and
`put_history(edbuf)` is called if `!p || (edlen > 0 && strcmp(edbuf, p))`; then
`pickline = curline`. -/
def enter_line_store (d : Defines) (z : Sizes) (s : Editor) : Editor :=
  let p := s.hist (if s.curline ≠ 0 then s.curline - 1 else z.MAX_HIST - 1)
  let s4 :=
    if p = none ∨ (0 < s.edlen ∧ some s.edbuf ≠ p) then put_history d z s s.edbuf
    else s
  { s4 with pickline := s4.curline }

/-- The start of `enter_line()`, up to `pos = line_status = 0`. -/
def enter_line_begin (s : Editor) : Editor :=
  let s1 := if s.line_status = 0 then input_moveto s s.edlen else draw_input_line s
  { s1 with pos := 0, line_status := 0 }

/-- `enter_line()`. `parse_user_input` is defined outside the sources and is a
parameter; `tcp_write`, which gets the empty line (and every line in verbatim
mode that does not start with `#`), sends the line to the connection and
leaves the variables of the editor. -/
def enter_line (d : Defines) (z : Sizes) (parse_user_input : Editor → Editor)
    (s : Editor) : Editor :=
  let s2 := enter_line_begin s
  let s3 :=
    if s2.edbuf.head? = none ∨ (s2.verbatim = true ∧ s2.edbuf.head? ≠ some 35) then s2
    else parse_user_input s2
  enter_line_reload (enter_line_store d z s3)

/-! ### The line editor: word completion -/

/-- The state in which the buffer holds the line `t`, with the cursor at `p`:
the line `t` has been typed. -/
def withLine (s : Editor) (t : List Nat) (p : Nat) : Editor :=
  { s with edbuf := t, edlen := t.length, pos := p }

/-- Modelled from the spec: the flag `WORD_UNIQUE` of `defines.h`, which is not
among the sources: one bit of the flags of a ring node (§3, `uniqueFlag`). -/
def WORD_UNIQUE : Nat := 1

/-- `tolower(c)` in the C locale. -/
def tolower (c : Nat) : Nat := if 65 ≤ c ∧ c ≤ 90 then c + 32 else c

/-- `strncasecmp(a, b, n) == 0`: the two strings agree, without regard to case,
on their first `n` bytes or up to their common end. -/
def strncasecmpEq : List Nat → List Nat → Nat → Bool
  | _, _, 0 => true
  | [], [], _ + 1 => true
  | [], _ :: _, _ + 1 => false
  | _ :: _, [], _ + 1 => false
  | x :: a, y :: b, n + 1 => tolower x == tolower y && strncasecmpEq a b n

/-- `compl_next_word(i)`: a negative `i` stands for the static word `-i - 1`. -/
def compl_next_word (s : Editor) (i : Int) : Int :=
  if i < 0 then
    (if -(i - 1) - 1 ≥ (s.static_words.length : Int) then (s.wordindex : Int) else i - 1)
  else
    let i1 := (s.words i.toNat).next
    if i1 = s.wordindex ∨ (s.words i1).word = none then
      (if (0 : Int) ≥ (s.static_words.length : Int) then (s.wordindex : Int) else -1)
    else (i1 : Int)

/-- `compl_get_word(i)`. -/
def compl_get_word (s : Editor) (i : Int) : Option (List Nat) :=
  if i < 0 then s.static_words.get? (-i - 1).toNat else (s.words i.toNat).word

/-- The `for` loop of `complete_word` that finds the start of the word:
`for (n = pos; n > 0 && !IS_DELIM(edbuf[n - 1]); n--)`. -/
def cwWordStart (d : Defines) (s : Editor) : Nat → Nat
  | 0 => 0
  | n + 1 => if !IS_DELIM d (s.byte n) then cwWordStart d s n else n + 1

/-- The `while` loop of `complete_word` that scans the word list from
`curr_word` for the next match of the root: the result is the new `curr_word`
with the rest of the matching word behind the root (`none` when the list is
exhausted, `p == NULL`); `none` when the fuel runs out. -/
def cwSearch (z : Sizes) (s : Editor) (root : List Nat) (root_len : Nat) :
    Nat → Int → Option (Int × Option (List Nat))
  | 0, _ => none
  | fuel + 1, curr_word =>
    match compl_get_word s (compl_next_word s curr_word) with
    | none => some (compl_next_word s curr_word, none)
    | some p =>
      if strncasecmpEq p root root_len ∧ p.drop root_len ≠ [] ∧
          (p.drop root_len).length + s.edlen < z.BUFSIZE then
        some (compl_next_word s curr_word, some (p.drop root_len))
      else cwSearch z s root root_len fuel (compl_next_word s curr_word)

/-- The loop `for (; k && n; k--, n--) input_overtype_follow(*p++)`: the state,
the bytes of `p` that are left and the `k` that is left. -/
def cwOvertype (s : Editor) : List Nat → Nat → Editor × List Nat × Nat
  | [], k => (s, [], k)
  | c :: p, 0 => (s, c :: p, 0)
  | c :: p, k + 1 => cwOvertype (input_overtype_follow s c) p k

/-- The buffer update of `complete_word`: with a match, its bytes overtype the
old completion (`k` bytes) and the rest is inserted; what is left of the old
completion is deleted. -/
def cwReplace (z : Sizes) (s : Editor) (found : Option (List Nat)) (k : Nat) : Editor :=
  match found with
  | none => if 0 < k then input_delete_nofollow_chars s k else s
  | some p =>
    let r := cwOvertype s p k
    let s1 :=
      if 0 < r.2.1.length then input_insert_follow_chars z r.1 r.2.1 r.2.1.length else r.1
    if 0 < r.2.2 then input_delete_nofollow_chars s1 r.2.2 else s1

/-- The `while` loop of `complete_word` that deletes the other instances of the
word `p` of the node `curr_word`, from the node `n` on; `none` when the fuel
runs out. -/
def cwDedupLoop (wordindex curr_word : Nat) (p : List Nat) :
    Nat → (Nat → wordnode) → Nat → Option (Nat → wordnode)
  | 0, _, _ => none
  | fuel + 1, w, n =>
    match (w n).word with
    | none => some w
    | some wk =>
      if p = wk then
        let w1 := setWord (demote_word w wordindex n) n none
        let w2 := setFlags w1 curr_word ((w1 curr_word).flags ||| (w1 n).flags)
        let w3 := setFlags w2 n ((w2 n).flags &&& WORD_UNIQUE)
        if (w3 n).flags ≠ 0 then some w3
        else cwDedupLoop wordindex curr_word p fuel w3 (w n).next
      else cwDedupLoop wordindex curr_word p fuel w (w n).next

/-- The end of `complete_word`: after a match in the ring, at a node not yet
flagged unique, the node is flagged and the duplicates are deleted. -/
def cwDedup (fuel : Nat) (s : Editor) (found : Bool) (curr_word : Int) : Option Editor :=
  if found = true ∧ 0 ≤ curr_word ∧ (s.words curr_word.toNat).flags &&& WORD_UNIQUE = 0 then
    let k := curr_word.toNat
    let w1 := setFlags s.words k ((s.words k).flags ||| WORD_UNIQUE)
    match (w1 k).word with
    | none => none
    | some p =>
      (cwDedupLoop s.wordindex k p fuel w1 (w1 k).next).map (fun w => { s with words := w })
  else some s

/-- `complete_word()`, on a repeated call (`last_edit_cmd == complete_word` and
`comp_len != 0`): the cursor goes back over the last completion and the scan
goes on from `curr_word`. -/
def complete_word_again (z : Sizes) (fuel : Nat) (s : Editor) : Option Editor :=
  let s1 := input_moveto s (s.pos - s.cw_comp_len)
  let n := s1.pos - s.cw_root_len
  match cwSearch z s1 (s1.edbuf.drop n) s.cw_root_len fuel s.cw_curr_word with
  | none => none
  | some r =>
    let s2 := cwReplace z s1 r.2 s.cw_comp_len
    cwDedup fuel
      { s2 with cw_curr_word := r.1, cw_comp_len := (r.2.map List.length).getD 0 }
      r.2.isSome r.1

/-- `complete_word()`, on a first call: the root is the word left of the
cursor and the scan starts at `wordindex`. -/
def complete_word_first (d : Defines) (z : Sizes) (fuel : Nat) (s : Editor) :
    Option Editor :=
  let n := cwWordStart d s s.pos
  match cwSearch z s (s.edbuf.drop n) (s.pos - n) fuel s.wordindex with
  | none => none
  | some r =>
    let s2 := cwReplace z s r.2 0
    cwDedup fuel
      { s2 with cw_curr_word := r.1, cw_comp_len := (r.2.map List.length).getD 0
                cw_root_len := s.pos - n }
      r.2.isSome r.1

/-- `complete_word()`; `none` when a loop runs out of fuel. -/
def complete_word (d : Defines) (z : Sizes) (fuel : Nat) (s : Editor) : Option Editor :=
  if s.last_edit_cmd = EditFn.complete_word ∧ s.cw_comp_len ≠ 0 then
    complete_word_again z fuel s
  else complete_word_first d z fuel s

/-- The state in which the function run last is `complete_word`: the key
dispatcher, outside the sources, records the function it ran in
`last_edit_cmd`. -/
def ranCompleteWord (s : Editor) : Editor :=
  { s with last_edit_cmd := EditFn.complete_word }

/-- The ring seeded, after `default_completions()` without commands, by
`put_word` with the words `走`, `quit` and `query` in that order, and the
buffer holding `qu` with the cursor at its end. -/
def seededRing : Editor :=
  withLine
    (put_word (put_word (put_word (default_completions stockSizes bootEditor [])
      [232, 181, 176]) [113, 117, 105, 116]) [113, 117, 101, 114, 121])
    [113, 117] 2

/-- The same three words seeded, in that order, as static words by
`put_static_word`, after `default_completions()` without commands, and the
buffer holding `qu` with the cursor at its end. -/
def seededStatic : Editor :=
  withLine
    (put_static_word (put_static_word (put_static_word
      (default_completions stockSizes bootEditor [])
      [232, 181, 176]) [113, 117, 105, 116]) [113, 117, 101, 114, 121])
    [113, 117] 2

/-- The state after `n` calls of `complete_word` in a row, the dispatcher
recording each of them; `none` when a call runs out of fuel. -/
def complete_word_times (d : Defines) (z : Sizes) (fuel : Nat) (s : Editor) :
    Nat → Option Editor
  | 0 => some s
  | n + 1 =>
    (complete_word_times d z fuel s n).bind
      (fun t => (complete_word d z fuel t).map ranCompleteWord)

/-! ### The line editor: `transpose_words` -/

/-- The loop `while (this_so && strchr(DELIM, edbuf[this_so])) this_so--`,
from `this_so`. -/
def twTraceBack (d : Defines) (s : Editor) : Nat → Nat
  | 0 => 0
  | k + 1 => if inDELIM d (s.byte (k + 1)) then twTraceBack d s k else k + 1

/-- The loop `while (this_eo < edlen && !strchr(DELIM, edbuf[this_eo]))
this_eo++`, from `this_eo`, with fuel (`edlen` steps are enough). -/
def twWordEnd (d : Defines) (s : Editor) : Nat → Nat → Nat
  | 0, e => e
  | fuel + 1, e =>
    if e < s.edlen ∧ inDELIM d (s.byte e) = false then twWordEnd d s fuel (e + 1) else e

/-- The loop `while (so > 0 && !strchr(DELIM, edbuf[so - 1])) so--`, from
`so`. -/
def twWordStart (d : Defines) (s : Editor) : Nat → Nat
  | 0 => 0
  | k + 1 => if inDELIM d (s.byte k) = false then twWordStart d s k else k + 1

/-- The loop `while (other_so >= 0 && strchr(DELIM, edbuf[other_so]))
other_so--`, from `other_so = k - 1`: the `other_so` it ends with, `none` when
that is negative. -/
def twSkipDelims (d : Defines) (s : Editor) : Nat → Option Nat
  | 0 => none
  | k + 1 => if inDELIM d (s.byte k) then twSkipDelims d s k else some k

/-- The bytes that `%.*s` prints for the precision `n` and the string
`edbuf + i`. -/
def spanOf (s : Editor) (i n : Nat) : List Nat := (s.edbuf.drop i).take n

/-- `transpose_words()`. -/
def transpose_words (d : Defines) (s : Editor) : Editor :=
  if 2 < s.pos then
    let this_eo := twWordEnd d s s.edlen s.pos
    let this_so := twWordStart d s (twTraceBack d s s.pos)
    if this_so < 2 then s
    else
      match twSkipDelims d s this_so with
      | none => s
      | some o =>
        let other_eo := o + 1
        let other_so := twWordStart d s o
        let buf := spanOf s this_so (this_eo - this_so)
          ++ spanOf s other_eo (this_so - other_eo)
          ++ spanOf s other_so (other_eo - other_so)
        buf.foldl input_overtype_follow (input_moveto s other_so)
  else s

/-! ### `printstrlen`: the state at the end of the scan -/

/-- The `for` loop of `printstrlen` with the local `state` kept: the values of
`state` and of `l` when the loop ends. -/
def printstrlenRun (cols : Nat) : PState → Nat → List Nat → PState × Nat
  | state, l, [] => (state, l)
  | state, l, c :: s =>
    if c = 0 then (state, l)
    else
      match state with
      | .NORM =>
        if c = 27 then printstrlenRun cols .ESCAPE l s
        else if (c &&& 128 ≠ 0) ∨ 32 ≤ c then printstrlenRun cols .NORM (l + 1) s
        else if c = 13 then printstrlenRun cols .NORM ((l / cols) * cols) s
        else printstrlenRun cols .NORM l s
      | .ESCAPE =>
        printstrlenRun cols (if c = 91 then .BRACKET else .NORM) l s
      | .BRACKET =>
        printstrlenRun cols (if isalpha c then .NORM else .BRACKET) l s

/-! ### The line editor: `upcase_word` and `downcase_word` -/

/-- `toupper(c)` in the C locale. -/
def toupper (c : Nat) : Nat := if 97 ≤ c ∧ c ≤ 122 then c - 32 else c

/-- The loop `while (npos > 0 && IS_DELIM(edbuf[npos])) npos--` of `upcase_word`
and `downcase_word`, from `npos`. -/
def ucTraceBack (d : Defines) (s : Editor) : Nat → Nat
  | 0 => 0
  | k + 1 => if IS_DELIM d (s.byte (k + 1)) then ucTraceBack d s k else k + 1

/-- The loop `while (npos > 0 && !IS_DELIM(edbuf[npos - 1])) npos--` of
`upcase_word` and `downcase_word`, from `npos`. -/
def ucWordStart (d : Defines) (s : Editor) : Nat → Nat
  | 0 => 0
  | k + 1 => if IS_DELIM d (s.byte k) = false then ucWordStart d s k else k + 1

/-- The loop `while (!IS_DELIM(edbuf[npos]) || (again && edbuf[npos]))
input_overtype_follow(conv(edbuf[npos++]))` of `upcase_word` (with `conv` =
`toupper`) and `downcase_word` (with `conv` = `tolower`); `again` is the test
of `last_edit_cmd`. The loop ends at the latest at the NUL behind the text, so
one step more than the text has bytes is fuel enough. -/
def ucLoop (d : Defines) (conv : Nat → Nat) (again : Bool) : Nat → Editor → Nat → Editor
  | 0, s, _ => s
  | fuel + 1, s, npos =>
    if IS_DELIM d (s.byte npos) = false ∨ (again = true ∧ s.byte npos ≠ 0) then
      ucLoop d conv again fuel (input_overtype_follow s (conv (s.byte npos))) (npos + 1)
    else s

/-- `upcase_word()`. -/
def upcase_word (d : Defines) (s : Editor) : Editor :=
  let npos :=
    if s.last_edit_cmd = EditFn.upcase_word then 0
    else ucWordStart d s (ucTraceBack d s s.pos)
  input_moveto
    (ucLoop d toupper (decide (s.last_edit_cmd = EditFn.upcase_word)) (s.edbuf.length + 1)
      (input_moveto s npos) npos)
    s.pos

/-- `downcase_word()`. -/
def downcase_word (d : Defines) (s : Editor) : Editor :=
  let npos :=
    if s.last_edit_cmd = EditFn.downcase_word then 0
    else ucWordStart d s (ucTraceBack d s s.pos)
  input_moveto
    (ucLoop d tolower (decide (s.last_edit_cmd = EditFn.downcase_word)) (s.edbuf.length + 1)
      (input_moveto s npos) npos)
    s.pos

/-! ### The completion ring as a cyclic list -/

/-- The slot `y` is linked behind the slot `x`: `words[x].next == y` and
`words[y].prev == x`. -/
def Linked (w : Nat → wordnode) (x y : Nat) : Prop :=
  (w x).next = y ∧ (w y).prev = x

/-- The list `L` holds the slots of one ring in the order of `next`, once
around: no slot twice, every slot linked to the one behind it in the list and
the last one to the first. -/
def RingOf (w : Nat → wordnode) (L : List Nat) : Prop :=
  L.Nodup ∧ L ≠ [] ∧ List.Chain' (Linked w) (L ++ L.take 1)

/-- The `M` slots `0 .. M-1` form one ring. -/
def WholeRing (M : Nat) (w : Nat → wordnode) : Prop :=
  ∃ L, RingOf w L ∧ ∀ x, x ∈ L ↔ x < M

/-- The `n` slots met from the slot `i` on when following `next`. -/
def ringWalk (w : Nat → wordnode) : Nat → Nat → List Nat
  | _, 0 => []
  | i, n + 1 => i :: ringWalk w (w i).next n

/-- The first two statements of `demote_word(i)`, which take the node `i` out
of the ring. -/
def unlinkWord (w : Nat → wordnode) (i : Nat) : Nat → wordnode :=
  let w1 := setNext w (w i).prev (w i).next
  setPrev w1 (w1 i).next (w1 i).prev

/-- The last two statements of `demote_word(i)`, which put the node `i` into
the ring before `wordindex`. -/
def linkBefore (w : Nat → wordnode) (wordindex i : Nat) : Nat → wordnode :=
  let w3 := setNext w i wordindex
  let w4 := setPrev w3 i (w3 wordindex).prev
  let w5 := setNext w4 (w4 wordindex).prev i
  setPrev w5 wordindex i

/-- The states of the ring that the program reaches: the state after
`default_completions()` at program start, and every state reached from such a
state by `put_word(s)` or by `demote_word(i)` with `i` a slot other than
`wordindex`. -/
inductive RingState (z : Sizes) : Editor → Prop
  | boot (commands : List (List Nat × Bool)) :
      RingState z (default_completions z bootEditor commands)
  | put_word (s : Editor) (str : List Nat) :
      RingState z s → RingState z (put_word s str)
  | demote_word (s : Editor) (i : Nat) :
      RingState z s → i < z.MAX_WORDS → i ≠ s.wordindex →
      RingState z { s with words := demote_word s.words s.wordindex i }

/-! ### The line editor: `complete_line` -/

/-- The static variables of `complete_line`. -/
structure CLStatics where
  curr_line : Nat
  root_len : Nat
  first_line : Nat

/-- The static variables of `complete_line` at program start. -/
def bootCL (z : Sizes) : CLStatics :=
  { curr_line := z.MAX_HIST - 1, root_len := 0, first_line := 0 }

/-- `strncmp(a, b, n) == 0`: the two strings agree on their first `n` bytes or
up to their common end. -/
def strncmpEq : List Nat → List Nat → Nat → Bool
  | _, _, 0 => true
  | [], [], _ + 1 => true
  | [], _ :: _, _ + 1 => false
  | _ :: _, [], _ + 1 => false
  | x :: a, y :: b, n + 1 => x == y && strncmpEq a b n

/-- The start of `complete_line`: unless the last edit command was
`complete_line`, the root is the whole buffer and the scan is anchored at
`curline`. -/
def clEnter (s : Editor) (st : CLStatics) : CLStatics :=
  if s.last_edit_cmd ≠ EditFn.complete_line then
    { curr_line := s.curline, root_len := s.edlen, first_line := s.curline }
  else st

/-- The test `hist[i] && !strncmp(edbuf, hist[i], root_len)` of
`complete_line`. -/
def clMatch (s : Editor) (st : CLStatics) (i : Nat) : Bool :=
  match s.hist i with
  | none => false
  | some h => strncmpEq s.edbuf h st.root_len

/-- The `for` loop of `complete_line`, from the value `i` at the loop test:
`for (...; i != curr_line; i--) { if (i < 0) i = MAX_HIST - 1; if (i ==
first_line) break; if (hist[i] && !strncmp(edbuf, hist[i], root_len)) break; }`.
The result is the value of `i` when the loop ends; `none` when the fuel runs
out. -/
def clScan (z : Sizes) (s : Editor) (st : CLStatics) : Nat → Int → Option Int
  | 0, _ => none
  | fuel + 1, i =>
    if i = (st.curr_line : Int) then some i
    else if (if i < 0 then (z.MAX_HIST : Int) - 1 else i) = (st.first_line : Int) then
      some (if i < 0 then (z.MAX_HIST : Int) - 1 else i)
    else if clMatch s st (if i < 0 then (z.MAX_HIST : Int) - 1 else i).toNat = true then
      some (if i < 0 then (z.MAX_HIST : Int) - 1 else i)
    else clScan z s st fuel ((if i < 0 then (z.MAX_HIST : Int) - 1 else i) - 1)

/-- The end of `complete_line` for `i != curr_line`: at the anchor
(`i == first_line`) the buffer is cut back to the root, otherwise the entry
`hist[i]` is loaded; the cursor goes to the end. -/
def clLoad (s : Editor) (st : CLStatics) (i : Nat) : Editor :=
  let s1 := clear_input_line0 s
  let buf := if i = st.first_line then s1.edbuf.take st.root_len else (s1.hist i).getD []
  let len := if i = st.first_line then st.root_len else ((s1.hist i).getD []).length
  { s1 with edbuf := buf, edlen := len, pos := len }

/-- `complete_line()`: the static variables and the state of the editor
afterwards; `none` when the loop runs out of fuel. -/
def complete_line (z : Sizes) (fuel : Nat) (st : CLStatics) (s : Editor) :
    Option (CLStatics × Editor) :=
  match clScan z s (clEnter s st) fuel (((clEnter s st).curr_line : Int) - 1) with
  | none => none
  | some i =>
    if i ≠ ((clEnter s st).curr_line : Int) then
      some ({ clEnter s st with curr_line := i.toNat }, clLoad s (clEnter s st) i.toNat)
    else some (clEnter s st, s)

/-- The state in which the function run last is `complete_line`: the key
dispatcher, outside the sources, records the function it ran in
`last_edit_cmd`. -/
def ranCompleteLine (s : Editor) : Editor :=
  { s with last_edit_cmd := EditFn.complete_line }

/-- The state after `n` calls of `complete_line` in a row, the dispatcher
recording each of them; `none` when a call runs out of fuel. -/
def complete_line_times (z : Sizes) (fuel : Nat) (st : CLStatics) (s : Editor) :
    Nat → Option (CLStatics × Editor)
  | 0 => some (st, s)
  | n + 1 =>
    (complete_line_times z fuel st s n).bind
      (fun p => (complete_line z fuel p.1 p.2).map (fun q => (q.1, ranCompleteLine q.2)))

/-- The history slot `k` steps before the slot `c`, counting backward around
the `MAX_HIST` slots (for `k` up to `MAX_HIST`). -/
def backSlot (z : Sizes) (c k : Nat) : Nat :=
  if k ≤ c then c - k else c + z.MAX_HIST - k

/-- The history slot `i` holds an entry that has `B` as a prefix. -/
def hasPrefixEntry (s : Editor) (B : List Nat) (i : Nat) : Bool :=
  match s.hist i with
  | none => false
  | some h => B.isPrefixOf h

/-- What stays true of the static variables and the editor over a run of
consecutive calls of `complete_line` started in the state `s0`: the history
and `curline` are those of `s0`, the buffer starts with the buffer of `s0`,
`edlen` is the length of the buffer, and on entry of the next call the root
length is the length of the buffer of `s0`, the anchor `first_line` is the
`curline` of `s0` and `curr_line` is a history slot. -/
def LineRun (z : Sizes) (s0 : Editor) (p : CLStatics × Editor) : Prop :=
  p.2.hist = s0.hist ∧ p.2.curline = s0.curline ∧ s0.edbuf <+: p.2.edbuf ∧
  p.2.edlen = p.2.edbuf.length ∧
  (clEnter p.2 p.1).root_len = s0.edbuf.length ∧
  (clEnter p.2 p.1).first_line = s0.curline ∧
  (clEnter p.2 p.1).curr_line < z.MAX_HIST

/-! ### The prompt: `find_partial_esc` and the column after the prompt -/

/-- The `while (end > s)` loop of `find_partial_esc`: `e` is the offset `end - s`.
Going backward from the end, the loop returns the offset of the first escape
byte it meets and NULL (`none`) at the first letter or at the start. -/
def find_partial_escLoop (s : List Nat) : Nat → Option Nat
  | 0 => none
  | e + 1 =>
    if s.getD e 0 = 27 then some e
    else if isalpha (s.getD e 0) then none
    else find_partial_escLoop s e

/-- `find_partial_esc(s)`: the offset of an unterminated escape code at the end
of `s`, or NULL; the scan starts at `s + strlen(s)`. -/
def find_partial_esc (s : List Nat) : Option Nat :=
  find_partial_escLoop s (s.takeWhile (fun c => c ≠ 0)).length

/-- The value that `draw_prompt` gives to `col0` when it draws the prompt, with
`pstr` the text of `marked_prompt`: `printstrlen(pstr)` taken while the byte
at `esc` is overwritten by NUL (`*esc = 0`), when `find_partial_esc` found
one. -/
def draw_prompt_col0 (cols : Nat) (pstr : List Nat) : Nat :=
  match find_partial_esc pstr with
  | some e => printstrlen cols (pstr.set e 0)
  | none => printstrlen cols pstr

/-! ### The line editor: the cursor movements and their calls of `input_moveto` -/

/-- `isalnum` in the C locale. -/
def isalnum (c : Nat) : Bool := isalpha c || (decide (48 ≤ c) && decide (c ≤ 57))

/-- The argument of the call `input_moveto(pos-1)` in `prev_char`. -/
def prev_char_moveto (s : Editor) : Int := (s.pos : Int) - 1

/-- The argument of the call `input_moveto(pos+1)` in `next_char`. -/
def next_char_moveto (s : Editor) : Int := (s.pos : Int) + 1

/-- The argument of the call `input_moveto(0)` in `begin_of_line`. -/
def begin_of_line_moveto (_s : Editor) : Int := 0

/-- The argument of the call `input_moveto(edlen)` in `end_of_line`. -/
def end_of_line_moveto (s : Editor) : Int := (s.edlen : Int)

/-- The call `input_moveto(pos-1)` in `del_char_left`, made only `if (pos)`:
`none` when there is no call. -/
def del_char_left_moveto (s : Editor) : Option Int :=
  if s.pos ≠ 0 then some ((s.pos : Int) - 1) else none

/-- The loop `for (i = pos; i && !isalnum(edbuf[i - 1]); i--)` of `prev_word`
and `del_word_left`, started at `i`: the value of `i` when it ends. -/
def pwSkipOther (s : Editor) : Nat → Nat
  | 0 => 0
  | i + 1 => if isalnum (s.byte i) = false then pwSkipOther s i else i + 1

/-- The loop `while (i && isalnum(edbuf[i - 1])) i--` of `prev_word` and
`del_word_left`, started at `i`. -/
def pwSkipAlnum (s : Editor) : Nat → Nat
  | 0 => 0
  | i + 1 => if isalnum (s.byte i) = true then pwSkipAlnum s i else i + 1

/-- The argument of the call `input_moveto(i)` in `prev_word`. -/
def prev_word_moveto (s : Editor) : Int := (pwSkipAlnum s (pwSkipOther s s.pos) : Nat)

/-- The argument of the call `input_moveto(pos - i)` in `del_word_left`, where
`i` has become `pos - i` for the `i` that the two loops found. -/
def del_word_left_moveto (s : Editor) : Int :=
  (s.pos : Int) - ((s.pos : Int) - (pwSkipAlnum s (pwSkipOther s s.pos) : Nat))

/-- The loop `for (i = pos; edbuf[i] && !isalnum(edbuf[i]); i++)` of
`next_word` over the bytes from `edbuf[i]` on: the number of steps it makes.
Behind the last byte of the list is the NUL that ends the buffer. -/
def nwSkipOther : List Nat → Nat
  | [] => 0
  | c :: t => if c ≠ 0 ∧ isalnum c = false then nwSkipOther t + 1 else 0

/-- The loop `while (isalnum(edbuf[i])) i++` of `next_word` over the bytes from
`edbuf[i]` on: the number of steps it makes. -/
def nwSkipAlnum : List Nat → Nat
  | [] => 0
  | c :: t => if isalnum c = true then nwSkipAlnum t + 1 else 0

/-- The argument of the call `input_moveto(i)` in `next_word`. -/
def next_word_moveto (s : Editor) : Int :=
  ((s.pos + nwSkipOther (s.edbuf.drop s.pos)
    + nwSkipAlnum (s.edbuf.drop (s.pos + nwSkipOther (s.edbuf.drop s.pos))) : Nat) : Int)

/-- The span `[other_so, this_eo)` of the buffer that `transpose_words`
overtypes: from the start of the preceding word to the end of the current
word, as the function finds them (`this_eo` is found first, going right from
the cursor). The empty span at 0 when the function returns before the swap. -/
def transpose_words_span (d : Defines) (s : Editor) : Nat × Nat :=
  if 2 < s.pos then
    let this_eo := twWordEnd d s s.edlen s.pos
    let this_so := twWordStart d s (twTraceBack d s s.pos)
    if this_so < 2 then (0, 0)
    else
      match twSkipDelims d s this_so with
      | none => (0, 0)
      | some o => (twWordStart d s o, this_eo)
  else (0, 0)

/-! ### The completion ring: the words it holds and the walk of `compl_next_word` -/

/-- The slots met from the slot `i` on when following `next`, up to the first
slot that is `wordindex` or holds no word: the test
`i == wordindex || words[i].word == NULL` of `compl_next_word`. -/
def dynWalk (w : Nat → wordnode) (wordindex : Nat) : Nat → Nat → List Nat
  | 0, _ => []
  | fuel + 1, i =>
    if i = wordindex ∨ (w i).word = none then []
    else i :: dynWalk w wordindex fuel (w i).next

/-- The slots of the dynamic ring that hold a word, in the order in which
`compl_next_word` visits them from `wordindex`. -/
def dynSlots (z : Sizes) (s : Editor) : List Nat :=
  dynWalk s.words s.wordindex z.MAX_WORDS (s.words s.wordindex).next

/-- The values `compl_next_word(i)`, `compl_next_word(compl_next_word(i))`, ...
of `n` successive calls. -/
def complOrbit (s : Editor) : Nat → Int → List Int
  | 0, _ => []
  | n + 1, i => compl_next_word s i :: complOrbit s n (compl_next_word s i)

/-- The ring, read from `wordindex` along `next`, is `wordindex`, then the
slots `L`, which hold a word, then the slots `E`, which hold none; these are
the `M` slots, and `wordindex` holds no word. -/
def RingLayout (M : Nat) (w : Nat → wordnode) (wordindex : Nat) (L E : List Nat) : Prop :=
  RingOf w (wordindex :: L ++ E) ∧ (∀ x, x ∈ wordindex :: L ++ E ↔ x < M) ∧
  (w wordindex).word = none ∧ (∀ x ∈ L, (w x).word ≠ none) ∧ (∀ x ∈ E, (w x).word = none)

/-- No slot of `L` flagged `WORD_UNIQUE`, other than those in `skip`, has its
word again in a slot behind it in `L`: for `x` before `y` in `L`
(`[x, y]` is a sublist of `L`) with `x` flagged, the words differ. -/
def UniqueOK (w : Nat → wordnode) (skip : List Nat) (L : List Nat) : Prop :=
  ∀ x y, List.Sublist [x, y] L → x ∉ skip → (w x).flags &&& WORD_UNIQUE ≠ 0 →
    (w y).word ≠ (w x).word

/-- The states of the completion ring that the program reaches: the state
after `default_completions()` at program start, and every state reached from
such a state by `put_word(s)`, by `put_static_word(s)`, by a call of
`complete_word()` that returns, or by a step that leaves the ring, the static
words and the static variables of `complete_word` as they are (typing, cursor
movement, the dispatcher recording the function it ran). -/
inductive WordState (d : Defines) (z : Sizes) : Editor → Prop
  | boot (commands : List (List Nat × Bool)) :
      WordState d z (default_completions z bootEditor commands)
  | put_word (s : Editor) (str : List Nat) :
      WordState d z s → WordState d z (put_word s str)
  | put_static_word (s : Editor) (str : List Nat) :
      WordState d z s → WordState d z (put_static_word s str)
  | complete_word (s t : Editor) (fuel : Nat) :
      WordState d z s → complete_word d z fuel s = some t → WordState d z t
  | edit (s t : Editor) :
      WordState d z s → t.words = s.words → t.wordindex = s.wordindex →
      t.static_words = s.static_words → t.cw_curr_word = s.cw_curr_word →
      t.cw_comp_len = s.cw_comp_len → t.cw_root_len = s.cw_root_len → WordState d z t

/-- What holds of the completion ring in every state the program reaches: the
ring has a layout (`wordindex`, the slots with a word, the empty slots), no
flagged slot has its word again behind it, and the static `curr_word` of
`complete_word` is below `MAX_WORDS` (a slot, or negative for a static
word). -/
def WordInv (z : Sizes) (s : Editor) : Prop :=
  ∃ L E, RingLayout z.MAX_WORDS s.words s.wordindex L E ∧ UniqueOK s.words [] L ∧
    s.cw_curr_word < (z.MAX_WORDS : Int)

/-! ## Theorems -/

/-! ### The escaping codec -/

theorem memunescapeLoop_single_ESC (d : Defines) (s : List Nat) :
    memunescapeLoop d .ESCSINGLE (ESC :: s) = ESC :: memunescapeLoop d .ESCAPE s := by
  match s with
  | [] => simp [memunescapeLoop]
  | [_] => simp [memunescapeLoop]
  | _ :: _ :: _ => simp [memunescapeLoop]

theorem memunescapeLoop_single_ESC2 (d : Defines) (h : d.ESC2 ≠ ESC) (s : List Nat) :
    memunescapeLoop d .ESCSINGLE (d.ESC2 :: s) = ESC :: memunescapeLoop d .NORM s := by
  match s with
  | [] => simp [memunescapeLoop, h]
  | [_] => simp [memunescapeLoop, h]
  | _ :: _ :: _ => simp [memunescapeLoop, h]

theorem memunescapeLoop_single_plain (d : Defines) (c : Nat) (s : List Nat)
    (h1 : c ≠ ESC) (h2 : c ≠ d.ESC2) (h3 : ISODIGIT c = false) :
    memunescapeLoop d .ESCSINGLE (c :: s) = c :: memunescapeLoop d .NORM s := by
  match s with
  | [] => simp [memunescapeLoop, h1, h2]
  | [_] => simp [memunescapeLoop, h1, h2]
  | _ :: _ :: _ => simp [memunescapeLoop, h1, h2, h3]

theorem memunescapeLoop_escape_plain (d : Defines) (c : Nat) (s : List Nat)
    (h1 : c ≠ ESC) (h2 : c ≠ d.ESC2) :
    memunescapeLoop d .ESCAPE (c :: s) = c :: memunescapeLoop d .NORM s := by
  simp [memunescapeLoop, h1, h2]

theorem memunescapeLoop_norm_plain (d : Defines) (c : Nat) (s : List Nat) (h1 : c ≠ ESC) :
    memunescapeLoop d .NORM (c :: s) = c :: memunescapeLoop d .NORM s := by
  simp [memunescapeLoop, h1]

theorem memunescapeLoop_norm_ESC (d : Defines) (s : List Nat) :
    memunescapeLoop d .NORM (ESC :: s) = memunescapeLoop d .ESCSINGLE s := by
  simp [memunescapeLoop]

/-- What `escapeByte` writes for a printable byte. -/
theorem escapeByte_printable (d : Defines) (e : Bool) (c : Nat) (h : 32 ≤ c ∧ c ≤ 126) :
    escapeByte d e c = if e = true ∨ c ∈ d.SPECIAL_CHARS then [ESC, c] else [c] := by
  have : ¬ (c < 32 ∨ c > 126) := by omega
  simp [escapeByte, this]

theorem stockDefines_ok : DefinesOK stockDefines := by
  refine ⟨by decide, by decide, by decide⟩



/-- Decoding undoes encoding on printable text, in each state the decoder can
be in when the encoder starts a byte. -/
theorem roundtrip_loop (d : Defines) (hd : DefinesOK d) (s : List Nat)
    (hs : ∀ b ∈ s, 32 ≤ b ∧ b ≤ 126) :
    memunescapeLoop d .NORM (ptrmescapeLoop d false s) = s ∧
    memunescapeLoop d .ESCSINGLE (ptrmescapeLoop d true s) = ESC :: s ∧
    memunescapeLoop d .ESCAPE (ptrmescapeLoop d true s) = ESC :: s := by
  obtain ⟨h2, hns, hod⟩ := hd
  induction s with
  | nil =>
    refine ⟨by simp [ptrmescapeLoop, memunescapeLoop], ?_, ?_⟩
    · simp only [ptrmescapeLoop]
      rw [memunescapeLoop_single_ESC2 d h2]; simp [memunescapeLoop]
    · simp [ptrmescapeLoop, memunescapeLoop, h2]
  | cons c s ih =>
    have hc : 32 ≤ c ∧ c ≤ 126 := hs c (List.mem_cons_self _ _)
    obtain ⟨ihN, ihS, ihE⟩ := ih (fun b hb => hs b (List.mem_cons_of_mem _ hb))
    by_cases hE : c = ESC
    · subst hE
      refine ⟨?_, ?_, ?_⟩
      · simp only [ptrmescapeLoop, if_true]
        rw [memunescapeLoop_norm_ESC, ihS]
      · simp only [ptrmescapeLoop, if_true]
        rw [memunescapeLoop_single_ESC, ihE]
      · simp only [ptrmescapeLoop, if_true]
        simp [memunescapeLoop, ihE]
    · have hnorm : memunescapeLoop d .NORM (escapeByte d false c ++ ptrmescapeLoop d false s)
          = c :: s := by
        rw [escapeByte_printable d false c hc]
        by_cases hsp : c ∈ d.SPECIAL_CHARS
        · have hc2 : c ≠ d.ESC2 := fun h => hns (h ▸ hsp)
          simp only [hsp, or_true, if_true, List.cons_append, List.nil_append]
          rw [memunescapeLoop_norm_ESC, memunescapeLoop_single_plain d c _ hE hc2 (hod c hsp), ihN]
        · simp only [hsp, or_false, Bool.false_eq_true, if_false, List.cons_append,
            List.nil_append]
          rw [memunescapeLoop_norm_plain d c _ hE, ihN]
      refine ⟨?_, ?_, ?_⟩
      · simp only [ptrmescapeLoop, hE, if_false]
        exact hnorm
      · simp only [ptrmescapeLoop, hE, if_false]
        by_cases hc2 : c = d.ESC2
        · simp only [hc2, if_true]
          rw [memunescapeLoop_single_ESC2 d h2, ← hc2, hnorm]
        · simp only [hc2, if_false]
          rw [escapeByte_printable d true c hc]
          simp only [true_or, if_true, List.cons_append, List.nil_append]
          rw [memunescapeLoop_single_ESC, memunescapeLoop_escape_plain d c _ hE hc2, ihN]
      · simp only [ptrmescapeLoop, hE, if_false]
        by_cases hc2 : c = d.ESC2
        · simp only [hc2, if_true]
          have : memunescapeLoop d .ESCAPE (d.ESC2 :: (escapeByte d false d.ESC2 ++
              ptrmescapeLoop d false s)) = ESC :: memunescapeLoop d .NORM
              (escapeByte d false d.ESC2 ++ ptrmescapeLoop d false s) := by
            simp [memunescapeLoop, h2]
          rw [this, ← hc2, hnorm]
        · simp only [hc2, if_false]
          rw [escapeByte_printable d true c hc]
          simp only [true_or, if_true, List.cons_append, List.nil_append]
          have : memunescapeLoop d .ESCAPE (ESC :: c :: ptrmescapeLoop d false s)
              = ESC :: memunescapeLoop d .ESCAPE (c :: ptrmescapeLoop d false s) := by
            simp [memunescapeLoop]
          rw [this, memunescapeLoop_escape_plain d c _ hE hc2, ihN]

/-- On NUL-free input `escape_specials` and `ptrmescape` run the same loop. -/
theorem escape_specialsLoop_eq (d : Defines) (s : List Nat) (hs : ∀ b ∈ s, b ≠ 0)
    (r : Bool) : escape_specialsLoop d r s = ptrmescapeLoop d r s := by
  induction s generalizing r with
  | nil => cases r <;> simp [escape_specialsLoop, ptrmescapeLoop]
  | cons c s ih =>
    have hc : c ≠ 0 := hs c (List.mem_cons_self _ _)
    have ih2 := fun r => ih (fun b hb => hs b (List.mem_cons_of_mem _ hb)) r
    cases r <;> simp [escape_specialsLoop, ptrmescapeLoop, hc, ih2]

/-- Decoding a whole buffer whose first byte is not NUL: the returned length
and the bytes at the start of the buffer are those of the loop. -/
theorem memunescape_whole (d : Defines) (p : List Nat) (h : p.head? ≠ some 0) :
    (memunescape d p p.length).2 = (memunescapeLoop d .NORM p).length ∧
    (memunescape d p p.length).1.take (memunescapeLoop d .NORM p).length
      = memunescapeLoop d .NORM p := by
  cases p with
  | nil => simp [memunescape, memunescapeLoop]
  | cons c t =>
    have hc : c ≠ 0 := by simpa using h
    simp [memunescape, hc]

/-- The escaped form of printable text does not start with a NUL byte. -/
theorem ptrmescapeLoop_head (d : Defines) (s : List Nat)
    (hs : ∀ b ∈ s, 32 ≤ b ∧ b ≤ 126) :
    (ptrmescapeLoop d false s).head? ≠ some 0 := by
  cases s with
  | nil => simp [ptrmescapeLoop]
  | cons c t =>
    have hc : 32 ≤ c ∧ c ≤ 126 := hs c (List.mem_cons_self _ _)
    by_cases hE : c = ESC
    · simp [ptrmescapeLoop, hE, ESC]
    · simp only [ptrmescapeLoop, hE, if_false]
      rw [escapeByte_printable d false c hc]
      split
      · simp [ESC]
      · simp; omega

/-- C1: for every printable-ASCII string `s`, un-escaping the whole of
`escape_specials(s)`, and likewise of `ptrmescape(s)`, returns `length(s)` and
leaves exactly `s` at the start of the buffer (for constants `ESC2` and
`SPECIAL_CHARS` that satisfy `DefinesOK`, as the stock ones do). -/
theorem C1_unescape_escape_printable (d : Defines) (hd : DefinesOK d) (s : List Nat)
    (hs : ∀ b ∈ s, 32 ≤ b ∧ b ≤ 126) :
    ((memunescape d (escape_specials d s) (escape_specials d s).length).2 = s.length ∧
      (memunescape d (escape_specials d s) (escape_specials d s).length).1.take s.length = s) ∧
    ((memunescape d (ptrmescape d [] s s.length false)
        (ptrmescape d [] s s.length false).length).2 = s.length ∧
      (memunescape d (ptrmescape d [] s s.length false)
        (ptrmescape d [] s s.length false).length).1.take s.length = s) := by
  have hnul : ∀ b ∈ s, b ≠ 0 := fun b hb => by have := hs b hb; omega
  have hrt := (roundtrip_loop d hd s hs).1
  have hw := memunescape_whole d (ptrmescapeLoop d false s) (ptrmescapeLoop_head d s hs)
  rw [hrt] at hw
  have h1 : escape_specials d s = ptrmescapeLoop d false s :=
    escape_specialsLoop_eq d s hnul false
  have h2 : ptrmescape d [] s s.length false = ptrmescapeLoop d false s := by
    cases s with
    | nil => simp [ptrmescape, ptrmescapeLoop]
    | cons c t => simp [ptrmescape]
  rw [h1, h2]
  exact ⟨hw, hw⟩

/-- C1 at the stock constants and the text `a\{1`. -/
theorem C1_unescape_escape_printable_witness :
    DefinesOK stockDefines ∧ (∀ b ∈ [97, 92, 123, 49], 32 ≤ b ∧ b ≤ 126) ∧
    (memunescape stockDefines (escape_specials stockDefines [97, 92, 123, 49])
      (escape_specials stockDefines [97, 92, 123, 49]).length).2 = 4 :=
  ⟨stockDefines_ok, by decide,
    (C1_unescape_escape_printable stockDefines stockDefines_ok [97, 92, 123, 49]
      (by decide)).1.1⟩

/-- The code at the failing input of C2, a backslash followed by the control
byte 1: `ptrmescape` writes `\\001`, which `memunescape` decodes to the four
bytes `\001` and not to the two bytes it started from. -/
theorem C2_control_after_backslash :
    ptrmescape stockDefines [] [92, 1] 2 false = [92, 92, 48, 48, 49] ∧
    memunescape stockDefines [92, 92, 48, 48, 49] 5 = ([92, 48, 48, 49, 0], 4) := by
  decide

/-! ### `printstrlen` -/

/-- In state `NORM` every byte from `0x20` upwards adds one to the width. -/
theorem printstrlenLoop_norm_counted (cols : Nat) (s : List Nat) (l : Nat)
    (hs : ∀ b ∈ s, 32 ≤ b) : printstrlenLoop cols .NORM l s = l + s.length := by
  induction s generalizing l with
  | nil => simp [printstrlenLoop]
  | cons c t ih =>
    have hc : 32 ≤ c := hs c (List.mem_cons_self _ _)
    have h0 : c ≠ 0 := by omega
    have h27 : c ≠ 27 := by omega
    have ht := ih (l + 1) (fun b hb => hs b (List.mem_cons_of_mem _ hb))
    simp only [printstrlenLoop, h0, h27, if_false, hc, or_true, if_true, ht, List.length_cons]
    omega

/-- C3, as stated, fails: the one-byte string holding a tab has no escape
byte, yet its printed length is 0. -/
theorem C3_counterexample :
    (∀ b ∈ [9], b ≠ 27) ∧ printstrlen 80 [9] ≠ [9].length := by
  decide

/-- C3, amended: for every string with no byte below `0x20` (hence neither the
escape byte nor any other control byte), `printstrlen(s)` is the byte length of
`s`, whatever the terminal width. -/
theorem C3_printstrlen_no_control (cols : Nat) (s : List Nat) (hs : ∀ b ∈ s, 32 ≤ b) :
    printstrlen cols s = s.length := by
  simp [printstrlen, printstrlenLoop_norm_counted cols s 0 hs]

/-- C3, amended, at `"a~"` followed by the byte `0xe9`. -/
theorem C3_printstrlen_no_control_witness :
    (∀ b ∈ [97, 126, 233], 32 ≤ b) ∧ printstrlen 80 [97, 126, 233] = 3 :=
  ⟨by decide, C3_printstrlen_no_control 80 [97, 126, 233] (by decide)⟩

/-! ### The matcher on the worked examples -/

/-- The first turn of the scan loop on `fatal ERROR occurred` for the entry
`&ERROR&`: the entry matches from offset 0 to offset 20 and is chosen. -/
theorem scanPass_ERROR_first (d : Defines) :
    scanPass d lineFatal 0 true [nodeERROR] 0 none
      = some ([{ nodeERROR with start := some 0, end_ := some 20 }],
          some (0, { nodeERROR with start := some 0, end_ := some 20 })) := by
  simp [scanPass, scanEntry, beforeFirst, ptrLt, addr, match_mark_or_subst, nodeERROR, lineFatal,
      matchInit, matchLoop, matchTurn, matchOpen, turnPat, matchClose, Step.andThen,
      ISMARKWILDCARD, npatOffset, first_valid, first_validScan, ESC, matchSegment, matchWord,
      strstr, strlen, cstr, strstrFrom, List.isPrefixOf]

/-- The second turn: the kept match starts before the scan start, the entry is
matched again on the empty rest of the line and nothing is chosen. -/
theorem scanPass_ERROR_second (d : Defines) :
    ∃ bs, scanPass d lineFatal 20 false
      [{ nodeERROR with start := some 0, end_ := some 20 }] 0 none = some (bs, none) := by
  simp [scanPass, scanEntry, beforeFirst, ptrLt, addr, match_mark_or_subst, nodeERROR, lineFatal,
      matchInit, matchLoop, matchTurn, matchOpen, turnPat, matchClose, Step.andThen,
      ISMARKWILDCARD, npatOffset, first_valid, first_validScan, ESC, matchSegment, matchWord,
      strstr, strlen, cstr, strstrFrom, List.isPrefixOf]

/-- C4, as stated, fails: for the mark `&ERROR&` on `fatal ERROR occurred` the
match does not start at offset 6 and the output is not
`fatal ` ++ begin ++ `ERROR` ++ end ++ ` occurred`. -/
theorem C4_counterexample :
    (match_mark_or_subst stockDefines lineFatal nodeERROR 0).map
        (fun r => (r.1, r.2.start, r.2.end_)) ≠ some (true, some 6, some 11) ∧
    ptrmaddmarks stockDefines attrRed [⟨nodeERROR, 1⟩] 2 lineFatal
      ≠ some ([102, 97, 116, 97, 108, 32] ++ [27, 91, 51, 49, 109] ++ [69, 82, 82, 79, 82]
          ++ [27, 91, 48, 109] ++ [32, 111, 99, 99, 117, 114, 114, 101, 100]) := by
  decide

/-- C4, amended: with the single mark pattern `&ERROR&` (wildcard, not
anchored) and the line `fatal ERROR occurred`, `match_mark_or_subst` reports
the whole line as the match (start offset 0, end offset 20), the two `&` taking
the text around `ERROR`, and `ptrmaddmarks` returns begin-code ++ the whole
line ++ end-code, whatever the attribute strings and the constants. -/
theorem C4_mark_ERROR_whole_line (d : Defines) (attr_string : Nat → List Nat × List Nat)
    (code fuel : Nat) :
    match_mark_or_subst d lineFatal nodeERROR 0
      = some (true, { nodeERROR with start := some 0, end_ := some 20 }) ∧
    ptrmaddmarks d attr_string [⟨nodeERROR, code⟩] (fuel + 2) lineFatal
      = some ((attr_string code).1 ++ lineFatal ++ (attr_string code).2) := by
  constructor
  · simp [match_mark_or_subst, nodeERROR, lineFatal, matchInit, matchLoop, matchTurn, matchOpen,
        turnPat, matchClose, Step.andThen, ISMARKWILDCARD, npatOffset, first_valid,
        first_validScan, ESC, matchSegment, matchWord, strstr, strlen, cstr, strstrFrom,
        List.isPrefixOf]
  · have hne : lineFatal ≠ [] := by decide
    have hlen : lineFatal.length = 20 := by decide
    have hn : ({ nodeERROR with start := none } : basenode) = nodeERROR := rfl
    obtain ⟨bs, h2⟩ := scanPass_ERROR_second d
    simp only [ptrmaddmarks, hne, if_false, List.map, hn]
    rw [ptrmaddmarksLoop, scanPass_ERROR_first]
    simp only [List.getElem?_cons_zero, hlen]
    simp only [Nat.zero_le, Nat.le_refl, and_self, if_true, Nat.sub_zero, List.drop_zero,
      List.take_zero]
    rw [ptrmaddmarksLoop, h2]
    simp [← hlen]

/-- C5: for the anchored wildcard pattern `$foo` (`mbeg = 1`, `wild = 1`),
`match_mark_or_subst` succeeds on `foo bar` with the match starting at offset 0
(and ending at offset 3), and fails on `bar foo`, whenever the blank is a
delimiter. -/
theorem C5_anchored_dollar_foo (d : Defines) (h : 32 ∈ d.DELIM) :
    match_mark_or_subst d [102, 111, 111, 32, 98, 97, 114] nodeFoo 0
      = some (true, { nodeFoo with start := some 0, end_ := some 3 }) ∧
    match_mark_or_subst d [98, 97, 114, 32, 102, 111, 111] nodeFoo 0
      = some (false, { nodeFoo with start := some 0, end_ := some 7 }) := by
  constructor
  · simp [match_mark_or_subst, nodeFoo, matchInit, matchLoop, matchTurn, matchOpen, turnPat,
        matchClose, Step.andThen, ISMARKWILDCARD, npatOffset, first_valid, first_validScan, ESC,
        matchSegment, matchWord, strstr, strstrFrom, List.isPrefixOf, memchrs, firstIn]
  · simp [match_mark_or_subst, nodeFoo, matchInit, matchLoop, matchTurn, matchOpen, turnPat,
        matchClose, Step.andThen, ISMARKWILDCARD, npatOffset, first_valid, first_validScan, ESC,
        matchSegment, matchWord, strstr, strstrFrom, List.isPrefixOf, memchrs, firstIn, h]
    split_ifs <;> rfl

/-- C5 at the stock delimiters. -/
theorem C5_anchored_dollar_foo_witness :
    32 ∈ stockDefines.DELIM ∧
    match_mark_or_subst stockDefines [102, 111, 111, 32, 98, 97, 114] nodeFoo 0
      = some (true, { nodeFoo with start := some 0, end_ := some 3 }) :=
  ⟨by decide, (C5_anchored_dollar_foo stockDefines (by decide)).1⟩

/-- C6, as stated, fails: the anchored pattern `$foo` does match the line
`xfoo bar`. -/
theorem C6_counterexample :
    match_mark_or_subst stockDefines [120, 102, 111, 111, 32, 98, 97, 114] nodeFoo 0
      = some (true, { nodeFoo with start := some 0, end_ := some 4 }) := by
  decide

/-- C6, amended: for the anchored wildcard pattern `$foo`, `match_mark_or_subst`
matches the line `xfoo bar` from offset 0 to offset 4 whenever `x` is not a
delimiter: the `$` takes the word `x` that starts the line, and the literal
`foo` is searched in the rest of the line, not required at the scan start. -/
theorem C6_anchored_dollar_foo_xfoo (d : Defines) (h : 120 ∉ d.DELIM) :
    match_mark_or_subst d [120, 102, 111, 111, 32, 98, 97, 114] nodeFoo 0
      = some (true, { nodeFoo with start := some 0, end_ := some 4 }) := by
  simp [match_mark_or_subst, nodeFoo, matchInit, matchLoop, matchTurn, matchOpen, turnPat,
      matchClose, Step.andThen, ISMARKWILDCARD, npatOffset, first_valid, first_validScan, ESC,
      matchSegment, matchWord, strstr, strstrFrom, List.isPrefixOf, memchrs, firstIn, h]

/-- C6, amended, at the stock delimiters. -/
theorem C6_anchored_dollar_foo_xfoo_witness :
    120 ∉ stockDefines.DELIM ∧
    match_mark_or_subst stockDefines [120, 102, 111, 111, 32, 98, 97, 114] nodeFoo 0
      = some (true, { nodeFoo with start := some 0, end_ := some 4 }) :=
  ⟨by decide, C6_anchored_dollar_foo_xfoo stockDefines (by decide)⟩

/-! ### The choice of the entry to apply -/

/-- An entry that is not matched is parked at the end of the line. -/
theorem scanEntry_unmatched (d : Defines) (text : List Nat) (line : Nat) (start : Bool)
    (bp bp1 : basenode) (h : scanEntry d text line start bp = some (false, bp1)) :
    bp1.start = some text.length := by
  unfold scanEntry at h
  split_ifs at h
  · simp at h
  · split at h
    · simp at h
    · simp at h
    · simp at h; rw [← h]
  · simp at h; rw [← h]

/-- The invariant of the `for` loop: `mfirst` only moves to an entry that starts
strictly below the start of the entry chosen so far, and at the end no
candidate starts below it. -/
theorem scanPass_best (d : Defines) (text : List Nat) (line : Nat) (start : Bool)
    (bs : List basenode) : ∀ (i0 : Nat) (m0 : Option (Nat × basenode))
    (bs1 : List basenode) (m : Option (Nat × basenode)),
    scanPass d text line start bs i0 m0 = some (bs1, m) →
    bestKey (text.length + 1) m0 ≤ text.length + 1 →
    bestKey (text.length + 1) m ≤ bestKey (text.length + 1) m0 ∧
    (∀ (k : Nat) (bj : basenode), bs1[k]? = some bj → addr bj.start < text.length + 1 →
      bestKey (text.length + 1) m ≤ addr bj.start) ∧
    (m = m0 ∨ ∃ k mf, m = some (i0 + k, mf) ∧ bs1[k]? = some mf ∧
      addr mf.start < bestKey (text.length + 1) m0 ∧
      ∀ (k2 : Nat) (bj : basenode), k2 < k → bs1[k2]? = some bj →
        addr bj.start < text.length + 1 →
        addr mf.start < addr bj.start) := by
  induction bs with
  | nil =>
    intro i0 m0 bs1 m h _
    simp only [scanPass, Option.some.injEq, Prod.mk.injEq] at h
    obtain ⟨rfl, rfl⟩ := h
    simp
  | cons bp rest ih =>
    intro i0 m0 bs1 m h hm0
    simp only [scanPass] at h
    cases hse : scanEntry d text line start bp with
    | none => simp [hse] at h
    | some r =>
      obtain ⟨matched, bp1⟩ := r
      simp only [hse] at h
      generalize hm1 : (if matched = true ∧ ptrLt bp1.start (some text.length) = true ∧
            beforeFirst bp1.start m0 = true then some (i0, bp1) else m0) = m1 at h
      cases hrec : scanPass d text line start rest (i0 + 1) m1 with
      | none => simp [hrec] at h
      | some r2 =>
        obtain ⟨rest1, m2⟩ := r2
        simp only [hrec, Option.some.injEq, Prod.mk.injEq] at h
        obtain ⟨rfl, rfl⟩ := h
        -- facts on m1
        have hcand : addr bp1.start < text.length + 1 → matched = true := by
          intro hlt
          cases matched with
          | true => rfl
          | false =>
            have := scanEntry_unmatched d text line start bp bp1 hse
            rw [this] at hlt; simp [addr] at hlt
        have hbf : beforeFirst bp1.start m0 = true ↔
            (m0 = none ∨ addr bp1.start < bestKey (text.length + 1) m0) := by
          cases m0 with
          | none => simp [beforeFirst]
          | some q => obtain ⟨_, mf0⟩ := q; simp [beforeFirst, bestKey, ptrLt]
        have hE : ptrLt bp1.start (some text.length) = true ↔
            addr bp1.start < text.length + 1 := by
          simp [ptrLt, addr]
        by_cases hsel : addr bp1.start < bestKey (text.length + 1) m0
        · have hlt : addr bp1.start < text.length + 1 := by omega
          have hm1' : m1 = some (i0, bp1) := by
            rw [← hm1, if_pos]
            exact ⟨hcand hlt, hE.2 hlt, hbf.2 (Or.inr hsel)⟩
          subst hm1'
          have hk1 : bestKey (text.length + 1) (some (i0, bp1)) = addr bp1.start := rfl
          obtain ⟨h1, h2, h3⟩ := ih (i0 + 1) _ rest1 m2 hrec (by rw [hk1]; omega)
          rw [hk1] at h1 h3
          refine ⟨by omega, ?_, ?_⟩
          · intro k bj hk hc
            cases k with
            | zero => simp at hk; subst hk; omega
            | succ k => simp at hk; exact h2 k bj hk hc
          · right
            rcases h3 with h3 | ⟨k, mf, hmk, hget, hlt2, hprev⟩
            · refine ⟨0, bp1, by simpa using h3, by simp, hsel, ?_⟩
              intro k2 bj hk2; omega
            · refine ⟨k + 1, mf, by rw [hmk]; congr 2; omega, by simpa using hget,
                by omega, ?_⟩
              intro k2 bj hk2 hg hc
              cases k2 with
              | zero => simp at hg; subst hg; omega
              | succ k2 => simp at hg; exact hprev k2 bj (by omega) hg hc
        · have hm1' : m1 = m0 := by
            rw [← hm1, if_neg]
            rintro ⟨_, h2, h3⟩
            rcases hbf.1 h3 with h0 | h0
            · subst h0; simp [bestKey] at hsel; have := hE.1 h2; omega
            · exact hsel h0
          subst hm1'
          obtain ⟨h1, h2, h3⟩ := ih (i0 + 1) _ rest1 m2 hrec hm0
          refine ⟨h1, ?_, ?_⟩
          · intro k bj hk hc
            cases k with
            | zero => simp at hk; subst hk; omega
            | succ k => simp at hk; exact h2 k bj hk hc
          · rcases h3 with h3 | ⟨k, mf, hmk, hget, hlt2, hprev⟩
            · left; exact h3
            · right
              refine ⟨k + 1, mf, by rw [hmk]; congr 2; omega, by simpa using hget, hlt2, ?_⟩
              intro k2 bj hk2 hg hc
              cases k2 with
              | zero => simp at hg; subst hg; omega
              | succ k2 => simp at hg; exact hprev k2 bj (by omega) hg hc

/-- The address of a pointer that is not `NULL`. -/
theorem addr_some (n : Nat) : addr (some n) = n + 1 := rfl

/-- C7: in a turn of the scan loop of `ptrmaddmarks` / `ptrmaddsubst` (both run
`scanPass` from `mfirst = NULL`), the entry that is applied is an entry whose
match start lies strictly before the end of the line; no entry with a start
before the end of the line starts before it, and every such entry that comes
earlier in the list starts strictly behind it. When no entry is applied, no
entry has its start before the end of the line. -/
theorem C7_applied_entry_earliest_first (d : Defines) (text : List Nat) (line : Nat)
    (start : Bool) (bs bs1 : List basenode) (m : Option (Nat × basenode))
    (h : scanPass d text line start bs 0 none = some (bs1, m)) :
    (m = none → ∀ (j : Nat) (bj : basenode), bs1[j]? = some bj →
        ptrLt bj.start (some text.length) = false) ∧
    (∀ (i : Nat) (mf : basenode), m = some (i, mf) →
        bs1[i]? = some mf ∧ ptrLt mf.start (some text.length) = true ∧
        ∀ (j : Nat) (bj : basenode), bs1[j]? = some bj →
          ptrLt bj.start (some text.length) = true →
          ptrLt bj.start mf.start = false ∧ (j < i → ptrLt mf.start bj.start = true)) := by
  obtain ⟨_, h2, h3⟩ := scanPass_best d text line start bs 0 none bs1 m h (le_refl _)
  constructor
  · intro hm j bj hj
    subst hm
    have := h2 j bj hj
    simp only [bestKey] at this
    simp only [ptrLt, addr_some, decide_eq_false_iff_not]
    intro hlt
    have := this hlt
    omega
  · intro i mf hm
    subst hm
    rcases h3 with h3 | ⟨k, mf2, hm, hget, hlt, hprev⟩
    · simp at h3
    · simp only [Option.some.injEq, Prod.mk.injEq, Nat.zero_add] at hm
      obtain ⟨rfl, rfl⟩ := hm
      simp only [bestKey] at hlt h2
      refine ⟨hget, by simpa [ptrLt, addr_some] using hlt, ?_⟩
      intro j bj hj hc
      have hc2 : addr bj.start < text.length + 1 := by simpa [ptrLt, addr_some] using hc
      refine ⟨?_, fun hji => ?_⟩
      · have := h2 j bj hj hc2
        simp only [ptrLt, decide_eq_false_iff_not]; omega
      · have := hprev j bj hji hj hc2
        simpa [ptrLt] using this

/-- C7 on the line `ba` with the entries `a`, `b`, `b`: the two entries `b`
both start at offset 0, and the first of them is applied. -/
theorem C7_applied_entry_earliest_first_witness :
    scanPass stockDefines [98, 97] 0 true [plainNode [97], plainNode [98], plainNode [98]]
        0 none
      = some ([{ plainNode [97] with start := some 1, end_ := some 2 },
               { plainNode [98] with start := some 0, end_ := some 1 },
               { plainNode [98] with start := some 0, end_ := some 1 }],
          some (1, { plainNode [98] with start := some 0, end_ := some 1 })) ∧
    ∀ (j : Nat) (bj : basenode),
      [{ plainNode [97] with start := some 1, end_ := some 2 },
       { plainNode [98] with start := some 0, end_ := some 1 },
       { plainNode [98] with start := some 0, end_ := some 1 }][j]? = some bj →
      ptrLt bj.start (some [98, 97].length) = true →
      ptrLt bj.start (some 0) = false ∧ (j < 1 → ptrLt (some 0) bj.start = true) :=
  ⟨by decide,
    ((C7_applied_entry_earliest_first stockDefines [98, 97] 0 true
      [plainNode [97], plainNode [98], plainNode [98]] _ _ (by decide)).2 1
        { plainNode [98] with start := some 0, end_ := some 1 } rfl).2.2⟩

/-! ### Plain entries: `strstr` and the single substitution -/

/-- A first occurrence stays the first occurrence when the search starts later,
but not behind it. -/
theorem strstrFrom_drop (pat : List Nat) (hay : List Nat) : ∀ (j k : Nat),
    strstrFrom pat hay = some k → j ≤ k → strstrFrom pat (hay.drop j) = some (k - j) := by
  induction hay with
  | nil =>
    intro j k h hj
    simp only [strstrFrom] at h
    split_ifs at h with hp
    simp only [Option.some.injEq] at h
    subst h
    have : j = 0 := by omega
    subst this
    simp [strstrFrom, hp]
  | cons c t ih =>
    intro j k h hj
    cases j with
    | zero => simpa using h
    | succ j =>
      simp only [strstrFrom] at h
      split_ifs at h with hp
      · simp only [Option.some.injEq] at h; omega
      · simp only [Option.map_eq_some'] at h
        obtain ⟨k1, hk1, rfl⟩ := h
        have := ih j k1 hk1 (by omega)
        simp only [List.drop_succ_cons, this]
        congr 1; omega

/-- No occurrence from a position, none from a later one. -/
theorem strstrFrom_drop_none (pat : List Nat) (hay : List Nat) : ∀ (j : Nat),
    strstrFrom pat hay = none → strstrFrom pat (hay.drop j) = none := by
  induction hay with
  | nil => intro j h; simpa using h
  | cons c t ih =>
    intro j h
    cases j with
    | zero => simpa using h
    | succ j =>
      simp only [strstrFrom] at h
      split_ifs at h with hp
      simp only [Option.map_eq_none'] at h
      simpa using ih j h

/-- A list is at least as long as a list it starts with. -/
theorem isPrefixOf_length (p l : List Nat) (h : p.isPrefixOf l = true) : p.length ≤ l.length := by
  induction p generalizing l with
  | nil => simp
  | cons a p ih =>
    cases l with
    | nil => simp [List.isPrefixOf] at h
    | cons b l =>
      simp only [List.isPrefixOf, Bool.and_eq_true] at h
      have := ih l h.2
      simp; omega

/-- An occurrence lies within the string searched. -/
theorem strstrFrom_bound (pat : List Nat) (hay : List Nat) : ∀ (k : Nat),
    strstrFrom pat hay = some k → k + pat.length ≤ hay.length := by
  induction hay with
  | nil =>
    intro k h
    simp only [strstrFrom] at h
    split_ifs at h with hp
    simp only [Option.some.injEq] at h
    have := isPrefixOf_length pat [] hp
    simp only [List.length_nil] at this ⊢
    omega
  | cons c t ih =>
    intro k h
    simp only [strstrFrom] at h
    split_ifs at h with hp
    · simp only [Option.some.injEq] at h
      have := isPrefixOf_length pat _ hp
      omega
    · simp only [Option.map_eq_some'] at h
      obtain ⟨k1, hk1, rfl⟩ := h
      have := ih k1 hk1
      simp; omega

/-- The bytes before the first NUL byte of what is left after `k` bytes, none
of them NUL, are the bytes before the first NUL byte without the first `k`. -/
theorem takeWhile_drop (l : List Nat) : ∀ (k : Nat),
    k ≤ (l.takeWhile (· != 0)).length →
    (l.drop k).takeWhile (· != 0) = (l.takeWhile (· != 0)).drop k := by
  induction l with
  | nil => intro k _; simp
  | cons c t ih =>
    intro k hk
    cases k with
    | zero => simp
    | succ k =>
      by_cases hc : (c != 0) = true
      · simp only [List.takeWhile_cons, hc, if_true, List.length_cons] at hk ⊢
        simp only [List.drop_succ_cons]
        exact ih k (by omega)
      · simp [List.takeWhile_cons, hc] at hk

/-- The C string at an offset ends within the line. -/
theorem strlen_le (text : List Nat) (p : Nat) : strlen text p ≤ text.length - p := by
  unfold strlen cstr
  have := (List.takeWhile_prefix (· != 0) (l := text.drop p)).length_le
  simpa using this

/-- The C string at an offset that lies in the C string at `p` is the rest of
the C string at `p`. -/
theorem cstr_later (text : List Nat) (p q : Nat) (hpq : p ≤ q) (hq : q ≤ p + strlen text p) :
    cstr text q = (cstr text p).drop (q - p) := by
  have h := takeWhile_drop (text.drop p) (q - p) (by unfold strlen cstr at hq; omega)
  rw [List.drop_drop] at h
  have e : p + (q - p) = q := by omega
  rw [e] at h
  exact h

/-- The C strings at two offsets of which the second lies in the first end at
the same offset. -/
theorem strlen_later (text : List Nat) (p q : Nat) (hpq : p ≤ q) (hq : q ≤ p + strlen text p) :
    q + strlen text q = p + strlen text p := by
  have h := cstr_later text p q hpq hq
  unfold strlen at hq ⊢
  rw [h, List.length_drop]
  omega

/-- On a line without NUL byte the C string at an offset is the rest of the
line. -/
theorem cstr_of_nulfree (text : List Nat) (h0 : ∀ b ∈ text, b ≠ 0) (p : Nat) :
    cstr text p = text.drop p := by
  unfold cstr
  rw [List.takeWhile_eq_self_iff]
  intro b hb
  have := h0 b (List.mem_of_mem_drop hb)
  simpa using this

/-- The C string at the start of the line and what follows it make up the
line. -/
theorem cstr_zero (text : List Nat) :
    cstr text 0 = text.takeWhile (· != 0) ∧
    text.drop (strlen text 0) = text.dropWhile (· != 0) := by
  unfold strlen cstr
  simp only [List.drop_zero, true_and]
  induction text with
  | nil => simp
  | cons c t ih =>
    by_cases hc : (c != 0) = true
    · simp only [List.takeWhile_cons, hc, if_true, List.length_cons, List.drop_succ_cons,
        List.dropWhile_cons, ih]
    · simp [List.takeWhile_cons, List.dropWhile_cons, hc]

/-- The result of `strstr` lies between the start of the search and the end of
the C string searched, the occurrence included. -/
theorem strstr_bound (text : List Nat) (a : Nat) (pat : List Nat) (s : Nat)
    (h : strstr text a pat = some s) :
    a ≤ s ∧ s + pat.length ≤ a + strlen text a := by
  simp only [strstr, Option.map_eq_some'] at h
  obtain ⟨k, hk, rfl⟩ := h
  have := strstrFrom_bound pat _ k hk
  unfold strlen
  omega

/-- `strstr` from a later position that is not behind the occurrence finds the
same occurrence. -/
theorem strstr_later (text : List Nat) (a b : Nat) (pat : List Nat) (s : Nat)
    (h : strstr text a pat = some s) (hab : a ≤ b) (hbs : b ≤ s) :
    strstr text b pat = some s := by
  have hb := strstr_bound text a pat s h
  simp only [strstr, Option.map_eq_some'] at h ⊢
  obtain ⟨k, hk, rfl⟩ := h
  have := strstrFrom_drop pat _ (b - a) k hk (by omega)
  rw [← cstr_later text a b hab (by omega)] at this
  exact ⟨_, this, by omega⟩

/-- `strstr` that fails from a position fails from every later one in the same
C string. -/
theorem strstr_later_none (text : List Nat) (a b : Nat) (pat : List Nat)
    (h : strstr text a pat = none) (hab : a ≤ b) (hb : b ≤ a + strlen text a) :
    strstr text b pat = none := by
  simp only [strstr, Option.map_eq_none'] at h ⊢
  have := strstrFrom_drop_none pat _ (b - a) h
  rwa [← cstr_later text a b hab hb] at this

/-- Stepping over `k` bytes is dropping them. -/
theorem replaceFrom_skip (P R : List Nat) (hay : List Nat) : ∀ (k : Nat),
    replaceFrom P R k hay = replaceFrom P R 0 (hay.drop k) := by
  induction hay with
  | nil => intro k; simp [replaceFrom]
  | cons c t ih =>
    intro k
    cases k with
    | zero => rfl
    | succ k => simp only [replaceFrom, List.drop_succ_cons]; exact ih k

/-- Without an occurrence of `P` nothing is replaced. -/
theorem replaceAll_none (P R : List Nat) (hay : List Nat)
    (h : strstrFrom P hay = none) : replaceAll P R hay = hay := by
  unfold replaceAll
  induction hay with
  | nil => simp [replaceFrom]
  | cons c t ih =>
    simp only [strstrFrom] at h
    split_ifs at h with hp
    simp only [Option.map_eq_none'] at h
    simp only [replaceFrom, hp, Bool.false_eq_true, if_false, ih h]

/-- With the first occurrence of `P` at offset `k`: the text before it, `R`, and
the replacement of what follows the occurrence. -/
theorem replaceAll_some (P R : List Nat) (hP : P ≠ []) (hay : List Nat) : ∀ (k : Nat),
    strstrFrom P hay = some k →
    replaceAll P R hay = hay.take k ++ R ++ replaceAll P R (hay.drop (k + P.length)) := by
  unfold replaceAll
  induction hay with
  | nil =>
    intro k h
    simp only [strstrFrom] at h
    split_ifs at h with hp
    cases P with
    | nil => exact absurd rfl hP
    | cons a P => simp [List.isPrefixOf] at hp
  | cons c t ih =>
    intro k h
    simp only [strstrFrom] at h
    split_ifs at h with hp
    · simp only [Option.some.injEq] at h
      subst h
      have hl : 1 ≤ P.length := by
        cases P with
        | nil => exact absurd rfl hP
        | cons a P => simp
      simp only [replaceFrom, hp, if_true, List.take_zero, List.nil_append, Nat.zero_add]
      rw [replaceFrom_skip]
      have : (c :: t).drop P.length = t.drop (P.length - 1) := by
        obtain ⟨n, hn⟩ : ∃ n, P.length = n + 1 := ⟨P.length - 1, by omega⟩
        rw [hn]; simp
      rw [this]
    · simp only [Option.map_eq_some'] at h
      obtain ⟨k1, hk1, rfl⟩ := h
      simp only [replaceFrom, hp, Bool.false_eq_true, if_false, ih k1 hk1]
      simp [Nat.add_right_comm]

/-- An entry without wildcard and anchor whose kept match is out of date is
matched again by `strstr` from the scan start. -/
theorem scanEntry_plain (d : Defines) (text : List Nat) (line : Nat) (start : Bool)
    (b : basenode) (hw : b.wild = false) (hm : b.mbeg = 0)
    (hstale : ∀ s, b.start = some s → s < line) :
    scanEntry d text line start b =
      match strstr text line b.pattern with
      | some s => some (true, { b with start := some s, end_ := some (s + b.pattern.length) })
      | none => some (false, { b with start := some text.length }) := by
  have hc : ¬ (b.start.isSome = true ∧ ¬ ptrLt b.start (some line) = true) := by
    rintro ⟨h1, h2⟩
    obtain ⟨s, hs⟩ := Option.isSome_iff_exists.1 h1
    have := hstale s hs
    rw [hs] at h2
    simp [ptrLt, addr] at h2
    omega
  unfold scanEntry
  rw [if_neg hc, if_pos (Or.inl hm)]
  unfold match_mark_or_subst
  rw [if_pos hw]
  cases strstr text line b.pattern <;> rfl

/-- The C string at an offset is the part of the line that starts at the
offset and has the length of the C string. -/
theorem cstr_take (text : List Nat) (p : Nat) :
    cstr text p = (text.drop p).take (strlen text p) := by
  unfold strlen cstr
  exact List.prefix_iff_eq_take.1 (List.takeWhile_prefix _)

/-- The scan loop of `ptrmaddsubst` for a single plain entry, from any scan
start, with fuel for one turn per byte left and one more: the occurrences in
the C string at the scan start are replaced, what follows the C string is
copied. -/
theorem substLoop_single (d : Defines) (sp : substnode) (text : List Nat)
    (hP : sp.b.pattern ≠ []) :
    ∀ (fuel line : Nat) (start : Bool) (b : basenode) (dst : List Nat),
    b.pattern = sp.b.pattern → b.wild = false → b.mbeg = 0 →
    (∀ s, b.start = some s → s < line) → line ≤ text.length →
    text.length - line + 1 ≤ fuel →
    ptrmaddsubstLoop d [sp] text fuel line start [b] dst
      = some (dst ++ replaceAll sp.b.pattern sp.replacement (cstr text line)
          ++ text.drop (line + strlen text line)) := by
  intro fuel
  induction fuel with
  | zero => intro line start b dst _ _ _ _ _ hf; omega
  | succ fuel ih =>
    intro line start b dst hp hw hm hstale hline hf
    have hse := scanEntry_plain d text line start b hw hm hstale
    have hsl := strlen_le text line
    have hcat : cstr text line ++ text.drop (line + strlen text line) = text.drop line := by
      rw [cstr_take, ← List.drop_drop]
      exact List.take_append_drop _ _
    rw [ptrmaddsubstLoop]
    simp only [scanPass, hse]
    cases hs : strstr text line b.pattern with
    | none =>
      have h1 : strstrFrom sp.b.pattern (cstr text line) = none := by
        rw [hp] at hs
        simpa [strstr] using hs
      simp only [beforeFirst, replaceAll_none _ _ _ h1]
      simp [ptrLt, addr, List.append_assoc, hcat]
    | some s =>
      have hb := strstr_bound text line b.pattern s hs
      have hl : 1 ≤ b.pattern.length := by
        rw [hp]
        cases h : sp.b.pattern with
        | nil => exact absurd h hP
        | cons a P => simp
      have hlt : ptrLt (some s) (some text.length) = true := by
        simp [ptrLt, addr]; omega
      have h1 : strstrFrom sp.b.pattern (cstr text line) = some (s - line) := by
        rw [hp] at hs
        simp only [strstr, Option.map_eq_some'] at hs
        obtain ⟨k, hk, rfl⟩ := hs
        simpa using hk
      simp only [hlt, beforeFirst, and_self, if_true, List.getElem?_cons_zero]
      have hg : line ≤ s ∧ s ≤ s + b.pattern.length ∧
          s + b.pattern.length ≤ text.length := by
        omega
      simp only [hg, and_self, if_true]
      rw [ih (s + b.pattern.length) false
        { b with start := some s, end_ := some (s + b.pattern.length) } _ hp hw hm
        (by intro s2 h2; simp at h2; omega) (by omega) (by omega)]
      have hz := strlen_later text line (s + b.pattern.length) (by omega) hb.2
      have hc2 := cstr_later text line (s + b.pattern.length) (by omega) hb.2
      have htk : (text.drop line).take (s - line) = (cstr text line).take (s - line) := by
        rw [cstr_take, List.take_take]
        congr 1
        omega
      rw [replaceAll_some _ _ hP _ _ h1, hz, hc2, htk, ← hp]
      have : s + b.pattern.length - line = s - line + b.pattern.length := by omega
      rw [this]
      simp [List.append_assoc]

/-- C8, as stated, fails for an anchored entry and for a line with a NUL byte:
the plain entry `a` with `mbeg = 1` and replacement `b` turns the line `aa`
into `ba`, the second occurrence being left, while replacing each occurrence
gives `bb`; and the plain entry `a`, not anchored, with replacement `b` turns
the three bytes `a`, NUL, `a` into `b`, NUL, `a`, the occurrence behind the NUL
byte being left. -/
theorem C8_counterexample :
    ptrmaddsubst stockDefines [⟨⟨[97], 1, false, none, none⟩, [98]⟩] 3 [97, 97]
      = some [98, 97] ∧
    replaceAll [97] [98] [97, 97] = [98, 98] ∧
    ptrmaddsubst stockDefines [⟨⟨[97], 1, false, none, none⟩, [98]⟩] 3 [97, 97]
      ≠ some (replaceAll [97] [98] [97, 97]) ∧
    ptrmaddsubst stockDefines [⟨plainNode [97], [98]⟩] 4 [97, 0, 97] = some [98, 0, 97] ∧
    replaceAll [97] [98] [97, 0, 97] = [98, 0, 98] ∧
    ptrmaddsubst stockDefines [⟨plainNode [97], [98]⟩] 4 [97, 0, 97]
      ≠ some (replaceAll [97] [98] [97, 0, 97]) := by
  decide

/-- C8, amended: for a substitution list holding one entry without wildcard and
without the anchor (`mbeg = 0`), with a non-empty pattern `P` and replacement
`R`, and for every line `L`, `ptrmaddsubst` returns (with fuel for `length L`
turns and one more) the bytes of `L` before its first NUL byte with each
leftmost non-overlapping occurrence of `P` replaced by `R`, followed by the
rest of `L` from its first NUL byte on as it is; the text of `R` is never
scanned again. On a line without NUL byte this is `L` with each leftmost
non-overlapping occurrence of `P` replaced by `R`. -/
theorem C8_single_plain_substitution (d : Defines) (sp : substnode) (L : List Nat)
    (fuel : Nat) (hP : sp.b.pattern ≠ []) (hw : sp.b.wild = false) (hm : sp.b.mbeg = 0)
    (hf : L.length + 1 ≤ fuel) :
    ptrmaddsubst d [sp] fuel L
      = some (replaceAll sp.b.pattern sp.replacement (L.takeWhile (· != 0))
          ++ L.dropWhile (· != 0)) ∧
    ((∀ b ∈ L, b ≠ 0) →
      ptrmaddsubst d [sp] fuel L = some (replaceAll sp.b.pattern sp.replacement L)) := by
  have main : ptrmaddsubst d [sp] fuel L
      = some (replaceAll sp.b.pattern sp.replacement (L.takeWhile (· != 0))
          ++ L.dropWhile (· != 0)) := by
    unfold ptrmaddsubst
    by_cases hL : L = []
    · subst hL; simp [replaceAll, replaceFrom]
    · simp only [hL, if_false, List.map]
      rw [substLoop_single d sp L hP fuel 0 true { sp.b with start := none } [] rfl hw hm
        (by intro s h; simp at h) (Nat.zero_le _) (by omega)]
      simp only [List.nil_append, Nat.zero_add, (cstr_zero L).1, (cstr_zero L).2]
  refine ⟨main, fun h0 => ?_⟩
  rw [main]
  have e1 : L.takeWhile (· != 0) = L := by
    rw [List.takeWhile_eq_self_iff]
    intro b hb
    simpa using h0 b hb
  have e2 : L.dropWhile (· != 0) = [] := by
    rw [List.dropWhile_eq_nil_iff]
    intro b hb
    simpa using h0 b hb
  rw [e1, e2, List.append_nil]

/-- C8, amended, for the entry `a` with replacement `aa` on the line `aXa`,
which has no NUL byte: the result is `aaXaa`, the inserted `a` are not replaced
again. -/
theorem C8_single_plain_substitution_witness :
    (plainNode [97]).pattern ≠ [] ∧ [97, 88, 97].length + 1 ≤ 4 ∧
    (∀ b ∈ [97, 88, 97], b ≠ 0) ∧
    replaceAll [97] [97, 97] [97, 88, 97] = [97, 97, 88, 97, 97] ∧
    ptrmaddsubst stockDefines [⟨plainNode [97], [97, 97]⟩] 4 [97, 88, 97]
      = some (replaceAll [97] [97, 97] [97, 88, 97]) :=
  ⟨by decide, by decide, by decide, by decide,
    (C8_single_plain_substitution stockDefines ⟨plainNode [97], [97, 97]⟩ [97, 88, 97] 4
      (by decide) rfl rfl (by decide)).2 (by decide)⟩

/-! ### Marks leave the text as it is -/

/-- The rest of the line from the scan start is the text before the match, the
match, and the rest of the line behind the match. -/
theorem drop_split (text : List Nat) (line s e : Nat) (h1 : line ≤ s) (h2 : s ≤ e) :
    (text.drop line).take (s - line) ++ (text.drop s).take (e - s) ++ text.drop e
      = text.drop line := by
  have a : (text.drop s).take (e - s) ++ text.drop e = text.drop s := by
    have := List.take_append_drop (e - s) (text.drop s)
    rw [List.drop_drop] at this
    have e1 : s + (e - s) = e := by omega
    rwa [e1] at this
  have b : (text.drop line).take (s - line) ++ text.drop s = text.drop line := by
    have := List.take_append_drop (s - line) (text.drop line)
    rw [List.drop_drop] at this
    have e1 : line + (s - line) = s := by omega
    rwa [e1] at this
  rw [List.append_assoc, a, b]

/-- The scan loop of `ptrmaddmarks` appends to `dst` the rest of the line with
attribute strings inserted; with empty attribute strings it appends the rest
of the line itself. -/
theorem marksLoop_frame (d : Defines) (attr_string : Nat → List Nat × List Nat)
    (markers : List marknode) (text : List Nat) :
    ∀ (fuel line : Nat) (start : Bool) (bs : List basenode) (dst out : List Nat),
    ptrmaddmarksLoop d attr_string markers text fuel line start bs dst = some out →
    (∃ o, out = dst ++ o ∧ MarkedUp attr_string markers (text.drop line) o) ∧
    ∀ dst0, ptrmaddmarksLoop d (fun _ => ([], [])) markers text fuel line start bs dst0
      = some (dst0 ++ text.drop line) := by
  intro fuel
  induction fuel with
  | zero => intro line start bs dst out h; simp [ptrmaddmarksLoop] at h
  | succ fuel ih =>
    intro line start bs dst out h
    rw [ptrmaddmarksLoop] at h
    cases hsp : scanPass d text line start bs 0 none with
    | none => simp [hsp] at h
    | some r =>
      obtain ⟨bs1, m⟩ := r
      cases m with
      | none =>
        simp only [hsp, Option.some.injEq] at h
        subst h
        refine ⟨⟨_, rfl, MarkedUp.plain _⟩, fun dst0 => ?_⟩
        rw [ptrmaddmarksLoop]; simp only [hsp]
      | some q =>
        obtain ⟨i, mf⟩ := q
        simp only [hsp] at h
        cases hs : mf.start with
        | none => simp [hs] at h
        | some s =>
          cases he : mf.end_ with
          | none => simp [hs, he] at h
          | some e =>
            cases hmp : markers[i]? with
            | none => simp [hs, he, hmp] at h
            | some mp =>
              simp only [hs, he, hmp] at h
              by_cases hg : line ≤ s ∧ s ≤ e ∧ e ≤ text.length
              · simp only [hg, and_self, if_true] at h
                obtain ⟨⟨o, ho, hmk⟩, h0⟩ := ih _ _ _ _ _ h
                have hmem : mp ∈ markers := List.getElem?_mem hmp
                have hsplit := drop_split text line s e hg.1 hg.2.1
                refine ⟨⟨(text.drop line).take (s - line) ++ (attr_string mp.attrcode).1
                    ++ (text.drop s).take (e - s) ++ (attr_string mp.attrcode).2 ++ o, ?_, ?_⟩,
                  fun dst0 => ?_⟩
                · rw [ho]; simp [List.append_assoc]
                · have hm2 := MarkedUp.mark ((text.drop line).take (s - line))
                    ((text.drop s).take (e - s)) mp _ _ hmem hmk
                  rw [hsplit] at hm2
                  exact hm2
                · have key : (text.drop line).take (s - line) ++
                      ((text.drop s).take (e - s) ++ text.drop e) = text.drop line := by
                    rw [← List.append_assoc]; exact hsplit
                  rw [ptrmaddmarksLoop]
                  simp only [hsp, hs, he, hmp, hg, and_self, if_true]
                  rw [h0]
                  simp only [List.append_nil, List.append_assoc, key]
              · simp [hg] at h

/-- C9: whenever `ptrmaddmarks` returns a text `out` for a line `L` (it ends
within the fuel and meets no `NULL`), `out` is `L` with begin and end strings
of markers inserted around spans of `L`; with all attribute strings empty the
same call returns exactly `L`; and when no entry is chosen in the first turn,
`out` is `L`. -/
theorem C9_marks_keep_text (d : Defines) (attr_string : Nat → List Nat × List Nat)
    (markers : List marknode) (L : List Nat) (fuel : Nat) (out : List Nat)
    (h : ptrmaddmarks d attr_string markers fuel L = some out) :
    MarkedUp attr_string markers L out ∧
    ptrmaddmarks d (fun _ => ([], [])) markers fuel L = some L ∧
    (∀ bs1, scanPass d L 0 true (markers.map (fun mp => { mp.b with start := none })) 0 none
        = some (bs1, none) → out = L) := by
  unfold ptrmaddmarks at h ⊢
  by_cases hL : L = []
  · subst hL
    simp only [if_true, Option.some.injEq] at h
    subst h
    exact ⟨MarkedUp.plain _, by simp, fun _ _ => rfl⟩
  · simp only [hL, if_false] at h ⊢
    obtain ⟨⟨o, ho, hmk⟩, h0⟩ := marksLoop_frame d attr_string markers L _ _ _ _ _ _ h
    simp only [List.nil_append, List.drop_zero] at ho hmk
    subst ho
    refine ⟨hmk, by simpa using h0 [], fun bs1 hsp => ?_⟩
    cases fuel with
    | zero => simp [ptrmaddmarksLoop] at h
    | succ fuel =>
      rw [ptrmaddmarksLoop] at h
      simp only [hsp] at h
      simpa using h.symm

/-- C9 for the mark `ERROR` in red on the line `fatal ERROR occurred`. -/
theorem C9_marks_keep_text_witness :
    ptrmaddmarks stockDefines attrRed [⟨plainNode [69, 82, 82, 79, 82], 1⟩] 3 lineFatal
      = some ([102, 97, 116, 97, 108, 32] ++ [27, 91, 51, 49, 109] ++ [69, 82, 82, 79, 82]
          ++ [27, 91, 48, 109] ++ [32, 111, 99, 99, 117, 114, 114, 101, 100]) ∧
    ptrmaddmarks stockDefines (fun _ => ([], [])) [⟨plainNode [69, 82, 82, 79, 82], 1⟩] 3
      lineFatal = some lineFatal :=
  ⟨by decide,
    (C9_marks_keep_text stockDefines attrRed [⟨plainNode [69, 82, 82, 79, 82], 1⟩] lineFatal 3
      ([102, 97, 116, 97, 108, 32] ++ [27, 91, 51, 49, 109] ++ [69, 82, 82, 79, 82]
          ++ [27, 91, 48, 109] ++ [32, 111, 99, 99, 117, 114, 114, 101, 100]) (by decide)).2.1⟩

/-- The mark `&` on the three bytes `a`, NUL, `b`: the first turn marks `a`,
and from then on every turn matches the empty C string at the NUL byte and
applies it without moving the scan start, so that no fuel is enough for a
result (the C loop does not end). -/
theorem marks_amp_at_nul (attr_string : Nat → List Nat × List Nat) (fuel : Nat) :
    ptrmaddmarks stockDefines attr_string [⟨⟨[38], 0, true, none, none⟩, 1⟩] fuel [97, 0, 98]
      = none := by
  have loop : ∀ (fuel : Nat) (dst : List Nat),
      ptrmaddmarksLoop stockDefines attr_string [⟨⟨[38], 0, true, none, none⟩, 1⟩] [97, 0, 98]
        fuel 1 false [⟨[38], 0, true, some 1, some 1⟩] dst = none := by
    intro fuel
    induction fuel with
    | zero => intro dst; rfl
    | succ fuel ih =>
      intro dst
      have hsp : scanPass stockDefines [97, 0, 98] 1 false [⟨[38], 0, true, some 1, some 1⟩]
          0 none = some ([⟨[38], 0, true, some 1, some 1⟩],
            some (0, ⟨[38], 0, true, some 1, some 1⟩)) := by decide
      rw [ptrmaddmarksLoop, hsp]
      simp only [List.getElem?_cons_zero]
      rw [if_pos (by decide)]
      exact ih _
  cases fuel with
  | zero => rfl
  | succ fuel =>
    have hsp : scanPass stockDefines [97, 0, 98] 0 true [⟨[38], 0, true, none, none⟩]
        0 none = some ([⟨[38], 0, true, some 0, some 1⟩],
          some (0, ⟨[38], 0, true, some 0, some 1⟩)) := by decide
    unfold ptrmaddmarks
    simp only [List.map, if_neg (show ¬ ([97, 0, 98] : List Nat) = [] by decide)]
    rw [ptrmaddmarksLoop, hsp]
    simp only [List.getElem?_cons_zero]
    rw [if_pos (by decide)]
    cases fuel with
    | zero => rfl
    | succ fuel =>
      have hsp2 : scanPass stockDefines [97, 0, 98] 1 false [⟨[38], 0, true, some 0, some 1⟩]
          0 none = some ([⟨[38], 0, true, some 1, some 1⟩],
            some (0, ⟨[38], 0, true, some 1, some 1⟩)) := by decide
      rw [ptrmaddmarksLoop, hsp2]
      simp only [List.getElem?_cons_zero]
      rw [if_pos (by decide)]
      exact loop _ _

/-! ### Kept matches against the naive engine -/

/-- C10, as stated, fails: with the entries `x$y` and `a`, neither anchored, on
the line `x a y x1y`, the entry `x$y` fails in the first turn (its `$` would
span ` a `) and is parked, so `ptrmaddsubst` only replaces `a`; the naive
engine runs it again behind `a` and also replaces `x1y`. -/
theorem C10_counterexample :
    ptrmaddsubst stockDefines substXY 5 lineXY = some [120, 32, 98, 32, 121, 32, 120, 49, 121] ∧
    naiveSubst stockDefines substXY 5 lineXY = some [120, 32, 98, 32, 121, 32, 90] ∧
    ptrmaddsubst stockDefines substXY 5 lineXY ≠ naiveSubst stockDefines substXY 5 lineXY := by
  decide

/-- The result of `strstr` is not before the start of the search. -/
theorem strstr_ge (text : List Nat) (a : Nat) (pat : List Nat) (s : Nat)
    (h : strstr text a pat = some s) : a ≤ s := by
  simp only [strstr, Option.map_eq_some'] at h
  obtain ⟨k, _, rfl⟩ := h
  omega

/-- Searching from further right does not find an occurrence further left. -/
theorem strstr_mono (text : List Nat) (x y : Nat) (pat : List Nat) (p q : Nat)
    (hx : strstr text x pat = some p) (hy : strstr text y pat = some q) (hxy : x ≤ y) :
    p ≤ q := by
  by_cases h : y ≤ p
  · have := strstr_later text x y pat p hx hxy h
    rw [this] at hy
    simp at hy; omega
  · have := strstr_ge text y pat q hy
    omega

/-- Without a pending `$` the post-processing does nothing. -/
theorem matchWord_noword (d : Defines) (text : List Nat) (e : Bool) (st : MState)
    (h : st.mword = false) : matchWord d text e st = .go st := by
  simp [matchWord, h]

/-- Adding the length of a segment keeps the order of two pointers. -/
theorem SrcLe.map_add {a b : Option Nat} (h : SrcLe a b) (n : Nat) :
    SrcLe (a.map (· + n)) (b.map (· + n)) := by
  cases a <;> cases b <;> simp_all [SrcLe]

/-- The head of the loop body keeps two runs related, for a byte other than `$`. -/
theorem matchOpen_sim (c : Nat) (hc : c ≠ 36) (s s2 : MState) (h : Sim s s2) :
    Sim (matchOpen c s) (matchOpen c s2) := by
  obtain ⟨h1, h2, h3, h4, h5, h6⟩ := h
  unfold matchOpen
  split_ifs <;> simp_all [Sim]

/-- The search of a segment keeps two runs related, when the right run
searches in the C string that the left run searches: when the left run fails so
does the right one, and the occurrence found by the left run is not behind the
one found by the right run. -/
theorem matchSegment_sim (text mpat : List Nat) (s s2 : MState) (h : Sim s s2)
    (hb : ∀ x y, s.src = some x → s2.src = some y → y ≤ x + strlen text x) :
    StepSim (matchSegment text mpat s) (matchSegment text mpat s2) := by
  obtain ⟨h1, h2, h3, h4, h5, h6⟩ := h
  have n3 : ¬ (0 < s.mbeg) := by omega
  have n4 : ¬ (0 < s2.mbeg) := by omega
  unfold matchSegment
  by_cases hm : mpat = []
  · simp only [hm, ne_eq, not_true_eq_false, if_false]
    cases s.prm <;> cases s2.prm <;> exact ⟨h1, h2, h3, h4, h5, h6⟩
  · simp only [hm, ne_eq, not_false_eq_true, if_true]
    cases hx : s.src with
    | none =>
      cases hy : s2.src with
      | none => trivial
      | some y => rw [hx, hy] at h5; exact h5.elim
    | some x =>
      cases hy : s2.src with
      | none => rw [hx, hy] at h5; exact h5.elim
      | some y =>
        rw [hx, hy] at h5
        have hxy : x ≤ y := h5
        simp only
        cases hp : strstr text x mpat with
        | none =>
          rw [strstr_later_none text x y mpat hp hxy (hb x y hx hy)]
          trivial
        | some p =>
          cases hq : strstr text y mpat with
          | none => simp only [n3, false_and, if_false]; trivial
          | some q =>
            simp only [n3, n4, false_and, if_false]
            refine ⟨h1, h2, ?_, ?_, ?_, ?_⟩
            · simp [n3]; omega
            · simp [n4]; omega
            · simp only [hx, hy]; exact hxy
            · exact strstr_mono text x y mpat p q hp hq hxy

/-- The tail of the loop body keeps two runs related. -/
theorem matchClose_sim (n : Nat) (s s2 : MState) (h : Sim s s2) :
    Sim (matchClose n s) (matchClose n s2) := by
  obtain ⟨h1, h2, h3, h4, h5, h6⟩ := h
  refine ⟨?_, ?_, ?_, ?_, h6.map_add n, h6⟩
  · simp [matchClose, h1]
  · simp [matchClose, h2]
  · simp only [matchClose]; split_ifs <;> omega
  · simp only [matchClose]; split_ifs <;> omega

/-- The search of a segment does not touch `mword`. -/
theorem matchSegment_mword (text mpat : List Nat) (s t : MState)
    (h : matchSegment text mpat s = .go t) : t.mword = s.mword := by
  unfold matchSegment at h
  by_cases hm : mpat = []
  · simp only [hm, ne_eq, not_true_eq_false, if_false] at h
    cases hp : s.prm <;> rw [hp] at h <;> simp only [Step.go.injEq] at h <;> rw [← h]
  · simp only [hm, ne_eq, not_false_eq_true, if_true] at h
    cases hx : s.src with
    | none => rw [hx] at h; simp at h
    | some x =>
      rw [hx] at h
      simp only at h
      cases hp : strstr text x mpat with
      | none => rw [hp] at h; simp at h
      | some p =>
        rw [hp] at h
        simp only at h
        by_cases hc : 0 < s.mbeg ∧ p ≠ x
        · rw [if_pos hc] at h; simp at h
        · rw [if_neg hc] at h
          simp only [Step.go.injEq] at h; rw [← h]

/-- The head of the loop body does not touch `src`. -/
theorem matchOpen_src (c : Nat) (s : MState) : (matchOpen c s).src = s.src := by
  unfold matchOpen
  split_ifs <;> rfl

/-- A turn of the loop keeps two runs related, when the right run searches in
the C string that the left run searches. -/
theorem matchTurn_sim (d : Defines) (text : List Nat) (c : Nat) (rest : List Nat)
    (hc : c ≠ 36) (s s2 : MState) (h : Sim s s2)
    (hb : ∀ x y, s.src = some x → s2.src = some y → y ≤ x + strlen text x) :
    StepSim (matchTurn d text c rest s) (matchTurn d text c rest s2) := by
  unfold matchTurn
  have ho := matchOpen_sim c hc s s2 h
  have hs := matchSegment_sim text
    ((turnPat c rest).take (npatOffset d (turnPat c rest))) _ _ ho
    (by rw [matchOpen_src, matchOpen_src]; exact hb)
  simp only
  cases hr : matchSegment text ((turnPat c rest).take (npatOffset d (turnPat c rest)))
      (matchOpen c s) with
  | crash =>
    rw [hr] at hs
    cases hr2 : matchSegment text ((turnPat c rest).take (npatOffset d (turnPat c rest)))
      (matchOpen c s2) <;> rw [hr2] at hs <;> simp_all [StepSim, Step.andThen]
  | ret0 b =>
    rw [hr] at hs
    cases hr2 : matchSegment text ((turnPat c rest).take (npatOffset d (turnPat c rest)))
      (matchOpen c s2) <;> rw [hr2] at hs <;> simp_all [StepSim, Step.andThen]
  | go t =>
    rw [hr] at hs
    have ht : t.mword = false := (matchSegment_mword _ _ _ _ hr).trans ho.1
    cases hr2 : matchSegment text ((turnPat c rest).take (npatOffset d (turnPat c rest)))
      (matchOpen c s2) with
    | crash => rw [hr2] at hs; exact hs.elim
    | ret0 b =>
      simp only [Step.andThen, matchWord_noword _ _ _ _ ht]
      trivial
    | go t2 =>
      rw [hr2] at hs
      have ht2 : t2.mword = false := (matchSegment_mword _ _ _ _ hr2).trans ho.2.1
      simp only [Step.andThen, matchWord_noword _ _ _ _ ht, matchWord_noword _ _ _ _ ht2]
      exact matchClose_sim _ _ _ hs

/-- A node agrees with itself. -/
theorem Agree.refl (b : basenode) : Agree b b := ⟨rfl, rfl, rfl⟩

/-- Agreement of nodes is transitive. -/
theorem Agree.trans {a b c : basenode} (h1 : Agree a b) (h2 : Agree b c) : Agree a c :=
  ⟨h1.1.trans h2.1, h1.2.1.trans h2.2.1, h1.2.2.trans h2.2.2⟩

/-- The head of the loop body changes at most `start`. -/
theorem matchOpen_agree (c : Nat) (s : MState) : Agree (matchOpen c s).bp s.bp := by
  unfold matchOpen
  split_ifs <;> exact ⟨rfl, rfl, rfl⟩

/-- The search of a segment changes at most the bounds in the node, leaves
`mword`, `src` and `prm` as they are, and leaves a `start` that is set. -/
theorem matchSegment_agree (text mpat : List Nat) (s : MState) :
    match matchSegment text mpat s with
    | .crash => True
    | .ret0 b => b = s.bp
    | .go t => Agree t.bp s.bp ∧ t.mword = s.mword ∧ t.src = s.src ∧ t.prm = s.prm ∧
        (s.bp.start.isSome → t.bp.start = s.bp.start) := by
  unfold matchSegment
  by_cases hm : mpat = []
  · simp only [hm, ne_eq, not_true_eq_false, if_false]
    cases hp : s.prm <;> simp [Agree]
  · simp only [hm, ne_eq, not_false_eq_true, if_true]
    cases hx : s.src with
    | none => trivial
    | some x =>
      simp only
      cases hp : strstr text x mpat with
      | none => rfl
      | some p =>
        simp only
        by_cases hc : 0 < s.mbeg ∧ p ≠ x
        · rw [if_pos hc]
        · rw [if_neg hc]
          refine ⟨⟨rfl, rfl, rfl⟩, rfl, rfl, rfl, ?_⟩
          intro h
          have : s.bp.start.isNone = false := by
            cases hs : s.bp.start <;> simp_all
          simp [this]

/-- A turn of the loop, for a byte other than `$` and no `$` pending, changes at
most the bounds in the node and leaves a `start` that is set. -/
theorem matchTurn_agree (d : Defines) (text : List Nat) (c : Nat) (rest : List Nat)
    (s : MState) (hw : s.mword = false) (hc : c ≠ 36) :
    match matchTurn d text c rest s with
    | .crash => True
    | .ret0 b => Agree b s.bp
    | .go t => Agree t.bp s.bp ∧ t.mword = false ∧
        (s.bp.start.isSome → t.bp.start = s.bp.start) := by
  unfold matchTurn
  simp only
  have hseg := matchSegment_agree text
    ((turnPat c rest).take (npatOffset d (turnPat c rest))) (matchOpen c s)
  have ho := matchOpen_agree c s
  have how : (matchOpen c s).mword = false := by
    unfold matchOpen; split_ifs <;> simp [hw, hc]
  have hos : s.bp.start.isSome → (matchOpen c s).bp.start = s.bp.start := by
    intro h
    have : s.bp.start.isNone = false := by
      cases hs : s.bp.start <;> simp_all
    unfold matchOpen; split_ifs <;> simp_all
  cases hr : matchSegment text ((turnPat c rest).take (npatOffset d (turnPat c rest)))
      (matchOpen c s) with
  | crash => simp [Step.andThen]
  | ret0 b =>
    rw [hr] at hseg
    simp only [Step.andThen]
    simp only at hseg
    rw [hseg]; exact ho
  | go t =>
    rw [hr] at hseg
    simp only at hseg
    obtain ⟨ha, hmw, _, _, hst⟩ := hseg
    have ht : t.mword = false := hmw.trans how
    simp only [Step.andThen, matchWord_noword _ _ _ _ ht]
    refine ⟨ha.trans ho, ?_, ?_⟩
    · simp only [matchClose]; split_ifs <;> simp [ht]
    · intro h
      simp only [matchClose]
      rw [hst (by rw [hos h]; exact h), hos h]

/-- In a pattern without `$` the loop changes at most the bounds in the node,
and a `start` set before is the `start` of the match returned. -/
theorem matchLoop_agree (d : Defines) (text : List Nat) :
    ∀ (fuel : Nat) (pat : List Nat) (st : MState) (r : Bool) (o : basenode), 36 ∉ pat →
    st.mword = false → matchLoop d text fuel pat st = some (r, o) →
    Agree o st.bp ∧ (r = true → st.bp.start.isSome → o.start = st.bp.start) := by
  intro fuel
  induction fuel with
  | zero => intro pat st r o _ _ h; simp [matchLoop] at h
  | succ fuel ih =>
    intro pat st r o hpat hw h
    cases pat with
    | nil =>
      simp only [matchLoop, Option.some.injEq, Prod.mk.injEq] at h
      rw [← h.2]; exact ⟨Agree.refl _, fun _ _ => rfl⟩
    | cons c rest =>
      have hc : c ≠ 36 := fun hc => hpat (hc ▸ List.mem_cons_self _ _)
      have hrest : 36 ∉ rest := fun hr => hpat (List.mem_cons_of_mem _ hr)
      have hnext : 36 ∉ (turnPat c rest).drop (npatOffset d (turnPat c rest)) := by
        intro hm
        have := List.mem_of_mem_drop hm
        unfold turnPat at this
        split_ifs at this
        · exact hrest this
        · exact hpat this
      have ht := matchTurn_agree d text c rest st hw hc
      rw [matchLoop] at h
      cases hr : matchTurn d text c rest st with
      | crash => rw [hr] at h; simp at h
      | ret0 b =>
        rw [hr] at h ht
        simp only [Option.some.injEq, Prod.mk.injEq] at h
        simp only at ht
        rw [← h.2, ← h.1]
        exact ⟨ht, fun hf => by simp at hf⟩
      | go t =>
        rw [hr] at h ht
        simp only at h ht
        obtain ⟨h1, h2⟩ := ih _ t r o hnext ht.2.1 h
        refine ⟨h1.trans ht.1, fun hr2 hs => ?_⟩
        rw [h2 hr2 (by rw [ht.2.2 hs]; exact hs), ht.2.2 hs]

/-- The head of the loop body does not read `bp->end`. -/
theorem matchOpen_setEnd (c : Nat) (e : Option Nat) (s : MState) :
    matchOpen c (setEnd e s) = setEnd e (matchOpen c s) := by
  unfold matchOpen setEnd
  split_ifs <;> rfl

/-- The search of a segment does not read `bp->end`, and overwrites it when
it goes on. -/
theorem matchSegment_setEnd (text mpat : List Nat) (e : Option Nat) (s : MState) :
    match matchSegment text mpat s with
    | .crash => matchSegment text mpat (setEnd e s) = .crash
    | .ret0 _ => ∃ b2, matchSegment text mpat (setEnd e s) = .ret0 b2
    | .go t => matchSegment text mpat (setEnd e s) = .go t := by
  unfold matchSegment
  by_cases hm : mpat = []
  · simp only [hm, ne_eq, not_true_eq_false, if_false]
    cases hp : s.prm with
    | none => simp only [setEnd, hp]
    | some x => simp only [setEnd, hp]
  · simp only [hm, ne_eq, not_false_eq_true, if_true]
    cases hx : s.src with
    | none => simp only [setEnd, hx]
    | some x =>
      simp only [setEnd, hx]
      cases hp : strstr text x mpat with
      | none => exact ⟨_, rfl⟩
      | some p =>
        simp only
        by_cases hc : 0 < s.mbeg ∧ p ≠ x
        · rw [if_pos hc]; exact ⟨_, by rw [if_pos hc]⟩
        · rw [if_neg hc, if_neg hc]

/-- A turn of the loop does not read `bp->end`, and overwrites it when it goes
on. -/
theorem matchTurn_setEnd (d : Defines) (text : List Nat) (c : Nat) (rest : List Nat)
    (e : Option Nat) (s : MState) :
    match matchTurn d text c rest s with
    | .crash => matchTurn d text c rest (setEnd e s) = .crash
    | .ret0 _ => ∃ b2, matchTurn d text c rest (setEnd e s) = .ret0 b2
    | .go t => matchTurn d text c rest (setEnd e s) = .go t := by
  unfold matchTurn
  simp only [matchOpen_setEnd]
  have hseg := matchSegment_setEnd text
    ((turnPat c rest).take (npatOffset d (turnPat c rest))) e (matchOpen c s)
  cases hr : matchSegment text ((turnPat c rest).take (npatOffset d (turnPat c rest)))
      (matchOpen c s) with
  | crash => rw [hr] at hseg; simp only at hseg; rw [hseg]; simp [Step.andThen]
  | ret0 b =>
    rw [hr] at hseg; simp only at hseg
    obtain ⟨b2, hb2⟩ := hseg
    rw [hb2]; simp only [Step.andThen]; exact ⟨_, rfl⟩
  | go t =>
    rw [hr] at hseg; simp only at hseg
    rw [hseg]
    simp only [Step.andThen]
    cases hw : matchWord d text (turnPat c rest).isEmpty t with
    | crash => rfl
    | ret0 b => exact ⟨_, rfl⟩
    | go u => rfl

/-- The initial states for two nodes of the same entry differ in `bp->end` only. -/
theorem matchInit_agree (b n : basenode) (h : Agree b n) (a : Nat) :
    matchInit b a = setEnd b.end_ (matchInit n a) := by
  obtain ⟨h1, h2, h3⟩ := h
  cases b; cases n
  simp only at h1 h2 h3
  subst h1 h2 h3
  rfl

/-- For an entry with `wild` set, `match_mark_or_subst` is its loop. -/
theorem match_wild_eq (d : Defines) (text : List Nat) (n : basenode) (a : Nat)
    (hw : n.wild = true) :
    match_mark_or_subst d text n a
      = matchLoop d text (n.pattern.length + 1) n.pattern (matchInit n a) := by
  unfold match_mark_or_subst
  simp [hw]

/-- For an entry with `wild` set and a non-empty pattern without `$`, the run
does not depend on the bounds left in the node. -/
theorem match_wild_indep (d : Defines) (text : List Nat) (b n : basenode) (a : Nat)
    (hw : n.wild = true) (hne : n.pattern ≠ []) (h36 : 36 ∉ n.pattern) (hab : Agree b n) :
    (match_mark_or_subst d text b a = none ∧ match_mark_or_subst d text n a = none) ∨
    (∃ o o2, match_mark_or_subst d text b a = some (false, o) ∧
      match_mark_or_subst d text n a = some (false, o2) ∧ Agree o n) ∨
    (∃ o, match_mark_or_subst d text b a = some (true, o) ∧
      match_mark_or_subst d text n a = some (true, o) ∧ Agree o n) := by
  have hbw : b.wild = true := hab.2.2.trans hw
  have h36b : 36 ∉ b.pattern := by rw [hab.1]; exact h36
  have hagb := fun r o => matchLoop_agree d text (b.pattern.length + 1) b.pattern
    (matchInit b a) r o h36b rfl
  rw [match_wild_eq d text b a hbw, match_wild_eq d text n a hw] at *
  have hagn : ∀ r o, matchLoop d text (b.pattern.length + 1) b.pattern (matchInit b a)
      = some (r, o) → Agree o n :=
    fun r o h => ((hagb r o h).1.trans ⟨rfl, rfl, rfl⟩).trans hab
  rw [matchInit_agree b n hab a] at hagn ⊢
  rw [hab.1] at hagn ⊢
  cases hp : n.pattern with
  | nil => exact absurd hp hne
  | cons c rest =>
    rw [hp] at hagn
    simp only [List.length_cons]
    rw [matchLoop, matchLoop] at *
    have ht := matchTurn_setEnd d text c rest b.end_ (matchInit n a)
    cases hr : matchTurn d text c rest (matchInit n a) with
    | crash => rw [hr] at ht; simp only at ht; rw [ht]; left; exact ⟨rfl, rfl⟩
    | ret0 o2 =>
      rw [hr] at ht; simp only at ht
      obtain ⟨b2, hb2⟩ := ht
      rw [hb2] at hagn ⊢
      right; left
      exact ⟨b2, o2, rfl, rfl, hagn false b2 rfl⟩
    | go t =>
      rw [hr] at ht; simp only at ht
      rw [ht] at hagn ⊢
      simp only at hagn ⊢
      cases hl : matchLoop d text (rest.length + 1)
          ((turnPat c rest).drop (npatOffset d (turnPat c rest))) t with
      | none => left; exact ⟨rfl, rfl⟩
      | some q =>
        obtain ⟨r, o⟩ := q
        have := hagn r o hl
        cases r with
        | false => right; left; exact ⟨o, o, rfl, rfl, this⟩
        | true => right; right; exact ⟨o, rfl, rfl, this⟩

/-- What is left of a pattern without `$` is without `$`. -/
theorem drop_no36 (d : Defines) (c : Nat) (rest : List Nat) (h : 36 ∉ c :: rest) :
    36 ∉ (turnPat c rest).drop (npatOffset d (turnPat c rest)) := by
  intro hm
  have := List.mem_of_mem_drop hm
  unfold turnPat at this
  split_ifs at this
  · exact h (List.mem_cons_of_mem _ this)
  · exact h this

/-- A pointer in the C string that ends at `z` is not behind `z`. -/
theorem InStr.le {text : List Nat} {z p : Nat} (h : InStr text z (some p)) : p ≤ z := by
  have : p + strlen text p = z := h
  omega

/-- An offset between a pointer in the C string that ends at `z` and `z` lies
in that C string. -/
theorem InStr.later {text : List Nat} {z p : Nat} (h : InStr text z (some p)) (q : Nat)
    (hpq : p ≤ q) (hq : q ≤ z) : InStr text z (some q) := by
  have hp : p + strlen text p = z := h
  have := strlen_later text p q hpq (by omega)
  show q + strlen text q = z
  omega

/-- The head of the loop body keeps the pointers in the C string. -/
theorem matchOpen_bounded (text : List Nat) (z c : Nat) (s : MState)
    (h : Bounded text z s) : Bounded text z (matchOpen c s) := by
  unfold matchOpen
  by_cases hc : ISMARKWILDCARD c = true
  · rw [if_pos hc]; exact ⟨h.1, h.2.1, h.1⟩
  · rw [if_neg hc]; exact h

/-- The search of a segment keeps the pointers in the C string that ends at
`z`; the end of the occurrence and the end of the match it sets are not behind
`z`. -/
theorem matchSegment_bounded (text mpat : List Nat) (z : Nat) (s t : MState)
    (h : Bounded text z s) (hr : matchSegment text mpat s = .go t) :
    Bounded text z t ∧ InStr text z (t.nsrc.map (· + mpat.length)) ∧
    ∀ e, t.bp.end_ = some e → e ≤ z := by
  obtain ⟨h1, h2, h3⟩ := h
  unfold matchSegment at hr
  by_cases hm : mpat = []
  · simp only [hm, ne_eq, not_true_eq_false, if_false] at hr
    have hz : ∀ o : Option Nat, o.map (· + ([] : List Nat).length) = o := by
      intro o; cases o <;> simp
    cases hp : s.prm with
    | none =>
      rw [hp] at hr
      simp only [Step.go.injEq] at hr
      subst hr
      subst hm
      refine ⟨⟨h1, h2, by rw [hp] at h3; exact h3⟩, by rw [hz]; exact h2, ?_⟩
      intro e he
      simp only at he
      rw [he] at h1
      exact h1.le
    | some prm =>
      have h4 : prm + strlen text prm = z := by rw [hp] at h3; exact h3
      rw [hp] at hr
      simp only [Step.go.injEq] at hr
      subst hr
      subst hm
      refine ⟨⟨h1, h2, h4⟩, by rw [hz]; exact h2, ?_⟩
      intro e he
      simp only [Option.some.injEq] at he
      omega
  · simp only [hm, ne_eq, not_false_eq_true, if_true] at hr
    cases hx : s.src with
    | none => rw [hx] at hr; simp at hr
    | some x =>
      rw [hx] at hr h1
      simp only at hr
      cases hp : strstr text x mpat with
      | none => rw [hp] at hr; simp at hr
      | some p =>
        rw [hp] at hr
        simp only at hr
        have hb := strstr_bound text x mpat p hp
        have hxz : x + strlen text x = z := h1
        by_cases hc : 0 < s.mbeg ∧ p ≠ x
        · rw [if_pos hc] at hr; simp at hr
        · rw [if_neg hc] at hr
          simp only [Step.go.injEq] at hr
          subst hr
          refine ⟨⟨by simp only [hx]; exact h1, h1.later p hb.1 (by omega), h3⟩,
            h1.later (p + mpat.length) (by omega) (by omega), ?_⟩
          intro e he
          simp only [Option.some.injEq] at he
          omega

/-- A turn of the loop, for a byte other than `$` and no `$` pending, keeps the
pointers in the C string that ends at `z` and leaves an end of the match that
is not behind `z`. -/
theorem matchTurn_bounded (d : Defines) (text : List Nat) (z c : Nat) (rest : List Nat)
    (s t : MState) (hw : s.mword = false) (hc : c ≠ 36) (h : Bounded text z s)
    (hr : matchTurn d text c rest s = .go t) :
    Bounded text z t ∧ ∀ e, t.bp.end_ = some e → e ≤ z := by
  have how : (matchOpen c s).mword = false := by
    unfold matchOpen; split_ifs <;> simp [hw, hc]
  unfold matchTurn at hr
  simp only at hr
  cases hseg : matchSegment text ((turnPat c rest).take (npatOffset d (turnPat c rest)))
      (matchOpen c s) with
  | crash => rw [hseg] at hr; simp [Step.andThen] at hr
  | ret0 b => rw [hseg] at hr; simp [Step.andThen] at hr
  | go u =>
    rw [hseg] at hr
    have hu : u.mword = false := (matchSegment_mword _ _ _ _ hseg).trans how
    simp only [Step.andThen, matchWord_noword _ _ _ _ hu, Step.go.injEq] at hr
    obtain ⟨⟨_, b2, b3⟩, b4, b5⟩ :=
      matchSegment_bounded text _ z _ u (matchOpen_bounded text z c s h) hseg
    subst hr
    exact ⟨⟨b4, b2, b3⟩, b5⟩

/-- In a pattern without `$`, a match returned by the loop ends in the C
string in which the run was started. -/
theorem matchLoop_end_le (d : Defines) (text : List Nat) (z : Nat) :
    ∀ (fuel : Nat) (pat : List Nat) (st : MState) (o : basenode), 36 ∉ pat →
    st.mword = false → Bounded text z st →
    (pat ≠ [] ∨ ∀ e, st.bp.end_ = some e → e ≤ z) →
    matchLoop d text fuel pat st = some (true, o) → ∀ e, o.end_ = some e → e ≤ z := by
  intro fuel
  induction fuel with
  | zero => intro pat st o _ _ _ _ h; simp [matchLoop] at h
  | succ fuel ih =>
    intro pat st o hpat hw hb hend h
    cases pat with
    | nil =>
      simp only [matchLoop, Option.some.injEq, Prod.mk.injEq, true_and] at h
      subst h
      rcases hend with hne | hend
      · exact absurd rfl hne
      · exact hend
    | cons c rest =>
      have hc : c ≠ 36 := fun hc => hpat (hc ▸ List.mem_cons_self _ _)
      have hnext := drop_no36 d c rest hpat
      have ht := matchTurn_agree d text c rest st hw hc
      rw [matchLoop] at h
      cases hr : matchTurn d text c rest st with
      | crash => rw [hr] at h; simp at h
      | ret0 b => rw [hr] at h; simp at h
      | go t =>
        rw [hr] at h ht
        simp only at h ht
        obtain ⟨b1, b2⟩ := matchTurn_bounded d text z c rest st t hw hc hb hr
        exact ih _ t o hnext ht.2.1 b1 (Or.inr b2) h

/-- In a pattern without `$`, when the run started further left returns 0, so
does the run started further right in the same C string. -/
theorem matchLoop_fail_later (d : Defines) (text : List Nat) (z : Nat) :
    ∀ (fuel : Nat) (pat : List Nat) (st st2 : MState), 36 ∉ pat → Sim st st2 →
    Bounded text z st → Bounded text z st2 →
    (∃ o, matchLoop d text fuel pat st = some (false, o)) →
    ∃ o2, matchLoop d text fuel pat st2 = some (false, o2) := by
  intro fuel
  induction fuel with
  | zero => intro pat st st2 _ _ _ _ h; simp [matchLoop] at h
  | succ fuel ih =>
    intro pat st st2 hpat hsim hb1 hb2 h
    cases pat with
    | nil => simp [matchLoop] at h
    | cons c rest =>
      have hc : c ≠ 36 := fun hc => hpat (hc ▸ List.mem_cons_self _ _)
      have hnext := drop_no36 d c rest hpat
      obtain ⟨o, h⟩ := h
      have hsrc : ∀ x y, st.src = some x → st2.src = some y → y ≤ x + strlen text x := by
        intro x y hx hy
        have e1 : x + strlen text x = z := by have := hb1.1; rw [hx] at this; exact this
        have e2 : y ≤ z := by have := hb2.1; rw [hy] at this; exact this.le
        omega
      have hts := matchTurn_sim d text c rest hc st st2 hsim hsrc
      rw [matchLoop] at h ⊢
      cases hr : matchTurn d text c rest st with
      | crash => rw [hr] at h; simp at h
      | ret0 b =>
        rw [hr] at hts
        cases hr2 : matchTurn d text c rest st2 with
        | crash => rw [hr2] at hts; exact hts.elim
        | ret0 b2 => exact ⟨b2, rfl⟩
        | go t2 => rw [hr2] at hts; exact hts.elim
      | go t =>
        rw [hr] at hts h
        cases hr2 : matchTurn d text c rest st2 with
        | crash => rw [hr2] at hts; exact hts.elim
        | ret0 b2 => exact ⟨b2, rfl⟩
        | go t2 =>
          rw [hr2] at hts
          exact ih _ t t2 hnext hts
            (matchTurn_bounded d text z c rest st t hsim.1 hc hb1 hr).1
            (matchTurn_bounded d text z c rest st2 t2 hsim.2.1 hc hb2 hr2).1 ⟨o, h⟩

/-- For an entry with `wild` set, a pattern without `$` and no anchor: a run
that returns 0 from `a` returns 0 from every `b` behind `a` in the C string at
`a`. -/
theorem match_wild_fail_later (d : Defines) (text : List Nat) (n : basenode) (a b : Nat)
    (hw : n.wild = true) (h36 : 36 ∉ n.pattern) (hm : n.mbeg = 0) (hab : a ≤ b)
    (hb : b ≤ a + strlen text a)
    (h : ∃ o, match_mark_or_subst d text n a = some (false, o)) :
    ∃ o2, match_mark_or_subst d text n b = some (false, o2) := by
  rw [match_wild_eq d text n _ hw] at h ⊢
  refine matchLoop_fail_later d text (a + strlen text a) _ _ (matchInit n a) (matchInit n b)
    h36 ?_ ⟨rfl, trivial, trivial⟩ ⟨strlen_later text a b hab hb, trivial, trivial⟩ h
  refine ⟨rfl, rfl, ?_, ?_, hab, trivial⟩ <;>
  · simp only [matchInit, hm]; split_ifs <;> omega

/-- For an entry with `wild` set and a non-empty pattern without `$`: a match
from `a` ends in the C string at `a`. -/
theorem match_wild_end_le (d : Defines) (text : List Nat) (n : basenode) (a : Nat)
    (hw : n.wild = true) (hne : n.pattern ≠ []) (h36 : 36 ∉ n.pattern)
    (o : basenode) (e : Nat) (h : match_mark_or_subst d text n a = some (true, o))
    (he : o.end_ = some e) : e ≤ a + strlen text a := by
  rw [match_wild_eq d text n _ hw] at h
  exact matchLoop_end_le d text (a + strlen text a) _ _ (matchInit n a) o h36 rfl
    ⟨rfl, trivial, trivial⟩ (Or.inl hne) h e he

/-- `first_valid` steps over a first byte that is not the byte looked for. -/
theorem first_valid_pos (d : Defines) (c : Nat) (rest : List Nat) (ch : Nat) (h : c ≠ ch) :
    1 ≤ first_valid d (c :: rest) ch := by
  simp only [first_valid, h, ne_eq, not_false_eq_true, if_true]
  omega

/-- A pattern that starts with a literal byte has a non-empty first segment. -/
theorem npatOffset_pos (d : Defines) (c : Nat) (rest : List Nat)
    (hc : ISMARKWILDCARD c = false) : 1 ≤ npatOffset d (c :: rest) := by
  have h38 : c ≠ 38 := by intro h; subst h; simp [ISMARKWILDCARD] at hc
  have h36 : c ≠ 36 := by intro h; subst h; simp [ISMARKWILDCARD] at hc
  have a := first_valid_pos d c rest 38 h38
  have b := first_valid_pos d c rest 36 h36
  unfold npatOffset
  split_ifs <;> assumption

/-- The first turn for a pattern that starts with a literal byte: the segment
is searched from the scan start, and the state reached depends on the scan
start only through the occurrence found. -/
theorem matchTurn_literal (d : Defines) (text : List Nat) (c : Nat) (rest : List Nat)
    (n : basenode) (a : Nat) (hc : ISMARKWILDCARD c = false) (hp : n.pattern = c :: rest)
    (hm : n.mbeg = 0) :
    matchTurn d text c rest (matchInit n a) =
      match strstr text a ((c :: rest).take (npatOffset d (c :: rest))) with
      | none => .ret0 { n with start := none }
      | some p => .go (afterLiteral n p
          ((c :: rest).take (npatOffset d (c :: rest))).length) := by
  have hpos := npatOffset_pos d c rest hc
  have hne : (c :: rest).take (npatOffset d (c :: rest)) ≠ [] := by
    obtain ⟨k, hk⟩ : ∃ k, npatOffset d (c :: rest) = k + 1 :=
      ⟨_, (Nat.sub_add_cancel hpos).symm⟩
    rw [hk]; simp
  have hmb : (matchInit n a).mbeg = 0 := by
    simp [matchInit, hp, hc, hm]
  unfold matchTurn
  simp only [turnPat, matchOpen, hc, Bool.false_eq_true, if_false]
  unfold matchSegment
  simp only [hne, ne_eq, not_false_eq_true, if_true]
  have hsrc : (matchInit n a).src = some a := rfl
  simp only [hsrc]
  cases hs : strstr text a ((c :: rest).take (npatOffset d (c :: rest))) with
  | none => simp [Step.andThen, matchInit]
  | some p =>
    simp only [hmb, lt_self_iff_false, false_and, if_false, Step.andThen]
    rw [matchWord_noword _ _ _ _ rfl]
    simp [matchClose, afterLiteral, matchInit]

/-- The first turn for a pattern that starts with `&`: the match starts at the
scan start. -/
theorem matchTurn_amp (d : Defines) (text : List Nat) (c : Nat) (rest : List Nat)
    (n : basenode) (a : Nat) (hc : ISMARKWILDCARD c = true) (h36 : c ≠ 36) (t : MState)
    (h : matchTurn d text c rest (matchInit n a) = .go t) :
    t.bp.start = some a ∧ t.mword = false := by
  have e : matchTurn d text c rest (matchInit n a)
      = matchTurn d text c rest
          { matchInit n a with bp := { (matchInit n a).bp with start := some a } } := by
    unfold matchTurn
    simp [matchOpen, hc, h36, matchInit]
  rw [e] at h
  have := matchTurn_agree d text c rest
    { matchInit n a with bp := { (matchInit n a).bp with start := some a } } rfl h36
  rw [h] at this
  simp only at this
  exact ⟨this.2.2 rfl, this.2.1⟩

/-- For an entry with `wild` set, a pattern without `$` and no anchor: a match
from `a` that starts at `s` is the match from every `b` between `a` and `s`. -/
theorem match_wild_keep_later (d : Defines) (text : List Nat) (n : basenode) (a b : Nat)
    (hw : n.wild = true) (h36 : 36 ∉ n.pattern) (hm : n.mbeg = 0)
    (o : basenode) (s : Nat) (h : match_mark_or_subst d text n a = some (true, o))
    (hs : o.start = some s) (hab : a ≤ b) (hbs : b ≤ s) :
    match_mark_or_subst d text n b = some (true, o) := by
  rw [match_wild_eq d text n _ hw] at h ⊢
  cases hp : n.pattern with
  | nil =>
    -- the empty pattern leaves `start` at `NULL`
    rw [hp] at h
    simp only [List.length_nil, matchLoop, Option.some.injEq, Prod.mk.injEq, true_and] at h
    rw [← h] at hs
    simp [matchInit] at hs
  | cons c rest =>
    rw [hp] at h h36
    have hc36 : c ≠ 36 := fun hc => h36 (hc ▸ List.mem_cons_self _ _)
    have hnext := drop_no36 d c rest h36
    simp only [List.length_cons] at h ⊢
    rw [matchLoop] at h ⊢
    cases hcw : ISMARKWILDCARD c with
    | true =>
      cases hr : matchTurn d text c rest (matchInit n a) with
      | crash => rw [hr] at h; simp at h
      | ret0 _ => rw [hr] at h; simp at h
      | go t =>
        rw [hr] at h
        simp only at h
        obtain ⟨ht1, ht2⟩ := matchTurn_amp d text c rest n a hcw hc36 t hr
        have := (matchLoop_agree d text _ _ t true o hnext ht2 h).2 rfl (by rw [ht1]; rfl)
        rw [this, ht1] at hs
        simp only [Option.some.injEq] at hs
        have hba : b = a := by omega
        rw [hba, hr]
        exact h
    | false =>
      rw [matchTurn_literal d text c rest n a hcw hp hm] at h
      rw [matchTurn_literal d text c rest n b hcw hp hm]
      cases hx : strstr text a ((c :: rest).take (npatOffset d (c :: rest))) with
      | none => rw [hx] at h; simp at h
      | some p =>
        rw [hx] at h
        simp only at h
        have := (matchLoop_agree d text _ _ _ true o hnext rfl h).2 rfl rfl
        rw [this] at hs
        simp only [afterLiteral, Option.some.injEq] at hs
        subst hs
        rw [strstr_later text a b _ p hx hab hbs]
        exact h

/-- For an entry without `wild`, `match_mark_or_subst` is `strstr`. -/
theorem match_plain_eq (d : Defines) (text : List Nat) (n : basenode) (a : Nat)
    (hw : n.wild = false) :
    match_mark_or_subst d text n a =
      match strstr text a n.pattern with
      | some s => some (true, { n with start := some s, end_ := some (s + n.pattern.length) })
      | none => some (false, n) := by
  unfold match_mark_or_subst
  rw [if_pos hw]

/-- An entry without wildcards is stable. -/
theorem stable_of_plain (d : Defines) (text : List Nat) (n : basenode)
    (hw : n.wild = false) : Stable d text n := by
  refine ⟨?_, ?_, ?_, ?_⟩
  · intro b line hab
    have hbw : b.wild = false := hab.2.2.trans hw
    have hpe : strstr text line b.pattern = strstr text line n.pattern := by rw [hab.1]
    rw [match_plain_eq d text b line hbw, match_plain_eq d text n line hw, hpe]
    cases hs : strstr text line n.pattern with
    | none => right; left; exact ⟨b, n, rfl, rfl, hab⟩
    | some s =>
      right; right
      have : ({ b with start := some s, end_ := some (s + b.pattern.length) } : basenode)
          = { n with start := some s, end_ := some (s + n.pattern.length) } := by
        obtain ⟨h1, h2, h3⟩ := hab
        cases b; cases n; simp_all
      exact ⟨_, by simp only [this], rfl, ⟨rfl, rfl, rfl⟩⟩
  · intro a b hab hb h
    rw [match_plain_eq d text n _ hw] at h ⊢
    obtain ⟨o, h⟩ := h
    cases hs : strstr text a n.pattern with
    | none => rw [strstr_later_none text a b _ hs hab hb]; exact ⟨n, rfl⟩
    | some s => rw [hs] at h; simp at h
  · intro a b o s h hos hab hbs
    rw [match_plain_eq d text n _ hw] at h ⊢
    cases hs : strstr text a n.pattern with
    | none => rw [hs] at h; simp at h
    | some s0 =>
      rw [hs] at h
      simp only [Option.some.injEq, Prod.mk.injEq, true_and] at h
      rw [← h] at hos
      simp only [Option.some.injEq] at hos
      subst hos
      rw [strstr_later text a b _ s0 hs hab hbs, ← h]
  · intro a o e h he
    rw [match_plain_eq d text n _ hw] at h
    cases hs : strstr text a n.pattern with
    | none => rw [hs] at h; simp at h
    | some s0 =>
      rw [hs] at h
      simp only [Option.some.injEq, Prod.mk.injEq, true_and] at h
      rw [← h] at he
      simp only [Option.some.injEq] at he
      have := strstr_bound text a n.pattern s0 hs
      omega

/-- An entry without anchor and without `$` is stable. -/
theorem stable_of_noDollar (d : Defines) (text : List Nat) (n : basenode)
    (h : NoDollar n) : Stable d text n := by
  obtain ⟨hm, hw | ⟨hne, h36⟩⟩ := h
  · exact stable_of_plain d text n hw
  · cases hw : n.wild with
    | false => exact stable_of_plain d text n hw
    | true =>
      exact ⟨fun b line hab => match_wild_indep d text b n line hw hne h36 hab,
        fun a b hab hb hf => match_wild_fail_later d text n a b hw h36 hm hab hb hf,
        fun a b o s h hos hab hbs =>
          match_wild_keep_later d text n a b hw h36 hm o s h hos hab hbs,
        fun a o e h he => match_wild_end_le d text n a hw hne h36 o e h he⟩

/-- What a run from `line` gives stays valid as a kept match for every later
scan start in the C string at `line`. -/
theorem Fresh.kept {d : Defines} {text : List Nat} {line e : Nat} {b n : basenode}
    (hst : Stable d text n) (h : Fresh d text line b n) (hle : line ≤ e)
    (hez : e ≤ line + strlen text line) :
    Kept d text e b n := by
  obtain ⟨hag, hc⟩ := h
  refine ⟨hag, fun s hs hes => ⟨hag, ?_⟩⟩
  rcases hc with h1 | ⟨h1, h2⟩
  · left; exact hst.keep_later line e b s h1 hs hle hes
  · right; exact ⟨hst.fail_later line e hle hez h1, h2⟩

/-- One entry: either the kept-match loop and the naive engine both crash, or
the loop leaves the node as a run from `line` gives it and both make the same
choice of `mfirst`. -/
theorem scanEntry_naive (d : Defines) (text : List Nat) (line : Nat) (start : Bool)
    (b n : basenode) (hst : Stable d text n) (hm : n.mbeg = 0) (hk : Kept d text line b n) :
    (scanEntry d text line start b = none ∧ match_mark_or_subst d text n line = none) ∨
    ∃ matched b1 ok n1, scanEntry d text line start b = some (matched, b1) ∧
      match_mark_or_subst d text n line = some (ok, n1) ∧ Fresh d text line b1 n ∧
      ∀ (i : Nat) (best : Option (Nat × basenode)),
        (if matched = true ∧ ptrLt b1.start (some text.length) = true ∧
            beforeFirst b1.start best = true then some (i, b1) else best)
        = (if ok = true ∧ ptrLt n1.start (some text.length) = true ∧
            beforeFirst n1.start best = true then some (i, n1) else best) := by
  obtain ⟨hag, hc⟩ := hk
  have hbm : b.mbeg = 0 := hag.2.1.trans hm
  by_cases hcache : b.start.isSome = true ∧ ¬ ptrLt b.start (some line) = true
  · right
    obtain ⟨s, hs⟩ := Option.isSome_iff_exists.1 hcache.1
    have hls : line ≤ s := by
      have := hcache.2
      rw [hs] at this
      simp [ptrLt, addr] at this
      omega
    have hf := hc s hs hls
    have hse : scanEntry d text line start b = some (true, b) := by
      unfold scanEntry; rw [if_pos hcache]
    rcases hf.2 with h1 | ⟨⟨o, h1⟩, h2⟩
    · exact ⟨true, b, true, b, hse, h1, hf, fun i best => rfl⟩
    · refine ⟨true, b, false, o, hse, h1, hf, fun i best => ?_⟩
      have : ptrLt b.start (some text.length) = false := by
        rw [h2]; simp [ptrLt]
      simp [this]
  · have hse : scanEntry d text line start b =
        match match_mark_or_subst d text b line with
        | none => none
        | some (true, bp1) => some (true, bp1)
        | some (false, bp1) => some (false, { bp1 with start := some text.length }) := by
      unfold scanEntry
      rw [if_neg hcache, if_pos (Or.inl hbm)]
    rcases hst.indep b line hag with ⟨h1, h2⟩ | ⟨o, o2, h1, h2, h3⟩ | ⟨o, h1, h2, h3⟩
    · left; rw [hse, h1]; exact ⟨rfl, h2⟩
    · right
      rw [h1] at hse
      refine ⟨false, _, false, o2, hse, h2, ⟨h3, Or.inr ⟨⟨o2, h2⟩, rfl⟩⟩,
        fun i best => ?_⟩
      simp
    · right
      rw [h1] at hse
      exact ⟨true, o, true, o, hse, h2, ⟨h3, Or.inl h2⟩, fun i best => rfl⟩

/-- One turn: on entries without anchor and without `$`, either both engines
crash, or the `for` loop with kept matches chooses what the naive turn
chooses and leaves every node as a run from `line` gives it. -/
theorem scanPass_naive (d : Defines) (text : List Nat) (line : Nat) (start : Bool) :
    ∀ (bs nodes : List basenode), List.Forall₂ (Kept d text line) bs nodes →
    (∀ n ∈ nodes, NoDollar n) →
    ∀ (i0 : Nat) (m0 : Option (Nat × basenode)),
    (scanPass d text line start bs i0 m0 = none ∧ naivePass d text line nodes i0 m0 = none) ∨
    ∃ bs1 m, scanPass d text line start bs i0 m0 = some (bs1, m) ∧
      naivePass d text line nodes i0 m0 = some m ∧
      List.Forall₂ (Fresh d text line) bs1 nodes := by
  intro bs nodes hrel
  induction hrel with
  | nil =>
    intro _ i0 m0
    exact Or.inr ⟨[], m0, by simp [scanPass], by simp [naivePass], List.Forall₂.nil⟩
  | @cons b n bs nodes hk _ ih =>
    intro hplain i0 m0
    have hn := hplain n (List.mem_cons_self _ _)
    rcases scanEntry_naive d text line start b n (stable_of_noDollar d text n hn) hn.1 hk with
      ⟨h1, h2⟩ | ⟨matched, b1, ok, n1, hse, hna, hfresh, hpick⟩
    · left; simp only [scanPass, naivePass, h1, h2, and_self]
    · rcases ih (fun n hn => hplain n (List.mem_cons_of_mem _ hn)) (i0 + 1)
        (if matched = true ∧ ptrLt b1.start (some text.length) = true ∧
            beforeFirst b1.start m0 = true then some (i0, b1) else m0) with
        ⟨h1, h2⟩ | ⟨bs1, m, h1, h2, h3⟩
      · left
        simp only [scanPass, naivePass, hse, hna, h1, ← hpick i0 m0, h2, and_self]
      · right
        refine ⟨b1 :: bs1, m, ?_, ?_, List.Forall₂.cons hfresh h3⟩
        · simp only [scanPass, hse, h1]
        · simp only [naivePass, hna, ← hpick i0 m0, h2]

/-- At the start no node keeps a match. -/
theorem kept_initial (d : Defines) (text : List Nat) (nodes : List basenode) :
    List.Forall₂ (Kept d text 0) (nodes.map (fun b => { b with start := none })) nodes := by
  induction nodes with
  | nil => exact List.Forall₂.nil
  | cons n nodes ih =>
    refine List.Forall₂.cons ⟨⟨rfl, rfl, rfl⟩, ?_⟩ ih
    intro s hs; simp at hs

/-- The nodes left by a turn are valid for every later scan start in the C
string at `line`. -/
theorem fresh_advance (d : Defines) (text : List Nat) (line e : Nat) (hle : line ≤ e)
    (hez : e ≤ line + strlen text line) :
    ∀ (bs nodes : List basenode), (∀ n ∈ nodes, NoDollar n) →
    List.Forall₂ (Fresh d text line) bs nodes → List.Forall₂ (Kept d text e) bs nodes := by
  intro bs nodes hn h
  induction h with
  | nil => exact List.Forall₂.nil
  | @cons b n bs nodes hf _ ih =>
    exact List.Forall₂.cons
      (Fresh.kept (stable_of_noDollar d text n (hn n (List.mem_cons_self _ _))) hf hle hez)
      (ih (fun m hm => hn m (List.mem_cons_of_mem _ hm)))

/-- The entry chosen by a turn on entries without anchor and without `$`
matches within the C string at the scan start: the end of its match is not
behind the first NUL byte at or behind `line`. -/
theorem chosen_end_le (d : Defines) (text : List Nat) (line : Nat) (start : Bool)
    (bs bs1 nodes : List basenode) (i : Nat) (mf : basenode) (e : Nat)
    (hsp : scanPass d text line start bs 0 none = some (bs1, some (i, mf)))
    (hfr : List.Forall₂ (Fresh d text line) bs1 nodes) (hn : ∀ n ∈ nodes, NoDollar n)
    (he : mf.end_ = some e) : e ≤ line + strlen text line := by
  obtain ⟨_, _, h3⟩ := scanPass_best d text line start bs 0 none bs1 _ hsp (le_refl _)
  rcases h3 with h3 | ⟨k, mf2, hm, hget, hlt, _⟩
  · simp at h3
  · simp only [Option.some.injEq, Prod.mk.injEq, Nat.zero_add] at hm
    obtain ⟨rfl, rfl⟩ := hm
    simp only [bestKey] at hlt
    obtain ⟨hk, hmf⟩ := List.getElem?_eq_some_iff.1 hget
    have hk2 : i < nodes.length := by rw [← hfr.length_eq]; exact hk
    have hf : Fresh d text line mf nodes[i] := by
      have := List.Forall₂.get hfr hk hk2
      simp only [List.get_eq_getElem] at this
      rwa [hmf] at this
    have hno := hn nodes[i] (List.getElem_mem hk2)
    rcases hf.2 with h1 | ⟨_, h2⟩
    · exact (stable_of_noDollar d text _ hno).end_le line mf e h1 he
    · rw [h2] at hlt
      simp [addr] at hlt

/-- The scan loop of `ptrmaddsubst` and the naive loop agree from every state
in which the kept matches are valid. -/
theorem substLoop_naive (d : Defines) (substitutions : List substnode) (text : List Nat)
    (hplain : ∀ n ∈ substitutions.map (fun sp => sp.b), NoDollar n) :
    ∀ (fuel line : Nat) (start : Bool) (bs : List basenode) (dst : List Nat),
    List.Forall₂ (Kept d text line) bs (substitutions.map (fun sp => sp.b)) →
    ptrmaddsubstLoop d substitutions text fuel line start bs dst
      = naiveSubstLoop d substitutions text fuel line dst := by
  intro fuel
  induction fuel with
  | zero => intro line start bs dst _; simp [ptrmaddsubstLoop, naiveSubstLoop]
  | succ fuel ih =>
    intro line start bs dst hk
    rw [ptrmaddsubstLoop, naiveSubstLoop]
    rcases scanPass_naive d text line start bs _ hk hplain 0 none with
      ⟨h1, h2⟩ | ⟨bs1, m, h1, h2, h3⟩
    · rw [h1, h2]
    · rw [h1, h2]
      cases m with
      | none => rfl
      | some q =>
        obtain ⟨i, mf⟩ := q
        simp only
        cases hms : mf.start with
        | none => rfl
        | some s =>
          cases hme : mf.end_ with
          | none => rfl
          | some e =>
            cases substitutions[i]? with
            | none => rfl
            | some sp =>
              simp only
              by_cases hg : line ≤ s ∧ s ≤ e ∧ e ≤ text.length
              · simp only [hg, and_self, if_true]
                exact ih _ _ _ _ (fresh_advance d text line e (by omega)
                  (chosen_end_le d text line start bs bs1 _ i mf e h1 h3 hplain hme)
                  _ _ hplain h3)
              · simp only [hg, if_false]

/-- The scan loop of `ptrmaddmarks` and the naive loop agree from every state
in which the kept matches are valid. -/
theorem marksLoop_naive (d : Defines) (attr_string : Nat → List Nat × List Nat)
    (markers : List marknode) (text : List Nat)
    (hplain : ∀ n ∈ markers.map (fun mp => mp.b), NoDollar n) :
    ∀ (fuel line : Nat) (start : Bool) (bs : List basenode) (dst : List Nat),
    List.Forall₂ (Kept d text line) bs (markers.map (fun mp => mp.b)) →
    ptrmaddmarksLoop d attr_string markers text fuel line start bs dst
      = naiveMarksLoop d attr_string markers text fuel line dst := by
  intro fuel
  induction fuel with
  | zero => intro line start bs dst _; simp [ptrmaddmarksLoop, naiveMarksLoop]
  | succ fuel ih =>
    intro line start bs dst hk
    rw [ptrmaddmarksLoop, naiveMarksLoop]
    rcases scanPass_naive d text line start bs _ hk hplain 0 none with
      ⟨h1, h2⟩ | ⟨bs1, m, h1, h2, h3⟩
    · rw [h1, h2]
    · rw [h1, h2]
      cases m with
      | none => rfl
      | some q =>
        obtain ⟨i, mf⟩ := q
        simp only
        cases hms : mf.start with
        | none => rfl
        | some s =>
          cases hme : mf.end_ with
          | none => rfl
          | some e =>
            cases markers[i]? with
            | none => rfl
            | some mp =>
              simp only
              by_cases hg : line ≤ s ∧ s ≤ e ∧ e ≤ text.length
              · simp only [hg, and_self, if_true]
                exact ih _ _ _ _ (fresh_advance d text line e (by omega)
                  (chosen_end_le d text line start bs bs1 _ i mf e h1 h3 hplain hme)
                  _ _ hplain h3)
              · simp only [hg, if_false]

/-- C10, amended: for every list of entries that are not anchored and are
either without wildcards or have a non-empty pattern without `$` (so with `&`
as only wildcard), for every line (with or without NUL bytes) and every fuel,
`ptrmaddsubst` and `ptrmaddmarks` (which keep a match whose start is not before
the scan start and park a failed entry at the end of the line) give the same
result as the naive engines, which run `match_mark_or_subst` for every entry in
every turn. -/
theorem C10_cached_eq_naive_noDollar (d : Defines) (attr_string : Nat → List Nat × List Nat)
    (substitutions : List substnode) (markers : List marknode) (L : List Nat) (fuel : Nat)
    (hs : ∀ sp ∈ substitutions,
      sp.b.mbeg = 0 ∧ (sp.b.wild = false ∨ (sp.b.pattern ≠ [] ∧ 36 ∉ sp.b.pattern)))
    (hm : ∀ mp ∈ markers,
      mp.b.mbeg = 0 ∧ (mp.b.wild = false ∨ (mp.b.pattern ≠ [] ∧ 36 ∉ mp.b.pattern))) :
    ptrmaddsubst d substitutions fuel L = naiveSubst d substitutions fuel L ∧
    ptrmaddmarks d attr_string markers fuel L = naiveMarks d attr_string markers fuel L := by
  have hs2 : ∀ n ∈ substitutions.map (fun sp => sp.b), NoDollar n := by
    intro n hn
    obtain ⟨sp, hsp, rfl⟩ := List.mem_map.1 hn
    exact hs sp hsp
  have hm2 : ∀ n ∈ markers.map (fun mp => mp.b), NoDollar n := by
    intro n hn
    obtain ⟨mp, hmp, rfl⟩ := List.mem_map.1 hn
    exact hm mp hmp
  unfold ptrmaddsubst naiveSubst ptrmaddmarks naiveMarks
  by_cases hL : L = []
  · simp [hL]
  · simp only [hL, if_false]
    constructor
    · apply substLoop_naive d substitutions L hs2
      have := kept_initial d L (substitutions.map (fun sp => sp.b))
      simpa [List.map_map] using this
    · apply marksLoop_naive d attr_string markers L hm2
      have := kept_initial d L (markers.map (fun mp => mp.b))
      simpa [List.map_map] using this

/-- C10, amended, for the substitutions `a&b` (to `x`) and `b` (to `yb`) on
the line `bacbba`: the match of `a&b` is kept over one turn, and after it has
failed the entry stays parked. On the six bytes `b`, `a`, `c`, NUL, `b`, `a`
both engines replace the first `b` and leave what follows: `a&b` finds no `b`
before the NUL byte. -/
theorem C10_cached_eq_naive_noDollar_witness :
    (∀ sp ∈ substAB,
      sp.b.mbeg = 0 ∧ (sp.b.wild = false ∨ (sp.b.pattern ≠ [] ∧ 36 ∉ sp.b.pattern))) ∧
    ptrmaddsubst stockDefines substAB 6 [98, 97, 99, 98, 98, 97]
      = naiveSubst stockDefines substAB 6 [98, 97, 99, 98, 98, 97] ∧
    ptrmaddsubst stockDefines substAB 6 [98, 97, 99, 98, 98, 97]
      = some [121, 98, 120, 121, 98, 97] ∧
    ptrmaddsubst stockDefines substAB 6 [98, 97, 99, 0, 98, 97]
      = naiveSubst stockDefines substAB 6 [98, 97, 99, 0, 98, 97] ∧
    ptrmaddsubst stockDefines substAB 6 [98, 97, 99, 0, 98, 97]
      = some [121, 98, 97, 99, 0, 98, 97] :=
  ⟨by decide,
    (C10_cached_eq_naive_noDollar stockDefines attrRed substAB [] [98, 97, 99, 98, 98, 97] 6
      (by decide) (by simp)).1,
    by decide,
    (C10_cached_eq_naive_noDollar stockDefines attrRed substAB [] [98, 97, 99, 0, 98, 97] 6
      (by decide) (by simp)).1,
    by decide⟩

/-! ### The capture of `$` and the begin anchor -/

/-- C11, evaluation of the code where it leaves the claim: the pattern `$`
(not anchored) matches the line `a b` from offset 0 to offset 3, so the text
captured by `$` is the whole line with its blank, a byte of `DELIM`; and the
pattern `$foo` matches the line `x foo` from offset 0 to offset 5 with the
literal found at offset 2, so `$` captures `x ` with the blank. -/
theorem C11_dollar_captures_delimiter :
    (match_mark_or_subst stockDefines [97, 32, 98] ⟨[36], 0, true, none, none⟩ 0).map
        (fun r => (r.1, r.2.start, r.2.end_)) = some (true, some 0, some 3) ∧
    32 ∈ stockDefines.DELIM ∧
    32 ∈ ([97, 32, 98].take 3).drop 0 ∧
    (match_mark_or_subst stockDefines [120, 32, 102, 111, 111]
        ⟨[36, 102, 111, 111], 0, true, none, none⟩ 0).map
        (fun r => (r.1, r.2.start, r.2.end_)) = some (true, some 0, some 5) ∧
    strstr [120, 32, 102, 111, 111] 0 [102, 111, 111] = some 2 ∧
    32 ∈ ([120, 32, 102, 111, 111].take 2).drop 0 := by
  decide

/-- C12, evaluation of the code where it leaves the claim: the begin-anchored
entry `foo` without wildcards matches the line `xfoo`, scanned from offset 0,
at offset 1, and `ptrmaddmarks` marks it there; the begin-anchored pattern `$`
succeeds on `a b` with the start left `NULL`; the begin-anchored wildcard
pattern `foo&` does fail on `xfoo`. -/
theorem C12_anchored_match_not_at_start :
    (match_mark_or_subst stockDefines [120, 102, 111, 111]
        ⟨[102, 111, 111], 1, false, none, none⟩ 0).map
        (fun r => (r.1, r.2.start, r.2.end_)) = some (true, some 1, some 4) ∧
    ptrmaddmarks stockDefines attrRed [⟨⟨[102, 111, 111], 1, false, none, none⟩, 1⟩] 3
        [120, 102, 111, 111]
      = some ([120] ++ [27, 91, 51, 49, 109] ++ [102, 111, 111] ++ [27, 91, 48, 109]) ∧
    (match_mark_or_subst stockDefines [97, 32, 98] ⟨[36], 1, true, none, none⟩ 0).map
        (fun r => (r.1, r.2.start, r.2.end_)) = some (true, none, some 1) ∧
    (match_mark_or_subst stockDefines [120, 102, 111, 111]
        ⟨[102, 111, 111, 38], 1, true, none, none⟩ 0).map (fun r => r.1) = some false := by
  decide

/-! ### The line editor: `insert_char` and `transpose_chars` -/

theorem swapBytes_swapBytes (l : List Nat) (i j : Nat) (hi : i < l.length)
    (hj : j < l.length) : swapBytes (swapBytes l i j) i j = l := by
  unfold swapBytes
  apply List.ext_getElem?
  intro k
  simp only [List.getD_eq_getElem?_getD, List.getElem?_set, List.length_set]
  by_cases hik : i = k <;> by_cases hjk : j = k <;> by_cases hij : i = j <;>
    simp_all [List.getElem?_eq_getElem]

theorem swapBytes_getD (l : List Nat) (i j k : Nat) (hi : i < l.length)
    (hj : j < l.length) :
    (swapBytes l i j).getD k 0
      = if k = i then l.getD j 0 else if k = j then l.getD i 0 else l.getD k 0 := by
  unfold swapBytes
  simp only [List.getD_eq_getElem?_getD, List.getElem?_set, List.length_set]
  by_cases hik : i = k <;> by_cases hjk : j = k <;> by_cases hij : i = j <;>
    simp_all [List.getElem?_eq_getElem, eq_comm]

theorem transpose_chars_edbuf (s : Editor) :
    (transpose_chars s).edbuf =
      if 1 < s.pos ∨ (0 < s.pos ∧ s.pos < s.edlen) then
        swapBytes s.edbuf (if s.pos < s.edlen then s.pos - 1 else s.pos - 2)
          (if s.pos < s.edlen then s.pos else s.pos - 1)
      else s.edbuf := by
  unfold transpose_chars
  split
  · simp only []; split <;> rfl
  · rfl

theorem transpose_chars_edlen (s : Editor) : (transpose_chars s).edlen = s.edlen := by
  unfold transpose_chars
  split
  · simp only []; split <;> rfl
  · rfl

theorem transpose_chars_pos (s : Editor) :
    (transpose_chars s).pos =
      if 1 < s.pos ∨ (0 < s.pos ∧ s.pos < s.edlen) then
        (if s.line_status = 0 then (if s.pos < s.edlen then s.pos + 1 else s.pos)
         else s.pos + 1)
      else s.pos := by
  unfold transpose_chars
  split
  · simp only []; split <;> rfl
  · rfl

/-- C16: `insert_char` rejects an insertion that would overflow. If
`edlen >= BUFSIZE - 2` then `insert_char(c)` leaves the whole state (so
`edbuf`, `edlen` and `pos`) unchanged, for every byte `c`; and from every
state with `edlen <= BUFSIZE - 2` the length after `insert_char` is again at
most `BUFSIZE - 2`. -/
theorem C16_insert_char_full (z : Sizes) (s : Editor) (c : Nat) :
    (z.BUFSIZE - 2 ≤ s.edlen → insert_char z s c = s) ∧
    (s.edlen ≤ z.BUFSIZE - 2 → (insert_char z s c).edlen ≤ z.BUFSIZE - 2) := by
  constructor
  · intro h
    unfold insert_char
    rw [if_neg]
    omega
  · intro h
    unfold insert_char
    split
    · rename_i hc
      have h1 : ∀ t : Editor, t.edlen = s.edlen →
          (input_insert_follow_chars z t [c] 1).edlen ≤ z.BUFSIZE - 2 := by
        intro t ht
        unfold input_insert_follow_chars
        split
        · simp only [ht]; omega
        · omega
      have h2 : ∀ t : Editor, (flashparen t c).edlen = t.edlen := by
        intro t
        unfold flashparen
        split
        · rfl
        · split <;> rfl
      have h3 : (if s.flashback then putbackcursor s else s).edlen = s.edlen := by
        split <;> rfl
      simp only []
      split
      · rw [h2]; exact h1 _ h3
      · exact h1 _ h3
    · exact h

/-- C16 at a buffer of size 8: with six bytes held the insertion of `b` changes
nothing; with one byte held the length stays within 6 and `b` is inserted. -/
theorem C16_insert_char_full_witness :
    insert_char ⟨8, 4, 4, 3⟩ (editorAt [97, 97, 97, 97, 97, 97] 0 0) 98
        = editorAt [97, 97, 97, 97, 97, 97] 0 0 ∧
    (insert_char ⟨8, 4, 4, 3⟩ (editorAt [97] 1 0) 98).edlen ≤ 6 ∧
    (insert_char ⟨8, 4, 4, 3⟩ (editorAt [97] 1 0) 98).edbuf = [97, 98] :=
  ⟨(C16_insert_char_full ⟨8, 4, 4, 3⟩ (editorAt [97, 97, 97, 97, 97, 97] 0 0) 98).1
      (by decide),
   (C16_insert_char_full ⟨8, 4, 4, 3⟩ (editorAt [97] 1 0) 98).2 (by decide), by decide⟩

/-- C17: from a state with `pos <= edlen` (and `edlen` the length of the
text), applying `transpose_chars`, putting the cursor back where it was and
applying `transpose_chars` again restores the original text; the length is
unchanged. This holds at every such cursor offset, so at those where
`transpose_chars` acts. -/
theorem C17_transpose_chars_twice (s : Editor) (hlen : s.edlen = s.edbuf.length)
    (hpos : s.pos ≤ s.edlen) :
    (transpose_chars { transpose_chars s with pos := s.pos }).edbuf = s.edbuf ∧
    (transpose_chars { transpose_chars s with pos := s.pos }).edlen = s.edlen := by
  refine ⟨?_, ?_⟩
  · rw [transpose_chars_edbuf]
    simp only [transpose_chars_edlen, transpose_chars_edbuf]
    by_cases hc : 1 < s.pos ∨ (0 < s.pos ∧ s.pos < s.edlen)
    · rw [if_pos hc, if_pos hc]
      exact swapBytes_swapBytes _ _ _ (by split <;> omega) (by split <;> omega)
    · rw [if_neg hc, if_neg hc]
  · rw [transpose_chars_edlen]
    simp only [transpose_chars_edlen]

/-- C17 on the text `abcd` with the cursor at 2: one application gives `acbd`,
the second one, from the same offset, gives `abcd` back. -/
theorem C17_transpose_chars_twice_witness :
    (transpose_chars
      { transpose_chars (editorAt [97, 98, 99, 100] 2 0) with pos := 2 }).edbuf
        = [97, 98, 99, 100] ∧
    (transpose_chars (editorAt [97, 98, 99, 100] 2 0)).edbuf = [97, 99, 98, 100] :=
  ⟨(C17_transpose_chars_twice (editorAt [97, 98, 99, 100] 2 0) (by decide) (by decide)).1,
   by decide⟩

/-- C18 as claimed fails: on `abcd` with the cursor at 2, inside the line,
`transpose_chars` gives `acbd` (the bytes at 1 and 2, around the cursor), not
the text with the bytes at 0 and 1 swapped, and the cursor moves to 3; with
the cursor at 4, the end of the line, it gives `abdc` (the bytes at 2 and 3,
left of the cursor) and the cursor stays at 4. -/
theorem C18_counterexample :
    (transpose_chars (editorAt [97, 98, 99, 100] 2 0)).edbuf = [97, 99, 98, 100] ∧
    (transpose_chars (editorAt [97, 98, 99, 100] 2 0)).pos = 3 ∧
    (transpose_chars (editorAt [97, 98, 99, 100] 2 0)).edbuf
      ≠ swapBytes [97, 98, 99, 100] (2 - 2) (2 - 1) ∧
    (transpose_chars (editorAt [97, 98, 99, 100] 4 0)).edbuf = [97, 98, 100, 99] ∧
    (transpose_chars (editorAt [97, 98, 99, 100] 4 0)).pos = 4 := by
  decide

/-- C18, amended: with the cursor inside the line (`0 < pos < edlen`)
`transpose_chars` swaps the two bytes around the cursor (offsets `pos - 1` and
`pos`), leaves all other bytes and moves the cursor to `pos + 1`, just past
the pair; with the cursor at the end of the line (`pos = edlen > 1`) it swaps
the two bytes left of the cursor (offsets `pos - 2` and `pos - 1`), leaves all
other bytes and, when the line is drawn (`line_status = 0`), leaves the cursor
at `pos`, just past the pair. -/
theorem C18_transpose_chars_pair (s : Editor) (hlen : s.edlen = s.edbuf.length) :
    (0 < s.pos → s.pos < s.edlen →
      (transpose_chars s).pos = s.pos + 1 ∧
      (transpose_chars s).byte (s.pos - 1) = s.byte s.pos ∧
      (transpose_chars s).byte s.pos = s.byte (s.pos - 1) ∧
      (∀ k, k ≠ s.pos - 1 → k ≠ s.pos → (transpose_chars s).byte k = s.byte k)) ∧
    (1 < s.pos → s.pos = s.edlen →
      (s.line_status = 0 → (transpose_chars s).pos = s.pos) ∧
      (transpose_chars s).byte (s.pos - 2) = s.byte (s.pos - 1) ∧
      (transpose_chars s).byte (s.pos - 1) = s.byte (s.pos - 2) ∧
      (∀ k, k ≠ s.pos - 2 → k ≠ s.pos - 1 → (transpose_chars s).byte k = s.byte k)) := by
  constructor
  · intro h0 h1
    have hc : 1 < s.pos ∨ (0 < s.pos ∧ s.pos < s.edlen) := Or.inr ⟨h0, h1⟩
    have hb : (transpose_chars s).edbuf = swapBytes s.edbuf (s.pos - 1) s.pos := by
      rw [transpose_chars_edbuf, if_pos hc, if_pos h1, if_pos h1]
    have hg := fun k => swapBytes_getD s.edbuf (s.pos - 1) s.pos k (by omega) (by omega)
    refine ⟨?_, ?_, ?_, ?_⟩
    · rw [transpose_chars_pos, if_pos hc, if_pos h1]; split <;> rfl
    · simp only [Editor.byte, hb, hg]; simp
    · simp only [Editor.byte, hb, hg]
      rw [if_neg (by omega)]; simp
    · intro k hk1 hk2
      simp only [Editor.byte, hb, hg]
      rw [if_neg hk1, if_neg hk2]
  · intro h0 h1
    have hc : 1 < s.pos ∨ (0 < s.pos ∧ s.pos < s.edlen) := Or.inl h0
    have h2 : ¬ s.pos < s.edlen := by omega
    have hb : (transpose_chars s).edbuf = swapBytes s.edbuf (s.pos - 2) (s.pos - 1) := by
      rw [transpose_chars_edbuf, if_pos hc, if_neg h2, if_neg h2]
    have hg := fun k => swapBytes_getD s.edbuf (s.pos - 2) (s.pos - 1) k (by omega) (by omega)
    refine ⟨?_, ?_, ?_, ?_⟩
    · intro hl
      rw [transpose_chars_pos, if_pos hc, if_pos hl, if_neg h2]
    · simp only [Editor.byte, hb, hg]; simp
    · simp only [Editor.byte, hb, hg]
      rw [if_neg (by omega)]; simp
    · intro k hk1 hk2
      simp only [Editor.byte, hb, hg]
      rw [if_neg hk1, if_neg hk2]

/-- C18, amended, on `abcd`: from the cursor at 2 the cursor moves to 3 and
offset 1 holds `c`; from the cursor at 4 offset 2 holds `d`. -/
theorem C18_transpose_chars_pair_witness :
    (transpose_chars (editorAt [97, 98, 99, 100] 2 0)).pos = 2 + 1 ∧
    (transpose_chars (editorAt [97, 98, 99, 100] 2 0)).byte (2 - 1) = 99 ∧
    (transpose_chars (editorAt [97, 98, 99, 100] 4 0)).byte (4 - 2) = 100 :=
  ⟨((C18_transpose_chars_pair (editorAt [97, 98, 99, 100] 2 0) (by decide)).1
      (by decide) (by decide)).1,
   ((C18_transpose_chars_pair (editorAt [97, 98, 99, 100] 2 0) (by decide)).1
      (by decide) (by decide)).2.1,
   ((C18_transpose_chars_pair (editorAt [97, 98, 99, 100] 4 0) (by decide)).2
      (by decide) (by decide)).2.1⟩

/-- C19, evaluation of the code where it leaves the claim: on the text `ab`
with the cursor at 2 (so `pos <= edlen`) and the line not drawn
(`line_status = 1`) `transpose_chars` swaps the two bytes, keeps `edlen = 2`
and moves the cursor to 3, behind the end of the text; with the line drawn
(`line_status = 0`) the cursor stays at 2. -/
theorem C19_cursor_past_end :
    (editorAt [97, 98] 2 1).pos ≤ (editorAt [97, 98] 2 1).edlen ∧
    (transpose_chars (editorAt [97, 98] 2 1)).edbuf = [98, 97] ∧
    (transpose_chars (editorAt [97, 98] 2 1)).edlen = 2 ∧
    (transpose_chars (editorAt [97, 98] 2 1)).pos = 3 ∧
    (transpose_chars (editorAt [97, 98] 2 0)).pos = 2 := by
  decide

/-! ### The line editor: history -/

theorem put_word_frame (s : Editor) (w : List Nat) :
    (put_word s w).hist = s.hist ∧ (put_word s w).curline = s.curline ∧
    (put_word s w).pickline = s.pickline ∧ (put_word s w).edbuf = s.edbuf ∧
    (put_word s w).edlen = s.edlen ∧ (put_word s w).pos = s.pos :=
  ⟨rfl, rfl, rfl, rfl, rfl, rfl⟩

theorem foldl_put_word_frame (l : List (List Nat)) (s : Editor) :
    (l.foldl put_word s).hist = s.hist ∧ (l.foldl put_word s).curline = s.curline ∧
    (l.foldl put_word s).pickline = s.pickline ∧ (l.foldl put_word s).edbuf = s.edbuf ∧
    (l.foldl put_word s).edlen = s.edlen ∧ (l.foldl put_word s).pos = s.pos := by
  induction l generalizing s with
  | nil => exact ⟨rfl, rfl, rfl, rfl, rfl, rfl⟩
  | cons w l ih =>
    simp only [List.foldl_cons]
    obtain ⟨h1, h2, h3, h4, h5, h6⟩ := ih (put_word s w)
    obtain ⟨g1, g2, g3, g4, g5, g6⟩ := put_word_frame s w
    exact ⟨h1.trans g1, h2.trans g2, h3.trans g3, h4.trans g4, h5.trans g5, h6.trans g6⟩

theorem put_history_hist (d : Defines) (z : Sizes) (s : Editor) (str : List Nat) :
    (put_history d z s str).hist = setAt s.hist s.curline (some str) ∧
    (put_history d z s str).curline
      = (if s.curline + 1 = z.MAX_HIST then 0 else s.curline + 1) := by
  unfold put_history
  exact ⟨(foldl_put_word_frame _ _).1, (foldl_put_word_frame _ _).2.1⟩

theorem to_history_eq (d : Defines) (z : Sizes) (s : Editor) (h : s.edlen ≠ 0) :
    (to_history d z s).hist = setAt s.hist s.curline (some s.edbuf) ∧
    (to_history d z s).curline
      = (if s.curline + 1 = z.MAX_HIST then 0 else s.curline + 1) ∧
    (to_history d z s).pickline
      = (if s.curline + 1 = z.MAX_HIST then 0 else s.curline + 1) ∧
    (to_history d z s).edbuf = [] ∧ (to_history d z s).edlen = 0 ∧
    (to_history d z s).pos = 0 := by
  unfold to_history
  rw [if_neg h]
  have := put_history_hist d z (clear_input_line0 s) s.edbuf
  exact ⟨this.1, this.2, this.2, rfl, rfl, rfl⟩

theorem recall_line_some (s : Editor) (i : Nat) (t : List Nat)
    (h : s.hist i = some t) (hne : i ≠ s.pickline) :
    (recall_line s i).edbuf = t ∧ (recall_line s i).pos = t.length ∧
    (recall_line s i).edlen = t.length ∧
    (recall_line s i).pickline = i ∧
    (∀ j, j ≠ s.pickline → (recall_line s i).hist j = s.hist j) ∧
    (recall_line s i).hist s.pickline = some s.edbuf := by
  unfold recall_line
  cases h3 : s.hist s.pickline with
  | none =>
    simp only [h, clear_input_line0, setAt, h3, Option.isSome_none, Bool.false_eq_true,
      false_and, if_false, if_true, if_neg hne, Option.getD_some]
    refine ⟨trivial, trivial, trivial, trivial, ?_, trivial⟩
    intro j hj
    rw [if_neg hj]
  | some x =>
    by_cases hx : x = s.edbuf
    · subst hx
      simp only [h, clear_input_line0, h3, ne_eq, not_true_eq_false, and_false, if_false,
        reduceCtorEq, Option.getD_some]
      exact ⟨trivial, trivial, trivial, trivial, fun _ _ => trivial, trivial⟩
    · have hx2 : (some x : Option (List Nat)) ≠ some s.edbuf := by
        intro e; exact hx (Option.some.inj e)
      simp only [h, clear_input_line0, setAt, h3, Option.isSome_some, true_and, ne_eq, hx2,
        not_false_eq_true, if_true, if_neg hne, Option.getD_some]
      refine ⟨?_, trivial⟩
      intro j hj
      rw [if_neg hj, if_neg hj]

theorem prev_line_some (z : Sizes) (s : Editor) (t : List Nat)
    (h : s.hist (if s.pickline = 0 then z.MAX_HIST - 1 else s.pickline - 1) = some t)
    (hne : (if s.pickline = 0 then z.MAX_HIST - 1 else s.pickline - 1) ≠ s.pickline) :
    (prev_line z s).edbuf = t ∧ (prev_line z s).pos = t.length ∧
    (prev_line z s).edlen = t.length ∧
    (prev_line z s).pickline = (if s.pickline = 0 then z.MAX_HIST - 1 else s.pickline - 1) ∧
    (∀ i, i ≠ s.pickline → (prev_line z s).hist i = s.hist i) ∧
    (prev_line z s).hist s.pickline = some s.edbuf :=
  recall_line_some s _ t h hne

/-- C13: from an empty history (with `curline` a valid slot and at least three
slots), for all non-empty lines `a` and `b`: after `to_history` on `a` and then
on `b`, `prev_line` loads `b` into the edit buffer and a second `prev_line`
loads `a`, each time with `pos = edlen =` the length of the loaded line. -/
theorem C13_history_recall (d : Defines) (z : Sizes) (s0 : Editor) (a b : List Nat)
    (p q : Nat) (ha : a ≠ []) (hb : b ≠ []) (hM : 3 ≤ z.MAX_HIST)
    (hempty : ∀ i, s0.hist i = none) (hcur : s0.curline < z.MAX_HIST) :
    (prev_line z (to_history d z (withLine (to_history d z (withLine s0 a p)) b q))).edbuf
      = b ∧
    (prev_line z (to_history d z (withLine (to_history d z (withLine s0 a p)) b q))).pos
      = b.length ∧
    (prev_line z (to_history d z (withLine (to_history d z (withLine s0 a p)) b q))).edlen
      = b.length ∧
    (prev_line z (prev_line z
      (to_history d z (withLine (to_history d z (withLine s0 a p)) b q)))).edbuf = a ∧
    (prev_line z (prev_line z
      (to_history d z (withLine (to_history d z (withLine s0 a p)) b q)))).pos = a.length ∧
    (prev_line z (prev_line z
      (to_history d z (withLine (to_history d z (withLine s0 a p)) b q)))).edlen
      = a.length := by
  have hal : (withLine s0 a p).edlen ≠ 0 := by
    simp [withLine, ha]
  obtain ⟨h1h, h1c, -, -, -, -⟩ := to_history_eq d z (withLine s0 a p) hal
  have hbl : (withLine (to_history d z (withLine s0 a p)) b q).edlen ≠ 0 := by
    simp [withLine, hb]
  obtain ⟨h2h, h2c, h2p, h2e, -, -⟩ :=
    to_history_eq d z (withLine (to_history d z (withLine s0 a p)) b q) hbl
  have e1 : (withLine (to_history d z (withLine s0 a p)) b q).hist
      = (to_history d z (withLine s0 a p)).hist := rfl
  have e2 : (withLine (to_history d z (withLine s0 a p)) b q).curline
      = (to_history d z (withLine s0 a p)).curline := rfl
  have e3 : (withLine (to_history d z (withLine s0 a p)) b q).edbuf = b := rfl
  rw [e1, e2, e3, h1h, h1c] at h2h
  rw [e2, h1c] at h2c h2p
  have e4 : (withLine s0 a p).hist = s0.hist := rfl
  have e5 : (withLine s0 a p).curline = s0.curline := rfl
  have e6 : (withLine s0 a p).edbuf = a := rfl
  rw [e4, e5, e6] at h2h
  rw [e5] at h2c h2p
  have hs0 : s0.hist = fun _ => none := funext hempty
  rw [hs0] at h2h
  generalize to_history d z (withLine (to_history d z (withLine s0 a p)) b q) = s2
    at h2h h2c h2p h2e ⊢
  generalize s0.curline = c at h2h h2c h2p hcur
  have hn1 : (if c + 1 = z.MAX_HIST then 0 else c + 1) < z.MAX_HIST := by
    split_ifs <;> omega
  have hp1 : ∀ x, x < z.MAX_HIST →
      (if (if x + 1 = z.MAX_HIST then 0 else x + 1) = 0 then z.MAX_HIST - 1
        else (if x + 1 = z.MAX_HIST then 0 else x + 1) - 1) = x := by
    intro x hx
    by_cases h : x + 1 = z.MAX_HIST
    · simp only [h, if_true]; omega
    · simp only [h, if_false]; rw [if_neg (by omega)]; omega
  have hne1 : ∀ x, x < z.MAX_HIST → (if x + 1 = z.MAX_HIST then 0 else x + 1) ≠ x := by
    intro x hx
    split_ifs <;> omega
  have hne2 : (if (if c + 1 = z.MAX_HIST then 0 else c + 1) + 1 = z.MAX_HIST then 0
      else (if c + 1 = z.MAX_HIST then 0 else c + 1) + 1) ≠ c := by
    by_cases h : c + 1 = z.MAX_HIST
    · simp only [h, if_true]; rw [if_neg (by omega)]; omega
    · simp only [h, if_false]; split_ifs <;> omega
  have hp0 := hp1 c hcur
  have hne0 := hne1 c hcur
  generalize (if c + 1 = z.MAX_HIST then 0 else c + 1) = c1
    at h2h h2c h2p hn1 hne2 hp0 hne0
  have hb1 : s2.hist (if s2.pickline = 0 then z.MAX_HIST - 1 else s2.pickline - 1)
      = some b := by
    rw [h2p, hp1 c1 hn1, h2h]; simp [setAt]
  obtain ⟨k1, k2, k3, k4, k5, k6⟩ := prev_line_some z s2 b hb1
    (by rw [h2p, hp1 c1 hn1]; exact (hne1 c1 hn1).symm)
  refine ⟨k1, k2, k3, ?_⟩
  rw [h2p, hp1 c1 hn1] at k4
  have ha1 : (prev_line z s2).hist (if (prev_line z s2).pickline = 0 then z.MAX_HIST - 1
      else (prev_line z s2).pickline - 1) = some a := by
    rw [k4, hp0, k5 c (by rw [h2p]; exact hne2.symm), h2h]
    simp only [setAt]
    rw [if_neg hne0.symm]
    simp
  obtain ⟨m1, m2, m3, -, -, -⟩ := prev_line_some z (prev_line z s2) a ha1
    (by rw [k4, hp0]; exact hne0.symm)
  exact ⟨m1, m2, m3⟩

/-- C13 at the start of the program with the lines `a` and `bc`. -/
theorem C13_history_recall_witness :
    (prev_line stockSizes (to_history stockDefines stockSizes
      (withLine (to_history stockDefines stockSizes (withLine bootEditor [97] 1))
        [98, 99] 2))).edbuf = [98, 99] ∧
    (prev_line stockSizes (prev_line stockSizes (to_history stockDefines stockSizes
      (withLine (to_history stockDefines stockSizes (withLine bootEditor [97] 1))
        [98, 99] 2)))).edbuf = [97] :=
  ⟨(C13_history_recall stockDefines stockSizes bootEditor [97] [98, 99] 1 2 (by decide)
      (by decide) (by decide) (fun _ => rfl) (by decide)).1,
   (C13_history_recall stockDefines stockSizes bootEditor [97] [98, 99] 1 2 (by decide)
      (by decide) (by decide) (fun _ => rfl) (by decide)).2.2.2.1⟩

/-- With two history slots only, the second `prev_line` after the lines `a` and
`bc` loads the empty line that the first one stored over `a`. -/
theorem history_two_slots :
    (prev_line ⟨4096, 2, 512, 3⟩ (prev_line ⟨4096, 2, 512, 3⟩
      (to_history stockDefines ⟨4096, 2, 512, 3⟩
        (withLine (to_history stockDefines ⟨4096, 2, 512, 3⟩ (withLine bootEditor [97] 1))
          [98, 99] 2)))).edbuf = [] := by
  decide

/-- C14, evaluation of the code where it leaves the claim: at the start of the
program (no history slot holds a line) `enter_line` on the empty line stores
the empty line in slot 0 and advances `curline` to 1, whatever
`parse_user_input` is. After the line `abc` was entered and stored, a
following empty line is not stored. -/
theorem C14_empty_line_stored (f : Editor → Editor) :
    bootEditor.edbuf = [] ∧ bootEditor.edlen = 0 ∧ bootEditor.curline = 0 ∧
    (enter_line stockDefines stockSizes f bootEditor).hist 0 = some [] ∧
    (enter_line stockDefines stockSizes f bootEditor).curline = 1 ∧
    (enter_line stockDefines stockSizes id (withLine bootEditor [97, 98, 99] 3)).hist 0
      = some [97, 98, 99] ∧
    (enter_line stockDefines stockSizes id (withLine bootEditor [97, 98, 99] 3)).curline
      = 1 ∧
    (enter_line stockDefines stockSizes f
      (enter_line stockDefines stockSizes id (withLine bootEditor [97, 98, 99] 3))).curline
      = 1 ∧
    (enter_line stockDefines stockSizes f
      (enter_line stockDefines stockSizes id (withLine bootEditor [97, 98, 99] 3))).hist 1
      = none :=
  ⟨rfl, rfl, rfl, rfl, rfl, by decide, by decide, rfl, rfl⟩

/-! ### The line editor: word completion -/

/-- C15 as claimed fails: with the three words put by `put_word` the first
`complete_word` makes the buffer read `query`, not `quit`; with the three words
seeded as static words the third `complete_word` makes the buffer read `qu`,
not `quit`. -/
theorem C15_counterexample :
    (complete_word_times stockDefines stockSizes 600 seededRing 1).map (fun s => s.edbuf)
      = some [113, 117, 101, 114, 121] ∧
    (complete_word_times stockDefines stockSizes 600 seededRing 1).map (fun s => s.edbuf)
      ≠ some [113, 117, 105, 116] ∧
    (complete_word_times stockDefines stockSizes 600 seededStatic 3).map (fun s => s.edbuf)
      = some [113, 117] ∧
    (complete_word_times stockDefines stockSizes 600 seededStatic 3).map (fun s => s.edbuf)
      ≠ some [113, 117, 105, 116] := by
  decide

/-- C15, amended: with the words `走`, `quit`, `query` put in that order by
`put_word` and the buffer holding `qu` with the cursor at its end, consecutive
calls of `complete_word` make the buffer read `query` (the word put last), then
`quit`, then the root `qu` alone (every candidate was shown once and the
completion is taken off), then `query` again, the cursor at the end each time;
with the three words seeded as static words the buffer reads `quit`, `query`,
`qu`, `quit`. -/
theorem C15_complete_word_cycle :
    (complete_word_times stockDefines stockSizes 600 seededRing 1).map
        (fun s => (s.edbuf, s.pos, s.edlen)) = some ([113, 117, 101, 114, 121], 5, 5) ∧
    (complete_word_times stockDefines stockSizes 600 seededRing 2).map
        (fun s => (s.edbuf, s.pos, s.edlen)) = some ([113, 117, 105, 116], 4, 4) ∧
    (complete_word_times stockDefines stockSizes 600 seededRing 3).map
        (fun s => (s.edbuf, s.pos, s.edlen)) = some ([113, 117], 2, 2) ∧
    (complete_word_times stockDefines stockSizes 600 seededRing 4).map
        (fun s => (s.edbuf, s.pos, s.edlen)) = some ([113, 117, 101, 114, 121], 5, 5) ∧
    (complete_word_times stockDefines stockSizes 600 seededStatic 1).map
        (fun s => (s.edbuf, s.pos, s.edlen)) = some ([113, 117, 105, 116], 4, 4) ∧
    (complete_word_times stockDefines stockSizes 600 seededStatic 2).map
        (fun s => (s.edbuf, s.pos, s.edlen)) = some ([113, 117, 101, 114, 121], 5, 5) ∧
    (complete_word_times stockDefines stockSizes 600 seededStatic 3).map
        (fun s => (s.edbuf, s.pos, s.edlen)) = some ([113, 117], 2, 2) ∧
    (complete_word_times stockDefines stockSizes 600 seededStatic 4).map
        (fun s => (s.edbuf, s.pos, s.edlen)) = some ([113, 117, 105, 116], 4, 4) := by
  decide

/-! ### The line editor: `transpose_words` -/

theorem getD_append_right_add (A B : List Nat) (j : Nat) :
    (A ++ B).getD (A.length + j) 0 = B.getD j 0 := by
  simp [List.getD_eq_getElem?_getD, List.getElem?_append_right]

theorem getD_append_left_lt (A B : List Nat) (i : Nat) (h : i < A.length) :
    (A ++ B).getD i 0 = A.getD i 0 := by
  simp [List.getD_eq_getElem?_getD, List.getElem?_append_left h]

theorem getD_mem (w : List Nat) (j : Nat) (h : j < w.length) : w.getD j 0 ∈ w := by
  rw [List.getD_eq_getElem?_getD, List.getElem?_eq_getElem h]
  exact List.getElem_mem _

theorem getD_last (A : List Nat) (m : Nat) (h : A.length = m + 1) :
    A.getLast? = some (A.getD m 0) := by
  rw [List.getLast?_eq_getElem?, h]
  simp [List.getD_eq_getElem?_getD, List.getElem?_eq_getElem (show m < A.length by omega)]

theorem inDELIM_zero (d : Defines) : inDELIM d 0 = true := by
  simp [inDELIM]

/-- The byte at `|A| + j`, inside the part `w`. -/
theorem byte_mid (s : Editor) (A w R : List Nat) (h : s.edbuf = A ++ w ++ R) (j : Nat)
    (hj : j < w.length) : s.byte (A.length + j) = w.getD j 0 := by
  unfold Editor.byte
  rw [h, List.append_assoc, getD_append_right_add, getD_append_left_lt _ _ _ hj]

theorem twWordStart_in (d : Defines) (s : Editor) (A w R : List Nat)
    (h : s.edbuf = A ++ w ++ R) (hw : ∀ c ∈ w, inDELIM d c = false)
    (hA : ∀ c, A.getLast? = some c → inDELIM d c = true) (j : Nat) (hj : j ≤ w.length) :
    twWordStart d s (A.length + j) = A.length := by
  induction j with
  | zero =>
    cases hm : A.length with
    | zero => rfl
    | succ m =>
      simp only [Nat.add_zero, twWordStart]
      have hb : s.byte m = A.getD m 0 := by
        unfold Editor.byte
        rw [h, List.append_assoc, getD_append_left_lt _ _ _ (by omega)]
      rw [hb, hA _ (getD_last A m hm)]
      simp
  | succ j ih =>
    have : A.length + (j + 1) = (A.length + j) + 1 := by omega
    rw [this, twWordStart, byte_mid s A w R h j (by omega),
      hw _ (getD_mem w j (by omega))]
    simp only [if_true]
    exact ih (by omega)

theorem twWordEnd_in (d : Defines) (s : Editor) (A w R : List Nat)
    (h : s.edbuf = A ++ w ++ R) (hlen : s.edlen = s.edbuf.length)
    (hw : ∀ c ∈ w, inDELIM d c = false)
    (hR : ∀ c, R.head? = some c → inDELIM d c = true) (n j fuel : Nat)
    (hn : j + n = w.length) (hf : n ≤ fuel) :
    twWordEnd d s fuel (A.length + j) = A.length + w.length := by
  induction n generalizing j fuel with
  | zero =>
    have hj : j = w.length := by omega
    subst hj
    cases fuel with
    | zero => rfl
    | succ f =>
      rw [twWordEnd, if_neg]
      intro hc
      have hlt : A.length + w.length < (A ++ w ++ R).length := by
        rw [← h, ← hlen]; exact hc.1
      have hb : s.byte (A.length + w.length) = R.getD 0 0 := by
        unfold Editor.byte
        have := getD_append_right_add (A ++ w) R 0
        rw [List.length_append, Nat.add_zero] at this
        rw [h, this]
      cases R with
      | nil => simp at hlt
      | cons c R =>
        have := hR c rfl
        rw [hb] at hc
        simp [this] at hc
  | succ n ih =>
    cases fuel with
    | zero => omega
    | succ f =>
      rw [twWordEnd, if_pos]
      · have := ih (j + 1) f (by omega) (by omega)
        rw [← this]
        congr 1
      · constructor
        · rw [hlen, h]; simp; omega
        · rw [byte_mid s A w R h j (by omega)]
          exact hw _ (getD_mem w j (by omega))

theorem twSkipDelims_in (d : Defines) (s : Editor) (A w D R : List Nat)
    (h : s.edbuf = A ++ w ++ D ++ R) (hw : ∀ c ∈ w, inDELIM d c = false)
    (hw0 : w ≠ []) (hD : ∀ c ∈ D, inDELIM d c = true) (j : Nat) (hj : j ≤ D.length) :
    twSkipDelims d s (A.length + w.length + j) = some (A.length + w.length - 1) := by
  induction j with
  | zero =>
    have hwl : 0 < w.length := List.length_pos.mpr hw0
    have e : A.length + w.length + 0 = (A.length + (w.length - 1)) + 1 := by omega
    rw [e, twSkipDelims, byte_mid s A w (D ++ R) (by rw [h]; simp) (w.length - 1) (by omega),
      hw _ (getD_mem w _ (by omega))]
    simp only [Bool.false_eq_true, if_false]
    congr 1
    omega
  | succ j ih =>
    have e : A.length + w.length + (j + 1) = (A.length + w.length + j) + 1 := by omega
    have hb : s.byte (A.length + w.length + j) = D.getD j 0 := by
      have := byte_mid s (A ++ w) D R h j (by omega)
      rwa [List.length_append] at this
    rw [e, twSkipDelims, hb, hD _ (getD_mem D j (by omega))]
    simp only [if_true]
    exact ih (by omega)

theorem twSkipDelims_none (d : Defines) (s : Editor) (D R : List Nat)
    (h : s.edbuf = D ++ R) (hD : ∀ c ∈ D, inDELIM d c = true) (j : Nat) (hj : j ≤ D.length) :
    twSkipDelims d s j = none := by
  induction j with
  | zero => rfl
  | succ j ih =>
    have hb : s.byte j = D.getD j 0 := by
      unfold Editor.byte
      rw [h, getD_append_left_lt _ _ _ (by omega)]
    rw [twSkipDelims, hb, hD _ (getD_mem D j (by omega))]
    simp only [if_true]
    exact ih (by omega)

theorem take_drop_set (l buf : List Nat) (p n c : Nat) (hp : p < l.length) :
    (l.set p c).take (p + 1) ++ buf ++ (l.set p c).drop (p + 1 + n)
      = l.take p ++ c :: buf ++ l.drop (p + (n + 1)) := by
  have h0 : (l.set p c).take p = l.take p := by
    apply List.ext_getElem?
    intro k
    simp only [List.getElem?_take, List.getElem?_set]
    by_cases hk : k < p
    · simp [hk]; intro h; omega
    · simp [hk]
  have h1 : (l.set p c).take (p + 1) = l.take p ++ [c] := by
    rw [List.take_succ, h0]
    simp [List.getElem?_set, hp]
  have h2 : (l.set p c).drop (p + 1 + n) = l.drop (p + (n + 1)) := by
    rw [List.drop_set_of_lt _ _ (by omega)]
    congr 1; omega
  rw [h1, h2]; simp

theorem overtype_foldl (buf : List Nat) (s : Editor) (hlen : s.edlen = s.edbuf.length)
    (h : s.pos + buf.length ≤ s.edlen) :
    (buf.foldl input_overtype_follow s).edbuf
        = s.edbuf.take s.pos ++ buf ++ s.edbuf.drop (s.pos + buf.length) ∧
    (buf.foldl input_overtype_follow s).pos = s.pos + buf.length ∧
    (buf.foldl input_overtype_follow s).edlen = s.edlen := by
  induction buf generalizing s with
  | nil => simp
  | cons c buf ih =>
    simp only [List.foldl_cons, List.length_cons] at h ⊢
    have hp : s.pos < s.edlen := by omega
    have e : input_overtype_follow s c
        = { s with edbuf := s.edbuf.set s.pos c, pos := s.pos + 1 } := by
      unfold input_overtype_follow; rw [if_pos hp]
    rw [e]
    obtain ⟨i1, i2, i3⟩ := ih { s with edbuf := s.edbuf.set s.pos c, pos := s.pos + 1 }
      (by simp [hlen]) (by simp; omega)
    refine ⟨?_, ?_, ?_⟩
    · rw [i1]
      exact take_drop_set s.edbuf buf s.pos buf.length c (by omega)
    · rw [i2]; simp only []; omega
    · rw [i3]

theorem twTraceBack_nondelim (d : Defines) (s : Editor) (x : Nat)
    (h : inDELIM d (s.byte x) = false) : twTraceBack d s x = x := by
  cases x with
  | zero => rfl
  | succ k => rw [twTraceBack, h]; simp

theorem byte_end (d : Defines) (s : Editor) (A R : List Nat) (h : s.edbuf = A ++ R)
    (hR : ∀ c, R.head? = some c → inDELIM d c = true) :
    inDELIM d (s.byte A.length) = true := by
  have hb : s.byte A.length = R.getD 0 0 := by
    unfold Editor.byte
    have := getD_append_right_add A R 0
    rw [Nat.add_zero] at this
    rw [h, this]
  rw [hb]
  cases R with
  | nil => exact inDELIM_zero d
  | cons c R => exact hR c rfl

theorem twTraceBack_in (d : Defines) (s : Editor) (A w R : List Nat)
    (h : s.edbuf = A ++ w ++ R) (hw : ∀ c ∈ w, inDELIM d c = false) (hw0 : w ≠ [])
    (hR : ∀ c, R.head? = some c → inDELIM d c = true) (j : Nat) (hj : j ≤ w.length) :
    ∃ j2, j2 ≤ w.length ∧ twTraceBack d s (A.length + j) = A.length + j2 := by
  have hwl : 0 < w.length := List.length_pos.mpr hw0
  by_cases hlt : j < w.length
  · refine ⟨j, hj, twTraceBack_nondelim d s _ ?_⟩
    rw [byte_mid s A w R h j hlt]
    exact hw _ (getD_mem w j hlt)
  · have hje : j = w.length := by omega
    subst hje
    refine ⟨w.length - 1, by omega, ?_⟩
    have e : A.length + w.length = (A.length + (w.length - 1)) + 1 := by omega
    have hd := byte_end d s (A ++ w) R h hR
    rw [List.length_append] at hd
    rw [e] at hd ⊢
    rw [twTraceBack, hd]
    simp only [if_true]
    apply twTraceBack_nondelim
    rw [byte_mid s A w R h _ (by omega)]
    exact hw _ (getD_mem w _ (by omega))

theorem spanOf_mid (s : Editor) (A w R : List Nat) (h : s.edbuf = A ++ w ++ R) :
    spanOf s A.length w.length = w := by
  unfold spanOf
  rw [h, List.append_assoc, List.drop_left, List.take_left]

theorem transpose_words_swap (d : Defines) (s : Editor) (pre w1 ds w2 suf : List Nat)
    (k : Nat) (hbuf : s.edbuf = pre ++ w1 ++ ds ++ w2 ++ suf)
    (hlen : s.edlen = s.edbuf.length)
    (hw1 : w1 ≠ []) (hw1n : ∀ c ∈ w1, inDELIM d c = false)
    (hds : ds ≠ []) (hdsd : ∀ c ∈ ds, inDELIM d c = true)
    (hw2 : w2 ≠ []) (hw2n : ∀ c ∈ w2, inDELIM d c = false)
    (hpre : ∀ c, pre.getLast? = some c → inDELIM d c = true)
    (hsuf : ∀ c, suf.head? = some c → inDELIM d c = true)
    (hk : k ≤ w2.length) (hpos : s.pos = pre.length + w1.length + ds.length + k)
    (h2 : 2 < s.pos) :
    (transpose_words d s).edbuf = pre ++ w2 ++ ds ++ w1 ++ suf ∧
    (transpose_words d s).pos = pre.length + w2.length + ds.length + w1.length ∧
    (transpose_words d s).edlen = s.edlen := by
  have hl1 : 0 < w1.length := List.length_pos.mpr hw1
  have hl2 : 0 < ds.length := List.length_pos.mpr hds
  have hb2 : (pre ++ w1 ++ ds).length = pre.length + w1.length + ds.length := by
    simp only [List.length_append]
  have hA2 : ∀ c, (pre ++ w1 ++ ds).getLast? = some c → inDELIM d c = true := by
    intro c hc
    rw [List.getLast?_append_of_ne_nil _ hds] at hc
    exact hdsd c (List.mem_of_getLast?_eq_some hc)
  -- the current word
  obtain ⟨j2, hj2, htb⟩ := twTraceBack_in d s (pre ++ w1 ++ ds) w2 suf hbuf hw2n hw2 hsuf k hk
  rw [hb2, ← hpos] at htb
  have hso : twWordStart d s (twTraceBack d s s.pos) = pre.length + w1.length + ds.length := by
    rw [htb]
    have := twWordStart_in d s (pre ++ w1 ++ ds) w2 suf hbuf hw2n hA2 j2 hj2
    rwa [hb2] at this
  have heo : twWordEnd d s s.edlen s.pos
      = pre.length + w1.length + ds.length + w2.length := by
    have := twWordEnd_in d s (pre ++ w1 ++ ds) w2 suf hbuf hlen hw2n hsuf (w2.length - k) k
      s.edlen (by omega) (by rw [hlen, hbuf]; simp; omega)
    rwa [hb2, ← hpos] at this
  -- the word before it
  have hbuf1 : s.edbuf = pre ++ w1 ++ ds ++ (w2 ++ suf) := by
    rw [hbuf]; simp
  have hbuf0 : s.edbuf = pre ++ w1 ++ (ds ++ w2 ++ suf) := by
    rw [hbuf]; simp
  have hsk : twSkipDelims d s (pre.length + w1.length + ds.length)
      = some (pre.length + w1.length - 1) :=
    twSkipDelims_in d s pre w1 ds (w2 ++ suf) hbuf1 hw1n hw1 hdsd ds.length (le_refl _)
  have hos : twWordStart d s (pre.length + w1.length - 1) = pre.length := by
    have := twWordStart_in d s pre w1 (ds ++ w2 ++ suf) hbuf0 hw1n hpre (w1.length - 1)
      (by omega)
    rw [← this]; congr 1; omega
  have hs1 : spanOf s (pre.length + w1.length + ds.length) w2.length = w2 := by
    have := spanOf_mid s (pre ++ w1 ++ ds) w2 suf hbuf
    rwa [hb2] at this
  have hs2 : spanOf s (pre.length + w1.length) ds.length = ds := by
    have := spanOf_mid s (pre ++ w1) ds (w2 ++ suf) hbuf1
    rwa [List.length_append] at this
  have hs3 : spanOf s pre.length w1.length = w1 := spanOf_mid s pre w1 _ hbuf0
  unfold transpose_words
  rw [if_pos h2]
  simp only [hso, heo, hsk, hos]
  rw [if_neg (by omega)]
  have e1 : pre.length + w1.length + ds.length + w2.length
      - (pre.length + w1.length + ds.length) = w2.length := by omega
  have e2 : pre.length + w1.length - 1 + 1 = pre.length + w1.length := by omega
  have e3 : pre.length + w1.length + ds.length - (pre.length + w1.length) = ds.length := by
    omega
  have e4 : pre.length + w1.length - pre.length = w1.length := by omega
  rw [e1, e2, e3, e4, hs1, hs2, hs3]
  obtain ⟨o1, o2, o3⟩ := overtype_foldl (w2 ++ ds ++ w1) (input_moveto s pre.length) hlen
    (by simp only [input_moveto, hlen, hbuf]; simp; omega)
  refine ⟨?_, ?_, ?_⟩
  · rw [o1]
    simp only [input_moveto, hbuf]
    have t1 : List.take pre.length (pre ++ w1 ++ ds ++ w2 ++ suf) = pre := by
      simp only [List.append_assoc, List.take_left]
    have t2 : List.drop (pre.length + (w2 ++ ds ++ w1).length)
        (pre ++ w1 ++ ds ++ w2 ++ suf) = suf := by
      have e : pre.length + (w2 ++ ds ++ w1).length = (pre ++ w1 ++ ds ++ w2).length := by
        simp only [List.length_append]; omega
      rw [e, List.drop_left]
    rw [t1, t2]
    simp only [List.append_assoc]
  · rw [o2]; simp [input_moveto]; omega
  · rw [o3]; rfl

theorem twTraceBack_delims (d : Defines) (s : Editor) (x : Nat)
    (h : ∀ i, 1 ≤ i → i ≤ x → inDELIM d (s.byte i) = true) : twTraceBack d s x = 0 := by
  induction x with
  | zero => rfl
  | succ x ih =>
    rw [twTraceBack, h (x + 1) (by omega) (le_refl _)]
    simp only [if_true]
    exact ih (fun i h1 h2 => h i h1 (by omega))

theorem transpose_words_single (d : Defines) (s : Editor) (ds0 w suf : List Nat) (k : Nat)
    (hbuf : s.edbuf = ds0 ++ w ++ suf) (hds : ∀ c ∈ ds0, inDELIM d c = true)
    (hw : ∀ c ∈ w, inDELIM d c = false)
    (hsuf : ∀ c, suf.head? = some c → inDELIM d c = true)
    (hk : k ≤ w.length) (hpos : s.pos = ds0.length + k) : transpose_words d s = s := by
  unfold transpose_words
  split
  · have hso : twWordStart d s (twTraceBack d s s.pos) = 0 ∨
        twWordStart d s (twTraceBack d s s.pos) = ds0.length := by
      by_cases hw0 : w = []
      · left
        subst hw0
        have hk0 : k = 0 := by simpa using hk
        have : twTraceBack d s s.pos = 0 := by
          apply twTraceBack_delims
          intro i _ hi
          by_cases hlt : i < ds0.length
          · have hb : s.byte i = ds0.getD i 0 := by
              unfold Editor.byte
              rw [hbuf, List.append_assoc, getD_append_left_lt _ _ _ hlt]
            rw [hb]
            exact hds _ (getD_mem ds0 i hlt)
          · have hie : i = ds0.length := by omega
            rw [hie]
            exact byte_end d s ds0 suf (by rw [hbuf]; simp) hsuf
        rw [this]
        rfl
      · right
        have hA : ∀ c, ds0.getLast? = some c → inDELIM d c = true :=
          fun c hc => hds c (List.mem_of_getLast?_eq_some hc)
        obtain ⟨j2, hj2, htb⟩ := twTraceBack_in d s ds0 w suf hbuf hw hw0 hsuf k hk
        rw [← hpos] at htb
        rw [htb]
        exact twWordStart_in d s ds0 w suf hbuf hw hA j2 hj2
    simp only []
    rcases hso with h0 | h0
    · rw [h0, if_pos (by omega)]
    · rw [h0]
      split
      · rfl
      · rw [twSkipDelims_none d s ds0 (w ++ suf) (by rw [hbuf]; simp) hds ds0.length
          (le_refl _)]
  · rfl

/-- C20 as claimed fails: on `ab cd` with the cursor at 5, behind `cd`,
`transpose_words` gives `cd ab` and leaves the cursor at 5, the end of the
swapped span, not at 3, the start of the relocated word `ab`. -/
theorem C20_counterexample :
    (transpose_words stockDefines (editorAt [97, 98, 32, 99, 100] 5 0)).edbuf
      = [99, 100, 32, 97, 98] ∧
    (transpose_words stockDefines (editorAt [97, 98, 32, 99, 100] 5 0)).pos = 5 ∧
    (transpose_words stockDefines (editorAt [97, 98, 32, 99, 100] 5 0)).pos ≠ 3 := by
  decide

/-- C20, amended: let the buffer read `pre ++ w1 ++ ds ++ w2 ++ suf`, where `w1`
and `w2` are non-empty words without a delimiter, `ds` is a non-empty run of
delimiters, `pre` is empty or ends in a delimiter and `suf` is empty or starts
with one, and let the cursor be inside `w2` or at its end, at an offset above
2. Then `transpose_words` makes the buffer read `pre ++ w2 ++ ds ++ w1 ++ suf`
and leaves the cursor at the end of the swapped span (behind the relocated
word `w1`), the length unchanged. When the cursor offset is at most 2, or when
only delimiters lie before the word that the cursor is in or at the end of,
`transpose_words` changes nothing. -/
theorem C20_transpose_words_span (d : Defines) (s : Editor)
    (hlen : s.edlen = s.edbuf.length) :
    (∀ pre w1 ds w2 suf : List Nat, ∀ k : Nat,
      s.edbuf = pre ++ w1 ++ ds ++ w2 ++ suf →
      w1 ≠ [] → (∀ c ∈ w1, inDELIM d c = false) →
      ds ≠ [] → (∀ c ∈ ds, inDELIM d c = true) →
      w2 ≠ [] → (∀ c ∈ w2, inDELIM d c = false) →
      (∀ c, pre.getLast? = some c → inDELIM d c = true) →
      (∀ c, suf.head? = some c → inDELIM d c = true) →
      k ≤ w2.length → s.pos = pre.length + w1.length + ds.length + k → 2 < s.pos →
      (transpose_words d s).edbuf = pre ++ w2 ++ ds ++ w1 ++ suf ∧
      (transpose_words d s).pos = pre.length + w2.length + ds.length + w1.length ∧
      (transpose_words d s).edlen = s.edlen) ∧
    (s.pos ≤ 2 → transpose_words d s = s) ∧
    (∀ ds0 w suf : List Nat, ∀ k : Nat,
      s.edbuf = ds0 ++ w ++ suf →
      (∀ c ∈ ds0, inDELIM d c = true) → (∀ c ∈ w, inDELIM d c = false) →
      (∀ c, suf.head? = some c → inDELIM d c = true) →
      k ≤ w.length → s.pos = ds0.length + k → transpose_words d s = s) := by
  refine ⟨?_, ?_, ?_⟩
  · intro pre w1 ds w2 suf k hbuf hw1 hw1n hds hdsd hw2 hw2n hpre hsuf hk hpos h2
    exact transpose_words_swap d s pre w1 ds w2 suf k hbuf hlen hw1 hw1n hds hdsd hw2 hw2n
      hpre hsuf hk hpos h2
  · intro h
    unfold transpose_words
    rw [if_neg (by omega)]
  · intro ds0 w suf k hbuf hds hw hsuf hk hpos
    exact transpose_words_single d s ds0 w suf k hbuf hds hw hsuf hk hpos

/-- C20, amended, on `x ab  cde; f` with the cursor at 8, inside `cde`: the
buffer becomes `x cde  ab; f` and the cursor goes to 9; on `  abcd` with the
cursor at 5 nothing changes. -/
theorem C20_transpose_words_span_witness :
    (transpose_words stockDefines
        (editorAt [120, 32, 97, 98, 32, 32, 99, 100, 101, 59, 32, 102] 8 0)).edbuf
      = [120, 32] ++ [99, 100, 101] ++ [32, 32] ++ [97, 98] ++ [59, 32, 102] ∧
    (transpose_words stockDefines
        (editorAt [120, 32, 97, 98, 32, 32, 99, 100, 101, 59, 32, 102] 8 0)).pos = 9 ∧
    transpose_words stockDefines (editorAt [32, 32, 97, 98, 99, 100] 5 0)
      = editorAt [32, 32, 97, 98, 99, 100] 5 0 :=
  ⟨((C20_transpose_words_span stockDefines
      (editorAt [120, 32, 97, 98, 32, 32, 99, 100, 101, 59, 32, 102] 8 0) (by decide)).1
      [120, 32] [97, 98] [32, 32] [99, 100, 101] [59, 32, 102] 2 (by decide) (by decide)
      (by decide) (by decide) (by decide) (by decide) (by decide) (by decide) (by decide)
      (by decide) (by decide) (by decide)).1,
   ((C20_transpose_words_span stockDefines
      (editorAt [120, 32, 97, 98, 32, 32, 99, 100, 101, 59, 32, 102] 8 0) (by decide)).1
      [120, 32] [97, 98] [32, 32] [99, 100, 101] [59, 32, 102] 2 (by decide) (by decide)
      (by decide) (by decide) (by decide) (by decide) (by decide) (by decide) (by decide)
      (by decide) (by decide) (by decide)).2.1,
   (C20_transpose_words_span stockDefines (editorAt [32, 32, 97, 98, 99, 100] 5 0)
      (by decide)).2.2 [32, 32] [97, 98, 99, 100] [] 3 (by decide) (by decide) (by decide)
      (by decide) (by decide) (by decide)⟩

/-! ### The escaping codec: octal escapes and lengths -/

theorem octalEscape_printable (c : Nat) : ∀ b ∈ octalEscape c, 32 ≤ b ∧ b ≤ 126 := by
  intro b hb
  simp only [octalEscape, List.mem_cons, List.mem_singleton, List.not_mem_nil, or_false] at hb
  rcases hb with h | h | h | h <;> omega

theorem escapeByte_all_printable (d : Defines) (e : Bool) (c : Nat) :
    ∀ b ∈ escapeByte d e c, 32 ≤ b ∧ b ≤ 126 := by
  intro b hb
  unfold escapeByte at hb
  split at hb
  · exact octalEscape_printable c b hb
  · rename_i hc
    split at hb
    · simp only [ESC, List.mem_cons, List.mem_singleton, List.not_mem_nil, or_false] at hb
      rcases hb with h | h <;> omega
    · simp only [List.mem_singleton] at hb
      omega

theorem ptrmescapeLoop_printable (d : Defines) (hE : 32 ≤ d.ESC2 ∧ d.ESC2 ≤ 126)
    (s : List Nat) : ∀ r, ∀ b ∈ ptrmescapeLoop d r s, 32 ≤ b ∧ b ≤ 126 := by
  induction s with
  | nil =>
    intro r b hb
    cases r
    · simp [ptrmescapeLoop] at hb
    · simp only [ptrmescapeLoop, List.mem_singleton] at hb
      omega
  | cons c s ih =>
    intro r b hb
    cases r
    · simp only [ptrmescapeLoop] at hb
      split at hb
      · rcases List.mem_cons.mp hb with h | h
        · simp only [ESC] at h; omega
        · exact ih true b h
      · rcases List.mem_append.mp hb with h | h
        · exact escapeByte_all_printable d false c b h
        · exact ih false b h
    · simp only [ptrmescapeLoop] at hb
      split at hb
      · rcases List.mem_cons.mp hb with h | h
        · simp only [ESC] at h; omega
        · exact ih true b h
      · split at hb
        · rcases List.mem_cons.mp hb with h | h
          · omega
          · rcases List.mem_append.mp h with h | h
            · exact escapeByte_all_printable d false c b h
            · exact ih false b h
        · rcases List.mem_append.mp hb with h | h
          · exact escapeByte_all_printable d true c b h
          · exact ih false b h

theorem ptrmescapeLoop_octal (d : Defines) (hE : 32 ≤ d.ESC2 ∧ d.ESC2 ≤ 126)
    (c : Nat) (hc : c < 32 ∨ 126 < c) (post : List Nat) (pre : List Nat) :
    ∀ r, ∃ X, X <+: ptrmescapeLoop d r pre ∧
      ptrmescapeLoop d r (pre ++ c :: post)
        = X ++ octalEscape c ++ ptrmescapeLoop d false post := by
  have hcE : c ≠ ESC := by simp only [ESC]; omega
  have hcE2 : c ≠ d.ESC2 := by omega
  have hb : ∀ e, escapeByte d e c = octalEscape c := by
    intro e; unfold escapeByte; rw [if_pos (by omega)]
  induction pre with
  | nil =>
    intro r
    refine ⟨[], List.nil_prefix, ?_⟩
    cases r <;> simp [ptrmescapeLoop, hcE, hcE2, hb]
  | cons p pre ih =>
    intro r
    have hrun : ∀ r2, p = ESC → ∃ X, X <+: ptrmescapeLoop d r2 (p :: pre) ∧
        ptrmescapeLoop d r2 (p :: pre ++ c :: post)
          = X ++ octalEscape c ++ ptrmescapeLoop d false post := by
      intro r2 hp
      obtain ⟨X, hX, hXe⟩ := ih true
      refine ⟨ESC :: X, ?_, ?_⟩
      · cases r2 <;> simp only [ptrmescapeLoop, hp, if_true] <;>
          exact (List.prefix_cons_inj _).mpr hX
      · rw [List.cons_append]
        cases r2 <;> simp only [ptrmescapeLoop, hp, if_true, hXe, List.cons_append,
          List.append_assoc]
    by_cases hp : p = ESC
    · exact hrun r hp
    · obtain ⟨X, hX, hXe⟩ := ih false
      cases r
      · refine ⟨escapeByte d false p ++ X, ?_, ?_⟩
        · simp only [ptrmescapeLoop, hp, if_false]
          exact (List.prefix_append_right_inj _).mpr hX
        · rw [List.cons_append]
          simp only [ptrmescapeLoop, hp, if_false, hXe, List.append_assoc]
      · by_cases hp2 : p = d.ESC2
        · subst hp2
          refine ⟨d.ESC2 :: (escapeByte d false d.ESC2 ++ X), ?_, ?_⟩
          · simp only [ptrmescapeLoop, hp, if_false, if_true]
            exact (List.prefix_cons_inj _).mpr ((List.prefix_append_right_inj _).mpr hX)
          · rw [List.cons_append]
            simp only [ptrmescapeLoop, hp, if_false, if_true, hXe, List.append_assoc,
              List.cons_append]
        · refine ⟨escapeByte d true p ++ X, ?_, ?_⟩
          · simp only [ptrmescapeLoop, hp, if_false, hp2]
            exact (List.prefix_append_right_inj _).mpr hX
          · rw [List.cons_append]
            simp only [ptrmescapeLoop, hp, if_false, hp2, hXe, List.append_assoc]

theorem octalEscape_digits (c : Nat) (hc : c < 256) :
    octalEscape c = [92, 48 + c / 64, 48 + (c / 8) % 8, 48 + c % 8] ∧
    ISODIGIT (48 + c / 64) = true ∧ ISODIGIT (48 + (c / 8) % 8) = true ∧
    ISODIGIT (48 + c % 8) = true ∧
    64 * (c / 64) + 8 * ((c / 8) % 8) + c % 8 = c := by
  have h : c % 256 = c := Nat.mod_eq_of_lt hc
  refine ⟨by simp [octalEscape, h], ?_, ?_, ?_, by omega⟩ <;>
    simp [ISODIGIT] <;> omega

/-- C25: when `ESC2` is a printable byte, every byte that `ptrmescape` writes and
every byte that `escape_specials` writes for an input without NUL is printable
ASCII (`' ' .. '~'`); and an input byte `c` outside `' ' .. '~'` (below 256)
stands in the output, between what was written for the bytes before it and the
escaped form of the bytes behind it, as a backslash and the three octal digits
of `c`, which `memunescape` reads back as `c`. -/
theorem C25_escape_output_printable (d : Defines) (hE : 32 ≤ d.ESC2 ∧ d.ESC2 ≤ 126) :
    (∀ src srclen, ∀ b ∈ ptrmescape d [] src srclen false, 32 ≤ b ∧ b ≤ 126) ∧
    (∀ dst src srclen, ∃ out, ptrmescape d dst src srclen true = dst ++ out ∧
      ∀ b ∈ out, 32 ≤ b ∧ b ≤ 126) ∧
    (∀ src, (∀ b ∈ src, b ≠ 0) → ∀ b ∈ escape_specials d src, 32 ≤ b ∧ b ≤ 126) ∧
    (∀ pre c post, c < 256 → (c < 32 ∨ 126 < c) →
      ∃ X, X <+: ptrmescape d [] pre pre.length false ∧
        ptrmescape d [] (pre ++ c :: post) (pre ++ c :: post).length false
          = X ++ [92, 48 + c / 64, 48 + (c / 8) % 8, 48 + c % 8]
              ++ ptrmescape d [] post post.length false ∧
        octalValue (48 + c / 64) (48 + (c / 8) % 8) (48 + c % 8) = c) ∧
    (∀ pre c post, (∀ b ∈ pre ++ c :: post, b ≠ 0) → c < 256 → (c < 32 ∨ 126 < c) →
      ∃ X, X <+: escape_specials d pre ∧
        escape_specials d (pre ++ c :: post)
          = X ++ [92, 48 + c / 64, 48 + (c / 8) % 8, 48 + c % 8]
              ++ escape_specials d post ∧
        octalValue (48 + c / 64) (48 + (c / 8) % 8) (48 + c % 8) = c) := by
  have hval : ∀ c, c < 256 →
      octalValue (48 + c / 64) (48 + (c / 8) % 8) (48 + c % 8) = c := by
    intro c hc
    interval_cases c <;> rfl
  have hwhole : ∀ l : List Nat, ptrmescape d [] l l.length false = ptrmescapeLoop d false l := by
    intro l
    cases l with
    | nil => simp [ptrmescape, ptrmescapeLoop]
    | cons a l => simp [ptrmescape]
  refine ⟨?_, ?_, ?_, ?_, ?_⟩
  · intro src srclen b hb
    unfold ptrmescape at hb
    split at hb
    · simp at hb
    · simp only [Bool.false_eq_true, if_false, List.nil_append] at hb
      exact ptrmescapeLoop_printable d hE _ false b hb
  · intro dst src srclen
    unfold ptrmescape
    split
    · exact ⟨[], by simp, by simp⟩
    · exact ⟨ptrmescapeLoop d false (src.take srclen), by simp,
        ptrmescapeLoop_printable d hE _ false⟩
  · intro src hs b hb
    unfold escape_specials at hb
    rw [escape_specialsLoop_eq d src hs] at hb
    exact ptrmescapeLoop_printable d hE _ false b hb
  · intro pre c post hc256 hc
    obtain ⟨X, hX, hXe⟩ := ptrmescapeLoop_octal d hE c hc post pre false
    refine ⟨X, ?_, ?_, hval c hc256⟩
    · rw [hwhole]; exact hX
    · rw [hwhole, hwhole, hXe, (octalEscape_digits c hc256).1]
  · intro pre c post hs hc256 hc
    obtain ⟨X, hX, hXe⟩ := ptrmescapeLoop_octal d hE c hc post pre false
    have hpre : ∀ b ∈ pre, b ≠ 0 := fun b hb => hs b (List.mem_append_left _ hb)
    have hpost : ∀ b ∈ post, b ≠ 0 :=
      fun b hb => hs b (List.mem_append_right _ (List.mem_cons_of_mem _ hb))
    refine ⟨X, ?_, ?_, hval c hc256⟩
    · unfold escape_specials
      rw [escape_specialsLoop_eq d pre hpre]; exact hX
    · unfold escape_specials
      rw [escape_specialsLoop_eq d _ hs, escape_specialsLoop_eq d post hpost, hXe,
        (octalEscape_digits c hc256).1]

/-- C25 at the stock constants, on the input `a`, byte 1, byte `0xe9`, `b`: the
output is `a\001\351b`, all printable. -/
theorem C25_escape_output_printable_witness :
    (∀ b ∈ ptrmescape stockDefines [] [97, 1, 233, 98] 4 false, 32 ≤ b ∧ b ≤ 126) ∧
    ptrmescape stockDefines [] [97, 1, 233, 98] 4 false
      = [97, 92, 48, 48, 49, 92, 51, 53, 49, 98] ∧
    escape_specials stockDefines [97, 1, 233, 98]
      = [97, 92, 48, 48, 49, 92, 51, 53, 49, 98] :=
  ⟨(C25_escape_output_printable stockDefines (by decide)).1 [97, 1, 233, 98] 4,
   by decide, by decide⟩

theorem octalValue_digits (a b c : Nat) (ha : ISODIGIT a = true) (hb : ISODIGIT b = true)
    (hc : ISODIGIT c = true) :
    octalValue a b c = (64 * (a - 48) + 8 * (b - 48) + (c - 48)) % 256 := by
  simp only [ISODIGIT, Bool.and_eq_true, decide_eq_true_eq] at ha hb hc
  obtain ⟨ha1, ha2⟩ := ha
  obtain ⟨hb1, hb2⟩ := hb
  obtain ⟨hc1, hc2⟩ := hc
  interval_cases a <;> interval_cases b <;> interval_cases c <;> rfl

theorem memunescapeLoop_plain_prefix (d : Defines) (pre : List Nat)
    (hpre : ∀ x ∈ pre, x ≠ ESC) (s : List Nat) :
    memunescapeLoop d .NORM (pre ++ s) = pre ++ memunescapeLoop d .NORM s := by
  induction pre with
  | nil => rfl
  | cons x pre ih =>
    have hx : x ≠ ESC := hpre x (List.mem_cons_self _ _)
    rw [List.cons_append, memunescapeLoop_norm_plain d x _ hx,
      ih (fun y hy => hpre y (List.mem_cons_of_mem _ hy))]
    rfl

theorem memunescapeLoop_octal (d : Defines) (hE : ISODIGIT d.ESC2 = false) (a b c : Nat)
    (ha : ISODIGIT a = true) (hb : ISODIGIT b = true) (hc : ISODIGIT c = true)
    (rest : List Nat) :
    memunescapeLoop d .NORM (ESC :: a :: b :: c :: rest)
      = octalValue a b c :: memunescapeLoop d .NORM rest := by
  have h1 : a ≠ ESC := by
    intro h; rw [h] at ha; simp [ISODIGIT, ESC] at ha
  have h2 : a ≠ d.ESC2 := by
    intro h; rw [h, hE] at ha; simp at ha
  rw [memunescapeLoop_norm_ESC]
  simp [memunescapeLoop, h1, h2, ha, hb, hc]
theorem memunescapeLoop_length (d : Defines) (st : UState) (s : List Nat) :
    (memunescapeLoop d st s).length ≤ s.length := by
  induction st, s using memunescapeLoop.induct d with
  | case1 st => cases st <;> simp [memunescapeLoop]
  | case2 c s h ih => rw [memunescapeLoop, if_pos h]; simp only [List.length_cons]; omega
  | case3 c s h ih => rw [memunescapeLoop, if_neg h]; simp only [List.length_cons]; omega
  | case4 c1 c2 s2 ih =>
    rw [memunescapeLoop, if_pos rfl]; simp only [List.length_cons] at ih ⊢; omega
  | case5 c1 c2 s2 h ih =>
    rw [memunescapeLoop, if_neg h, if_pos rfl]; simp only [List.length_cons] at ih ⊢; omega
  | case6 c c1 c2 s2 h1 h2 h3 ih =>
    rw [memunescapeLoop, if_neg h1, if_neg h2, if_pos h3]
    simp only [List.length_cons] at ih ⊢; omega
  | case7 c c1 c2 s2 h1 h2 h3 ih =>
    rw [memunescapeLoop, if_neg h1, if_neg h2, if_neg h3]
    simp only [List.length_cons] at ih ⊢; omega
  | case8 s hx ih =>
    rw [memunescapeLoop.eq_4 _ _ _ hx, if_pos rfl]; simp only [List.length_cons]; omega
  | case9 s hx h ih =>
    rw [memunescapeLoop.eq_4 _ _ _ hx, if_neg h, if_pos rfl]
    simp only [List.length_cons]; omega
  | case10 c s hx h1 h2 ih =>
    rw [memunescapeLoop.eq_4 _ _ _ hx, if_neg h1, if_neg h2]
    simp only [List.length_cons]; omega
  | case11 s ih => rw [memunescapeLoop, if_pos rfl]; simp only [List.length_cons]; omega
  | case12 s h ih =>
    rw [memunescapeLoop, if_neg h, if_pos rfl]; simp only [List.length_cons]; omega
  | case13 c s h1 h2 ih =>
    rw [memunescapeLoop, if_neg h1, if_neg h2]; simp only [List.length_cons]; omega

/-- C26: when `ESC2` is not an octal digit, a backslash met in state `NORM` and
followed by three octal digits `a b c` is replaced by the one byte
`(64a + 8b + c) mod 256` (digit values), the value 0 included, and the decoding
goes on behind the digits in state `NORM`. With `memunescape` on a buffer that
starts with bytes `pre` without backslash (the first byte of the buffer not
NUL), then the escape, then `rest`, and a length `lenp` that covers the escape:
the returned length and the bytes left at the start of the buffer are `pre`,
that one byte and the decoding of what `lenp` covers of `rest`. -/
theorem C26_octal_escape_decoded (d : Defines) (hE : ISODIGIT d.ESC2 = false)
    (pre rest : List Nat) (a b c lenp : Nat)
    (ha : ISODIGIT a = true) (hb : ISODIGIT b = true) (hc : ISODIGIT c = true)
    (hpre : ∀ x ∈ pre, x ≠ ESC) (h0 : pre.head? ≠ some 0)
    (hl : pre.length + 4 ≤ lenp) :
    memunescapeLoop d .NORM (ESC :: a :: b :: c :: rest)
      = ((64 * (a - 48) + 8 * (b - 48) + (c - 48)) % 256)
          :: memunescapeLoop d .NORM rest ∧
    (memunescape d (pre ++ ESC :: a :: b :: c :: rest) lenp).2
      = pre.length + 1
          + (memunescapeLoop d .NORM (rest.take (lenp - (pre.length + 4)))).length ∧
    (memunescape d (pre ++ ESC :: a :: b :: c :: rest) lenp).1.take
        (memunescape d (pre ++ ESC :: a :: b :: c :: rest) lenp).2
      = pre ++ ((64 * (a - 48) + 8 * (b - 48) + (c - 48)) % 256)
          :: memunescapeLoop d .NORM (rest.take (lenp - (pre.length + 4))) := by
  have hv := octalValue_digits a b c ha hb hc
  have h1 : memunescapeLoop d .NORM (ESC :: a :: b :: c :: rest)
      = ((64 * (a - 48) + 8 * (b - 48) + (c - 48)) % 256)
          :: memunescapeLoop d .NORM rest := by
    rw [memunescapeLoop_octal d hE a b c ha hb hc, hv]
  have htake : (pre ++ ESC :: a :: b :: c :: rest).take lenp
      = pre ++ ESC :: a :: b :: c :: rest.take (lenp - (pre.length + 4)) := by
    obtain ⟨k, hk⟩ := Nat.exists_eq_add_of_le hl
    subst hk
    rw [List.take_append_eq_append_take, List.take_of_length_le (by omega)]
    have e1 : pre.length + 4 + k - pre.length = k + 4 := by omega
    have e2 : pre.length + 4 + k - (pre.length + 4) = k := by omega
    rw [e1, e2]
    rfl
  have hout : memunescapeLoop d .NORM ((pre ++ ESC :: a :: b :: c :: rest).take lenp)
      = pre ++ ((64 * (a - 48) + 8 * (b - 48) + (c - 48)) % 256)
          :: memunescapeLoop d .NORM (rest.take (lenp - (pre.length + 4))) := by
    rw [htake, memunescapeLoop_plain_prefix d pre hpre,
      memunescapeLoop_octal d hE a b c ha hb hc, hv]
  have hm : memunescape d (pre ++ ESC :: a :: b :: c :: rest) lenp
      = (memunescapeLoop d .NORM ((pre ++ ESC :: a :: b :: c :: rest).take lenp)
          ++ 0 :: (pre ++ ESC :: a :: b :: c :: rest).drop
            ((memunescapeLoop d .NORM
              ((pre ++ ESC :: a :: b :: c :: rest).take lenp)).length + 1),
         (memunescapeLoop d .NORM ((pre ++ ESC :: a :: b :: c :: rest).take lenp)).length) := by
    cases pre with
    | nil => simp [memunescape, ESC]
    | cons x pre =>
      have hx : x ≠ 0 := by simpa using h0
      simp [memunescape, hx]
  refine ⟨h1, ?_, ?_⟩
  · rw [hm]; simp only []; rw [hout]; simp; omega
  · rw [hm]; simp only []; rw [List.take_left', hout]
    rfl

/-- C26 on the example: `memunescape("a\\000b", 6)` returns 3 and leaves the
bytes `a`, NUL, `b`. -/
theorem C26_octal_escape_decoded_witness :
    (memunescape stockDefines [97, 92, 48, 48, 48, 98] 6).2 = 3 ∧
    (memunescape stockDefines [97, 92, 48, 48, 48, 98] 6).1.take 3 = [97, 0, 98] ∧
    (memunescape stockDefines [97, 92, 48, 48, 48, 98] 6).2
      = [97].length + 1 + (memunescapeLoop stockDefines .NORM ([98].take (6 - 5))).length :=
  ⟨by decide, by decide,
   (C26_octal_escape_decoded stockDefines (by decide) [97] [98] 48 48 48 6 (by decide)
      (by decide) (by decide) (by decide) (by decide) (by decide)).2.1⟩
/-- C27: `memunescape` never lengthens its input. The returned length `r` is
at most `lenp` (and at most the number of bytes the buffer holds); the decoded
bytes are the first `r` bytes of the buffer after the call, the byte at offset
`r` is NUL, and the bytes behind it are left as they were. (When the buffer is
empty or starts with NUL nothing is written and `r = 0`.) -/
theorem C27_memunescape_no_longer (d : Defines) (p : List Nat) (lenp : Nat) :
    (memunescape d p lenp).2 ≤ lenp ∧
    (memunescape d p lenp).2 ≤ p.length ∧
    (memunescape d p lenp).1.take (memunescape d p lenp).2
      = (if p.head? = some 0 then [] else memunescapeLoop d .NORM (p.take lenp)) ∧
    (memunescape d p lenp).1.drop ((memunescape d p lenp).2 + 1)
      = p.drop ((memunescape d p lenp).2 + 1) ∧
    (p = [] ∨ (memunescape d p lenp).1[(memunescape d p lenp).2]? = some 0) := by
  have hlen := memunescapeLoop_length d .NORM (p.take lenp)
  have htl : (p.take lenp).length ≤ lenp := by simp
  have htp : (p.take lenp).length ≤ p.length := by simp
  cases p with
  | nil => simp [memunescape, memunescapeLoop]
  | cons c t =>
    by_cases hc : c = 0
    · simp [memunescape, hc]
    · simp only [memunescape, hc, if_false]
      refine ⟨by omega, by omega, ?_, ?_, ?_⟩
      · simp [hc]
      · rw [List.drop_append_eq_append_drop]
        simp
      · right
        rw [List.getElem?_append_right (le_refl _)]
        simp

/-! ### `printstrlen`: what is counted -/

/-- In state `NORM`, on a string without NUL, escape byte and carriage return,
the width grows by the number of bytes from `0x20` upwards (the bytes with the
high bit set are among them, and so is DEL). -/
theorem printstrlenLoop_norm_count (cols : Nat) (s : List Nat) (l : Nat)
    (hs : ∀ b ∈ s, b ≠ 0 ∧ b ≠ 27 ∧ b ≠ 13) :
    printstrlenLoop cols .NORM l s = l + (s.filter (fun b => decide (32 ≤ b))).length := by
  induction s generalizing l with
  | nil => simp [printstrlenLoop]
  | cons c t ih =>
    obtain ⟨h0, h27, h13⟩ := hs c (List.mem_cons_self _ _)
    have ht := fun l => ih l (fun b hb => hs b (List.mem_cons_of_mem _ hb))
    by_cases hc : 32 ≤ c
    · simp only [printstrlenLoop, h0, h27, if_false, hc, or_true, if_true, ht,
        List.filter_cons, decide_True, List.length_cons]
      omega
    · have hbit : c &&& 128 = 0 := by
        have : c < 32 := by omega
        interval_cases c <;> rfl
      simp only [printstrlenLoop, h0, h27, if_false, hc, or_false, hbit, ne_eq,
        not_true_eq_false, h13, ht, List.filter_cons, decide_False]
      simp

/-- C28, evaluation of the code where it leaves the claim: the string that
holds the one byte DEL (`0x7f`), which is neither the escape byte nor a
carriage return and has neither the high bit set nor a value in
`0x20 .. 0x7e`, has the printed length 1, for every terminal width. -/
theorem C28_del_counted (cols : Nat) :
    printstrlen cols [127] = 1 ∧
    ([127].filter (fun c => decide (c &&& 128 ≠ 0 ∨ (32 ≤ c ∧ c ≤ 126)))).length = 0 ∧
    printstrlen cols [97, 127, 98] = 3 ∧
    ([97, 127, 98].filter
      (fun c => decide (c &&& 128 ≠ 0 ∨ (32 ≤ c ∧ c ≤ 126)))).length = 2 :=
  ⟨by simp [printstrlen, printstrlenLoop], by decide,
   by simp [printstrlen, printstrlenLoop], by decide⟩

theorem printstrlenLoop_eq_run (cols : Nat) (s : List Nat) :
    ∀ st l, printstrlenLoop cols st l s = (printstrlenRun cols st l s).2 := by
  induction s with
  | nil => intro st l; simp [printstrlenLoop, printstrlenRun]
  | cons c s ih =>
    intro st l
    cases st <;> simp only [printstrlenLoop, printstrlenRun] <;> split_ifs <;> simp [ih]

theorem printstrlenLoop_append (cols : Nat) (s t : List Nat) (hs : ∀ b ∈ s, b ≠ 0) :
    ∀ st l, printstrlenLoop cols st l (s ++ t)
      = printstrlenLoop cols (printstrlenRun cols st l s).1 (printstrlenRun cols st l s).2 t := by
  induction s with
  | nil => intro st l; simp [printstrlenRun]
  | cons c s ih =>
    intro st l
    have h0 : c ≠ 0 := hs c (List.mem_cons_self _ _)
    have ih2 := ih (fun b hb => hs b (List.mem_cons_of_mem _ hb))
    rw [List.cons_append]
    cases st <;> simp only [printstrlenLoop, printstrlenRun, h0, if_false] <;>
      split_ifs <;> simp [ih2]

theorem printstrlenLoop_bracket (cols : Nat) (params : List Nat) (letter : Nat)
    (t : List Nat) (l : Nat) (hp : ∀ c ∈ params, isalpha c = false ∧ c ≠ 0)
    (hl : isalpha letter = true) :
    printstrlenLoop cols .BRACKET l (params ++ letter :: t) = printstrlenLoop cols .NORM l t := by
  induction params with
  | nil =>
    have h0 : letter ≠ 0 := by
      intro h; rw [h] at hl; simp [isalpha] at hl
    simp [printstrlenLoop, h0, hl]
  | cons c params ih =>
    obtain ⟨h1, h0⟩ := hp c (List.mem_cons_self _ _)
    rw [List.cons_append]
    simp only [printstrlenLoop, h0, if_false, h1, Bool.false_eq_true]
    exact ih (fun b hb => hp b (List.mem_cons_of_mem _ hb))

theorem printstrlenLoop_add (cols : Nat) (t : List Nat) (ht : 13 ∉ t) :
    ∀ st l, printstrlenLoop cols st l t = l + printstrlenLoop cols st 0 t := by
  induction t with
  | nil => intro st l; simp [printstrlenLoop]
  | cons c t ih =>
    intro st l
    have h13 : c ≠ 13 := fun h => ht (by simp [h])
    have ih2 := ih (fun h => ht (List.mem_cons_of_mem _ h))
    cases st
    · simp only [printstrlenLoop]
      split_ifs
      · simp
      · exact ih2 _ _
      · rw [ih2 _ (l + 1), ih2 _ (0 + 1)]; omega
      · exact ih2 _ _
    · simp only [printstrlenLoop]
      split_ifs <;> first | simp | exact ih2 _ _
    · simp only [printstrlenLoop]
      split_ifs <;> first | simp | exact ih2 _ _

/-- C29: an ANSI sequence has no width. Let `s` be a string without NUL that
leaves the scanner of `printstrlen` in state `NORM` with the width `w`, and let
`e` be `ESC [ params letter` (no byte of `params` alphabetic or NUL, `letter`
alphabetic) or `ESC x` with `x` neither `[` nor NUL. Then for every `t` the
width of `s ++ e ++ t` is the width that the scan of `t` gives when it starts
in state `NORM` at `w`, where `w = printstrlen(s)`; for `t` without carriage
return it is `printstrlen(s) + printstrlen(t)`. -/
theorem C29_ansi_zero_width (cols : Nat) (s e t : List Nat) (w : Nat)
    (hs : ∀ b ∈ s, b ≠ 0)
    (hrun : printstrlenRun cols .NORM 0 s = (PState.NORM, w))
    (he : (∃ params letter, e = 27 :: 91 :: params ++ [letter] ∧
            (∀ c ∈ params, isalpha c = false ∧ c ≠ 0) ∧ isalpha letter = true) ∨
          (∃ x, e = [27, x] ∧ x ≠ 91 ∧ x ≠ 0)) :
    printstrlen cols (s ++ e ++ t) = printstrlenLoop cols .NORM w t ∧
    w = printstrlen cols s ∧
    (13 ∉ t → printstrlen cols (s ++ e ++ t) = printstrlen cols s + printstrlen cols t) := by
  have hw : w = printstrlen cols s := by
    unfold printstrlen
    rw [printstrlenLoop_eq_run, hrun]
  have hmain : printstrlen cols (s ++ e ++ t) = printstrlenLoop cols .NORM w t := by
    unfold printstrlen
    rw [List.append_assoc, printstrlenLoop_append cols s (e ++ t) hs, hrun]
    simp only []
    rcases he with ⟨params, letter, rfl, hp, hl⟩ | ⟨x, rfl, hx, hx0⟩
    · have : (27 :: 91 :: params ++ [letter]) ++ t = 27 :: 91 :: (params ++ letter :: t) := by
        simp
      rw [this]
      simp only [printstrlenLoop]
      simp only [if_true, Nat.reduceEqDiff, if_false]
      exact printstrlenLoop_bracket cols params letter t w hp hl
    · have : [27, x] ++ t = 27 :: x :: t := rfl
      rw [this]
      simp only [printstrlenLoop, hx, hx0, if_false, if_true, Nat.reduceEqDiff]
  refine ⟨hmain, hw, ?_⟩
  intro ht
  rw [hmain, printstrlenLoop_add cols t ht, hw]
  rfl

/-- C29 on `ab`, the sequence `ESC [ 3 1 m` and `cd`, and on `ab`, `ESC 7`,
`cd`: the width is 4. -/
theorem C29_ansi_zero_width_witness :
    printstrlen 80 ([97, 98] ++ [27, 91, 51, 49, 109] ++ [99, 100]) = 2 + 2 ∧
    printstrlen 80 ([97, 98] ++ [27, 55] ++ [99, 100])
      = printstrlen 80 [97, 98] + printstrlen 80 [99, 100] :=
  ⟨by
    have h := (C29_ansi_zero_width 80 [97, 98] [27, 91, 51, 49, 109] [99, 100] 2
      (by decide) (by decide) (Or.inl ⟨[51, 49], 109, by decide, by decide, by decide⟩)).2.2
      (by decide)
    exact h,
   (C29_ansi_zero_width 80 [97, 98] [27, 55] [99, 100] 2 (by decide) (by decide)
      (Or.inr ⟨55, by decide, by decide, by decide⟩)).2.2 (by decide)⟩

/-- C30: a carriage return puts the width back to the start of the terminal
row. For `cols > 0`, every string `s` and every string `t` whose bytes are all
from `0x20` upwards (so printable, without escape byte and carriage return),
`printstrlen(s ++ "\r" ++ t) = (length(s) / cols) * cols + length(t)`. -/
theorem C30_carriage_return_row_start (cols : Nat) (s t : List Nat) (_hcols : 0 < cols)
    (hs : ∀ b ∈ s, 32 ≤ b) (ht : ∀ b ∈ t, 32 ≤ b) :
    printstrlen cols (s ++ [13] ++ t) = (s.length / cols) * cols + t.length := by
  have hs0 : ∀ b ∈ s, b ≠ 0 := fun b hb => by have := hs b hb; omega
  have hrun : printstrlenRun cols .NORM 0 s = (PState.NORM, s.length) := by
    have : ∀ l, printstrlenRun cols .NORM l s = (PState.NORM, l + s.length) := by
      induction s with
      | nil => intro l; simp [printstrlenRun]
      | cons c u ih =>
        intro l
        have hc : 32 ≤ c := hs c (List.mem_cons_self _ _)
        have h0 : c ≠ 0 := by omega
        have h27 : c ≠ 27 := by omega
        simp only [printstrlenRun, h0, h27, if_false, hc, or_true, if_true,
          List.length_cons]
        rw [ih (fun b hb => hs b (List.mem_cons_of_mem _ hb))
          (fun b hb => hs0 b (List.mem_cons_of_mem _ hb))]
        congr 1; omega
    simpa using this 0
  unfold printstrlen
  rw [List.append_assoc, printstrlenLoop_append cols s ([13] ++ t) hs0, hrun]
  have hcons : [13] ++ t = 13 :: t := rfl
  rw [hcons]
  simp only [printstrlenLoop]
  simp only [Nat.reduceEqDiff, if_false]
  have hb : (13 &&& 128 ≠ 0 ∨ 32 ≤ 13) = False := by decide
  simp only [hb, if_false, if_true]
  rw [printstrlenLoop_norm_counted cols t _ ht]

/-- C30 at 80 columns: 100 bytes `a`, a carriage return and `bc` give the
width 82. -/
theorem C30_carriage_return_row_start_witness :
    printstrlen 80 (List.replicate 100 97 ++ [13] ++ [98, 99]) = 82 := by
  have h := C30_carriage_return_row_start 80 (List.replicate 100 97) [98, 99] (by decide)
    (by intro b hb; rw [List.eq_of_mem_replicate hb]; decide) (by decide)
  simpa using h

/-! ### The line editor: `upcase_word` and `downcase_word` -/

theorem ucTraceBack_eq (d : Defines) (s : Editor) (x : Nat) :
    ucTraceBack d s x = twTraceBack d s x := by
  induction x with
  | zero => rfl
  | succ k ih => simp only [ucTraceBack, twTraceBack, IS_DELIM, ih]

theorem ucWordStart_eq (d : Defines) (s : Editor) (x : Nat) :
    ucWordStart d s x = twWordStart d s x := by
  induction x with
  | zero => rfl
  | succ k ih => simp only [ucWordStart, twWordStart, IS_DELIM, ih]

theorem set_mid (A w R : List Nat) (c v : Nat) :
    (A ++ c :: w ++ R).set A.length v = (A ++ [v]) ++ w ++ R := by
  induction A with
  | nil => simp
  | cons a A ih => simp [ih]

/-- The conversion loop over a run `w` of bytes on which it goes on, up to a
byte on which it stops (or the end of the text). -/
theorem ucLoop_run (d : Defines) (conv : Nat → Nat) (again : Bool) (w : List Nat) :
    ∀ (A R : List Nat) (s : Editor) (fuel : Nat),
      s.edbuf = A ++ w ++ R → s.edlen = s.edbuf.length → s.pos = A.length →
      (∀ c ∈ w, IS_DELIM d c = false ∨ (again = true ∧ c ≠ 0)) →
      (∀ c, R.head? = some c → ¬ (IS_DELIM d c = false ∨ (again = true ∧ c ≠ 0))) →
      w.length + 1 ≤ fuel →
      (ucLoop d conv again fuel s A.length).edbuf = A ++ w.map conv ++ R ∧
      (ucLoop d conv again fuel s A.length).edlen = s.edlen := by
  induction w with
  | nil =>
    intro A R s fuel hbuf hlen hpos hw hR hf
    obtain ⟨f, rfl⟩ : ∃ f, fuel = f + 1 := ⟨fuel - 1, by simp at hf; omega⟩
    have hb : s.byte A.length = R.getD 0 0 := by
      unfold Editor.byte
      have := getD_append_right_add A R 0
      rw [Nat.add_zero] at this
      rw [hbuf, List.append_nil, this]
    have hstop : ¬ (IS_DELIM d (s.byte A.length) = false ∨
        (again = true ∧ s.byte A.length ≠ 0)) := by
      rw [hb]
      cases R with
      | nil => simp [IS_DELIM, inDELIM]
      | cons c R => exact hR c rfl
    rw [ucLoop, if_neg hstop]
    exact ⟨by rw [hbuf]; simp, rfl⟩
  | cons c w ih =>
    intro A R s fuel hbuf hlen hpos hw hR hf
    obtain ⟨f, rfl⟩ : ∃ f, fuel = f + 1 := ⟨fuel - 1, by simp at hf; omega⟩
    have hb : s.byte A.length = c := by
      have := byte_mid s A (c :: w) R hbuf 0 (by simp)
      simpa using this
    have hgo : IS_DELIM d (s.byte A.length) = false ∨
        (again = true ∧ s.byte A.length ≠ 0) := by
      rw [hb]; exact hw c (List.mem_cons_self _ _)
    have hlt : s.pos < s.edlen := by
      rw [hpos, hlen, hbuf]; simp
    have hov : input_overtype_follow s (conv c)
        = { s with edbuf := s.edbuf.set s.pos (conv c), pos := s.pos + 1 } := by
      unfold input_overtype_follow; rw [if_pos hlt]
    rw [ucLoop, if_pos hgo, hb, hov]
    have hset : s.edbuf.set s.pos (conv c) = (A ++ [conv c]) ++ w ++ R := by
      rw [hbuf, hpos]; exact set_mid A w R c (conv c)
    have hA : (A ++ [conv c]).length = A.length + 1 := by simp
    have := ih (A ++ [conv c]) R
      { s with edbuf := s.edbuf.set s.pos (conv c), pos := s.pos + 1 } f
      hset (by simp [hlen]) (by simp [hpos])
      (fun x hx => hw x (List.mem_cons_of_mem _ hx)) hR (by simp at hf ⊢; omega)
    rw [hA] at this
    obtain ⟨t1, t2⟩ := this
    exact ⟨by rw [t1]; simp, t2⟩

theorem ucLoop_pos_irrelevant (d : Defines) (conv : Nat → Nat) (again : Bool) (fuel : Nat)
    (s : Editor) (npos p : Nat) :
    (input_moveto (ucLoop d conv again fuel s npos) p).pos = p := rfl

/-- A first call of the conversion: the word that the cursor is in, or at the
end of, is converted. -/
theorem caseWord_first (d : Defines) (conv : Nat → Nat) (s : Editor)
    (pre w suf : List Nat) (k : Nat)
    (hbuf : s.edbuf = pre ++ w ++ suf) (hlen : s.edlen = s.edbuf.length)
    (hw0 : w ≠ []) (hw : ∀ c ∈ w, inDELIM d c = false)
    (hpre : ∀ c, pre.getLast? = some c → inDELIM d c = true)
    (hsuf : ∀ c, suf.head? = some c → inDELIM d c = true)
    (hk : k ≤ w.length) (hpos : s.pos = pre.length + k) :
    (ucLoop d conv false (s.edbuf.length + 1)
        (input_moveto s (ucWordStart d s (ucTraceBack d s s.pos)))
        (ucWordStart d s (ucTraceBack d s s.pos))).edbuf = pre ++ w.map conv ++ suf ∧
    (ucLoop d conv false (s.edbuf.length + 1)
        (input_moveto s (ucWordStart d s (ucTraceBack d s s.pos)))
        (ucWordStart d s (ucTraceBack d s s.pos))).edlen = s.edlen := by
  obtain ⟨j2, hj2, htb⟩ := twTraceBack_in d s pre w suf hbuf hw hw0 hsuf k hk
  rw [← hpos] at htb
  have hstart : ucWordStart d s (ucTraceBack d s s.pos) = pre.length := by
    rw [ucTraceBack_eq, ucWordStart_eq, htb]
    exact twWordStart_in d s pre w suf hbuf hw hpre j2 hj2
  rw [hstart]
  have := ucLoop_run d conv false w pre suf (input_moveto s pre.length)
    (s.edbuf.length + 1) hbuf hlen rfl
    (fun c hc => Or.inl (hw c hc))
    (fun c hc => by simp [IS_DELIM, hsuf c hc])
    (by rw [hbuf]; simp; omega)
  exact this

/-- A repeated call of the conversion: the whole line is converted. -/
theorem caseWord_again (d : Defines) (conv : Nat → Nat) (s : Editor)
    (hlen : s.edlen = s.edbuf.length) (h0 : ∀ c ∈ s.edbuf, c ≠ 0) :
    (ucLoop d conv true (s.edbuf.length + 1) (input_moveto s 0) 0).edbuf
      = s.edbuf.map conv ∧
    (ucLoop d conv true (s.edbuf.length + 1) (input_moveto s 0) 0).edlen = s.edlen := by
  have := ucLoop_run d conv true s.edbuf [] [] (input_moveto s 0) (s.edbuf.length + 1)
    (by simp [input_moveto]) hlen rfl (fun c hc => Or.inr ⟨rfl, h0 c hc⟩)
    (fun c hc => by simp at hc) (le_refl _)
  simpa using this

/-- C21 as claimed fails: on `ab cd` with the cursor at 4, a repeated
`upcase_word` (`last_edit_cmd` is `upcase_word`) gives `AB CD`: the bytes left
of the cursor are converted too, the byte at offset 0 among them; likewise a
repeated `downcase_word` on `AB CD`. -/
theorem C21_counterexample :
    (upcase_word stockDefines
      { editorAt [97, 98, 32, 99, 100] 4 0 with last_edit_cmd := EditFn.upcase_word }).edbuf
      = [65, 66, 32, 67, 68] ∧
    ((upcase_word stockDefines
      { editorAt [97, 98, 32, 99, 100] 4 0 with
        last_edit_cmd := EditFn.upcase_word }).edbuf.take 4 ≠ [97, 98, 32, 99]) ∧
    (downcase_word stockDefines
      { editorAt [65, 66, 32, 67, 68] 4 0 with
        last_edit_cmd := EditFn.downcase_word }).edbuf = [97, 98, 32, 99, 100] := by
  decide

/-- C21, amended: `upcase_word` (and likewise `downcase_word`, with lower case)
called when the previous edit command was another one converts exactly the
word that the cursor is in or at the end of, from that word's start to its
end: when the buffer reads `pre ++ w ++ suf`, with `w` a non-empty word without
delimiter, `pre` empty or ending in a delimiter, `suf` empty or starting with
one, and the cursor inside `w` or at its end, the buffer becomes
`pre ++ upper(w) ++ suf`. Called as a repeat (`last_edit_cmd` is this command)
it converts the whole line, from offset 0 to the end, the bytes left of the
cursor included. In both cases the cursor is put back where it was and the
length is unchanged. -/
theorem C21_case_word (d : Defines) (s : Editor) (hlen : s.edlen = s.edbuf.length) :
    (∀ pre w suf : List Nat, ∀ k : Nat,
      s.edbuf = pre ++ w ++ suf → w ≠ [] → (∀ c ∈ w, inDELIM d c = false) →
      (∀ c, pre.getLast? = some c → inDELIM d c = true) →
      (∀ c, suf.head? = some c → inDELIM d c = true) →
      k ≤ w.length → s.pos = pre.length + k →
      (s.last_edit_cmd ≠ EditFn.upcase_word →
        (upcase_word d s).edbuf = pre ++ w.map toupper ++ suf ∧
        (upcase_word d s).pos = s.pos ∧ (upcase_word d s).edlen = s.edlen) ∧
      (s.last_edit_cmd ≠ EditFn.downcase_word →
        (downcase_word d s).edbuf = pre ++ w.map tolower ++ suf ∧
        (downcase_word d s).pos = s.pos ∧ (downcase_word d s).edlen = s.edlen)) ∧
    ((∀ c ∈ s.edbuf, c ≠ 0) →
      (s.last_edit_cmd = EditFn.upcase_word →
        (upcase_word d s).edbuf = s.edbuf.map toupper ∧
        (upcase_word d s).pos = s.pos ∧ (upcase_word d s).edlen = s.edlen) ∧
      (s.last_edit_cmd = EditFn.downcase_word →
        (downcase_word d s).edbuf = s.edbuf.map tolower ∧
        (downcase_word d s).pos = s.pos ∧ (downcase_word d s).edlen = s.edlen)) := by
  constructor
  · intro pre w suf k hbuf hw0 hw hpre hsuf hk hpos
    constructor
    · intro hcmd
      have := caseWord_first d toupper s pre w suf k hbuf hlen hw0 hw hpre hsuf hk hpos
      unfold upcase_word
      simp only [hcmd, if_false, decide_False]
      exact ⟨this.1, rfl, this.2⟩
    · intro hcmd
      have := caseWord_first d tolower s pre w suf k hbuf hlen hw0 hw hpre hsuf hk hpos
      unfold downcase_word
      simp only [hcmd, if_false, decide_False]
      exact ⟨this.1, rfl, this.2⟩
  · intro h0
    constructor
    · intro hcmd
      have := caseWord_again d toupper s hlen h0
      unfold upcase_word
      simp only [hcmd, if_true, decide_True]
      exact ⟨this.1, rfl, this.2⟩
    · intro hcmd
      have := caseWord_again d tolower s hlen h0
      unfold downcase_word
      simp only [hcmd, if_true, decide_True]
      exact ⟨this.1, rfl, this.2⟩

/-- C21, amended, on `ab cd ef` with the cursor at 4, inside `cd`: a first
`upcase_word` gives `ab CD ef`, a repeated one gives `AB CD EF`. -/
theorem C21_case_word_witness :
    (upcase_word stockDefines (editorAt [97, 98, 32, 99, 100, 32, 101, 102] 4 0)).edbuf
      = [97, 98, 32] ++ [99, 100].map toupper ++ [32, 101, 102] ∧
    [99, 100].map toupper = [67, 68] ∧
    (upcase_word stockDefines
      { editorAt [97, 98, 32, 99, 100, 32, 101, 102] 4 0 with
        last_edit_cmd := EditFn.upcase_word }).edbuf
      = [65, 66, 32, 67, 68, 32, 69, 70] :=
  ⟨(((C21_case_word stockDefines (editorAt [97, 98, 32, 99, 100, 32, 101, 102] 4 0)
      (by decide)).1 [97, 98, 32] [99, 100] [32, 101, 102] 1 (by decide) (by decide)
      (by decide) (by decide) (by decide) (by decide) (by decide)).1 (by decide)).1,
   by decide, by decide⟩

/-! ### The completion ring -/

theorem demote_word_split (w : Nat → wordnode) (wordindex i : Nat) :
    demote_word w wordindex i = linkBefore (unlinkWord w i) wordindex i := rfl

theorem setNext_next (w : Nat → wordnode) (i v j : Nat) :
    (setNext w i v j).next = if j = i then v else (w j).next := by
  unfold setNext setAt; split <;> rfl

theorem setNext_prev (w : Nat → wordnode) (i v j : Nat) :
    (setNext w i v j).prev = (w j).prev := by
  unfold setNext setAt; split
  · rename_i h; rw [h]
  · rfl

theorem setPrev_prev (w : Nat → wordnode) (i v j : Nat) :
    (setPrev w i v j).prev = if j = i then v else (w j).prev := by
  unfold setPrev setAt; split <;> rfl

theorem setPrev_next (w : Nat → wordnode) (i v j : Nat) :
    (setPrev w i v j).next = (w j).next := by
  unfold setPrev setAt; split
  · rename_i h; rw [h]
  · rfl

theorem setNext_word (w : Nat → wordnode) (i v j : Nat) :
    (setNext w i v j).word = (w j).word ∧ (setNext w i v j).flags = (w j).flags := by
  unfold setNext setAt; split
  · rename_i h; rw [h]; exact ⟨rfl, rfl⟩
  · exact ⟨rfl, rfl⟩

theorem setPrev_word (w : Nat → wordnode) (i v j : Nat) :
    (setPrev w i v j).word = (w j).word ∧ (setPrev w i v j).flags = (w j).flags := by
  unfold setPrev setAt; split
  · rename_i h; rw [h]; exact ⟨rfl, rfl⟩
  · exact ⟨rfl, rfl⟩

theorem setWord_links (w : Nat → wordnode) (i : Nat) (v : Option (List Nat)) (j : Nat) :
    (setWord w i v j).next = (w j).next ∧ (setWord w i v j).prev = (w j).prev := by
  unfold setWord setAt; split
  · rename_i h; rw [h]; exact ⟨rfl, rfl⟩
  · exact ⟨rfl, rfl⟩

theorem setFlags_links (w : Nat → wordnode) (i v j : Nat) :
    (setFlags w i v j).next = (w j).next ∧ (setFlags w i v j).prev = (w j).prev := by
  unfold setFlags setAt; split
  · rename_i h; rw [h]; exact ⟨rfl, rfl⟩
  · exact ⟨rfl, rfl⟩

/-- A chain of links stays one when the ring changes neither the `next` of a
node that has a successor in the chain nor the `prev` of a node that has a
predecessor in it. -/
theorem chain_transfer (w w2 : Nat → wordnode) (l : List Nat)
    (h : List.Chain' (Linked w) l)
    (hn : ∀ x ∈ l.dropLast, (w2 x).next = (w x).next)
    (hp : ∀ y ∈ l.tail, (w2 y).prev = (w y).prev) : List.Chain' (Linked w2) l := by
  induction l with
  | nil => exact List.chain'_nil
  | cons x r ih =>
    cases r with
    | nil => exact List.chain'_singleton x
    | cons y r =>
      rw [List.chain'_cons] at h ⊢
      refine ⟨⟨?_, ?_⟩, ih h.2 ?_ ?_⟩
      · rw [hn x (by simp)]; exact h.1.1
      · rw [hp y (by simp)]; exact h.1.2
      · intro a ha
        exact hn a (by rw [List.dropLast_cons₂]; exact List.mem_cons_of_mem _ ha)
      · intro a ha
        exact hp a (by simp at ha ⊢; exact Or.inr ha)

theorem ringOf_links_eq (w w2 : Nat → wordnode) (L : List Nat) (h : RingOf w L)
    (hl : ∀ j, (w2 j).next = (w j).next ∧ (w2 j).prev = (w j).prev) : RingOf w2 L :=
  ⟨h.1, h.2.1, chain_transfer w w2 _ h.2.2 (fun x _ => (hl x).1) (fun y _ => (hl y).2)⟩

/-- A ring may be read from any of its slots. -/
theorem ringOf_rotate (w : Nat → wordnode) (A B : List Nat) (hA : A ≠ []) (hB : B ≠ [])
    (h : RingOf w (A ++ B)) : RingOf w (B ++ A) := by
  obtain ⟨hnd, -, hch⟩ := h
  obtain ⟨a, A2, rfl⟩ := List.exists_cons_of_ne_nil hA
  obtain ⟨b, B2, rfl⟩ := List.exists_cons_of_ne_nil hB
  refine ⟨List.nodup_append_comm.mp hnd, by simp, ?_⟩
  have e0 : (a :: A2 ++ b :: B2) ++ (a :: A2 ++ b :: B2).take 1
      = (a :: A2 ++ [b]) ++ (B2 ++ [a]) := by simp
  have e1 : (a :: A2 ++ b :: B2) ++ (a :: A2 ++ b :: B2).take 1
      = (a :: A2) ++ (b :: B2 ++ [a]) := by simp
  have h1 : List.Chain' (Linked w) ([a] ++ (A2 ++ [b])) := by
    have : List.Chain' (Linked w) (a :: A2 ++ [b]) :=
      hch.prefix (by rw [e0]; exact List.prefix_append _ _)
    simpa using this
  have h2 : List.Chain' (Linked w) (b :: B2 ++ [a]) :=
    hch.suffix (by rw [e1]; exact List.suffix_append _ _)
  have := List.Chain'.append_overlap h2 h1 (by simp)
  have e2 : (b :: B2 ++ a :: A2) ++ (b :: B2 ++ a :: A2).take 1
      = b :: B2 ++ [a] ++ (A2 ++ [b]) := by simp
  rw [e2]
  exact this

theorem ringOf_from (w : Nat → wordnode) (L : List Nat) (h : RingOf w L) (x : Nat)
    (hx : x ∈ L) : ∃ T, RingOf w (x :: T) ∧ (∀ y, y ∈ x :: T ↔ y ∈ L) ∧
      (x :: T).length = L.length := by
  obtain ⟨A, B, rfl⟩ := List.append_of_mem hx
  cases A with
  | nil => exact ⟨B, h, fun y => Iff.rfl, rfl⟩
  | cons a A =>
    refine ⟨B ++ a :: A, ?_, ?_, ?_⟩
    · have := ringOf_rotate w (a :: A) (x :: B) (by simp) (by simp) h
      simpa using this
    · intro y
      simp only [List.mem_cons, List.mem_append]
      tauto
    · simp only [List.length_cons, List.length_append]
      omega
theorem getLast_not_mem_dropLast (l : List Nat) (hl : l ≠ []) (hnd : l.Nodup) :
    l.getLast hl ∉ l.dropLast := by
  intro hmem
  have e := List.dropLast_append_getLast hl
  rw [← e] at hnd
  have := (List.nodup_append.mp hnd).2.2
  exact this hmem (by simp)

theorem head_not_mem_tail (x : Nat) (T : List Nat) (hnd : (x :: T).Nodup) : x ∉ T :=
  (List.nodup_cons.mp hnd).1

/-- The links at the two ends of a ring read from the slot `x`. -/
theorem ringOf_ends (w : Nat → wordnode) (x : Nat) (T : List Nat) (h : RingOf w (x :: T)) :
    List.Chain' (Linked w) (x :: T) ∧
    Linked w ((x :: T).getLast (by simp)) x := by
  obtain ⟨-, -, hch⟩ := h
  have e : (x :: T) ++ (x :: T).take 1 = (x :: T) ++ [x] := by simp
  rw [e, List.chain'_append] at hch
  refine ⟨hch.1, hch.2.2 _ ?_ x (by simp)⟩
  rw [List.getLast?_eq_getLast _ (by simp)]
  simp

theorem ringOf_of_ends (w : Nat → wordnode) (x : Nat) (T : List Nat)
    (hnd : (x :: T).Nodup) (hch : List.Chain' (Linked w) (x :: T))
    (hlast : Linked w ((x :: T).getLast (by simp)) x) : RingOf w (x :: T) := by
  refine ⟨hnd, by simp, ?_⟩
  have e : (x :: T) ++ (x :: T).take 1 = (x :: T) ++ [x] := by simp
  rw [e, List.chain'_append]
  refine ⟨hch, List.chain'_singleton x, ?_⟩
  intro a ha b hb
  rw [List.getLast?_eq_getLast _ (by simp)] at ha
  simp only [Option.mem_def, Option.some.injEq] at ha
  simp only [List.head?_cons, Option.mem_def, Option.some.injEq] at hb
  subst hb
  rw [← ha]
  exact hlast

/-- Taking the first slot out of a ring of at least two slots leaves the ring
of the other slots. -/
theorem ringOf_unlink (w : Nat → wordnode) (i t : Nat) (T : List Nat)
    (h : RingOf w (i :: t :: T)) : RingOf (unlinkWord w i) (t :: T) := by
  obtain ⟨hch, hlast⟩ := ringOf_ends w i (t :: T) h
  have hnd := h.1
  have hnd2 : (t :: T).Nodup := (List.nodup_cons.mp hnd).2
  have hi : i ∉ t :: T := (List.nodup_cons.mp hnd).1
  rw [List.chain'_cons] at hch
  have hlastE : (i :: t :: T).getLast (by simp) = (t :: T).getLast (by simp) := by
    simp [List.getLast_cons]
  rw [hlastE] at hlast
  have hlast_mem : (t :: T).getLast (by simp) ∈ t :: T := List.getLast_mem _
  have hne : (t :: T).getLast (by simp) ≠ i := fun e => hi (e ▸ hlast_mem)
  have hprev : (w i).prev = (t :: T).getLast (by simp) := hlast.2
  have hnext : (w i).next = t := hch.1.1
  -- the ring after the two statements
  have hw2 : unlinkWord w i
      = setPrev (setNext w ((t :: T).getLast (by simp)) t) t ((t :: T).getLast (by simp)) := by
    unfold unlinkWord
    simp only []
    have e1 : (setNext w (w i).prev (w i).next i).next = t := by
      rw [setNext_next, if_neg (by rw [hprev]; exact fun e => hne e.symm), hnext]
    have e2 : (setNext w (w i).prev (w i).next i).prev = (t :: T).getLast (by simp) := by
      rw [setNext_prev, hprev]
    rw [e1, e2, hprev, hnext]
  rw [hw2]
  apply ringOf_of_ends _ t T hnd2
  · apply chain_transfer w _ (t :: T) hch.2
    · intro x hx
      rw [setPrev_next, setNext_next, if_neg]
      intro e
      exact getLast_not_mem_dropLast (t :: T) (by simp) hnd2 (e ▸ hx)
    · intro y hy
      rw [setPrev_prev, if_neg, setNext_prev]
      intro e
      exact head_not_mem_tail t T hnd2 (by simpa [e] using hy)
  · constructor
    · rw [setPrev_next, setNext_next, if_pos rfl]
    · rw [setPrev_prev, if_pos rfl]

/-- Putting a slot from outside into a ring, before the slot the ring is read
from. -/
theorem ringOf_linkBefore (w : Nat → wordnode) (x i : Nat) (T : List Nat)
    (h : RingOf w (x :: T)) (hi : i ∉ x :: T) :
    RingOf (linkBefore w x i) (x :: T ++ [i]) := by
  obtain ⟨hch, hlast⟩ := ringOf_ends w x T h
  have hnd := h.1
  have hlast_mem : (x :: T).getLast (by simp) ∈ x :: T := List.getLast_mem _
  have hne : (x :: T).getLast (by simp) ≠ i := fun e => hi (e ▸ hlast_mem)
  have hxi : x ≠ i := fun e => hi (by simp [e])
  have hprev : (w x).prev = (x :: T).getLast (by simp) := hlast.2
  have hw2 : linkBefore w x i
      = setPrev (setNext (setPrev (setNext w i x) i ((x :: T).getLast (by simp)))
          ((x :: T).getLast (by simp)) i) x i := by
    unfold linkBefore
    simp only []
    have e1 : (setNext w i x x).prev = (x :: T).getLast (by simp) := by
      rw [setNext_prev, hprev]
    have e2 : (setPrev (setNext w i x) i (setNext w i x x).prev x).prev
        = (x :: T).getLast (by simp) := by
      rw [setPrev_prev, if_neg hxi, e1]
    rw [e2, e1]
  rw [hw2]
  have hnd3 : (x :: T ++ [i]).Nodup := by
    have : (x :: T ++ [i]) = (x :: T) ++ [i] := rfl
    rw [this, List.nodup_append]
    refine ⟨hnd, by simp, ?_⟩
    intro a ha hb
    simp only [List.mem_singleton] at hb
    exact hi (hb ▸ ha)
  have e3 : x :: T ++ [i] = x :: (T ++ [i]) := rfl
  rw [e3]
  have hch1 : List.Chain' (Linked (setPrev (setNext (setPrev (setNext w i x) i
      ((x :: T).getLast (by simp))) ((x :: T).getLast (by simp)) i) x i)) (x :: T) := by
    apply chain_transfer w _ (x :: T) hch
    · intro a ha
      have ha1 : a ≠ (x :: T).getLast (by simp) :=
        fun e => getLast_not_mem_dropLast (x :: T) (by simp) hnd (e ▸ ha)
      have ha2 : a ≠ i := fun e => hi (e ▸ List.dropLast_subset _ ha)
      rw [setPrev_next, setNext_next, if_neg ha1, setPrev_next, setNext_next, if_neg ha2]
    · intro b hb
      have hb1 : b ≠ x := fun e => head_not_mem_tail x T hnd (by simpa [e] using hb)
      have hb2 : b ≠ i := fun e => hi (by rw [← e]; exact List.mem_cons_of_mem _ (by simpa using hb))
      rw [setPrev_prev, if_neg hb1, setNext_prev, setPrev_prev, if_neg hb2, setNext_prev]
  apply ringOf_of_ends _ x (T ++ [i]) hnd3
  · have : x :: (T ++ [i]) = (x :: T) ++ [i] := rfl
    rw [this, List.chain'_append]
    refine ⟨hch1, List.chain'_singleton i, ?_⟩
    intro a ha b hb
    rw [List.getLast?_eq_getLast _ (by simp)] at ha
    simp only [Option.mem_def, Option.some.injEq] at ha
    simp only [List.head?_cons, Option.mem_def, Option.some.injEq] at hb
    rw [← ha, ← hb]
    constructor
    · rw [setPrev_next, setNext_next, if_pos rfl]
    · rw [setPrev_prev, if_neg (Ne.symm hxi), setNext_prev, setPrev_prev, if_pos rfl]
  · have : (x :: (T ++ [i])).getLast (by simp) = i := by
      show ((x :: T) ++ [i]).getLast _ = i
      rw [List.getLast_append_singleton]
    rw [this]
    constructor
    · rw [setPrev_next, setNext_next, if_neg (Ne.symm hne), setPrev_next, setNext_next,
        if_pos rfl]
    · rw [setPrev_prev, if_pos rfl]
/-- `demote_word(i)` for a slot `i` other than `wordindex` keeps the ring. -/
theorem wholeRing_demote (M : Nat) (w : Nat → wordnode) (wi i : Nat)
    (h : WholeRing M w) (hi : i < M) (hwi : wi < M) (hne : i ≠ wi) :
    WholeRing M (demote_word w wi i) := by
  obtain ⟨L, hL, hmem⟩ := h
  obtain ⟨T, hT, hTm, -⟩ := ringOf_from w L hL i ((hmem i).mpr hi)
  have hwiT : wi ∈ T := by
    have : wi ∈ i :: T := (hTm wi).mpr ((hmem wi).mpr hwi)
    rcases List.mem_cons.mp this with e | e
    · exact absurd e.symm hne
    · exact e
  obtain ⟨t, T2, rfl⟩ := List.exists_cons_of_ne_nil (List.ne_nil_of_mem hwiT)
  have h1 := ringOf_unlink w i t T2 hT
  obtain ⟨T3, hT3, hT3m, -⟩ := ringOf_from _ _ h1 wi hwiT
  have hiT : i ∉ t :: T2 := (List.nodup_cons.mp hT.1).1
  have hi3 : i ∉ wi :: T3 := fun e => hiT ((hT3m i).mp e)
  have h2 := ringOf_linkBefore _ wi i T3 hT3 hi3
  rw [demote_word_split]
  refine ⟨_, h2, ?_⟩
  intro x
  rw [← hmem x, ← hTm x]
  have : x ∈ wi :: T3 ++ [i] ↔ x ∈ wi :: T3 ∨ x = i := by
    have e : wi :: T3 ++ [i] = (wi :: T3) ++ [i] := rfl
    rw [e, List.mem_append, List.mem_singleton]
  rw [this, hT3m x, List.mem_cons (a := x) (b := i)]
  tauto

/-- In a ring every slot is the `prev` of its `next` and the `next` of its
`prev`, and both are slots of the ring. -/
theorem wholeRing_inverse (M : Nat) (w : Nat → wordnode) (h : WholeRing M w) (i : Nat)
    (hi : i < M) :
    (w (w i).next).prev = i ∧ (w (w i).prev).next = i ∧ (w i).next < M ∧ (w i).prev < M := by
  obtain ⟨L, hL, hmem⟩ := h
  obtain ⟨T, hT, hTm, -⟩ := ringOf_from w L hL i ((hmem i).mpr hi)
  obtain ⟨hch, hlast⟩ := ringOf_ends w i T hT
  have hlast_mem : (i :: T).getLast (by simp) ∈ i :: T := List.getLast_mem _
  have hp : (w i).prev = (i :: T).getLast (by simp) := hlast.2
  have hpM : (w i).prev < M := by
    rw [hp]; exact (hmem _).mp ((hTm _).mp hlast_mem)
  have hpn : (w (w i).prev).next = i := by rw [hp]; exact hlast.1
  cases T with
  | nil =>
    have e : (w i).next = i := by simpa using hlast.1
    refine ⟨?_, hpn, by rw [e]; exact hi, hpM⟩
    rw [e]; simpa using hlast.2
  | cons t T =>
    rw [List.chain'_cons] at hch
    refine ⟨?_, hpn, ?_, hpM⟩
    · rw [hch.1.1]; exact hch.1.2
    · rw [hch.1.1]; exact (hmem _).mp ((hTm _).mp (by simp))

/-- In a ring of at least two slots no slot is linked to itself. -/
theorem wholeRing_no_loop (M : Nat) (w : Nat → wordnode) (h : WholeRing M w) (hM : 2 ≤ M)
    (i : Nat) (hi : i < M) : (w i).next ≠ i ∧ (w i).prev ≠ i := by
  obtain ⟨L, hL, hmem⟩ := h
  obtain ⟨T, hT, hTm, hlen⟩ := ringOf_from w L hL i ((hmem i).mpr hi)
  have hLlen : L.length = M := by
    have hp : L.Perm (List.range M) :=
      (List.perm_ext_iff_of_nodup hL.1 (List.nodup_range M)).mpr
        (fun a => by rw [hmem a, List.mem_range])
    rw [hp.length_eq, List.length_range]
  obtain ⟨hch, hlast⟩ := ringOf_ends w i T hT
  cases T with
  | nil => simp at hlen; omega
  | cons t T =>
    have hnd := hT.1
    have hiT : i ∉ t :: T := (List.nodup_cons.mp hnd).1
    rw [List.chain'_cons] at hch
    constructor
    · rw [hch.1.1]; exact fun e => hiT (by simp [e])
    · rw [hlast.2]
      intro e
      have : (i :: t :: T).getLast (by simp) ∈ t :: T := by
        rw [List.getLast_cons (by simp)]; exact List.getLast_mem _
      exact hiT (e ▸ this)

/-- Following `next` from the first slot of a chain gives the chain. -/
theorem ringWalk_chain (w : Nat → wordnode) (T : List Nat) :
    ∀ x, List.Chain' (Linked w) (x :: T) → ringWalk w x (T.length + 1) = x :: T := by
  induction T with
  | nil => intro x _; rfl
  | cons t T ih =>
    intro x h
    rw [List.chain'_cons] at h
    have := ih t h.2
    rw [List.length_cons, ringWalk, h.1.1, this]

/-- Following `next` from any slot of a ring of `M` slots meets every slot
once and is back at the start after `M` steps. -/
theorem wholeRing_walk (M : Nat) (w : Nat → wordnode) (h : WholeRing M w) (i : Nat)
    (hi : i < M) :
    (ringWalk w i M).Nodup ∧ (∀ x, x ∈ ringWalk w i M ↔ x < M) ∧
    ringWalk w i (M + 1) = ringWalk w i M ++ [i] := by
  obtain ⟨L, hL, hmem⟩ := h
  obtain ⟨T, hT, hTm, hlen⟩ := ringOf_from w L hL i ((hmem i).mpr hi)
  have hLlen : L.length = M := by
    have hp : L.Perm (List.range M) :=
      (List.perm_ext_iff_of_nodup hL.1 (List.nodup_range M)).mpr
        (fun a => by rw [hmem a, List.mem_range])
    rw [hp.length_eq, List.length_range]
  have hTl : T.length + 1 = M := by rw [← hLlen, ← hlen]; rfl
  obtain ⟨hch, hlast⟩ := ringOf_ends w i T hT
  have hw : ringWalk w i M = i :: T := by
    rw [← hTl]; exact ringWalk_chain w T i hch
  have hch2 : List.Chain' (Linked w) (i :: (T ++ [i])) := by
    have := hT.2.2
    simpa using this
  have hw2 : ringWalk w i (M + 1) = i :: (T ++ [i]) := by
    have := ringWalk_chain w (T ++ [i]) i hch2
    rw [List.length_append, List.length_singleton, hTl] at this
    exact this
  refine ⟨by rw [hw]; exact hT.1, fun x => by rw [hw, hTm x, hmem x], ?_⟩
  rw [hw2, hw]; rfl

theorem foldl_put_static_word_words (l : List (List Nat × Bool)) (s : Editor) :
    (l.foldl (fun t c => put_static_word t (35 :: c.1)) s).words = s.words ∧
    (l.foldl (fun t c => put_static_word t (35 :: c.1)) s).wordindex = s.wordindex := by
  induction l generalizing s with
  | nil => exact ⟨rfl, rfl⟩
  | cons c l ih =>
    rw [List.foldl_cons]
    exact ⟨(ih _).1.trans rfl, (ih _).2.trans rfl⟩

/-- The links that `default_completions()` sets. -/
theorem default_completions_links (z : Sizes) (s : Editor)
    (commands : List (List Nat × Bool)) (hM : 0 < z.MAX_WORDS) (i : Nat)
    (hi : i < z.MAX_WORDS) :
    ((default_completions z s commands).words i).next
      = (if i + 1 = z.MAX_WORDS then 0 else i + 1) ∧
    ((default_completions z s commands).words i).prev
      = (if i = 0 then z.MAX_WORDS - 1 else i - 1) ∧
    ((default_completions z s commands).words i).word = (s.words i).word ∧
    (default_completions z s commands).wordindex = s.wordindex := by
  unfold default_completions
  simp only []
  have hw := (foldl_put_static_word_words (commands.filter (fun c => c.2)) s)
  refine ⟨?_, ?_, ?_, hw.2⟩
  · rw [setNext_next, setPrev_next]
    by_cases h : i = z.MAX_WORDS - 1
    · rw [if_pos h, if_pos (by omega)]
    · rw [if_neg h]
      simp only [setPrev_next, hi, if_true]
      rw [if_neg (by omega)]
  · rw [setNext_prev, setPrev_prev]
    by_cases h : i = 0
    · rw [if_pos h, if_pos h]
    · rw [if_neg h, if_neg h]
      simp only [hi, if_true]
  · rw [(setNext_word _ _ _ _).1, (setPrev_word _ _ _ _).1]
    simp only [hi, if_true, hw.1]
/-- After `default_completions()` the `MAX_WORDS` slots form one ring, in the
order of the slot numbers. -/
theorem wholeRing_default (z : Sizes) (s : Editor) (commands : List (List Nat × Bool))
    (hM : 0 < z.MAX_WORDS) :
    WholeRing z.MAX_WORDS (default_completions z s commands).words := by
  obtain ⟨n, hn⟩ : ∃ n, z.MAX_WORDS = n + 1 := ⟨z.MAX_WORDS - 1, by omega⟩
  have hl := fun i hi => default_completions_links z s commands hM i hi
  refine ⟨List.range z.MAX_WORDS, ⟨List.nodup_range _, ?_, ?_⟩,
    fun x => List.mem_range⟩
  · rw [hn]; simp [List.range_succ]
  · have ht : (List.range z.MAX_WORDS).take 1 = [0] := by
      rw [hn, List.range_succ_eq_map]; rfl
    rw [ht, List.chain'_append]
    refine ⟨?_, List.chain'_singleton 0, ?_⟩
    · rw [hn, List.chain'_range_succ]
      intro m hm
      constructor
      · rw [(hl m (by omega)).1, if_neg (by omega)]
      · rw [(hl (m + 1) (by omega)).2.1, if_neg (by omega)]; rfl
    · intro a ha b hb
      rw [List.getLast?_range, if_neg (by omega)] at ha
      simp only [Option.mem_def, Option.some.injEq] at ha
      simp only [List.head?_cons, Option.mem_def, Option.some.injEq] at hb
      subst ha; subst hb
      constructor
      · rw [(hl _ (by omega)).1, if_pos (by omega)]
      · rw [(hl 0 hM).2.1, if_pos rfl]

theorem demote_word_word (w : Nat → wordnode) (wi i j : Nat) :
    (demote_word w wi i j).word = (w j).word ∧ (demote_word w wi i j).flags = (w j).flags := by
  unfold demote_word
  constructor
  · rw [(setPrev_word _ _ _ _).1, (setNext_word _ _ _ _).1, (setPrev_word _ _ _ _).1,
      (setNext_word _ _ _ _).1, (setPrev_word _ _ _ _).1, (setNext_word _ _ _ _).1]
  · rw [(setPrev_word _ _ _ _).2, (setNext_word _ _ _ _).2, (setPrev_word _ _ _ _).2,
      (setNext_word _ _ _ _).2, (setPrev_word _ _ _ _).2, (setNext_word _ _ _ _).2]

theorem setWord_word (w : Nat → wordnode) (i : Nat) (v : Option (List Nat)) (j : Nat) :
    (setWord w i v j).word = (if j = i then v else (w j).word) ∧
    (setWord w i v j).flags = (w j).flags := by
  unfold setWord setAt; split
  · rename_i h; rw [h]; exact ⟨rfl, rfl⟩
  · exact ⟨rfl, rfl⟩

theorem setFlags_word (w : Nat → wordnode) (i v j : Nat) :
    (setFlags w i v j).word = (w j).word ∧
    (setFlags w i v j).flags = (if j = i then v else (w j).flags) := by
  unfold setFlags setAt; split
  · rename_i h; rw [h]; exact ⟨rfl, rfl⟩
  · exact ⟨rfl, rfl⟩

/-- The ring of one slot: `demote_word` on the only slot keeps it. -/
theorem wholeRing_one (w : Nat → wordnode) (h : WholeRing 1 w) :
    WholeRing 1 (demote_word w 0 0) := by
  have hi := wholeRing_inverse 1 w h 0 (by omega)
  have hn : (w 0).next = 0 := by omega
  have hp : (w 0).prev = 0 := by omega
  refine ⟨[0], ⟨by simp, by simp, ?_⟩, fun x => by simp⟩
  simp only [List.take_succ_cons, List.take_zero, List.singleton_append, List.chain'_pair]
  unfold demote_word Linked
  simp only [setNext_next, setNext_prev, setPrev_next, setPrev_prev, hn, hp, if_true]
  exact ⟨trivial, trivial⟩

/-- What holds in every state of the ring that the program reaches: the slots
form one ring, `wordindex` is a slot and holds no word. -/
theorem ringState_inv (z : Sizes) (hM : 0 < z.MAX_WORDS) (s : Editor) (h : RingState z s) :
    WholeRing z.MAX_WORDS s.words ∧ s.wordindex < z.MAX_WORDS ∧
    (s.words s.wordindex).word = none := by
  induction h with
  | boot commands =>
    have hl := default_completions_links z bootEditor commands hM 0 hM
    refine ⟨wholeRing_default z bootEditor commands hM, ?_, ?_⟩
    · rw [hl.2.2.2]; exact hM
    · rw [hl.2.2.2]; exact hl.2.2.1
  | put_word s str _ ih =>
    obtain ⟨hR, hwi, -⟩ := ih
    have hR1 : WholeRing z.MAX_WORDS
        (setFlags (setWord s.words s.wordindex (some str)) s.wordindex 0) := by
      obtain ⟨L, hL, hmem⟩ := hR
      refine ⟨L, ringOf_links_eq s.words _ L hL (fun j => ?_), hmem⟩
      rw [(setFlags_links _ _ _ _).1, (setFlags_links _ _ _ _).2,
        (setWord_links _ _ _ _).1, (setWord_links _ _ _ _).2]
      exact ⟨rfl, rfl⟩
    have hinv := wholeRing_inverse _ _ hR1 s.wordindex hwi
    have hR2 : WholeRing z.MAX_WORDS
        (demote_word (setFlags (setWord s.words s.wordindex (some str)) s.wordindex 0)
          s.wordindex
          ((setFlags (setWord s.words s.wordindex (some str)) s.wordindex 0)
            s.wordindex).prev) := by
      by_cases hM2 : 2 ≤ z.MAX_WORDS
      · exact wholeRing_demote _ _ _ _ hR1 hinv.2.2.2 hwi
          (wholeRing_no_loop _ _ hR1 hM2 _ hwi).2
      · have hM1 : z.MAX_WORDS = 1 := by omega
        rw [hM1] at hR1 hinv hwi ⊢
        have e0 : s.wordindex = 0 := by omega
        have e1 : ((setFlags (setWord s.words s.wordindex (some str)) s.wordindex 0)
            s.wordindex).prev = 0 := by omega
        rw [e1]
        rw [e0] at hR1 ⊢
        exact wholeRing_one _ hR1
    unfold put_word
    simp only []
    refine ⟨?_, hinv.2.2.2, ?_⟩
    · split
      · obtain ⟨L, hL, hmem⟩ := hR2
        refine ⟨L, ringOf_links_eq _ _ L hL (fun j => ?_), hmem⟩
        rw [(setWord_links _ _ _ _).1, (setWord_links _ _ _ _).2]
        exact ⟨rfl, rfl⟩
      · exact hR2
    · split
      · rw [(setWord_word _ _ _ _).1, if_pos rfl]
      · rename_i hs
        cases hw : (demote_word (setFlags (setWord s.words s.wordindex (some str))
            s.wordindex 0) s.wordindex
            ((setFlags (setWord s.words s.wordindex (some str)) s.wordindex 0)
              s.wordindex).prev
            ((setFlags (setWord s.words s.wordindex (some str)) s.wordindex 0)
              s.wordindex).prev).word with
        | none => rfl
        | some x => rw [hw] at hs; simp at hs
  | demote_word s i _ hi hne ih =>
    obtain ⟨hR, hwi, hnull⟩ := ih
    exact ⟨wholeRing_demote _ _ _ _ hR hi hwi hne, hwi,
      ((demote_word_word _ _ _ _).1).trans hnull⟩

/-- C23: the completion ring stays one circular doubly linked ring over all
`MAX_WORDS` slots. In the state after `default_completions()` and in every state
reached from it by calls of `put_word` and of `demote_word(i)` with
`i != wordindex`: for every slot `i`, `words[words[i].next].prev == i` and
`words[words[i].prev].next == i`, and following `next` from `i` meets each of
the `MAX_WORDS` slots once and is back at `i` after `MAX_WORDS` steps. -/
theorem C23_ring_stays_circular (z : Sizes) (hM : 0 < z.MAX_WORDS) (s : Editor)
    (h : RingState z s) (i : Nat) (hi : i < z.MAX_WORDS) :
    (s.words (s.words i).next).prev = i ∧ (s.words (s.words i).prev).next = i ∧
    (ringWalk s.words i z.MAX_WORDS).Nodup ∧
    (∀ x, x ∈ ringWalk s.words i z.MAX_WORDS ↔ x < z.MAX_WORDS) ∧
    ringWalk s.words i (z.MAX_WORDS + 1) = ringWalk s.words i z.MAX_WORDS ++ [i] := by
  have hR := (ringState_inv z hM s h).1
  have h1 := wholeRing_inverse _ _ hR i hi
  have h2 := wholeRing_walk _ _ hR i hi
  exact ⟨h1.1, h1.2.1, h2.1, h2.2.1, h2.2.2⟩

/-- C23 on a ring of four slots, after `put_word("abc")` and `demote_word(1)`:
from the slot 0 the walk along `next` is 0, 2, 1, 3 and then 0 again. -/
theorem C23_ring_stays_circular_witness :
    (ringWalk
      (demote_word (put_word (default_completions ⟨8, 4, 4, 3⟩ bootEditor []) [97, 98, 99]).words
        (put_word (default_completions ⟨8, 4, 4, 3⟩ bootEditor []) [97, 98, 99]).wordindex 1)
      0 4).Nodup ∧
    ringWalk
      (demote_word (put_word (default_completions ⟨8, 4, 4, 3⟩ bootEditor []) [97, 98, 99]).words
        (put_word (default_completions ⟨8, 4, 4, 3⟩ bootEditor []) [97, 98, 99]).wordindex 1)
      0 5 = [0, 2, 1, 3, 0] :=
  ⟨(C23_ring_stays_circular ⟨8, 4, 4, 3⟩ (by decide)
      { put_word (default_completions ⟨8, 4, 4, 3⟩ bootEditor []) [97, 98, 99] with
        words := demote_word
          (put_word (default_completions ⟨8, 4, 4, 3⟩ bootEditor []) [97, 98, 99]).words
          (put_word (default_completions ⟨8, 4, 4, 3⟩ bootEditor []) [97, 98, 99]).wordindex 1 }
      (RingState.demote_word _ 1 (RingState.put_word _ _ (RingState.boot [])) (by decide)
        (by decide)) 0 (by decide)).2.2.1,
   by decide⟩

/-- The value of `i` at the `k`-th test of the loop of `complete_line`: it runs
down from `curr_line - 1`, through `-1`, and on from `MAX_HIST - 2`. -/
theorem clRaw_norm (z : Sizes) (c j : Nat) (_hc : c < z.MAX_HIST) (hj1 : 1 ≤ j)
    (hj : j ≤ z.MAX_HIST) (i : Int)
    (hi : i = if j ≤ c + 1 then (c : Int) - j else (c : Int) - j + z.MAX_HIST) :
    (if i < 0 then (z.MAX_HIST : Int) - 1 else i) = ((backSlot z c j : Nat) : Int) ∧
    (j < z.MAX_HIST → i ≠ (c : Int)) ∧
    ((if i < 0 then (z.MAX_HIST : Int) - 1 else i) - 1
      = if j + 1 ≤ c + 1 then (c : Int) - (j + 1 : Nat)
        else (c : Int) - (j + 1 : Nat) + z.MAX_HIST) := by
  unfold backSlot
  subst hi
  refine ⟨?_, ?_, ?_⟩
  · split_ifs <;> omega
  · intro h; split_ifs <;> omega
  · split_ifs <;> omega

theorem clScan_spec (z : Sizes) (s : Editor) (st : CLStatics)
    (hc : st.curr_line < z.MAX_HIST) (hf : st.first_line < z.MAX_HIST) :
    ∀ n j fuel, j + n = z.MAX_HIST → 1 ≤ j → n + 1 ≤ fuel →
      (∀ j2, 1 ≤ j2 → j2 < j → backSlot z st.curr_line j2 ≠ st.first_line ∧
        clMatch s st (backSlot z st.curr_line j2) = false) →
      ∃ k, j ≤ k ∧ k ≤ z.MAX_HIST ∧
        clScan z s st fuel
            (if j ≤ st.curr_line + 1 then (st.curr_line : Int) - j
             else (st.curr_line : Int) - j + z.MAX_HIST)
          = some ((backSlot z st.curr_line k : Nat) : Int) ∧
        (∀ j2, 1 ≤ j2 → j2 < k → backSlot z st.curr_line j2 ≠ st.first_line ∧
          clMatch s st (backSlot z st.curr_line j2) = false) ∧
        (k = z.MAX_HIST ∨ backSlot z st.curr_line k = st.first_line ∨
          clMatch s st (backSlot z st.curr_line k) = true) := by
  intro n
  induction n with
  | zero =>
    intro j fuel hj hj1 hfuel hno
    have hjM : j = z.MAX_HIST := by omega
    subst hjM
    obtain ⟨f, rfl⟩ : ∃ f, fuel = f + 1 := ⟨fuel - 1, by omega⟩
    refine ⟨z.MAX_HIST, le_refl _, le_refl _, ?_, hno, Or.inl rfl⟩
    have hb : backSlot z st.curr_line z.MAX_HIST = st.curr_line := by
      unfold backSlot; split_ifs <;> omega
    rw [hb, clScan]
    by_cases hcase : z.MAX_HIST ≤ st.curr_line + 1
    · -- the loop passes `-1`: the slot is `MAX_HIST - 1`, which is `curr_line`
      have hfirst : st.first_line = st.curr_line := by
        by_contra hne
        have h1 := hno (if st.first_line < st.curr_line then st.curr_line - st.first_line
          else st.curr_line + z.MAX_HIST - st.first_line)
          (by split_ifs <;> omega) (by split_ifs <;> omega)
        apply h1.1
        unfold backSlot
        split_ifs <;> omega
      have hneg : (st.curr_line : Int) - (z.MAX_HIST : Nat) < 0 := by omega
      have hnc : ¬ ((st.curr_line : Int) - (z.MAX_HIST : Nat) = (st.curr_line : Int)) := by
        omega
      have hfi : (z.MAX_HIST : Int) - 1 = (st.first_line : Int) := by omega
      rw [if_pos hcase]
      simp only [hneg, hnc, hfi, if_true, if_false]
      congr 1; omega
    · rw [if_neg hcase, if_pos (by omega)]
      congr 1; omega
  | succ n ih =>
    intro j fuel hj hj1 hfuel hno
    obtain ⟨f, rfl⟩ : ∃ f, fuel = f + 1 := ⟨fuel - 1, by omega⟩
    obtain ⟨e1, e2, e3⟩ := clRaw_norm z st.curr_line j hc hj1 (by omega) _ rfl
    rw [clScan, if_neg (e2 (by omega)), e1]
    by_cases hfirst : backSlot z st.curr_line j = st.first_line
    · refine ⟨j, le_refl _, by omega, ?_, hno, Or.inr (Or.inl hfirst)⟩
      rw [if_pos (by rw [hfirst])]
    · rw [if_neg (by intro h; exact hfirst (by exact_mod_cast h))]
      simp only [Int.toNat_ofNat]
      by_cases hm : clMatch s st (backSlot z st.curr_line j) = true
      · refine ⟨j, le_refl _, by omega, ?_, hno, Or.inr (Or.inr hm)⟩
        rw [if_pos hm]
      · rw [if_neg hm]
        rw [e1] at e3
        rw [e3]
        obtain ⟨k, hk1, hk2, hk3, hk4, hk5⟩ := ih (j + 1) f (by omega) (by omega) (by omega)
          (by
            intro j2 h1 h2
            by_cases hjj : j2 < j
            · exact hno j2 h1 hjj
            · have : j2 = j := by omega
              subst this
              exact ⟨hfirst, by simpa using hm⟩)
        exact ⟨k, by omega, hk2, hk3, hk4, hk5⟩
theorem strncmpEq_take (a b : List Nat) (n : Nat) :
    strncmpEq a b n = true ↔ a.take n = b.take n := by
  induction n generalizing a b with
  | zero => simp [strncmpEq]
  | succ n ih =>
    cases a with
    | nil => cases b <;> simp [strncmpEq]
    | cons x a =>
      cases b with
      | nil => simp [strncmpEq]
      | cons y b => simp [strncmpEq, ih]

theorem take_prefix_iff (B e h : List Nat) (hB : B <+: e) :
    e.take B.length = h.take B.length ↔ B <+: h := by
  have he : e.take B.length = B := by
    obtain ⟨t, rfl⟩ := hB
    simp
  rw [he]
  constructor
  · intro h1
    rw [h1]
    exact List.take_prefix _ _
  · intro h1
    obtain ⟨t, rfl⟩ := h1
    simp

theorem clMatch_prefix (z : Sizes) (s0 : Editor) (p : CLStatics × Editor)
    (h : LineRun z s0 p) (i : Nat) :
    clMatch p.2 (clEnter p.2 p.1) i = hasPrefixEntry s0 s0.edbuf i := by
  obtain ⟨hh, -, hpre, -, hroot, -, -⟩ := h
  unfold clMatch hasPrefixEntry
  rw [hh]
  cases s0.hist i with
  | none => rfl
  | some e =>
    simp only [hroot]
    rw [Bool.eq_iff_iff, strncmpEq_take, take_prefix_iff _ _ _ hpre, List.isPrefixOf_iff_prefix]

theorem backSlot_lt (z : Sizes) (c k : Nat) (hc : c < z.MAX_HIST) (hk1 : 1 ≤ k)
    (hk : k ≤ z.MAX_HIST) :
    backSlot z c k < z.MAX_HIST ∧ (backSlot z c k = c ↔ k = z.MAX_HIST) := by
  unfold backSlot
  split_ifs <;> constructor <;> omega

/-- One call of `complete_line` within a run started in the state `s0`. -/
theorem complete_line_step (z : Sizes) (fuel : Nat) (s0 : Editor)
    (p : CLStatics × Editor) (h : LineRun z s0 p) (hf : z.MAX_HIST + 1 ≤ fuel)
    (hcur : s0.curline < z.MAX_HIST) :
    ∃ q, complete_line z fuel p.1 p.2 = some q ∧
      LineRun z s0 (q.1, ranCompleteLine q.2) ∧
      ∃ k, 1 ≤ k ∧ k ≤ z.MAX_HIST ∧
        q.1.curr_line = backSlot z (clEnter p.2 p.1).curr_line k ∧
        (∀ j, 1 ≤ j → j < k →
          backSlot z (clEnter p.2 p.1).curr_line j ≠ s0.curline ∧
          hasPrefixEntry s0 s0.edbuf (backSlot z (clEnter p.2 p.1).curr_line j) = false) ∧
        ((k = z.MAX_HIST ∧ q.2.edbuf = p.2.edbuf ∧ q.2.pos = p.2.pos ∧
            q.2.edlen = p.2.edlen) ∨
         (k < z.MAX_HIST ∧ backSlot z (clEnter p.2 p.1).curr_line k = s0.curline ∧
            q.2.edbuf = s0.edbuf ∧ q.2.pos = s0.edbuf.length ∧
            q.2.edlen = s0.edbuf.length) ∨
         (k < z.MAX_HIST ∧ backSlot z (clEnter p.2 p.1).curr_line k ≠ s0.curline ∧
            ∃ e, s0.hist (backSlot z (clEnter p.2 p.1).curr_line k) = some e ∧
              s0.edbuf <+: e ∧ q.2.edbuf = e ∧ q.2.pos = e.length ∧
              q.2.edlen = e.length)) := by
  have hmatch := clMatch_prefix z s0 p h
  obtain ⟨hh, hcl, hpre, hlen, hroot, hfirst, hc⟩ := h
  have hM : 0 < z.MAX_HIST := by omega
  obtain ⟨k, hk1, hk2, hscan, hno, hstop⟩ :=
    clScan_spec z p.2 (clEnter p.2 p.1) hc (by rw [hfirst]; exact hcur)
      (z.MAX_HIST - 1) 1 fuel (by omega) (le_refl _) (by omega)
      (fun j2 h1 h2 => by omega)
  have hraw : (if 1 ≤ (clEnter p.2 p.1).curr_line + 1
        then ((clEnter p.2 p.1).curr_line : Int) - (1 : Nat)
        else ((clEnter p.2 p.1).curr_line : Int) - (1 : Nat) + z.MAX_HIST)
      = ((clEnter p.2 p.1).curr_line : Int) - 1 := by
    rw [if_pos (by omega)]; rfl
  rw [hraw] at hscan
  have hb := backSlot_lt z (clEnter p.2 p.1).curr_line k hc hk1 hk2
  have hno2 : ∀ j, 1 ≤ j → j < k →
      backSlot z (clEnter p.2 p.1).curr_line j ≠ s0.curline ∧
      hasPrefixEntry s0 s0.edbuf (backSlot z (clEnter p.2 p.1).curr_line j) = false := by
    intro j h1 h2
    have := hno j h1 h2
    rw [hfirst, hmatch] at this
    exact this
  have hE : ∀ (t : Editor) (E : CLStatics), clEnter (ranCompleteLine t) E = E := by
    intro t E
    unfold clEnter ranCompleteLine
    simp
  unfold complete_line
  rw [hscan]
  simp only []
  by_cases hkM : k = z.MAX_HIST
  · -- back at `curr_line`: nothing changes
    have hbc : backSlot z (clEnter p.2 p.1).curr_line k = (clEnter p.2 p.1).curr_line :=
      hb.2.mpr hkM
    rw [if_neg (by rw [hbc]; simp)]
    refine ⟨_, rfl, ?_, k, hk1, hk2, hbc.symm, hno2, Or.inl ⟨hkM, rfl, rfl, rfl⟩⟩
    exact ⟨hh, hcl, hpre, hlen, by rw [hE]; exact hroot, by rw [hE]; exact hfirst,
      by rw [hE]; exact hc⟩
  · have hbc : backSlot z (clEnter p.2 p.1).curr_line k ≠ (clEnter p.2 p.1).curr_line :=
      fun e => hkM (hb.2.mp e)
    rw [if_pos (by intro e; exact hbc (by exact_mod_cast e))]
    simp only [Int.toNat_ofNat]
    refine ⟨_, rfl, ?_, k, hk1, hk2, rfl, hno2, ?_⟩
    · -- the invariant
      refine ⟨hh, hcl, ?_, ?_, by rw [hE]; exact hroot, by rw [hE]; exact hfirst,
        by rw [hE]; exact hb.1⟩
      · show s0.edbuf <+: (clLoad p.2 (clEnter p.2 p.1) _).edbuf
        unfold clLoad
        simp only [clear_input_line0]
        split
        · rw [hroot]
          obtain ⟨t, ht⟩ := hpre
          rw [← ht]; simp
        · rename_i hnf
          rcases hstop with h1 | h1 | h1
          · exact absurd h1 hkM
          · exact absurd h1 hnf
          · rw [hmatch] at h1
            unfold hasPrefixEntry at h1
            rw [hh]
            cases he : s0.hist (backSlot z (clEnter p.2 p.1).curr_line k) with
            | none => rw [he] at h1; simp at h1
            | some e =>
              rw [he] at h1
              simpa using List.isPrefixOf_iff_prefix.mp h1
      · show (clLoad p.2 (clEnter p.2 p.1) _).edlen = (clLoad p.2 (clEnter p.2 p.1) _).edbuf.length
        unfold clLoad
        simp only [clear_input_line0]
        split
        · rw [hroot]
          obtain ⟨t, ht⟩ := hpre
          rw [← ht]; simp
        · rfl
    · by_cases hfl : backSlot z (clEnter p.2 p.1).curr_line k = s0.curline
      · refine Or.inr (Or.inl ⟨by omega, hfl, ?_, ?_, ?_⟩) <;>
        · unfold clLoad
          simp only [clear_input_line0, hfirst, hfl, if_true, hroot]
          try (obtain ⟨t, ht⟩ := hpre; rw [← ht]; simp)
      · have hnf : backSlot z (clEnter p.2 p.1).curr_line k ≠ (clEnter p.2 p.1).first_line := by
          rw [hfirst]; exact hfl
        rcases hstop with h1 | h1 | h1
        · exact absurd h1 hkM
        · exact absurd h1 hnf
        · rw [hmatch] at h1
          unfold hasPrefixEntry at h1
          cases he : s0.hist (backSlot z (clEnter p.2 p.1).curr_line k) with
          | none => rw [he] at h1; simp at h1
          | some e =>
            rw [he] at h1
            refine Or.inr (Or.inr ⟨by omega, hfl, e, rfl, List.isPrefixOf_iff_prefix.mp h1,
              ?_, ?_, ?_⟩) <;>
            · unfold clLoad
              simp only [clear_input_line0, if_neg hnf, hh, he, Option.getD_some]
theorem clEnter_ran (t : Editor) (E : CLStatics) : clEnter (ranCompleteLine t) E = E := by
  unfold clEnter ranCompleteLine
  simp

/-- A run of `complete_line` never fails, and `LineRun` holds after every
number of calls; the scan of the next call starts behind `curline` for the
first call and behind the stored `curr_line` afterwards. -/
theorem complete_line_run (z : Sizes) (fuel : Nat) (st0 : CLStatics) (s0 : Editor)
    (hcur : s0.curline < z.MAX_HIST) (hlen : s0.edlen = s0.edbuf.length)
    (hcmd : s0.last_edit_cmd ≠ EditFn.complete_line) (hfuel : z.MAX_HIST + 1 ≤ fuel)
    (n : Nat) :
    ∃ p, complete_line_times z fuel st0 s0 n = some p ∧ LineRun z s0 p ∧
      (clEnter p.2 p.1).curr_line = if n = 0 then s0.curline else p.1.curr_line := by
  induction n with
  | zero =>
    refine ⟨(st0, s0), rfl, ?_, ?_⟩
    · have hE : clEnter s0 st0
          = { curr_line := s0.curline, root_len := s0.edlen, first_line := s0.curline } := by
        unfold clEnter
        rw [if_pos hcmd]
      refine ⟨rfl, rfl, List.prefix_refl _, hlen, ?_, ?_, ?_⟩
      · show (clEnter s0 st0).root_len = _
        rw [hE]; exact hlen
      · show (clEnter s0 st0).first_line = _
        rw [hE]
      · show (clEnter s0 st0).curr_line < _
        rw [hE]; exact hcur
    · unfold clEnter
      simp only [if_pos hcmd, if_true]
  | succ n ih =>
    obtain ⟨p, hp, hinv, -⟩ := ih
    obtain ⟨q, hq, hinv2, -⟩ := complete_line_step z fuel s0 p hinv hfuel hcur
    refine ⟨(q.1, ranCompleteLine q.2), ?_, hinv2, ?_⟩
    · show (complete_line_times z fuel st0 s0 n).bind _ = _
      rw [hp]
      show (complete_line z fuel p.1 p.2).map _ = _
      rw [hq]
      rfl
    · rw [clEnter_ran, if_neg (Nat.succ_ne_zero n)]

/-- C22 as claimed fails: the buffer is `abc` with the cursor at 1, the history
holds `zz` only (slot 1) and `curline` is 2. The first `complete_line` scans
the slots 1, 0, 3 and is back at the anchor slot 2; the buffer is `abc`, of
length 3, and the cursor is still at 1, not at 3. -/
theorem C22_counterexample :
    (complete_line_times ⟨8, 4, 4, 3⟩ 5 (bootCL ⟨8, 4, 4, 3⟩)
      { withLine bootEditor [97, 98, 99] 1 with
        hist := fun i => if i = 1 then some [122, 122] else none, curline := 2 } 1).map
      (fun q => (q.1.curr_line, q.1.first_line, q.2.edbuf, q.2.edlen, q.2.pos))
      = some (2, 2, [97, 98, 99], 3, 1) := by
  decide

/-- C22, amended: a run of consecutive `complete_line` calls starts in a state
`s0` with buffer `B` (`edlen` its length, `curline` a history slot, the last
command another one). Every call returns. After every call `B` is a prefix of
the buffer. The call number `n + 1` scans backward circularly from the previous
position `c` (`curline` for the first call, the stored `curr_line` afterwards)
and stops at the first step `k`, `1 ≤ k ≤ MAX_HIST`, whose slot is the anchor,
holds an entry with prefix `B`, or is `c` itself (`k = MAX_HIST`): no slot
before it is the anchor or has `B` as a prefix. If `k = MAX_HIST` the buffer,
the cursor and the length stay as they are; if the slot is the anchor, reached
from another slot, the buffer is `B` with `pos = edlen = length(B)`; otherwise
the entry of the slot, which has `B` as a prefix, is loaded, with the cursor at
its end. -/
theorem C22_complete_line_run (z : Sizes) (fuel : Nat) (st0 : CLStatics) (s0 : Editor)
    (hcur : s0.curline < z.MAX_HIST) (hlen : s0.edlen = s0.edbuf.length)
    (hcmd : s0.last_edit_cmd ≠ EditFn.complete_line) (hfuel : z.MAX_HIST + 1 ≤ fuel)
    (n : Nat) :
    ∃ p q, complete_line_times z fuel st0 s0 n = some p ∧
      complete_line_times z fuel st0 s0 (n + 1) = some q ∧
      s0.edbuf <+: q.2.edbuf ∧ q.2.edbuf.take s0.edbuf.length = s0.edbuf ∧
      ∃ k, 1 ≤ k ∧ k ≤ z.MAX_HIST ∧
        q.1.curr_line = backSlot z (if n = 0 then s0.curline else p.1.curr_line) k ∧
        (∀ j, 1 ≤ j → j < k →
          backSlot z (if n = 0 then s0.curline else p.1.curr_line) j ≠ s0.curline ∧
          hasPrefixEntry s0 s0.edbuf
            (backSlot z (if n = 0 then s0.curline else p.1.curr_line) j) = false) ∧
        ((k = z.MAX_HIST ∧ q.2.edbuf = p.2.edbuf ∧ q.2.pos = p.2.pos ∧
            q.2.edlen = p.2.edlen) ∨
         (k < z.MAX_HIST ∧
            backSlot z (if n = 0 then s0.curline else p.1.curr_line) k = s0.curline ∧
            q.2.edbuf = s0.edbuf ∧ q.2.pos = s0.edbuf.length ∧
            q.2.edlen = s0.edbuf.length) ∨
         (k < z.MAX_HIST ∧
            backSlot z (if n = 0 then s0.curline else p.1.curr_line) k ≠ s0.curline ∧
            ∃ e, s0.hist (backSlot z (if n = 0 then s0.curline else p.1.curr_line) k)
                = some e ∧
              s0.edbuf <+: e ∧ q.2.edbuf = e ∧ q.2.pos = e.length ∧
              q.2.edlen = e.length)) := by
  obtain ⟨p, hp, hinv, hc⟩ := complete_line_run z fuel st0 s0 hcur hlen hcmd hfuel n
  obtain ⟨q, hq, hinv2, k, hk1, hk2, hcl, hno, hcase⟩ :=
    complete_line_step z fuel s0 p hinv hfuel hcur
  rw [hc] at hcl hno hcase
  have hq2 : complete_line_times z fuel st0 s0 (n + 1) = some (q.1, ranCompleteLine q.2) := by
    show (complete_line_times z fuel st0 s0 n).bind _ = _
    rw [hp]
    show (complete_line z fuel p.1 p.2).map _ = _
    rw [hq]
    rfl
  have hpre : s0.edbuf <+: (ranCompleteLine q.2).edbuf := hinv2.2.2.1
  refine ⟨p, (q.1, ranCompleteLine q.2), hp, hq2, hpre, ?_, k, hk1, hk2, hcl, hno, hcase⟩
  obtain ⟨t, ht⟩ := hpre
  show (ranCompleteLine q.2).edbuf.take _ = _
  rw [← ht]
  simp

/-- C22 on a history of four slots holding `abx`, `zz`, `abc` in the slots 0,
1, 2, with `curline` 3 and the buffer `ab`: the hypotheses hold, and the
theorem describes the first call, which loads `abc` from the slot 2; the
second call loads `abx` and the third is back at the anchor with the buffer
`ab` and `pos = edlen = 2`. -/
theorem C22_complete_line_run_witness :
    (∃ p q,
      complete_line_times ⟨8, 4, 4, 3⟩ 5 (bootCL ⟨8, 4, 4, 3⟩)
        { withLine bootEditor [97, 98] 1 with
          hist := fun i => if i = 0 then some [97, 98, 120] else if i = 1 then some [122, 122]
            else if i = 2 then some [97, 98, 99] else none, curline := 3 } 0 = some p ∧
      complete_line_times ⟨8, 4, 4, 3⟩ 5 (bootCL ⟨8, 4, 4, 3⟩)
        { withLine bootEditor [97, 98] 1 with
          hist := fun i => if i = 0 then some [97, 98, 120] else if i = 1 then some [122, 122]
            else if i = 2 then some [97, 98, 99] else none, curline := 3 } 1 = some q ∧
      [97, 98] <+: q.2.edbuf) ∧
    (complete_line_times ⟨8, 4, 4, 3⟩ 5 (bootCL ⟨8, 4, 4, 3⟩)
        { withLine bootEditor [97, 98] 1 with
          hist := fun i => if i = 0 then some [97, 98, 120] else if i = 1 then some [122, 122]
            else if i = 2 then some [97, 98, 99] else none, curline := 3 } 1).map
      (fun q => (q.1.curr_line, q.2.edbuf, q.2.edlen, q.2.pos))
      = some (2, [97, 98, 99], 3, 3) ∧
    (complete_line_times ⟨8, 4, 4, 3⟩ 5 (bootCL ⟨8, 4, 4, 3⟩)
        { withLine bootEditor [97, 98] 1 with
          hist := fun i => if i = 0 then some [97, 98, 120] else if i = 1 then some [122, 122]
            else if i = 2 then some [97, 98, 99] else none, curline := 3 } 2).map
      (fun q => (q.1.curr_line, q.2.edbuf, q.2.edlen, q.2.pos))
      = some (0, [97, 98, 120], 3, 3) ∧
    (complete_line_times ⟨8, 4, 4, 3⟩ 5 (bootCL ⟨8, 4, 4, 3⟩)
        { withLine bootEditor [97, 98] 1 with
          hist := fun i => if i = 0 then some [97, 98, 120] else if i = 1 then some [122, 122]
            else if i = 2 then some [97, 98, 99] else none, curline := 3 } 3).map
      (fun q => (q.1.curr_line, q.2.edbuf, q.2.edlen, q.2.pos))
      = some (3, [97, 98], 2, 2) := by
  refine ⟨?_, by decide, by decide, by decide⟩
  obtain ⟨p, q, hp, hq, hpre, -⟩ :=
    C22_complete_line_run ⟨8, 4, 4, 3⟩ 5 (bootCL ⟨8, 4, 4, 3⟩)
      { withLine bootEditor [97, 98] 1 with
        hist := fun i => if i = 0 then some [97, 98, 120] else if i = 1 then some [122, 122]
          else if i = 2 then some [97, 98, 99] else none, curline := 3 }
      (by decide) (by decide) (by decide) (by decide) 0
  exact ⟨p, q, hp, hq, hpre⟩

/-! ### The escaping codec: the two routines and the reserved size -/

theorem escapeByte_length (d : Defines) (e : Bool) (c : Nat) :
    1 ≤ (escapeByte d e c).length ∧ (escapeByte d e c).length ≤ 4 := by
  unfold escapeByte octalEscape
  split_ifs <;> simp

/-- The loop of `ptrmescape` writes at most four bytes for each byte read, and
one more while a run of `ESC` is open. -/
theorem ptrmescapeLoop_length (d : Defines) (s : List Nat) :
    ∀ r, (ptrmescapeLoop d r s).length ≤ 4 * s.length + (if r = true then 1 else 0) := by
  induction s with
  | nil => intro r; cases r <;> simp [ptrmescapeLoop]
  | cons c s ih =>
    intro r
    have iht := ih true
    have ihf := ih false
    simp only [if_true, Bool.false_eq_true, if_false, add_zero] at iht ihf
    have he1 := (escapeByte_length d false c).2
    have he2 := (escapeByte_length d true c).2
    cases r
    · simp only [ptrmescapeLoop, Bool.false_eq_true, if_false, add_zero, List.length_cons]
      split_ifs
      · simp only [List.length_cons]; omega
      · simp only [List.length_append]; omega
    · simp only [ptrmescapeLoop, if_true, List.length_cons]
      split_ifs
      · simp only [List.length_cons]; omega
      · simp only [List.length_cons, List.length_append]; omega
      · simp only [List.length_append]; omega

/-- C36: the two escaping routines agree. For every string `s` without NUL and
of length above 0, the text that `escape_specials(dst, s)` writes is the
contents of `dst` after `ptrmescape(dst, s, length(s), 0)`, whatever `dst`
held before. -/
theorem C36_escape_routines_agree (d : Defines) (dst s : List Nat)
    (hs : ∀ b ∈ s, b ≠ 0) (hlen : 0 < s.length) :
    escape_specials d s = ptrmescape d dst s s.length false := by
  unfold escape_specials ptrmescape
  rw [if_neg (by omega), List.take_length, escape_specialsLoop_eq d s hs]
  simp

/-- C36 on the string `a\b` followed by the byte 1 and `;`, with the stock
settings: both routines write the same text. -/
theorem C36_escape_routines_agree_witness :
    escape_specials stockDefines [97, 92, 98, 1, 59]
      = ptrmescape stockDefines [120] [97, 92, 98, 1, 59] 5 false ∧
    escape_specials stockDefines [97, 92, 98, 1, 59]
      = [97, 92, 92, 98, 92, 48, 48, 49, 92, 59] :=
  ⟨C36_escape_routines_agree stockDefines [120] [97, 92, 98, 1, 59] (by decide) (by decide),
   by decide⟩

/-- C37: the size that `ptrmescape` reserves is enough. With `append` set the
contents of `dst` stay and at most `4 * srclen` bytes are written behind them;
without `append` the whole result has at most `4 * srclen` bytes (the NUL that
ends the string is not counted). The bound is reached: a control byte is
written as four bytes. -/
theorem C37_ptrmescape_worst_case (d : Defines) (dst src : List Nat) (srclen : Nat) :
    (∃ out, ptrmescape d dst src srclen true = dst ++ out ∧ out.length ≤ 4 * srclen) ∧
    (ptrmescape d dst src srclen false).length ≤ 4 * srclen ∧
    (ptrmescape d dst [1] 1 false).length = 4 := by
  have h := ptrmescapeLoop_length d (src.take srclen) false
  simp only [Bool.false_eq_true, if_false, add_zero, List.length_take] at h
  have h2 : (ptrmescapeLoop d false (src.take srclen)).length ≤ 4 * srclen := by omega
  refine ⟨?_, ?_, ?_⟩
  · unfold ptrmescape
    by_cases h0 : srclen = 0
    · exact ⟨[], by simp [h0], by simp⟩
    · exact ⟨_, by simp [h0], h2⟩
  · unfold ptrmescape
    by_cases h0 : srclen = 0
    · simp [h0]
    · simpa [h0] using h2
  · simp [ptrmescape, ptrmescapeLoop, escapeByte, octalEscape, ESC]

/-! ### The prompt: truncation against `printstrlen` -/

/-- C31, evaluation of the code where it leaves the claim: on the prompt
`ESC 7` followed by `12> ` (the escape `ESC 7` is complete for `printstrlen`,
and no letter follows it) `find_partial_esc` returns the offset 0 of the
escape byte; the prompt cut there has the width 0, the whole prompt has the
width 4, and `draw_prompt` sets `col0` to 0. On `ab`, `ESC ESC`, `[1` it
returns the offset 3 of the second escape byte: the cut prompt has the width 2
and the whole prompt the width 4. -/
theorem C31_partial_esc_width :
    find_partial_esc [27, 55, 49, 50, 62, 32] = some 0 ∧
    printstrlen 80 ([27, 55, 49, 50, 62, 32].take 0) = 0 ∧
    printstrlen 80 [27, 55, 49, 50, 62, 32] = 4 ∧
    draw_prompt_col0 80 [27, 55, 49, 50, 62, 32] = 0 ∧
    find_partial_esc [97, 98, 27, 27, 91, 49] = some 3 ∧
    printstrlen 80 ([97, 98, 27, 27, 91, 49].take 3) = 2 ∧
    printstrlen 80 [97, 98, 27, 27, 91, 49] = 4 := by
  decide
theorem printstrlenLoop_nul (cols : Nat) (pre t : List Nat) (hpre : ∀ b ∈ pre, b ≠ 0)
    (st : PState) (l : Nat) :
    printstrlenLoop cols st l (pre ++ 0 :: t) = printstrlenLoop cols st l pre := by
  rw [printstrlenLoop_append cols pre _ hpre, printstrlenLoop_eq_run cols pre]
  cases (printstrlenRun cols st l pre).1 <;> simp [printstrlenLoop]

theorem printstrlenLoop_bracket_open (cols : Nat) (params : List Nat) (l : Nat)
    (hp : ∀ c ∈ params, isalpha c = false) :
    printstrlenLoop cols .BRACKET l params = l := by
  induction params with
  | nil => simp [printstrlenLoop]
  | cons c params ih =>
    have h1 := hp c (List.mem_cons_self _ _)
    simp only [printstrlenLoop, h1, Bool.false_eq_true, if_false]
    split_ifs
    · rfl
    · exact ih (fun b hb => hp b (List.mem_cons_of_mem _ hb))

theorem find_partial_escLoop_tail (pre tail : List Nat)
    (h : ∀ c ∈ tail, c ≠ 27 ∧ isalpha c = false) :
    ∀ k, k ≤ tail.length →
      find_partial_escLoop (pre ++ 27 :: tail) (pre.length + 1 + k) = some pre.length := by
  intro k
  induction k with
  | zero =>
    intro _
    show find_partial_escLoop (pre ++ 27 :: tail) (pre.length + 1) = _
    have hget : (pre ++ 27 :: tail).getD pre.length 0 = 27 := by
      simp only [List.getD_eq_getElem?_getD]
      rw [List.getElem?_append_right (le_refl _)]
      simp
    simp only [find_partial_escLoop, hget, if_true]
  | succ k ih =>
    intro hk
    have hget : (pre ++ 27 :: tail).getD (pre.length + 1 + k) 0 = tail.getD k 0 := by
      simp only [List.getD_eq_getElem?_getD]
      rw [List.getElem?_append_right (by omega)]
      have : pre.length + 1 + k - pre.length = k + 1 := by omega
      rw [this, List.getElem?_cons_succ]
    have hmem : tail.getD k 0 ∈ tail := by
      have hk2 : k < tail.length := by omega
      simp only [List.getD_eq_getElem?_getD, List.getElem?_eq_getElem hk2, Option.getD_some]
      exact List.getElem_mem _
    obtain ⟨h27, hal⟩ := h _ hmem
    show find_partial_escLoop (pre ++ 27 :: tail) (pre.length + 1 + k + 1) = _
    simp only [find_partial_escLoop, hget, h27, if_false, hal, Bool.false_eq_true]
    exact ih (by omega)

/-- Where the two rules do agree: when the text before the last escape byte
leaves the scanner of `printstrlen` in state `NORM` and what follows the escape
byte is nothing, or `[` and bytes that are not letters, `find_partial_esc`
returns the offset of that escape byte, and the prompt cut there is as wide as
the whole prompt; this is the value `draw_prompt` gives to `col0`. -/
theorem draw_prompt_col0_csi (cols : Nat) (pre tail : List Nat) (w : Nat)
    (hpre : ∀ b ∈ pre, b ≠ 0) (htail : ∀ c ∈ tail, c ≠ 0 ∧ c ≠ 27 ∧ isalpha c = false)
    (hrun : printstrlenRun cols .NORM 0 pre = (PState.NORM, w))
    (hcsi : tail = [] ∨ tail.head? = some 91) :
    find_partial_esc (pre ++ 27 :: tail) = some pre.length ∧
    printstrlen cols ((pre ++ 27 :: tail).take pre.length)
      = printstrlen cols (pre ++ 27 :: tail) ∧
    draw_prompt_col0 cols (pre ++ 27 :: tail) = printstrlen cols (pre ++ 27 :: tail) := by
  have hall : ∀ c ∈ pre ++ 27 :: tail, c ≠ 0 := by
    intro c hc
    rcases List.mem_append.mp hc with h | h
    · exact hpre c h
    · rcases List.mem_cons.mp h with h | h
      · rw [h]; decide
      · exact (htail c h).1
  have hfind : find_partial_esc (pre ++ 27 :: tail) = some pre.length := by
    unfold find_partial_esc
    have : (pre ++ 27 :: tail).takeWhile (fun c => decide (c ≠ 0)) = pre ++ 27 :: tail := by
      rw [List.takeWhile_eq_self_iff]
      intro c hc
      simpa using hall c hc
    rw [this]
    have hl : (pre ++ 27 :: tail).length = pre.length + 1 + tail.length := by
      simp; omega
    rw [hl]
    exact find_partial_escLoop_tail pre tail (fun c hc => (htail c hc).2) _ (le_refl _)
  have hw : printstrlen cols pre = w := by
    unfold printstrlen
    rw [printstrlenLoop_eq_run, hrun]
  have hfull : printstrlen cols (pre ++ 27 :: tail) = w := by
    unfold printstrlen
    rw [printstrlenLoop_append cols pre _ hpre, hrun]
    rcases hcsi with h | h
    · subst h
      simp [printstrlenLoop]
    · cases tail with
      | nil => simp at h
      | cons c params =>
        have hc : c = 91 := by simpa using h
        subst hc
        simp only [printstrlenLoop]
        simp only [show (27 : Nat) ≠ 0 by decide, show (91 : Nat) ≠ 0 by decide, if_false,
          if_true]
        exact printstrlenLoop_bracket_open cols params w
          (fun b hb => (htail b (List.mem_cons_of_mem _ hb)).2.2)
  refine ⟨hfind, ?_, ?_⟩
  · rw [hfull, List.take_left, hw]
  · unfold draw_prompt_col0
    rw [hfind]
    simp only []
    have hset : (pre ++ 27 :: tail).set pre.length 0 = pre ++ 0 :: tail := by
      rw [List.set_append_right _ _ (le_refl _)]
      simp
    rw [hset, hfull]
    unfold printstrlen
    rw [printstrlenLoop_nul cols pre tail hpre]
    exact hw

/-! ### The line editor: the offsets passed to `input_moveto` -/

theorem pwSkipOther_le (s : Editor) (i : Nat) : pwSkipOther s i ≤ i := by
  induction i with
  | zero => simp [pwSkipOther]
  | succ i ih => simp only [pwSkipOther]; split_ifs <;> omega

theorem pwSkipAlnum_le (s : Editor) (i : Nat) : pwSkipAlnum s i ≤ i := by
  induction i with
  | zero => simp [pwSkipAlnum]
  | succ i ih => simp only [pwSkipAlnum]; split_ifs <;> omega

theorem nwSkipOther_le (t : List Nat) : nwSkipOther t ≤ t.length := by
  induction t with
  | nil => simp [nwSkipOther]
  | cons c t ih => simp only [nwSkipOther, List.length_cons]; split_ifs <;> omega

theorem nwSkipAlnum_le (t : List Nat) : nwSkipAlnum t ≤ t.length := by
  induction t with
  | nil => simp [nwSkipAlnum]
  | cons c t ih => simp only [nwSkipAlnum, List.length_cons]; split_ifs <;> omega

/-- C32 as claimed fails: on the line `ab` with the cursor at 0, `prev_char`
calls `input_moveto(-1)`; with the cursor at 2, the end of the line,
`next_char` calls `input_moveto(3)`. -/
theorem C32_counterexample :
    prev_char_moveto (editorAt [97, 98] 0 0) = -1 ∧
    (editorAt [97, 98] 0 0).pos ≤ (editorAt [97, 98] 0 0).edlen ∧
    next_char_moveto (editorAt [97, 98] 2 0) = 3 ∧
    (editorAt [97, 98] 2 0).pos ≤ (editorAt [97, 98] 2 0).edlen ∧
    (editorAt [97, 98] 2 0).edlen = 2 := by
  decide

/-- C32, amended: in every state with `0 <= pos <= edlen` (and `edlen` the
length of the buffer) the offset that `prev_word`, `next_word`,
`begin_of_line`, `end_of_line` and `del_word_left` pass to `input_moveto` lies
in `[0, edlen]`, and so does the offset of `del_char_left` when it makes the
call; `prev_char` passes `pos - 1` and `next_char` passes `pos + 1` as they
are: the first lies in `[0, edlen]` exactly when `pos > 0`, the second exactly
when `pos < edlen`. -/
theorem C32_moveto_offsets (s : Editor) (hpos : s.pos ≤ s.edlen)
    (hlen : s.edlen = s.edbuf.length) :
    (0 ≤ prev_word_moveto s ∧ prev_word_moveto s ≤ s.edlen) ∧
    (0 ≤ next_word_moveto s ∧ next_word_moveto s ≤ s.edlen) ∧
    (0 ≤ begin_of_line_moveto s ∧ begin_of_line_moveto s ≤ s.edlen) ∧
    (0 ≤ end_of_line_moveto s ∧ end_of_line_moveto s ≤ s.edlen) ∧
    (0 ≤ del_word_left_moveto s ∧ del_word_left_moveto s ≤ s.edlen) ∧
    (∀ a, del_char_left_moveto s = some a → 0 ≤ a ∧ a ≤ s.edlen) ∧
    prev_char_moveto s = (s.pos : Int) - 1 ∧
    ((0 ≤ prev_char_moveto s ∧ prev_char_moveto s ≤ s.edlen) ↔ 0 < s.pos) ∧
    next_char_moveto s = (s.pos : Int) + 1 ∧
    ((0 ≤ next_char_moveto s ∧ next_char_moveto s ≤ s.edlen) ↔ s.pos < s.edlen) := by
  have h1 := pwSkipOther_le s s.pos
  have h2 := pwSkipAlnum_le s (pwSkipOther s s.pos)
  have h3 := nwSkipOther_le (s.edbuf.drop s.pos)
  have h4 := nwSkipAlnum_le (s.edbuf.drop (s.pos + nwSkipOther (s.edbuf.drop s.pos)))
  simp only [List.length_drop] at h3 h4
  unfold prev_word_moveto next_word_moveto begin_of_line_moveto end_of_line_moveto
    del_word_left_moveto del_char_left_moveto prev_char_moveto next_char_moveto
  refine ⟨⟨by omega, by omega⟩, ⟨by omega, by omega⟩, ⟨by omega, by omega⟩,
    ⟨by omega, by omega⟩, ⟨by omega, by omega⟩, ?_, rfl, by omega, rfl, by omega⟩
  intro a ha
  split_ifs at ha with h0
  · have : a = (s.pos : Int) - 1 := by simpa using ha.symm
    omega

/-- C32, amended, on the line `ab, cd` with the cursor at 4: `prev_word` moves
to 0, `next_word` to 6, `del_word_left` to 0 and `del_char_left` to 3. -/
theorem C32_moveto_offsets_witness :
    ((0 ≤ prev_word_moveto (editorAt [97, 98, 44, 32, 99, 100] 4 0) ∧
      prev_word_moveto (editorAt [97, 98, 44, 32, 99, 100] 4 0)
        ≤ (editorAt [97, 98, 44, 32, 99, 100] 4 0).edlen)) ∧
    prev_word_moveto (editorAt [97, 98, 44, 32, 99, 100] 4 0) = 0 ∧
    next_word_moveto (editorAt [97, 98, 44, 32, 99, 100] 4 0) = 6 ∧
    del_word_left_moveto (editorAt [97, 98, 44, 32, 99, 100] 4 0) = 0 ∧
    del_char_left_moveto (editorAt [97, 98, 44, 32, 99, 100] 4 0) = some 3 :=
  ⟨(C32_moveto_offsets (editorAt [97, 98, 44, 32, 99, 100] 4 0) (by decide) (by decide)).1,
   by decide, by decide, by decide, by decide⟩

/-! ### The line editor: recalling back and forth -/

/-- C35: recalling back and forth loses nothing. With at least two history
slots, `pickline` a slot and the slot before it holding a line, `prev_line`
followed by `next_line` leaves the buffer as it was, whatever it held,
`pickline` as it was, and `pos = edlen =` the length of the buffer; the buffer
is then also what the slot `pickline` holds. And `prev_line`, `next_line`
change nothing when the slot they would load is empty. -/
theorem C35_recall_back_and_forth (z : Sizes) (s : Editor) (hM : 2 ≤ z.MAX_HIST)
    (hp : s.pickline < z.MAX_HIST)
    (h : s.hist (if s.pickline = 0 then z.MAX_HIST - 1 else s.pickline - 1) ≠ none) :
    (next_line z (prev_line z s)).edbuf = s.edbuf ∧
    (next_line z (prev_line z s)).pickline = s.pickline ∧
    (next_line z (prev_line z s)).pos = s.edbuf.length ∧
    (next_line z (prev_line z s)).edlen = s.edbuf.length ∧
    (next_line z (prev_line z s)).hist s.pickline = some s.edbuf ∧
    (∀ s2 : Editor,
      s2.hist (if s2.pickline = 0 then z.MAX_HIST - 1 else s2.pickline - 1) = none →
      prev_line z s2 = s2) ∧
    (∀ s2 : Editor,
      s2.hist (if s2.pickline + 1 = z.MAX_HIST then 0 else s2.pickline + 1) = none →
      next_line z s2 = s2) := by
  obtain ⟨t, ht⟩ := Option.ne_none_iff_exists'.mp h
  have hne : (if s.pickline = 0 then z.MAX_HIST - 1 else s.pickline - 1) ≠ s.pickline := by
    split_ifs <;> omega
  obtain ⟨k1, -, -, k4, k5, k6⟩ := prev_line_some z s t ht hne
  have hback : (if (prev_line z s).pickline + 1 = z.MAX_HIST then 0
      else (prev_line z s).pickline + 1) = s.pickline := by
    rw [k4]
    split_ifs <;> omega
  have h2 : (prev_line z s).hist (if (prev_line z s).pickline + 1 = z.MAX_HIST then 0
      else (prev_line z s).pickline + 1) = some s.edbuf := by
    rw [hback]; exact k6
  have hne2 : (if (prev_line z s).pickline + 1 = z.MAX_HIST then 0
      else (prev_line z s).pickline + 1) ≠ (prev_line z s).pickline := by
    rw [hback, k4]; exact hne.symm
  obtain ⟨m1, m2, m3, m4, m5, -⟩ := recall_line_some (prev_line z s) _ s.edbuf h2 hne2
  refine ⟨m1, m4.trans hback, m2, m3, ?_, ?_, ?_⟩
  · show (recall_line (prev_line z s) _).hist s.pickline = _
    rw [m5 s.pickline (by rw [k4]; exact hne.symm)]
    exact k6
  · intro s2 h0
    unfold prev_line recall_line
    rw [h0]
  · intro s2 h0
    unfold next_line recall_line
    rw [h0]

/-- C35 with four history slots holding `ab` in the slot 0, `pickline` 1 and
the edited buffer `xyz`: `prev_line` loads `ab`, `next_line` brings `xyz`
back. -/
theorem C35_recall_back_and_forth_witness :
    (prev_line ⟨8, 4, 4, 3⟩
      { withLine bootEditor [120, 121, 122] 1 with
        hist := fun i => if i = 0 then some [97, 98] else none
        pickline := 1, curline := 1 }).edbuf = [97, 98] ∧
    (next_line ⟨8, 4, 4, 3⟩ (prev_line ⟨8, 4, 4, 3⟩
      { withLine bootEditor [120, 121, 122] 1 with
        hist := fun i => if i = 0 then some [97, 98] else none
        pickline := 1, curline := 1 })).edbuf = [120, 121, 122] ∧
    (next_line ⟨8, 4, 4, 3⟩ (prev_line ⟨8, 4, 4, 3⟩
      { withLine bootEditor [120, 121, 122] 1 with
        hist := fun i => if i = 0 then some [97, 98] else none
        pickline := 1, curline := 1 })).pos = 3 :=
  ⟨by decide,
   (C35_recall_back_and_forth ⟨8, 4, 4, 3⟩
      { withLine bootEditor [120, 121, 122] 1 with
        hist := fun i => if i = 0 then some [97, 98] else none
        pickline := 1, curline := 1 } (by decide) (by decide) (by decide)).1,
   (C35_recall_back_and_forth ⟨8, 4, 4, 3⟩
      { withLine bootEditor [120, 121, 122] 1 with
        hist := fun i => if i = 0 then some [97, 98] else none
        pickline := 1, curline := 1 } (by decide) (by decide) (by decide)).2.2.1⟩

/-! ### The line editor: the frame of `transpose_words` -/

theorem twWordStart_le (d : Defines) (s : Editor) (k : Nat) : twWordStart d s k ≤ k := by
  induction k with
  | zero => simp [twWordStart]
  | succ k ih => simp only [twWordStart]; split_ifs <;> omega

theorem twTraceBack_le (d : Defines) (s : Editor) (k : Nat) : twTraceBack d s k ≤ k := by
  induction k with
  | zero => simp [twTraceBack]
  | succ k ih => simp only [twTraceBack]; split_ifs <;> omega

theorem twWordEnd_bounds (d : Defines) (s : Editor) (fuel e : Nat) (he : e ≤ s.edlen) :
    e ≤ twWordEnd d s fuel e ∧ twWordEnd d s fuel e ≤ s.edlen := by
  induction fuel generalizing e with
  | zero => simp [twWordEnd, he]
  | succ f ih =>
    simp only [twWordEnd]
    split_ifs with h
    · have := ih (e + 1) (by omega)
      omega
    · omega

theorem twSkipDelims_lt (d : Defines) (s : Editor) (k o : Nat)
    (h : twSkipDelims d s k = some o) : o < k := by
  induction k with
  | zero => simp [twSkipDelims] at h
  | succ k ih =>
    simp only [twSkipDelims] at h
    split_ifs at h
    · have := ih h; omega
    · have : k = o := by simpa using h
      omega

theorem spanOf_length (s : Editor) (i n : Nat) (h : i + n ≤ s.edbuf.length) :
    (spanOf s i n).length = n := by
  unfold spanOf
  simp only [List.length_take, List.length_drop]
  omega

theorem spanOf_split (s : Editor) (i j k : Nat) (hij : i ≤ j) (hjk : j ≤ k) :
    spanOf s i (k - i) = spanOf s i (j - i) ++ spanOf s j (k - j) := by
  unfold spanOf
  have e : k - i = (j - i) + (k - j) := by omega
  rw [e, List.take_add, List.drop_drop]
  congr 3
  omega

theorem take_drop_mid (A X R : List Nat) :
    ((A ++ X ++ R).drop A.length).take X.length = X := by
  rw [List.append_assoc, List.drop_left, List.take_left]

/-- C39: `transpose_words` only rearranges the span it swaps. For every state
with `pos <= edlen` (and `edlen` the length of the buffer), with `[a, b)` the
span from the start of the preceding word to the end of the current word:
`edlen` and the length of the buffer are unchanged, the bytes before `a` and
the bytes from `b` on are unchanged, and the bytes of the span are a
permutation of those that were there. -/
theorem C39_transpose_words_frame (d : Defines) (s : Editor) (hpos : s.pos ≤ s.edlen)
    (hlen : s.edlen = s.edbuf.length) :
    (transpose_words_span d s).1 ≤ (transpose_words_span d s).2 ∧
    (transpose_words_span d s).2 ≤ s.edlen ∧
    (transpose_words d s).edlen = s.edlen ∧
    (transpose_words d s).edbuf.length = s.edbuf.length ∧
    (transpose_words d s).edbuf.take (transpose_words_span d s).1
      = s.edbuf.take (transpose_words_span d s).1 ∧
    (transpose_words d s).edbuf.drop (transpose_words_span d s).2
      = s.edbuf.drop (transpose_words_span d s).2 ∧
    (spanOf (transpose_words d s) (transpose_words_span d s).1
        ((transpose_words_span d s).2 - (transpose_words_span d s).1)).Perm
      (spanOf s (transpose_words_span d s).1
        ((transpose_words_span d s).2 - (transpose_words_span d s).1)) := by
  have hnil : ∀ t : Editor, spanOf t 0 (0 - 0) = [] := by
    intro t; simp [spanOf]
  unfold transpose_words transpose_words_span
  by_cases h2 : 2 < s.pos
  · rw [if_pos h2, if_pos h2]
    simp only []
    by_cases hso : twWordStart d s (twTraceBack d s s.pos) < 2
    · rw [if_pos hso, if_pos hso]
      simp [hnil]
    · rw [if_neg hso, if_neg hso]
      cases ho : twSkipDelims d s (twWordStart d s (twTraceBack d s s.pos)) with
      | none => simp [hnil]
      | some o =>
        simp only []
        have hb := twWordEnd_bounds d s s.edlen s.pos hpos
        have h1 := twWordStart_le d s (twTraceBack d s s.pos)
        have h2b := twTraceBack_le d s s.pos
        have h3 := twSkipDelims_lt d s _ o ho
        have h4 := twWordStart_le d s o
        generalize twWordEnd d s s.edlen s.pos = b at hb ⊢
        generalize twWordStart d s (twTraceBack d s s.pos) = so at h1 h3 ho hso ⊢
        generalize twWordStart d s o = a at h4 ⊢
        have l1 : (spanOf s so (b - so)).length = b - so := spanOf_length s _ _ (by omega)
        have l2 : (spanOf s (o + 1) (so - (o + 1))).length = so - (o + 1) :=
          spanOf_length s _ _ (by omega)
        have l3 : (spanOf s a (o + 1 - a)).length = o + 1 - a :=
          spanOf_length s _ _ (by omega)
        have hbl : (spanOf s so (b - so) ++ spanOf s (o + 1) (so - (o + 1))
            ++ spanOf s a (o + 1 - a)).length = b - a := by
          simp only [List.length_append, l1, l2, l3]; omega
        obtain ⟨o1, -, o3⟩ := overtype_foldl
          (spanOf s so (b - so) ++ spanOf s (o + 1) (so - (o + 1)) ++ spanOf s a (o + 1 - a))
          (input_moveto s a) hlen (by rw [hbl]; simp only [input_moveto]; omega)
        have e1 : (input_moveto s a).edbuf = s.edbuf := rfl
        have e2 : (input_moveto s a).pos = a := rfl
        have e3 : (input_moveto s a).edlen = s.edlen := rfl
        have hab : a + (b - a) = b := by omega
        rw [hbl, e1, e2, hab] at o1
        rw [e3] at o3
        have hta : (s.edbuf.take a).length = a := by
          simp only [List.length_take]; omega
        refine ⟨by omega, hb.2, o3, ?_, ?_, ?_, ?_⟩
        · rw [o1]
          simp only [List.length_append, hbl, List.length_take, List.length_drop]
          omega
        · rw [o1, List.append_assoc, List.take_append_of_le_length (by omega),
            List.take_of_length_le (by omega)]
        · rw [o1]
          have : b = (s.edbuf.take a ++ (spanOf s so (b - so)
              ++ spanOf s (o + 1) (so - (o + 1)) ++ spanOf s a (o + 1 - a))).length := by
            simp only [List.length_append, hbl, hta] at *
            omega
          nth_rewrite 1 [this]
          rw [List.drop_left]
        · have hsp : spanOf (List.foldl input_overtype_follow (input_moveto s a)
              (spanOf s so (b - so) ++ spanOf s (o + 1) (so - (o + 1))
                ++ spanOf s a (o + 1 - a))) a (b - a)
              = spanOf s so (b - so) ++ spanOf s (o + 1) (so - (o + 1))
                ++ spanOf s a (o + 1 - a) := by
            have hmid := take_drop_mid (s.edbuf.take a)
              (spanOf s so (b - so) ++ spanOf s (o + 1) (so - (o + 1))
                ++ spanOf s a (o + 1 - a)) (s.edbuf.drop b)
            rw [hta, hbl, ← o1] at hmid
            exact hmid
          rw [hsp, spanOf_split s a (o + 1) b (by omega) (by omega),
            spanOf_split s (o + 1) so b (by omega) (by omega)]
          -- `X3 ++ X2 ++ X1` against `X1 ++ (X2 ++ X3)`
          exact (List.perm_append_comm.trans
            (List.Perm.append_left _ List.perm_append_comm))
  · rw [if_neg h2, if_neg h2]
    simp [hnil]
/-- C39 on `x ab cd y` with the cursor at 6, inside `cd`: the span is
`[2, 7)`, the buffer becomes `x cd ab y`, and the two bytes before the span are
as they were. On `ab cd ` with the cursor at 6, behind the blank at the end,
the span found is `[0, 6)` and the buffer becomes `cd  ab`. -/
theorem C39_transpose_words_frame_witness :
    (transpose_words stockDefines (editorAt [120, 32, 97, 98, 32, 99, 100, 32, 121] 6 0)).edbuf.take
        (transpose_words_span stockDefines
          (editorAt [120, 32, 97, 98, 32, 99, 100, 32, 121] 6 0)).1
      = (editorAt [120, 32, 97, 98, 32, 99, 100, 32, 121] 6 0).edbuf.take
        (transpose_words_span stockDefines
          (editorAt [120, 32, 97, 98, 32, 99, 100, 32, 121] 6 0)).1 ∧
    transpose_words_span stockDefines
      (editorAt [120, 32, 97, 98, 32, 99, 100, 32, 121] 6 0) = (2, 7) ∧
    (transpose_words stockDefines (editorAt [120, 32, 97, 98, 32, 99, 100, 32, 121] 6 0)).edbuf
      = [120, 32, 99, 100, 32, 97, 98, 32, 121] ∧
    transpose_words_span stockDefines (editorAt [97, 98, 32, 99, 100, 32] 6 0) = (0, 6) ∧
    (transpose_words stockDefines (editorAt [97, 98, 32, 99, 100, 32] 6 0)).edbuf
      = [99, 100, 32, 32, 97, 98] :=
  ⟨(C39_transpose_words_frame stockDefines
      (editorAt [120, 32, 97, 98, 32, 99, 100, 32, 121] 6 0) (by decide) (by decide)).2.2.2.2.1,
   by decide, by decide, by decide, by decide⟩

/-! ### The scan loops on the begin-anchored pattern `$` -/

/-- C38, evaluation of the code where it leaves the claim: with the one
begin-anchored entry `$` (its pattern is not empty and has no two adjacent
wildcards) on the line `a b`, the first pass of the scan loop chooses the
entry with its start `NULL` and its end at offset 1: the match applied does
not start at or behind the scan start, `mfirst->b.start - line` is not a
length, and neither `ptrmaddmarks` nor `ptrmaddsubst` comes to a result,
whatever the number of turns allowed. The same entry without the anchor is
applied from offset 0 to the end of the line. -/
theorem C38_anchored_dollar_applied :
    (scanPass stockDefines [97, 32, 98] 0 true [⟨[36], 1, true, none, none⟩] 0 none).map
        (fun r => r.2.map (fun m => (m.1, m.2.start, m.2.end_)))
      = some (some (0, none, some 1)) ∧
    (∀ fuel, ptrmaddmarks stockDefines attrRed [⟨⟨[36], 1, true, none, none⟩, 1⟩] fuel
        [97, 32, 98] = none) ∧
    (∀ fuel, ptrmaddsubst stockDefines [⟨⟨[36], 1, true, none, none⟩, [120]⟩] fuel
        [97, 32, 98] = none) ∧
    ptrmaddsubst stockDefines [⟨⟨[36], 0, true, none, none⟩, [120]⟩] 4 [97, 32, 98]
      = some [120] := by
  refine ⟨by decide, ?_, ?_, by decide⟩
  · intro fuel
    cases fuel with
    | zero => rfl
    | succ f =>
      have h : scanPass stockDefines [97, 32, 98] 0 true [⟨[36], 1, true, none, none⟩] 0 none
          = some ([⟨[36], 1, true, none, some 1⟩], some (0, ⟨[36], 1, true, none, some 1⟩)) := by
        decide
      simp [ptrmaddmarks, ptrmaddmarksLoop, h]
  · intro fuel
    cases fuel with
    | zero => rfl
    | succ f =>
      have h : scanPass stockDefines [97, 32, 98] 0 true [⟨[36], 1, true, none, none⟩] 0 none
          = some ([⟨[36], 1, true, none, some 1⟩], some (0, ⟨[36], 1, true, none, some 1⟩)) := by
        decide
      simp [ptrmaddsubst, ptrmaddsubstLoop, h]

/-! ### The completion ring: layout, walk and duplicates -/

theorem ringOf_next_mid (w : Nat → wordnode) (X Y : List Nat) (a b : Nat)
    (h : RingOf w (X ++ a :: b :: Y)) : (w a).next = b := by
  obtain ⟨-, -, hch⟩ := h
  have e : (X ++ a :: b :: Y) ++ (X ++ a :: b :: Y).take 1
      = X ++ (a :: b :: (Y ++ (X ++ a :: b :: Y).take 1)) := by simp
  rw [e, List.chain'_append] at hch
  have := hch.2.1
  rw [List.chain'_cons] at this
  exact this.1.1

theorem ringOf_next_last (w : Nat → wordnode) (x : Nat) (T : List Nat)
    (h : RingOf w (x :: T)) : (w ((x :: T).getLast (by simp))).next = x :=
  (ringOf_ends w x T h).2.1

/-- The ring after `demote_word(k)`: the slot `k` is taken out of its place and
put last, before `wordindex`. -/
theorem ringOf_demote_mid (w : Nat → wordnode) (wi k : Nat) (A B : List Nat)
    (h : RingOf w (wi :: A ++ k :: B)) :
    RingOf (demote_word w wi k) (wi :: A ++ B ++ [k]) := by
  have hnd := h.1
  have hk : k ∉ wi :: (A ++ B) := by
    have h1 : (wi :: A ++ k :: B).Nodup := hnd
    have e : wi :: A ++ k :: B = (wi :: A) ++ k :: B := rfl
    rw [e] at h1
    have h2 := List.nodup_middle.mp h1
    have h3 := (List.nodup_cons.mp h2).1
    intro hm
    apply h3
    simpa using hm
  -- read the ring from `k`
  have h1 : RingOf w (k :: B ++ wi :: A) := by
    have := ringOf_rotate w (wi :: A) (k :: B) (by simp) (by simp) h
    simpa using this
  -- take `k` out
  have h2 : RingOf (unlinkWord w k) (B ++ wi :: A) := by
    cases B with
    | nil => exact ringOf_unlink w k wi A h1
    | cons b B => exact ringOf_unlink w k b (B ++ wi :: A) h1
  -- read it from `wordindex` again
  have h3 : RingOf (unlinkWord w k) (wi :: (A ++ B)) := by
    cases B with
    | nil => simpa using h2
    | cons b B =>
      have := ringOf_rotate (unlinkWord w k) (b :: B) (wi :: A) (by simp) (by simp) h2
      simpa using this
  have h4 := ringOf_linkBefore (unlinkWord w k) wi k (A ++ B) h3 hk
  rw [demote_word_split]
  simpa using h4
theorem layout_length (M : Nat) (w : Nat → wordnode) (wi : Nat) (L E : List Nat)
    (h : RingLayout M w wi L E) : L.length + E.length + 1 = M := by
  obtain ⟨hR, hmem, -⟩ := h
  have hp : (wi :: L ++ E).Perm (List.range M) :=
    (List.perm_ext_iff_of_nodup hR.1 (List.nodup_range M)).mpr
      (fun a => by rw [hmem a, List.mem_range])
  have := hp.length_eq
  simp only [List.length_range, List.cons_append, List.length_cons, List.length_append] at this
  omega

theorem layout_chain (M : Nat) (w : Nat → wordnode) (wi : Nat) (L E : List Nat)
    (h : RingLayout M w wi L E) : List.Chain' (Linked w) (wi :: (L ++ (E ++ [wi]))) := by
  have := h.1.2.2
  simpa using this

theorem layout_not_wi (M : Nat) (w : Nat → wordnode) (wi : Nat) (L E : List Nat)
    (h : RingLayout M w wi L E) : ∀ a ∈ L ++ E, a ≠ wi := by
  intro a ha e
  have hnd : (wi :: (L ++ E)).Nodup := h.1.1
  exact (List.nodup_cons.mp hnd).1 (e ▸ ha)

/-- The slot behind the slots that hold a word: the first empty slot or
`wordindex`. -/
theorem layout_stop (M : Nat) (w : Nat → wordnode) (wi : Nat) (L E : List Nat)
    (h : RingLayout M w wi L E) :
    ∃ y R, E ++ [wi] = y :: R ∧ (y = wi ∨ (w y).word = none) := by
  cases E with
  | nil => exact ⟨wi, [], rfl, Or.inl rfl⟩
  | cons e E => exact ⟨e, E ++ [wi], rfl, Or.inr (h.2.2.2.2 e (by simp))⟩

theorem dynWalk_chain (w : Nat → wordnode) (wi : Nat) (T : List Nat) :
    ∀ x y fuel, List.Chain' (Linked w) (x :: T ++ [y]) →
      (∀ a ∈ x :: T, a ≠ wi ∧ (w a).word ≠ none) → (y = wi ∨ (w y).word = none) →
      T.length + 2 ≤ fuel → dynWalk w wi fuel x = x :: T := by
  induction T with
  | nil =>
    intro x y fuel hch hx hy hf
    obtain ⟨f, rfl⟩ : ∃ f, fuel = f + 2 := ⟨fuel - 2, by simp at hf; omega⟩
    have hxy : (w x).next = y := by
      simp only [List.cons_append, List.nil_append, List.chain'_cons] at hch
      exact hch.1.1
    have h1 := hx x (by simp)
    simp only [dynWalk, h1.1, h1.2, or_self, if_false, hxy]
    rw [if_pos hy]
  | cons t T ih =>
    intro x y fuel hch hx hy hf
    obtain ⟨f, rfl⟩ : ∃ f, fuel = f + 1 := ⟨fuel - 1, by simp at hf; omega⟩
    have hch2 : List.Chain' (Linked w) (x :: t :: (T ++ [y])) := by simpa using hch
    rw [List.chain'_cons] at hch2
    have h1 := hx x (by simp)
    simp only [dynWalk, h1.1, h1.2, or_self, if_false, hch2.1.1]
    rw [ih t y f (by simpa using hch2.2) (fun a ha => hx a (List.mem_cons_of_mem _ ha)) hy
      (by simp at hf ⊢; omega)]

/-- The slots that hold a word are those that the walk from `wordindex`
finds. -/
theorem dynWalk_layout (M : Nat) (w : Nat → wordnode) (wi : Nat) (L E : List Nat)
    (h : RingLayout M w wi L E) (fuel : Nat) (hf : M ≤ fuel) :
    dynWalk w wi fuel (w wi).next = L := by
  have hlen := layout_length M w wi L E h
  have hch := layout_chain M w wi L E h
  obtain ⟨y, R, hy, hy2⟩ := layout_stop M w wi L E h
  rw [hy] at hch
  cases L with
  | nil =>
    have hn : (w wi).next = y := by
      simp only [List.nil_append, List.chain'_cons] at hch
      exact hch.1.1
    obtain ⟨f, rfl⟩ : ∃ f, fuel = f + 1 := ⟨fuel - 1, by omega⟩
    simp only [dynWalk, hn]
    rw [if_pos hy2]
  | cons l L =>
    have hch2 : List.Chain' (Linked w) (wi :: l :: (L ++ y :: R)) := by simpa using hch
    rw [List.chain'_cons] at hch2
    rw [hch2.1.1]
    apply dynWalk_chain w wi L l y fuel
    · have h3 : List.Chain' (Linked w) ((l :: L ++ [y]) ++ R) := by simpa using hch2.2
      exact h3.left_of_append
    · intro a ha
      exact ⟨layout_not_wi M w wi _ E h a (List.mem_append_left _ ha), h.2.2.2.1 a ha⟩
    · exact hy2
    · simp only [List.length_cons] at hlen; omega

theorem complOrbit_dyn (s : Editor) (T : List Nat) :
    ∀ x y n, List.Chain' (Linked s.words) (x :: T ++ [y]) →
      (∀ a ∈ T, a ≠ s.wordindex ∧ (s.words a).word ≠ none) →
      (y = s.wordindex ∨ (s.words y).word = none) →
      complOrbit s (T.length + 1 + n) (x : Int)
        = T.map (fun a : Nat => (a : Int))
          ++ (if (0 : Int) ≥ (s.static_words.length : Int) then (s.wordindex : Int) else -1)
            :: complOrbit s n
              (if (0 : Int) ≥ (s.static_words.length : Int) then (s.wordindex : Int) else -1) := by
  induction T with
  | nil =>
    intro x y n hch _ hy
    have hxy : (s.words x).next = y := by
      simp only [List.cons_append, List.nil_append, List.chain'_cons] at hch
      exact hch.1.1
    have e : compl_next_word s (x : Int)
        = if (0 : Int) ≥ (s.static_words.length : Int) then (s.wordindex : Int) else -1 := by
      unfold compl_next_word
      rw [if_neg (by omega)]
      simp only [Int.toNat_ofNat, hxy]
      rw [if_pos hy]
    show complOrbit s (0 + 1 + n) (x : Int) = _
    rw [show 0 + 1 + n = n + 1 by omega]
    simp only [complOrbit, e, List.map_nil, List.nil_append]
  | cons t T ih =>
    intro x y n hch hT hy
    have hch2 : List.Chain' (Linked s.words) (x :: t :: (T ++ [y])) := by simpa using hch
    rw [List.chain'_cons] at hch2
    have ht := hT t (by simp)
    have e : compl_next_word s (x : Int) = (t : Int) := by
      unfold compl_next_word
      rw [if_neg (by omega)]
      simp only [Int.toNat_ofNat, hch2.1.1]
      rw [if_neg (by simp [ht.1, ht.2])]
    have := ih t y n (by simpa using hch2.2) (fun a ha => hT a (List.mem_cons_of_mem _ ha)) hy
    rw [show (t :: T).length + 1 + n = (T.length + 1 + n) + 1 by simp; omega]
    simp only [complOrbit, e, this, List.map_cons, List.cons_append]

theorem complOrbit_static (s : Editor) :
    ∀ k j, 1 ≤ j → j + k = s.static_words.length →
      complOrbit s (k + 1) (-(j : Int))
        = (List.range k).map (fun i => -((j + 1 + i : Nat) : Int)) ++ [(s.wordindex : Int)] := by
  intro k
  induction k with
  | zero =>
    intro j hj hU
    have e : compl_next_word s (-(j : Int)) = (s.wordindex : Int) := by
      unfold compl_next_word
      rw [if_pos (by omega), if_pos (by omega)]
    simp [complOrbit, e]
  | succ k ih =>
    intro j hj hU
    have e : compl_next_word s (-(j : Int)) = -((j + 1 : Nat) : Int) := by
      unfold compl_next_word
      rw [if_pos (by omega), if_neg (by omega)]
      push_cast
      omega
    have := ih (j + 1) (by omega) (by omega)
    rw [complOrbit, e, this, List.range_succ_eq_map]
    simp only [List.map_cons, List.map_map, List.cons_append, Nat.add_zero]
    congr 2
    apply List.map_congr_left
    intro a _
    simp only [Function.comp]
    congr 2
    omega

/-- The cycle of `compl_next_word` from `wordindex`: the slots that hold a
word, the static words `-1, -2, ..., -used`, then `wordindex` again. -/
theorem complOrbit_layout (z : Sizes) (s : Editor) (L E : List Nat)
    (h : RingLayout z.MAX_WORDS s.words s.wordindex L E) :
    complOrbit s (L.length + s.static_words.length + 1) (s.wordindex : Int)
      = L.map (fun a : Nat => (a : Int))
        ++ (List.range s.static_words.length).map (fun j => -((j + 1 : Nat) : Int))
        ++ [(s.wordindex : Int)] := by
  have hch := layout_chain _ _ _ L E h
  obtain ⟨y, R, hy, hy2⟩ := layout_stop _ _ _ L E h
  rw [hy] at hch
  have hch1 : List.Chain' (Linked s.words) (s.wordindex :: L ++ [y]) := by
    have h3 : List.Chain' (Linked s.words) ((s.wordindex :: L ++ [y]) ++ R) := by
      simpa using hch
    exact h3.left_of_append
  have hL : ∀ a ∈ L, a ≠ s.wordindex ∧ (s.words a).word ≠ none := fun a ha =>
    ⟨layout_not_wi _ _ _ _ E h a (List.mem_append_left _ ha), h.2.2.2.1 a ha⟩
  have hd := complOrbit_dyn s L s.wordindex y s.static_words.length hch1 hL hy2
  rw [show L.length + s.static_words.length + 1 = L.length + 1 + s.static_words.length by omega,
    hd]
  cases hU : s.static_words.length with
  | zero => simp [complOrbit]
  | succ U =>
    rw [if_neg (by push_cast; omega)]
    have hs := complOrbit_static s U 1 (le_refl _) (by omega)
    have e1 : (-1 : Int) = -((1 : Nat) : Int) := by simp
    rw [e1, hs, List.range_succ_eq_map]
    simp only [List.map_cons, List.map_map, List.append_assoc, List.cons_append,
      List.nil_append, Nat.add_zero, Nat.zero_add]
    congr 3
    apply List.map_congr_left
    intro a _
    simp only [Function.comp]
    congr 2
    omega
theorem sublist_pair_after (A B : List Nat) (c y : Nat) (hnd : (A ++ c :: B).Nodup)
    (h : List.Sublist [c, y] (A ++ c :: B)) : y ∈ B := by
  have hcA : c ∉ A := by
    intro hc
    have := (List.nodup_append.mp hnd).2.2
    exact this hc (by simp)
  have hcB : c ∉ B := (List.nodup_cons.mp (List.nodup_append.mp hnd).2.1).1
  rw [List.sublist_append_iff] at h
  obtain ⟨l1, l2, e, h1, h2⟩ := h
  cases l1 with
  | nil =>
    simp only [List.nil_append] at e
    subst e
    rw [List.cons_sublist_cons] at h2
    exact List.singleton_sublist.mp h2
  | cons a l1 =>
    have ha : a = c := by
      have := congrArg List.head? e
      simpa using this.symm
    subst ha
    exact absurd (h1.subset (by simp)) hcA

theorem sublist_pair_of_split (A B : List Nat) (x y : Nat) (hy : y ∈ B) :
    List.Sublist [x, y] (A ++ x :: B) := by
  have h1 : List.Sublist [y] B := List.singleton_sublist.mpr hy
  have h2 : List.Sublist [x, y] (x :: B) := h1.cons₂ x
  exact h2.trans (List.sublist_append_right A _)

theorem uniqueOK_close (w : Nat → wordnode) (A B : List Nat) (c : Nat)
    (hnd : (A ++ c :: B).Nodup) (h : UniqueOK w [c] (A ++ c :: B))
    (hB : ∀ y ∈ B, (w y).word ≠ (w c).word) : UniqueOK w [] (A ++ c :: B) := by
  intro x y hxy _ hf
  by_cases hx : x = c
  · subst hx
    exact hB y (sublist_pair_after A B x y hnd hxy)
  · exact h x y hxy (by simpa using hx) hf

theorem uniqueOK_sublist (w w2 : Nat → wordnode) (skip L L2 : List Nat)
    (h : UniqueOK w skip L) (hs : List.Sublist L2 L)
    (hw : ∀ x ∈ L2, (w2 x).word = (w x).word)
    (hf : ∀ x ∈ L2, x ∉ skip → (w2 x).flags = (w x).flags) : UniqueOK w2 skip L2 := by
  intro x y hxy hsk hfl
  have hx : x ∈ L2 := hxy.subset (by simp)
  have hy : y ∈ L2 := hxy.subset (by simp)
  rw [hw x hx, hw y hy]
  rw [hf x hx hsk] at hfl
  exact h x y (hxy.trans hs) hsk hfl

theorem uniqueOK_weaken (w : Nat → wordnode) (skip L : List Nat) (h : UniqueOK w [] L) :
    UniqueOK w skip L :=
  fun x y hxy _ hf => h x y hxy (by simp) hf
theorem layout_links_eq (M : Nat) (w w2 : Nat → wordnode) (wi : Nat) (L E : List Nat)
    (h : RingLayout M w wi L E)
    (hl : ∀ j, (w2 j).next = (w j).next ∧ (w2 j).prev = (w j).prev)
    (hw : ∀ j, (w2 j).word = (w j).word) : RingLayout M w2 wi L E := by
  obtain ⟨h1, h2, h3, h4, h5⟩ := h
  refine ⟨ringOf_links_eq w w2 _ h1 hl, h2, ?_, ?_, ?_⟩
  · rw [hw]; exact h3
  · intro x hx; rw [hw]; exact h4 x hx
  · intro x hx; rw [hw]; exact h5 x hx

/-- Taking the word of the slot `n` away and demoting the slot: it leaves the
slots that hold a word and becomes the last of the empty ones. -/
theorem layout_remove (M : Nat) (w w3 : Nat → wordnode) (wi n : Nat) (P Rm E : List Nat)
    (h : RingLayout M w wi (P ++ n :: Rm) E)
    (hl : ∀ j, (w3 j).next = (demote_word w wi n j).next ∧
      (w3 j).prev = (demote_word w wi n j).prev)
    (hw : ∀ j, (w3 j).word = if j = n then none else (w j).word) :
    RingLayout M w3 wi (P ++ Rm) (E ++ [n]) := by
  obtain ⟨h1, h2, h3, h4, h5⟩ := h
  have hnd : (wi :: (P ++ n :: Rm) ++ E).Nodup := h1.1
  have e1 : wi :: (P ++ n :: Rm) ++ E = wi :: P ++ n :: (Rm ++ E) := by simp
  rw [e1] at h1
  have hd := ringOf_demote_mid w wi n P (Rm ++ E) h1
  have e2 : wi :: P ++ (Rm ++ E) ++ [n] = wi :: (P ++ Rm) ++ (E ++ [n]) := by simp
  rw [e2] at hd
  have hnwi : n ≠ wi := by
    intro e
    have := (List.nodup_cons.mp hnd).1
    apply this
    rw [← e]; simp
  have hn2 : n ∉ P ++ Rm := by
    have h6 : ((wi :: P) ++ n :: (Rm ++ E)).Nodup := by simpa using hnd
    have h7 := (List.nodup_cons.mp (List.nodup_middle.mp h6)).1
    intro hm
    apply h7
    rcases List.mem_append.mp hm with hm | hm
    · simp [hm]
    · simp [hm]
  refine ⟨ringOf_links_eq _ w3 _ hd hl, ?_, ?_, ?_, ?_⟩
  · intro x
    rw [← h2 x]
    simp only [List.cons_append, List.mem_cons, List.mem_append, List.mem_singleton,
      List.mem_nil_iff, or_false]
    tauto
  · rw [hw, if_neg hnwi.symm]; exact h3
  · intro x hx
    have hxn : x ≠ n := fun e => hn2 (e ▸ hx)
    rw [hw, if_neg hxn]
    apply h4
    rcases List.mem_append.mp hx with hm | hm
    · simp [hm]
    · simp [hm]
  · intro x hx
    rw [hw]
    split
    · rfl
    · rcases List.mem_append.mp hx with hm | hm
      · exact h5 x hm
      · rename_i hne; exact absurd (by simpa using hm) hne

/-- The words and flags of the ring after `put_word(str)`. -/
theorem put_word_words (s : Editor) (str : List Nat) :
    (put_word s str).wordindex = (s.words s.wordindex).prev ∧
    (∀ j, ((put_word s str).words j).next
        = (demote_word s.words s.wordindex (s.words s.wordindex).prev j).next ∧
      ((put_word s str).words j).prev
        = (demote_word s.words s.wordindex (s.words s.wordindex).prev j).prev) ∧
    (∀ j, ((put_word s str).words j).word
        = if j = (s.words s.wordindex).prev then none
          else if j = s.wordindex then some str else (s.words j).word) ∧
    (∀ j, ((put_word s str).words j).flags
        = if j = s.wordindex then 0 else (s.words j).flags) := by
  have hr : ((setFlags (setWord s.words s.wordindex (some str)) s.wordindex 0)
      s.wordindex).prev = (s.words s.wordindex).prev := by
    rw [(setFlags_links _ _ _ _).2, (setWord_links _ _ _ _).2]
  have hlinks : ∀ j,
      (demote_word (setFlags (setWord s.words s.wordindex (some str)) s.wordindex 0)
        s.wordindex (s.words s.wordindex).prev j).next
        = (demote_word s.words s.wordindex (s.words s.wordindex).prev j).next ∧
      (demote_word (setFlags (setWord s.words s.wordindex (some str)) s.wordindex 0)
        s.wordindex (s.words s.wordindex).prev j).prev
        = (demote_word s.words s.wordindex (s.words s.wordindex).prev j).prev := by
    intro j
    unfold demote_word
    simp only [setNext_next, setNext_prev, setPrev_next, setPrev_prev,
      (setFlags_links _ _ _ _).1, (setFlags_links _ _ _ _).2,
      (setWord_links _ _ _ _).1, (setWord_links _ _ _ _).2]
    exact ⟨trivial, trivial⟩
  have hword : ∀ j,
      (demote_word (setFlags (setWord s.words s.wordindex (some str)) s.wordindex 0)
        s.wordindex (s.words s.wordindex).prev j).word
        = if j = s.wordindex then some str else (s.words j).word := by
    intro j
    rw [(demote_word_word _ _ _ _).1, (setFlags_word _ _ _ _).1, (setWord_word _ _ _ _).1]
  have hflags : ∀ j,
      (demote_word (setFlags (setWord s.words s.wordindex (some str)) s.wordindex 0)
        s.wordindex (s.words s.wordindex).prev j).flags
        = if j = s.wordindex then 0 else (s.words j).flags := by
    intro j
    rw [(demote_word_word _ _ _ _).2, (setFlags_word _ _ _ _).2, (setWord_word _ _ _ _).2]
  unfold put_word
  simp only [hr]
  generalize demote_word (setFlags (setWord s.words s.wordindex (some str)) s.wordindex 0)
    s.wordindex (s.words s.wordindex).prev = W2 at hlinks hword hflags ⊢
  refine ⟨trivial, ?_, ?_, ?_⟩
  · intro j
    by_cases hs : (W2 (s.words s.wordindex).prev).word.isSome = true
    · rw [if_pos hs, (setWord_links _ _ _ _).1, (setWord_links _ _ _ _).2]; exact hlinks j
    · rw [if_neg hs]; exact hlinks j
  · intro j
    by_cases hs : (W2 (s.words s.wordindex).prev).word.isSome = true
    · rw [if_pos hs, (setWord_word _ _ _ _).1, hword]
    · rw [if_neg hs]
      by_cases hj : j = (s.words s.wordindex).prev
      · rw [if_pos hj, hj]
        cases hh : (W2 (s.words s.wordindex).prev).word with
        | none => rfl
        | some v => rw [hh] at hs; simp at hs
      · rw [if_neg hj, hword]
  · intro j
    by_cases hs : (W2 (s.words s.wordindex).prev).word.isSome = true
    · rw [if_pos hs, (setWord_word _ _ _ _).2, hflags]
    · rw [if_neg hs, hflags]

/-- The layout of the ring after `put_word(str)`, with at least two slots: the
old `wordindex` holds `str` and is the first of the slots with a word; behind
it come the slots that held a word before, in their order, without the last
one when that is the slot which becomes the new `wordindex`. -/
theorem put_word_layout (M : Nat) (s : Editor) (str : List Nat) (L E : List Nat)
    (h : RingLayout M s.words s.wordindex L E) (hM : 2 ≤ M) :
    ∃ L1 E1, RingLayout M (put_word s str).words (put_word s str).wordindex
        (s.wordindex :: L1) E1 ∧
      (L1 = L ∨ L1 ++ [(put_word s str).wordindex] = L) ∧
      (put_word s str).wordindex ∉ s.wordindex :: L1 := by
  have hlen := layout_length M _ _ L E h
  obtain ⟨h1, h2, h3, h4, h5⟩ := h
  obtain ⟨hwi, hlk, hwd, -⟩ := put_word_words s str
  have hT : L ++ E ≠ [] := by
    intro e
    have := congrArg List.length e
    simp only [List.length_append, List.length_nil] at this
    omega
  -- the slot before `wordindex` is the last of the ring
  have hlast : (s.words s.wordindex).prev = (L ++ E).getLast hT := by
    have := (ringOf_ends _ _ _ h1).2.2
    rw [this]
    simp [List.getLast_cons hT]
  generalize hr : (s.words s.wordindex).prev = r at hwi hlk hwd hlast
  have hTA : L ++ E = (L ++ E).dropLast ++ [r] := by
    rw [hlast]; exact (List.dropLast_append_getLast hT).symm
  generalize hA : (L ++ E).dropLast = A at hTA
  have hnd : (s.wordindex :: (A ++ [r])).Nodup := by
    have := h1.1
    rw [List.cons_append, hTA] at this
    exact this
  have hrwi : r ≠ s.wordindex := by
    intro e
    exact (List.nodup_cons.mp hnd).1 (by rw [← e]; simp)
  have hrA : r ∉ A := by
    have := (List.nodup_append.mp (List.nodup_cons.mp hnd).2).2.2
    intro hm
    exact this hm (by simp)
  -- the ring after the call, read from the new `wordindex`
  have hring : RingOf (put_word s str).words (r :: s.wordindex :: A) := by
    have e0 : s.wordindex :: L ++ E = s.wordindex :: A ++ r :: [] := by
      rw [List.cons_append, hTA]; rfl
    rw [e0] at h1
    have hd := ringOf_demote_mid _ _ _ _ _ h1
    have hd2 := ringOf_links_eq _ (put_word s str).words _ hd hlk
    have := ringOf_rotate _ (s.wordindex :: A) [r] (by simp) (by simp)
      (by simpa using hd2)
    simpa using this
  have hmem : ∀ x, x ∈ r :: s.wordindex :: A ↔ x < M := by
    intro x
    rw [← h2 x, List.cons_append, hTA]
    simp only [List.mem_cons, List.mem_append, List.mem_singleton, List.mem_nil_iff, or_false]
    tauto
  rw [hwi]
  rcases List.eq_nil_or_concat E with hE | ⟨E1, e, hE⟩
  · -- no empty slot: the last word is dropped
    subst hE
    have hLA : L = A ++ [r] := by simpa using hTA
    refine ⟨A, [], ⟨by simpa using hring, by simpa using hmem, ?_, ?_, ?_⟩,
      Or.inr hLA.symm, ?_⟩
    · rw [hwd, if_pos rfl]
    · intro x hx
      rw [hwd]
      rcases List.mem_cons.mp hx with e | hxA
      · rw [e, if_neg hrwi.symm, if_pos rfl]; simp
      · have hxr : x ≠ r := fun e => hrA (e ▸ hxA)
        have hxw : x ≠ s.wordindex := by
          intro e
          exact (List.nodup_cons.mp hnd).1 (by rw [← e]; simp [hxA])
        rw [if_neg hxr, if_neg hxw]
        exact h4 x (by rw [hLA]; simp [hxA])
    · intro x hx; simp at hx
    · intro hm
      rcases List.mem_cons.mp hm with e | hm
      · exact hrwi e
      · exact hrA hm
  · -- the last empty slot becomes `wordindex`
    subst hE
    have hAe : L ++ E1 ++ [e] = A ++ [r] := by
      rw [← hTA]; simp
    have hA2 : A = L ++ E1 := (List.append_inj' hAe rfl).1.symm
    have her : e = r := by simpa using (List.append_inj' hAe rfl).2
    subst hA2
    refine ⟨L, E1, ⟨by simpa using hring, by simpa using hmem, ?_, ?_, ?_⟩, Or.inl rfl, ?_⟩
    · rw [hwd, if_pos rfl]
    · intro x hx
      rw [hwd]
      rcases List.mem_cons.mp hx with e2 | hxL
      · rw [e2, if_neg hrwi.symm, if_pos rfl]; simp
      · have hxr : x ≠ r := fun e2 => hrA (by rw [← e2]; simp [hxL])
        have hxw : x ≠ s.wordindex := by
          intro e2
          exact (List.nodup_cons.mp hnd).1 (by rw [← e2]; simp [hxL])
        rw [if_neg hxr, if_neg hxw]
        exact h4 x hxL
    · intro x hx
      rw [hwd]
      have hxr : x ≠ r := fun e2 => hrA (by rw [← e2]; simp [hx])
      have hxw : x ≠ s.wordindex := by
        intro e2
        exact (List.nodup_cons.mp hnd).1 (by rw [← e2]; simp [hx])
      rw [if_neg hxr, if_neg hxw]
      exact h5 x (by simp [hx])
    · intro hm
      rcases List.mem_cons.mp hm with e2 | hm
      · exact hrwi e2
      · exact hrA (by simp [hm])

theorem layout_empty (M : Nat) (w : Nat → wordnode) (wi : Nat) (h : WholeRing M w)
    (hwi : wi < M) (hw : ∀ x, x < M → (w x).word = none) : ∃ E, RingLayout M w wi [] E := by
  obtain ⟨L, hL, hmem⟩ := h
  obtain ⟨T, hT, hTm, -⟩ := ringOf_from w L hL wi ((hmem wi).mpr hwi)
  refine ⟨T, by simpa using hT, ?_, hw wi hwi, by simp, ?_⟩
  · intro x
    rw [← hmem x, ← hTm x]; simp
  · intro x hx
    exact hw x ((hmem x).mp ((hTm x).mp (by simp [hx])))

theorem wordInv_boot (z : Sizes) (hM : 0 < z.MAX_WORDS) (commands : List (List Nat × Bool)) :
    WordInv z (default_completions z bootEditor commands) := by
  have hl := fun i hi => default_completions_links z bootEditor commands hM i hi
  have hwi : (default_completions z bootEditor commands).wordindex = 0 := (hl 0 hM).2.2.2
  obtain ⟨E, hE⟩ := layout_empty z.MAX_WORDS (default_completions z bootEditor commands).words
    0 (wholeRing_default z bootEditor commands hM) hM (fun x hx => (hl x hx).2.2.1)
  refine ⟨[], E, by rw [hwi]; exact hE, ?_, ?_⟩
  · intro x y hxy
    have := hxy.length_le
    simp at this
  · have : (default_completions z bootEditor commands).cw_curr_word = 0 := by
      unfold default_completions
      simp only []
      generalize (commands.filter (fun c => c.2)) = l
      induction l using List.reverseRecOn with
      | nil => rfl
      | append_singleton l c ih =>
        rw [List.foldl_append]
        exact ih
    rw [this]
    exact_mod_cast hM

theorem sublist_pair_cons (a x y : Nat) (L : List Nat) (h : List.Sublist [x, y] (a :: L))
    (hx : x ≠ a) : List.Sublist [x, y] L := by
  cases h with
  | cons _ h => exact h
  | cons₂ _ h => exact absurd rfl hx

theorem wordInv_put_word (z : Sizes) (s : Editor) (str : List Nat) (h : WordInv z s) :
    WordInv z (put_word s str) := by
  obtain ⟨L, E, hlay, huniq, hcw⟩ := h
  have hlen := layout_length _ _ _ L E hlay
  obtain ⟨hwi, hlk, hwd, hfl⟩ := put_word_words s str
  have hcw2 : (put_word s str).cw_curr_word = s.cw_curr_word := rfl
  by_cases hM : 2 ≤ z.MAX_WORDS
  · obtain ⟨L1, E1, hlay2, hL1, hr⟩ := put_word_layout _ s str L E hlay hM
    refine ⟨s.wordindex :: L1, E1, hlay2, ?_, by rw [hcw2]; exact hcw⟩
    have hnd : (s.wordindex :: L1).Nodup := by
      have := hlay2.1.1
      have h2 := (List.nodup_cons.mp this).2
      exact (List.nodup_append.mp h2).1
    have hsub : List.Sublist L1 L := by
      rcases hL1 with e | e
      · rw [e]
      · rw [← e]; exact List.sublist_append_left _ _
    intro x y hxy _ hflag
    by_cases hx : x = s.wordindex
    · rw [hfl, if_pos hx] at hflag
      simp at hflag
    · have hxy1 := sublist_pair_cons _ _ _ _ hxy hx
      have hxL : x ∈ L1 := hxy1.subset (by simp)
      have hyL : y ∈ L1 := hxy1.subset (by simp)
      have hne : ∀ a ∈ L1, a ≠ (put_word s str).wordindex ∧ a ≠ s.wordindex := by
        intro a ha
        constructor
        · intro e; exact hr (by rw [← e]; simp [ha])
        · intro e; exact (List.nodup_cons.mp hnd).1 (e ▸ ha)
      rw [hwi] at hne
      rw [hwd x, hwd y, if_neg (hne x hxL).1, if_neg (hne x hxL).2, if_neg (hne y hyL).1,
        if_neg (hne y hyL).2]
      rw [hfl, if_neg hx] at hflag
      exact huniq x y (hxy1.trans hsub) (by simp) hflag
  · -- one slot only
    have hM1 : z.MAX_WORDS = 1 := by omega
    have hL0 : L = [] := by
      apply List.eq_nil_of_length_eq_zero; omega
    have hE0 : E = [] := by
      apply List.eq_nil_of_length_eq_zero; omega
    subst hL0 hE0
    obtain ⟨h1, h2, h3, -, -⟩ := hlay
    have hends := ringOf_ends _ _ _ h1
    have hn : (s.words s.wordindex).next = s.wordindex := hends.2.1
    have hp : (s.words s.wordindex).prev = s.wordindex := hends.2.2
    rw [hp] at hwi hlk hwd
    refine ⟨[], [], ⟨?_, ?_, ?_, by simp, by simp⟩, ?_, by rw [hcw2]; exact hcw⟩
    · rw [hwi]
      refine ⟨by simp, by simp, ?_⟩
      simp only [List.nil_append, List.append_nil, List.take_succ_cons, List.take_zero,
        List.singleton_append, List.chain'_pair]
      unfold Linked
      rw [(hlk _).1, (hlk _).2]
      unfold demote_word
      simp only [setNext_next, setNext_prev, setPrev_next, setPrev_prev, hn, hp, if_true]
      exact ⟨trivial, trivial⟩
    · rw [hwi]; exact h2
    · rw [hwi, hwd, if_pos rfl]
    · intro x y hxy
      have := hxy.length_le
      simp at this

theorem flag_or (a b : Nat) (h : a &&& WORD_UNIQUE ≠ 0) : (a ||| b) &&& WORD_UNIQUE ≠ 0 := by
  unfold WORD_UNIQUE at *
  rw [Nat.and_one_is_mod] at *
  have h1 : a % 2 = 1 := by omega
  have h2 : (a ||| b).testBit 0 = true := by
    rw [Nat.testBit_or, Nat.testBit_zero, h1]; simp
  rw [Nat.testBit_zero] at h2
  have h3 : (a ||| b) % 2 = 1 := by simpa using h2
  omega

/-- The slot behind the last slot that holds a word holds none. -/
theorem layout_next_after (M : Nat) (w : Nat → wordnode) (wi n : Nat) (P E : List Nat)
    (h : RingLayout M w wi (P ++ [n]) E) : ((w (w n).next).word = none) := by
  have hch := layout_chain M w wi _ E h
  obtain ⟨y, R, hy, hy2⟩ := layout_stop M w wi _ E h
  rw [hy] at hch
  have e : wi :: (P ++ [n] ++ y :: R) = (wi :: P) ++ n :: y :: R := by simp
  rw [e, List.chain'_append] at hch
  have h2 := hch.2.1
  rw [List.chain'_cons] at h2
  rw [h2.1.1]
  rcases hy2 with e2 | e2
  · rw [e2]; exact h.2.2.1
  · exact e2

theorem layout_next_in (M : Nat) (w : Nat → wordnode) (wi n b : Nat) (P R E : List Nat)
    (h : RingLayout M w wi (P ++ n :: b :: R) E) : (w n).next = b := by
  have h1 := h.1
  have e : wi :: (P ++ n :: b :: R) ++ E = (wi :: P) ++ n :: b :: (R ++ E) := by simp
  rw [e] at h1
  exact ringOf_next_mid w _ _ n b h1
/-- The ring after the body of the loop of `complete_word` that deletes a
duplicate in the slot `n` of the word in the slot `c`. -/
theorem dedup_step_ring (w : Nat → wordnode) (wi c n : Nat) (hcn : c ≠ n) :
    (∀ j, ((setFlags (setFlags (setWord (demote_word w wi n) n none) c
          (((setWord (demote_word w wi n) n none) c).flags
            ||| ((setWord (demote_word w wi n) n none) n).flags)) n
          (((setFlags (setWord (demote_word w wi n) n none) c
            (((setWord (demote_word w wi n) n none) c).flags
              ||| ((setWord (demote_word w wi n) n none) n).flags)) n).flags
            &&& WORD_UNIQUE)) j).next = (demote_word w wi n j).next ∧
      ((setFlags (setFlags (setWord (demote_word w wi n) n none) c
          (((setWord (demote_word w wi n) n none) c).flags
            ||| ((setWord (demote_word w wi n) n none) n).flags)) n
          (((setFlags (setWord (demote_word w wi n) n none) c
            (((setWord (demote_word w wi n) n none) c).flags
              ||| ((setWord (demote_word w wi n) n none) n).flags)) n).flags
            &&& WORD_UNIQUE)) j).prev = (demote_word w wi n j).prev) ∧
    (∀ j, ((setFlags (setFlags (setWord (demote_word w wi n) n none) c
          (((setWord (demote_word w wi n) n none) c).flags
            ||| ((setWord (demote_word w wi n) n none) n).flags)) n
          (((setFlags (setWord (demote_word w wi n) n none) c
            (((setWord (demote_word w wi n) n none) c).flags
              ||| ((setWord (demote_word w wi n) n none) n).flags)) n).flags
            &&& WORD_UNIQUE)) j).word = if j = n then none else (w j).word) ∧
    (∀ j, ((setFlags (setFlags (setWord (demote_word w wi n) n none) c
          (((setWord (demote_word w wi n) n none) c).flags
            ||| ((setWord (demote_word w wi n) n none) n).flags)) n
          (((setFlags (setWord (demote_word w wi n) n none) c
            (((setWord (demote_word w wi n) n none) c).flags
              ||| ((setWord (demote_word w wi n) n none) n).flags)) n).flags
            &&& WORD_UNIQUE)) j).flags
        = if j = n then (w n).flags &&& WORD_UNIQUE
          else if j = c then (w c).flags ||| (w n).flags else (w j).flags) := by
  refine ⟨?_, ?_, ?_⟩
  · intro j
    simp only [(setFlags_links _ _ _ _).1, (setFlags_links _ _ _ _).2,
      (setWord_links _ _ _ _).1, (setWord_links _ _ _ _).2, and_self]
  · intro j
    simp only [(setFlags_word _ _ _ _).1, (setWord_word _ _ _ _).1,
      (demote_word_word _ _ _ _).1]
  · intro j
    simp only [(setFlags_word _ _ _ _).2, (setWord_word _ _ _ _).2,
      (demote_word_word _ _ _ _).2]
    by_cases hj : j = n
    · simp only [hj, if_true, if_neg hcn.symm]
    · simp only [hj, if_false]

theorem cwDedupLoop_none (wi c : Nat) (p : List Nat) (f : Nat) (w : Nat → wordnode) (n : Nat)
    (h : (w n).word = none) : cwDedupLoop wi c p (f + 1) w n = some w := by
  rw [cwDedupLoop]
  simp only [h]

theorem cwDedupLoop_other (wi c : Nat) (p wk : List Nat) (f : Nat) (w : Nat → wordnode)
    (n : Nat) (h : (w n).word = some wk) (hp : p ≠ wk) :
    cwDedupLoop wi c p (f + 1) w n = cwDedupLoop wi c p f w (w n).next := by
  rw [cwDedupLoop]
  simp only [h, if_neg hp]

theorem cwDedupLoop_dup (wi c : Nat) (p : List Nat) (f : Nat) (w : Nat → wordnode)
    (n : Nat) (h : (w n).word = some p) :
    cwDedupLoop wi c p (f + 1) w n
      = if ((setFlags (setFlags (setWord (demote_word w wi n) n none) c
          (((setWord (demote_word w wi n) n none) c).flags
            ||| ((setWord (demote_word w wi n) n none) n).flags)) n
          (((setFlags (setWord (demote_word w wi n) n none) c
            (((setWord (demote_word w wi n) n none) c).flags
              ||| ((setWord (demote_word w wi n) n none) n).flags)) n).flags
            &&& WORD_UNIQUE)) n).flags ≠ 0 then
          some (setFlags (setFlags (setWord (demote_word w wi n) n none) c
            (((setWord (demote_word w wi n) n none) c).flags
              ||| ((setWord (demote_word w wi n) n none) n).flags)) n
            (((setFlags (setWord (demote_word w wi n) n none) c
              (((setWord (demote_word w wi n) n none) c).flags
                ||| ((setWord (demote_word w wi n) n none) n).flags)) n).flags
              &&& WORD_UNIQUE))
        else cwDedupLoop wi c p f
          (setFlags (setFlags (setWord (demote_word w wi n) n none) c
            (((setWord (demote_word w wi n) n none) c).flags
              ||| ((setWord (demote_word w wi n) n none) n).flags)) n
            (((setFlags (setWord (demote_word w wi n) n none) c
              (((setWord (demote_word w wi n) n none) c).flags
                ||| ((setWord (demote_word w wi n) n none) n).flags)) n).flags
              &&& WORD_UNIQUE)) (w n).next := by
  rw [cwDedupLoop]
  simp only [h, if_true]
/-- The loop of `complete_word` that deletes the duplicates of the word `p` of
the slot `c`: `A` are the slots before `c`, `K` the slots behind `c` that the
loop has passed and kept, `Rm` those still to come, and `n` is the slot the
loop is at. The loop ends within `length(Rm) + 1` turns; afterwards the ring
has a layout again, `c` is flagged and no flagged slot has its word behind
it. -/
theorem cwDedupLoop_spec (M wi c : Nat) (p : List Nat) :
    ∀ fuel w n A K Rm E,
      RingLayout M w wi (A ++ c :: (K ++ Rm)) E →
      (w c).word = some p → (w c).flags &&& WORD_UNIQUE ≠ 0 →
      (∀ y ∈ K, (w y).word ≠ some p) →
      UniqueOK w [c] (A ++ c :: (K ++ Rm)) →
      (∀ b R, Rm = b :: R → n = b) → (Rm = [] → (w n).word = none) →
      (Rm.length < fuel → (cwDedupLoop wi c p fuel w n).isSome = true) ∧
      ∀ w2, cwDedupLoop wi c p fuel w n = some w2 →
        ∃ L2 E2, RingLayout M w2 wi L2 E2 ∧ UniqueOK w2 [] L2 ∧ c ∈ L2 ∧
          (w2 c).flags &&& WORD_UNIQUE ≠ 0 ∧ (w2 c).word = some p := by
  intro fuel
  induction fuel with
  | zero =>
    intro w n A K Rm E _ _ _ _ _ _ _
    exact ⟨fun h => by omega, fun w2 h => by simp [cwDedupLoop] at h⟩
  | succ f ih =>
    intro w n A K Rm E hlay hcw hcf hK huq hhead hnil
    have hndR : (wi :: (A ++ c :: (K ++ Rm)) ++ E).Nodup := hlay.1.1
    have hnd : (A ++ c :: (K ++ Rm)).Nodup :=
      (List.nodup_append.mp (List.nodup_cons.mp hndR).2).1
    cases hwn : (w n).word with
    | none =>
      have hRm : Rm = [] := by
        cases Rm with
        | nil => rfl
        | cons b R =>
          have := hhead b R rfl
          subst this
          exact absurd hwn (hlay.2.2.2.1 n (by simp))
      subst hRm
      rw [cwDedupLoop_none wi c p f w n hwn]
      refine ⟨fun _ => rfl, ?_⟩
      intro w2 h2
      have e : w2 = w := by simpa using h2.symm
      subst e
      refine ⟨_, E, hlay, ?_, by simp, hcf, hcw⟩
      apply uniqueOK_close w2 A (K ++ []) c hnd huq
      intro y hy
      rw [hcw]
      exact hK y (by simpa using hy)
    | some wk =>
      cases Rm with
      | nil => exact absurd (hnil rfl) (by rw [hwn]; simp)
      | cons b Rm =>
        have hb := hhead b Rm rfl
        subst hb
        have e0 : A ++ c :: (K ++ n :: Rm) = (A ++ c :: K) ++ n :: Rm := by simp
        have hcn : c ≠ n := by
          intro e
          rw [e0] at hnd
          have := (List.nodup_cons.mp (List.nodup_middle.mp hnd)).1
          apply this
          rw [← e]; simp
        -- the slot behind `n`
        have hnext : (∀ b R, Rm = b :: R → (w n).next = b) ∧
            (Rm = [] → (w (w n).next).word = none) := by
          constructor
          · intro b R hR
            subst hR
            have hl2 := hlay
            rw [e0] at hl2
            exact layout_next_in M w wi n b _ R E hl2
          · intro hR
            subst hR
            have hl2 := hlay
            have e1 : A ++ c :: (K ++ [n]) = (A ++ c :: K) ++ [n] := by simp
            rw [e1] at hl2
            exact layout_next_after M w wi n _ E hl2
        by_cases hp : p = wk
        · subst hp
          rw [cwDedupLoop_dup wi c p f w n hwn]
          obtain ⟨hl3, hw3, hf3⟩ := dedup_step_ring w wi c n hcn
          generalize (setFlags (setFlags (setWord (demote_word w wi n) n none) c
            (((setWord (demote_word w wi n) n none) c).flags
              ||| ((setWord (demote_word w wi n) n none) n).flags)) n
            (((setFlags (setWord (demote_word w wi n) n none) c
              (((setWord (demote_word w wi n) n none) c).flags
                ||| ((setWord (demote_word w wi n) n none) n).flags)) n).flags
              &&& WORD_UNIQUE)) = W3 at hl3 hw3 hf3 ⊢
          have hlay3 : RingLayout M W3 wi (A ++ c :: (K ++ Rm)) (E ++ [n]) := by
            have hl2 := hlay
            rw [e0] at hl2
            have := layout_remove M w W3 wi n _ Rm E hl2 hl3 hw3
            simpa using this
          have hsub : List.Sublist (A ++ c :: (K ++ Rm)) (A ++ c :: (K ++ n :: Rm)) := by
            apply List.Sublist.append_left
            apply List.Sublist.cons₂
            apply List.Sublist.append_left
            exact List.sublist_cons_self n Rm
          have hn3 : n ∉ A ++ c :: (K ++ Rm) := by
            rw [e0] at hnd
            have := (List.nodup_cons.mp (List.nodup_middle.mp hnd)).1
            intro hm; apply this
            simpa using hm
          have hcw3 : (W3 c).word = some p := by rw [hw3, if_neg hcn]; exact hcw
          have hcf3 : (W3 c).flags &&& WORD_UNIQUE ≠ 0 := by
            rw [hf3, if_neg hcn, if_pos rfl]; exact flag_or _ _ hcf
          have hK3 : ∀ y ∈ K, (W3 y).word ≠ some p := by
            intro y hy
            have hyn : y ≠ n := fun e => hn3 (by rw [← e]; simp [hy])
            rw [hw3, if_neg hyn]; exact hK y hy
          have huq3 : UniqueOK W3 [c] (A ++ c :: (K ++ Rm)) := by
            apply uniqueOK_sublist w W3 [c] _ _ huq hsub
            · intro x hx
              have hxn : x ≠ n := fun e => hn3 (e ▸ hx)
              rw [hw3, if_neg hxn]
            · intro x hx hxc
              have hxn : x ≠ n := fun e => hn3 (e ▸ hx)
              have hxc2 : x ≠ c := by simpa using hxc
              rw [hf3, if_neg hxn, if_neg hxc2]
          by_cases hbrk : (W3 n).flags ≠ 0
          · rw [if_pos hbrk]
            refine ⟨fun _ => rfl, ?_⟩
            intro w2 h2
            have e : w2 = W3 := by simpa using h2.symm
            subst e
            refine ⟨_, _, hlay3, ?_, by simp, hcf3, hcw3⟩
            have hnd3 : (A ++ c :: (K ++ Rm)).Nodup := hnd.sublist hsub
            apply uniqueOK_close w2 A (K ++ Rm) c hnd3 huq3
            intro y hy
            rw [hcw3]
            rcases List.mem_append.mp hy with hy | hy
            · exact hK3 y hy
            · -- `n` was flagged: its word does not come again behind it
              have hnf : (w n).flags &&& WORD_UNIQUE ≠ 0 := by
                rw [hf3, if_pos rfl] at hbrk; exact hbrk
              have hxy : List.Sublist [n, y] (A ++ c :: (K ++ n :: Rm)) := by
                rw [e0]; exact sublist_pair_of_split _ Rm n y hy
              have := huq n y hxy (by simpa using hcn.symm) hnf
              have hyn : y ≠ n := fun e => hn3 (by rw [← e]; simp [hy])
              rw [hw3, if_neg hyn, ← hwn]
              exact this
          · rw [if_neg hbrk]
            have := ih W3 (w n).next A K Rm (E ++ [n]) hlay3 hcw3 hcf3 hK3 huq3 hnext.1
              (by
                intro hR
                have h0 := hnext.2 hR
                rw [hw3]
                split
                · rfl
                · exact h0)
            refine ⟨fun hf => this.1 (by simp at hf; omega), this.2⟩
        · rw [cwDedupLoop_other wi c p wk f w n hwn hp]
          have hlay2 : RingLayout M w wi (A ++ c :: ((K ++ [n]) ++ Rm)) E := by
            simpa using hlay
          have huq2 : UniqueOK w [c] (A ++ c :: ((K ++ [n]) ++ Rm)) := by
            simpa using huq
          have := ih w (w n).next A (K ++ [n]) Rm E hlay2 hcw hcf
            (by
              intro y hy
              rcases List.mem_append.mp hy with hy | hy
              · exact hK y hy
              · have : y = n := by simpa using hy
                rw [this, hwn]
                intro e
                exact hp (Option.some.inj e).symm)
            huq2 hnext.1 hnext.2
          refine ⟨fun hf => this.1 (by simp at hf; omega), this.2⟩

theorem layout_wholeRing (M : Nat) (w : Nat → wordnode) (wi : Nat) (L E : List Nat)
    (h : RingLayout M w wi L E) : WholeRing M w ∧ wi < M :=
  ⟨⟨_, h.1, h.2.1⟩, (h.2.1 wi).mp (by simp)⟩

/-- A slot below `MAX_WORDS` that holds a word is one of the slots `L`. -/
theorem layout_mem_of_word (M : Nat) (w : Nat → wordnode) (wi : Nat) (L E : List Nat)
    (h : RingLayout M w wi L E) (x : Nat) (hx : x < M) (hw : (w x).word ≠ none) : x ∈ L := by
  have := (h.2.1 x).mpr hx
  simp only [List.cons_append, List.mem_cons, List.mem_append] at this
  rcases this with e | e | e
  · rw [e] at hw; exact absurd h.2.2.1 hw
  · exact e
  · exact absurd (h.2.2.2.2 x e) hw

theorem compl_next_word_lt (z : Sizes) (s : Editor) (L E : List Nat)
    (h : RingLayout z.MAX_WORDS s.words s.wordindex L E) (c : Int)
    (hc : c < (z.MAX_WORDS : Int)) : compl_next_word s c < (z.MAX_WORDS : Int) := by
  obtain ⟨hR, hwi⟩ := layout_wholeRing _ _ _ L E h
  unfold compl_next_word
  by_cases h0 : c < 0
  · rw [if_pos h0]
    split <;> omega
  · rw [if_neg h0]
    simp only []
    have hcn : c.toNat < z.MAX_WORDS := by omega
    have := (wholeRing_inverse _ _ hR c.toNat hcn).2.2.1
    split
    · split <;> omega
    · omega

/-- What `compl_next_word` returns holds a word only if it is a static word or
one of the slots `L`. -/
theorem compl_get_word_some (z : Sizes) (s : Editor) (L E : List Nat)
    (h : RingLayout z.MAX_WORDS s.words s.wordindex L E) (c : Int)
    (hc : c < (z.MAX_WORDS : Int)) (h0 : 0 ≤ c) (p : List Nat)
    (hp : compl_get_word s c = some p) : c.toNat ∈ L ∧ (s.words c.toNat).word = some p := by
  unfold compl_get_word at hp
  rw [if_neg (by omega)] at hp
  exact ⟨layout_mem_of_word _ _ _ L E h _ (by omega) (by rw [hp]; simp), hp⟩

theorem cwSearch_spec (z : Sizes) (s : Editor) (L E : List Nat)
    (h : RingLayout z.MAX_WORDS s.words s.wordindex L E) (root : List Nat) (rl : Nat) :
    ∀ fuel c r, cwSearch z s root rl fuel c = some r → c < (z.MAX_WORDS : Int) →
      r.1 < (z.MAX_WORDS : Int) ∧
      (r.2.isSome = true → 0 ≤ r.1 →
        r.1.toNat ∈ L ∧ (s.words r.1.toNat).word ≠ none) := by
  intro fuel
  induction fuel with
  | zero => intro c r hr; simp [cwSearch] at hr
  | succ f ih =>
    intro c r hr hc
    have hlt := compl_next_word_lt z s L E h c hc
    rw [cwSearch] at hr
    cases hg : compl_get_word s (compl_next_word s c) with
    | none =>
      simp only [hg] at hr
      have e : r = (compl_next_word s c, none) := by simpa using hr.symm
      subst e
      exact ⟨hlt, fun h1 => by simp at h1⟩
    | some p =>
      simp only [hg] at hr
      split at hr
      · have e : r = (compl_next_word s c, some (p.drop rl)) := by simpa using hr.symm
        subst e
        refine ⟨hlt, fun _ h0 => ?_⟩
        have := compl_get_word_some z s L E h _ hlt h0 p hg
        exact ⟨this.1, by rw [this.2]; simp⟩
      · exact ih _ r hr hlt

theorem overtype_ring (s : Editor) (c : Nat) :
    (input_overtype_follow s c).words = s.words ∧
    (input_overtype_follow s c).wordindex = s.wordindex ∧
    (input_overtype_follow s c).static_words = s.static_words := by
  unfold input_overtype_follow
  split <;> exact ⟨rfl, rfl, rfl⟩

theorem cwOvertype_ring (p : List Nat) :
    ∀ (s : Editor) (k : Nat), (cwOvertype s p k).1.words = s.words ∧
      (cwOvertype s p k).1.wordindex = s.wordindex ∧
      (cwOvertype s p k).1.static_words = s.static_words := by
  induction p with
  | nil => intro s k; exact ⟨rfl, rfl, rfl⟩
  | cons c p ih =>
    intro s k
    cases k with
    | zero => exact ⟨rfl, rfl, rfl⟩
    | succ k =>
      rw [cwOvertype]
      have h1 := ih (input_overtype_follow s c) k
      have h2 := overtype_ring s c
      exact ⟨h1.1.trans h2.1, h1.2.1.trans h2.2.1, h1.2.2.trans h2.2.2⟩

/-- The buffer update of `complete_word` leaves the ring and the static words
as they are. -/
theorem cwReplace_ring (z : Sizes) (s : Editor) (found : Option (List Nat)) (k : Nat) :
    (cwReplace z s found k).words = s.words ∧
    (cwReplace z s found k).wordindex = s.wordindex ∧
    (cwReplace z s found k).static_words = s.static_words := by
  unfold cwReplace
  cases found with
  | none =>
    simp only []
    split <;> exact ⟨rfl, rfl, rfl⟩
  | some p =>
    simp only []
    have h1 := cwOvertype_ring p s k
    have h2 : ∀ t : Editor, ∀ q n,
        (input_insert_follow_chars z t q n).words = t.words ∧
        (input_insert_follow_chars z t q n).wordindex = t.wordindex ∧
        (input_insert_follow_chars z t q n).static_words = t.static_words := by
      intro t q n
      unfold input_insert_follow_chars
      split <;> exact ⟨rfl, rfl, rfl⟩
    split <;> split <;>
      first
        | exact ⟨h1.1, h1.2.1, h1.2.2⟩
        | exact ⟨(h2 _ _ _).1.trans h1.1, (h2 _ _ _).2.1.trans h1.2.1,
            (h2 _ _ _).2.2.trans h1.2.2⟩

theorem flag_set (a : Nat) : (a ||| WORD_UNIQUE) &&& WORD_UNIQUE ≠ 0 := by
  rw [Nat.lor_comm]
  exact flag_or _ _ (by decide)

/-- The end of `complete_word`: with the ring in a layout and the slot found
one of the slots that hold a word, the loop ends within `MAX_WORDS` turns;
afterwards the ring has a layout, no flagged slot has its word behind it and
the slot found is flagged. -/
theorem cwDedup_spec (M : Nat) (s : Editor) (L E : List Nat)
    (hlay : RingLayout M s.words s.wordindex L E) (huq : UniqueOK s.words [] L)
    (found : Bool) (c : Int) (hfc : found = true → 0 ≤ c → c.toNat ∈ L) (fuel : Nat) :
    (M ≤ fuel → (cwDedup fuel s found c).isSome = true) ∧
    ∀ t, cwDedup fuel s found c = some t →
      (∃ L2 E2, RingLayout M t.words t.wordindex L2 E2 ∧ UniqueOK t.words [] L2 ∧
        (found = true → 0 ≤ c →
          c.toNat ∈ L2 ∧ (t.words c.toNat).flags &&& WORD_UNIQUE ≠ 0)) ∧
      t.static_words = s.static_words ∧ t.cw_curr_word = s.cw_curr_word ∧
      t.cw_comp_len = s.cw_comp_len := by
  have hlen := layout_length M _ _ L E hlay
  unfold cwDedup
  by_cases hcond : found = true ∧ 0 ≤ c ∧ (s.words c.toNat).flags &&& WORD_UNIQUE = 0
  · rw [if_pos hcond]
    simp only []
    have hk := hfc hcond.1 hcond.2.1
    generalize c.toNat = k at hk hcond ⊢
    obtain ⟨A, B, rfl⟩ := List.append_of_mem hk
    have hwk : (s.words k).word ≠ none := hlay.2.2.2.1 k hk
    obtain ⟨p, hp⟩ := Option.ne_none_iff_exists'.mp hwk
    have hl1 : ∀ j, (setFlags s.words k ((s.words k).flags ||| WORD_UNIQUE) j).next
          = (s.words j).next ∧
        (setFlags s.words k ((s.words k).flags ||| WORD_UNIQUE) j).prev
          = (s.words j).prev := fun j => setFlags_links _ _ _ j
    have hw1 : ∀ j, (setFlags s.words k ((s.words k).flags ||| WORD_UNIQUE) j).word
        = (s.words j).word := fun j => (setFlags_word _ _ _ j).1
    have hf1 : ∀ j, (setFlags s.words k ((s.words k).flags ||| WORD_UNIQUE) j).flags
        = if j = k then (s.words k).flags ||| WORD_UNIQUE else (s.words j).flags :=
      fun j => (setFlags_word _ _ _ j).2
    generalize setFlags s.words k ((s.words k).flags ||| WORD_UNIQUE) = w1 at hl1 hw1 hf1 ⊢
    have hlay1 : RingLayout M w1 s.wordindex (A ++ k :: ([] ++ B)) E := by
      simpa using layout_links_eq M _ w1 _ _ E hlay hl1 hw1
    have hp1 : (w1 k).word = some p := by rw [hw1]; exact hp
    have hfl1 : (w1 k).flags &&& WORD_UNIQUE ≠ 0 := by
      rw [hf1, if_pos rfl]; exact flag_set _
    have huq1 : UniqueOK w1 [k] (A ++ k :: ([] ++ B)) := by
      have := uniqueOK_sublist s.words w1 [k] _ _ (uniqueOK_weaken _ [k] _ huq)
        (List.Sublist.refl (A ++ k :: B)) (fun x _ => hw1 x)
        (fun x _ hx => by
          have hxk : x ≠ k := by simpa using hx
          rw [hf1, if_neg hxk])
      simpa using this
    have hhead : ∀ b R, B = b :: R → (w1 k).next = b := by
      intro b R hB
      subst hB
      have h2 : RingLayout M w1 s.wordindex (A ++ k :: b :: R) E := by simpa using hlay1
      exact layout_next_in M w1 _ k b A R E h2
    have hnil : B = [] → (w1 (w1 k).next).word = none := by
      intro hB
      subst hB
      have h2 : RingLayout M w1 s.wordindex (A ++ [k]) E := by simpa using hlay1
      exact layout_next_after M w1 _ k A E h2
    have hspec := cwDedupLoop_spec M s.wordindex k p fuel w1 (w1 k).next A [] B E hlay1 hp1
      hfl1 (by simp) huq1 hhead hnil
    rw [hp1]
    simp only []
    refine ⟨fun hf => ?_, ?_⟩
    · have := hspec.1 (by
        simp only [List.length_append, List.length_cons] at hlen; omega)
      cases hh : cwDedupLoop s.wordindex k p fuel w1 (w1 k).next with
      | none => rw [hh] at this; simp at this
      | some v => rfl
    · intro t ht
      cases hh : cwDedupLoop s.wordindex k p fuel w1 (w1 k).next with
      | none => rw [hh] at ht; simp at ht
      | some v =>
        rw [hh] at ht
        have e : t = { s with words := v } := by simpa using ht.symm
        subst e
        obtain ⟨L2, E2, h1, h2, h3, h4, -⟩ := hspec.2 v hh
        exact ⟨⟨L2, E2, h1, h2, fun _ _ => ⟨h3, h4⟩⟩, rfl, rfl, rfl⟩
  · rw [if_neg hcond]
    refine ⟨fun _ => rfl, ?_⟩
    intro t ht
    have e : t = s := by simpa using ht.symm
    subst e
    refine ⟨⟨L, E, hlay, huq, fun h1 h2 => ⟨hfc h1 h2, ?_⟩⟩, rfl, rfl, rfl⟩
    intro h3
    exact hcond ⟨h1, h2, h3⟩

theorem cwSearch_static (z : Sizes) (s : Editor) (root : List Nat) (rl : Nat)
    (hwi : (s.words s.wordindex).word = none) :
    ∀ (fuel : Nat) (c : Int), c < 0 → (s.static_words.length : Int) + c + 1 ≤ (fuel : Int) →
      1 ≤ fuel → (cwSearch z s root rl fuel c).isSome = true := by
  intro fuel
  induction fuel with
  | zero => intro c _ _ h; omega
  | succ f ih =>
    intro c hc hf _
    rw [cwSearch]
    cases hg : compl_get_word s (compl_next_word s c) with
    | none => rfl
    | some p =>
      simp only []
      split
      · rfl
      · have hn : compl_next_word s c = c - 1 ∧ ¬ (-(c - 1) - 1 ≥ (s.static_words.length : Int)) := by
          unfold compl_next_word
          rw [if_pos hc]
          by_cases h1 : -(c - 1) - 1 ≥ (s.static_words.length : Int)
          · exfalso
            unfold compl_next_word at hg
            rw [if_pos hc, if_pos h1] at hg
            unfold compl_get_word at hg
            rw [if_neg (by omega)] at hg
            simp only [Int.toNat_ofNat] at hg
            rw [hwi] at hg
            simp at hg
          · rw [if_neg h1]; exact ⟨rfl, h1⟩
        rw [hn.1]
        exact ih (c - 1) (by omega) (by have := hn.2; push_cast at *; omega)
          (by have := hn.2; omega)

theorem cwSearch_dyn (z : Sizes) (s : Editor) (root : List Nat) (rl : Nat)
    (hwi : (s.words s.wordindex).word = none) (T : List Nat) :
    ∀ x y fuel, List.Chain' (Linked s.words) (x :: T ++ [y]) →
      (∀ a ∈ T, a ≠ s.wordindex ∧ (s.words a).word ≠ none) →
      (y = s.wordindex ∨ (s.words y).word = none) →
      T.length + s.static_words.length + 2 ≤ fuel →
      (cwSearch z s root rl fuel (x : Int)).isSome = true := by
  induction T with
  | nil =>
    intro x y fuel hch _ hy hf
    obtain ⟨f, rfl⟩ : ∃ f, fuel = f + 1 := ⟨fuel - 1, by omega⟩
    have hxy : (s.words x).next = y := by
      simp only [List.cons_append, List.nil_append, List.chain'_cons] at hch
      exact hch.1.1
    have e : compl_next_word s (x : Int)
        = if (0 : Int) ≥ (s.static_words.length : Int) then (s.wordindex : Int) else -1 := by
      unfold compl_next_word
      rw [if_neg (by omega)]
      simp only [Int.toNat_ofNat, hxy]
      rw [if_pos hy]
    rw [cwSearch, e]
    cases hg : compl_get_word s
        (if (0 : Int) ≥ (s.static_words.length : Int) then (s.wordindex : Int) else -1) with
    | none => rfl
    | some p =>
      simp only []
      split
      · rfl
      · by_cases hU : (0 : Int) ≥ (s.static_words.length : Int)
        · exfalso
          rw [if_pos hU] at hg
          unfold compl_get_word at hg
          rw [if_neg (by omega)] at hg
          simp only [Int.toNat_ofNat] at hg
          rw [hwi] at hg
          simp at hg
        · rw [if_neg hU]
          exact cwSearch_static z s root rl hwi f (-1) (by omega)
            (by simp only [List.length_nil] at hf; omega)
            (by simp only [List.length_nil] at hf; omega)
  | cons t T ih =>
    intro x y fuel hch hT hy hf
    obtain ⟨f, rfl⟩ : ∃ f, fuel = f + 1 := ⟨fuel - 1, by omega⟩
    have hch2 : List.Chain' (Linked s.words) (x :: t :: (T ++ [y])) := by simpa using hch
    rw [List.chain'_cons] at hch2
    have ht := hT t (by simp)
    have e : compl_next_word s (x : Int) = (t : Int) := by
      unfold compl_next_word
      rw [if_neg (by omega)]
      simp only [Int.toNat_ofNat, hch2.1.1]
      rw [if_neg (by simp [ht.1, ht.2])]
    rw [cwSearch, e]
    cases hg : compl_get_word s (t : Int) with
    | none => rfl
    | some p =>
      simp only []
      split
      · rfl
      · exact ih t y f (by simpa using hch2.2) (fun a ha => hT a (List.mem_cons_of_mem _ ha)) hy
          (by simp only [List.length_cons] at hf; omega)

/-- The search of `complete_word` comes to an end within
`MAX_WORDS + used + 1` turns, from every `curr_word` below `MAX_WORDS`. -/
theorem cwSearch_terminates (z : Sizes) (s : Editor) (L E : List Nat)
    (h : RingLayout z.MAX_WORDS s.words s.wordindex L E) (root : List Nat) (rl : Nat)
    (c : Int) (hc : c < (z.MAX_WORDS : Int)) (fuel : Nat)
    (hf : z.MAX_WORDS + s.static_words.length + 1 ≤ fuel) :
    (cwSearch z s root rl fuel c).isSome = true := by
  have hlen := layout_length _ _ _ L E h
  have hwi := h.2.2.1
  by_cases h0 : c < 0
  · exact cwSearch_static z s root rl hwi fuel c h0 (by omega) (by omega)
  · obtain ⟨x, rfl⟩ : ∃ x : Nat, c = (x : Int) := ⟨c.toNat, by omega⟩
    have hx : x < z.MAX_WORDS := by omega
    have hch := layout_chain _ _ _ L E h
    have hLp : ∀ a ∈ L, a ≠ s.wordindex ∧ (s.words a).word ≠ none := fun a ha =>
      ⟨layout_not_wi _ _ _ _ E h a (List.mem_append_left _ ha), h.2.2.2.1 a ha⟩
    have hmem := (h.2.1 x).mpr hx
    simp only [List.cons_append, List.mem_cons, List.mem_append] at hmem
    rcases hmem with e | hxL | hxE
    · -- from `wordindex`
      subst e
      obtain ⟨y, R, hy, hy2⟩ := layout_stop _ _ _ L E h
      rw [hy] at hch
      have h3 : List.Chain' (Linked s.words) ((s.wordindex :: L ++ [y]) ++ R) := by
        simpa using hch
      exact cwSearch_dyn z s root rl hwi L _ y fuel h3.left_of_append hLp hy2 (by omega)
    · -- from a slot that holds a word
      obtain ⟨A, T, rfl⟩ := List.append_of_mem hxL
      obtain ⟨y, R, hy, hy2⟩ := layout_stop _ _ _ (A ++ x :: T) E h
      rw [hy] at hch
      have h3 : List.Chain' (Linked s.words) ((s.wordindex :: A) ++ ((x :: T ++ [y]) ++ R)) := by
        simpa using hch
      have h4 := h3.right_of_append
      exact cwSearch_dyn z s root rl hwi T x y fuel h4.left_of_append
        (fun a ha => hLp a (by simp [ha])) hy2
        (by simp only [List.length_append, List.length_cons] at hlen; omega)
    · -- from an empty slot
      obtain ⟨E1, E2, rfl⟩ := List.append_of_mem hxE
      have hstop : ∃ y R, E2 ++ [s.wordindex] = y :: R ∧
          (y = s.wordindex ∨ (s.words y).word = none) := by
        cases E2 with
        | nil => exact ⟨_, [], rfl, Or.inl rfl⟩
        | cons e E2 => exact ⟨e, E2 ++ [s.wordindex], rfl, Or.inr (h.2.2.2.2 e (by simp))⟩
      obtain ⟨y, R, hy, hy2⟩ := hstop
      have h3 : List.Chain' (Linked s.words)
          ((s.wordindex :: (L ++ E1)) ++ ((x :: [] ++ [y]) ++ R)) := by
        have e : s.wordindex :: (L ++ (E1 ++ x :: E2 ++ [s.wordindex]))
            = (s.wordindex :: (L ++ E1)) ++ (x :: (E2 ++ [s.wordindex])) := by simp
        rw [e, hy] at hch
        simpa using hch
      have h4 := h3.right_of_append
      exact cwSearch_dyn z s root rl hwi [] x y fuel h4.left_of_append (by simp) hy2
        (by simp only [List.length_nil]; omega)

theorem cw_finish (M : Nat) (fuel : Nat) (s1 s3 : Editor) (L E : List Nat)
    (hlay : RingLayout M s1.words s1.wordindex L E) (huq : UniqueOK s1.words [] L)
    (r : Int × Option (List Nat)) (hr1 : r.1 < (M : Int))
    (hr2 : r.2.isSome = true → 0 ≤ r.1 → r.1.toNat ∈ L)
    (hw : s3.words = s1.words) (hwi : s3.wordindex = s1.wordindex)
    (hst : s3.static_words = s1.static_words) (hcc : s3.cw_curr_word = r.1)
    (hcl : s3.cw_comp_len = (r.2.map List.length).getD 0) :
    (M ≤ fuel → (cwDedup fuel s3 r.2.isSome r.1).isSome = true) ∧
    ∀ t, cwDedup fuel s3 r.2.isSome r.1 = some t →
      t.static_words = s1.static_words ∧
      ∃ L2 E2, RingLayout M t.words t.wordindex L2 E2 ∧ UniqueOK t.words [] L2 ∧
        t.cw_curr_word < (M : Int) ∧
        (0 ≤ t.cw_curr_word → t.cw_comp_len ≠ 0 →
          t.cw_curr_word.toNat ∈ L2 ∧
          (t.words t.cw_curr_word.toNat).flags &&& WORD_UNIQUE ≠ 0) := by
  have hlay3 : RingLayout M s3.words s3.wordindex L E := by rw [hw, hwi]; exact hlay
  have huq3 : UniqueOK s3.words [] L := by rw [hw]; exact huq
  have hspec := cwDedup_spec M s3 L E hlay3 huq3 r.2.isSome r.1 hr2 fuel
  refine ⟨hspec.1, ?_⟩
  intro t ht
  obtain ⟨⟨L2, E2, h1, h2, h3⟩, h4, h5, h6⟩ := hspec.2 t ht
  refine ⟨h4.trans hst, L2, E2, h1, h2, by rw [h5, hcc]; exact hr1, ?_⟩
  intro h0 hcomp
  rw [h5, hcc] at h0 ⊢
  rw [h6, hcl] at hcomp
  have hsome : r.2.isSome = true := by
    cases hr : r.2 with
    | none => rw [hr] at hcomp; simp at hcomp
    | some v => rfl
  exact h3 hsome h0

/-- A call of `complete_word` in a state the program reaches: it returns within
`MAX_WORDS + used + 1` turns of each loop; afterwards the ring has a layout, no
flagged slot has its word behind it, and when a word of the ring was found its
slot is one of the slots with a word and is flagged. -/
theorem complete_word_spec (d : Defines) (z : Sizes) (fuel : Nat) (s : Editor)
    (h : WordInv z s) :
    (z.MAX_WORDS + s.static_words.length + 1 ≤ fuel →
      (complete_word d z fuel s).isSome = true) ∧
    ∀ t, complete_word d z fuel s = some t →
      t.static_words = s.static_words ∧
      ∃ L2 E2, RingLayout z.MAX_WORDS t.words t.wordindex L2 E2 ∧ UniqueOK t.words [] L2 ∧
        t.cw_curr_word < (z.MAX_WORDS : Int) ∧
        (0 ≤ t.cw_curr_word → t.cw_comp_len ≠ 0 →
          t.cw_curr_word.toNat ∈ L2 ∧
          (t.words t.cw_curr_word.toNat).flags &&& WORD_UNIQUE ≠ 0) := by
  obtain ⟨L, E, hlay, huq, hcw⟩ := h
  have hwiM : s.wordindex < z.MAX_WORDS := (layout_wholeRing _ _ _ L E hlay).2
  unfold complete_word
  split
  · -- a repeated call
    unfold complete_word_again
    simp only []
    have hlay1 : RingLayout z.MAX_WORDS (input_moveto s (s.pos - s.cw_comp_len)).words
        (input_moveto s (s.pos - s.cw_comp_len)).wordindex L E := hlay
    have hterm := fun hf => cwSearch_terminates z (input_moveto s (s.pos - s.cw_comp_len)) L E
      hlay1 ((input_moveto s (s.pos - s.cw_comp_len)).edbuf.drop
        ((input_moveto s (s.pos - s.cw_comp_len)).pos - s.cw_root_len)) s.cw_root_len
      s.cw_curr_word hcw fuel hf
    cases hs : cwSearch z (input_moveto s (s.pos - s.cw_comp_len))
        ((input_moveto s (s.pos - s.cw_comp_len)).edbuf.drop
          ((input_moveto s (s.pos - s.cw_comp_len)).pos - s.cw_root_len)) s.cw_root_len
        fuel s.cw_curr_word with
    | none =>
      refine ⟨fun hf => ?_, fun t ht => by simp at ht⟩
      have := hterm hf
      rw [hs] at this
      simp at this
    | some r =>
      simp only []
      have hsp := cwSearch_spec z _ L E hlay1 _ _ fuel _ r hs hcw
      have hrep := cwReplace_ring z (input_moveto s (s.pos - s.cw_comp_len)) r.2 s.cw_comp_len
      have hfin := cw_finish z.MAX_WORDS fuel (input_moveto s (s.pos - s.cw_comp_len))
        { cwReplace z (input_moveto s (s.pos - s.cw_comp_len)) r.2 s.cw_comp_len with
          cw_curr_word := r.1, cw_comp_len := (r.2.map List.length).getD 0 }
        L E hlay1 huq r hsp.1 (fun h1 h2 => (hsp.2 h1 h2).1) hrep.1 hrep.2.1 hrep.2.2 rfl rfl
      exact ⟨fun hf => hfin.1 (by omega), hfin.2⟩
  · -- a first call
    unfold complete_word_first
    simp only []
    have hterm := fun hf => cwSearch_terminates z s L E hlay
      (s.edbuf.drop (cwWordStart d s s.pos)) (s.pos - cwWordStart d s s.pos)
      (s.wordindex : Int) (by exact_mod_cast hwiM) fuel hf
    cases hs : cwSearch z s (s.edbuf.drop (cwWordStart d s s.pos))
        (s.pos - cwWordStart d s s.pos) fuel (s.wordindex : Int) with
    | none =>
      refine ⟨fun hf => ?_, fun t ht => by simp at ht⟩
      have := hterm hf
      rw [hs] at this
      simp at this
    | some r =>
      simp only []
      have hsp := cwSearch_spec z _ L E hlay _ _ fuel _ r hs (by exact_mod_cast hwiM)
      have hrep := cwReplace_ring z s r.2 0
      have hfin := cw_finish z.MAX_WORDS fuel s
        { cwReplace z s r.2 0 with
          cw_curr_word := r.1, cw_comp_len := (r.2.map List.length).getD 0
          cw_root_len := s.pos - cwWordStart d s s.pos }
        L E hlay huq r hsp.1 (fun h1 h2 => (hsp.2 h1 h2).1) hrep.1 hrep.2.1 hrep.2.2 rfl rfl
      exact ⟨fun hf => hfin.1 (by omega), hfin.2⟩

/-- The invariant of the completion ring holds in every state the program
reaches. -/
theorem wordState_inv (d : Defines) (z : Sizes) (hM : 0 < z.MAX_WORDS) (s : Editor)
    (h : WordState d z s) : WordInv z s := by
  induction h with
  | boot commands => exact wordInv_boot z hM commands
  | put_word s str _ ih => exact wordInv_put_word z s str ih
  | put_static_word s str _ ih => exact ih
  | complete_word s t fuel _ ht ih =>
    obtain ⟨-, L2, E2, h1, h2, h3, -⟩ := (complete_word_spec d z fuel s ih).2 t ht
    exact ⟨L2, E2, h1, h2, h3⟩
  | edit s t _ hw hwi _ hcw _ _ ih =>
    obtain ⟨L, E, h1, h2, h3⟩ := ih
    exact ⟨L, E, by rw [hw, hwi]; exact h1, by rw [hw]; exact h2, by rw [hcw]; exact h3⟩

theorem dynSlots_layout (z : Sizes) (s : Editor) (L E : List Nat)
    (h : RingLayout z.MAX_WORDS s.words s.wordindex L E) : dynSlots z s = L :=
  dynWalk_layout _ _ _ L E h _ (le_refl _)

/-- C33: in every state of the completion ring that the program reaches,
`compl_next_word`, applied again and again from `wordindex`, gives the slots
of the ring that hold a word, in the order of `next` up to the first empty slot
or `wordindex`, then the static words `-1, -2, ..., -used`, then `wordindex`
again. The slots of the ring visited are different from each other and are
exactly the slots that hold a word; `compl_get_word` gives the static word
`j` (they are stored in the order of insertion) for `-(j+1)` and null for
`wordindex`. The order in the ring is from the word added last to the oldest:
`put_word(str)` puts `str` first (in the old `wordindex`) and leaves the other
slots behind it in their order, with their words, dropping the last one when
that slot becomes the new `wordindex`. -/
theorem C33_compl_next_word_cycle (d : Defines) (z : Sizes) (hM : 0 < z.MAX_WORDS)
    (s : Editor) (h : WordState d z s) :
    complOrbit s ((dynSlots z s).length + s.static_words.length + 1) (s.wordindex : Int)
      = (dynSlots z s).map (fun a : Nat => (a : Int))
        ++ (List.range s.static_words.length).map (fun j => -((j + 1 : Nat) : Int))
        ++ [(s.wordindex : Int)] ∧
    (dynSlots z s).Nodup ∧
    (∀ x, x < z.MAX_WORDS → ((s.words x).word ≠ none ↔ x ∈ dynSlots z s)) ∧
    (∀ j, j < s.static_words.length →
      compl_get_word s (-((j + 1 : Nat) : Int)) = s.static_words.get? j ∧
      compl_get_word s (-((j + 1 : Nat) : Int)) ≠ none) ∧
    compl_get_word s (s.wordindex : Int) = none ∧
    (∀ str, (put_static_word s str).static_words = s.static_words ++ [str]) ∧
    (∀ str, 2 ≤ z.MAX_WORDS →
      ∃ L1, dynSlots z (put_word s str) = s.wordindex :: L1 ∧
        (L1 = dynSlots z s ∨ L1 ++ [(put_word s str).wordindex] = dynSlots z s) ∧
        ((put_word s str).words s.wordindex).word = some str ∧
        ∀ x ∈ L1, ((put_word s str).words x).word = (s.words x).word) := by
  obtain ⟨L, E, hlay, -, -⟩ := wordState_inv d z hM s h
  have hdyn := dynSlots_layout z s L E hlay
  rw [hdyn]
  refine ⟨complOrbit_layout z s L E hlay, ?_, ?_, ?_, ?_, fun _ => rfl, ?_⟩
  · exact (List.nodup_append.mp (List.nodup_cons.mp hlay.1.1).2).1
  · intro x hx
    constructor
    · exact layout_mem_of_word _ _ _ L E hlay x hx
    · exact hlay.2.2.2.1 x
  · intro j hj
    have e : compl_get_word s (-((j + 1 : Nat) : Int)) = s.static_words.get? j := by
      unfold compl_get_word
      rw [if_pos (by omega)]
      congr 1
      omega
    refine ⟨e, ?_⟩
    rw [e, List.get?_eq_getElem?, List.getElem?_eq_getElem hj]
    simp
  · unfold compl_get_word
    rw [if_neg (by omega)]
    simp only [Int.toNat_ofNat]
    exact hlay.2.2.1
  · intro str hM2
    obtain ⟨L1, E1, hlay2, hL1, hr⟩ := put_word_layout _ s str L E hlay hM2
    obtain ⟨hwi, -, hwd, -⟩ := put_word_words s str
    refine ⟨L1, dynSlots_layout z _ _ E1 hlay2, hL1, ?_, ?_⟩
    · have hne : s.wordindex ≠ (s.words s.wordindex).prev := by
        intro e
        apply hr
        rw [hwi, ← e]; simp
      rw [hwd, if_neg hne, if_pos rfl]
    · intro x hx
      have hnd : (s.wordindex :: L1).Nodup :=
        (List.nodup_append.mp (List.nodup_cons.mp hlay2.1.1).2).1
      have h1 : x ≠ (s.words s.wordindex).prev := by
        intro e
        apply hr
        rw [hwi, ← e]; simp [hx]
      have h2 : x ≠ s.wordindex := fun e => (List.nodup_cons.mp hnd).1 (e ▸ hx)
      rw [hwd, if_neg h1, if_neg h2]

/-- C33 on a ring of four slots with the static word `#x`, after `put_word`
of `abc` and then of `abd`: from `wordindex` 2 the walk gives the slot 3
(`abd`), the slot 0 (`abc`), the static word `-1` and is back at 2. -/
theorem C33_compl_next_word_cycle_witness :
    complOrbit
      (put_word (put_word (put_static_word (default_completions ⟨8, 4, 4, 3⟩ bootEditor [])
        [35, 120]) [97, 98, 99]) [97, 98, 100])
      ((dynSlots ⟨8, 4, 4, 3⟩
        (put_word (put_word (put_static_word (default_completions ⟨8, 4, 4, 3⟩ bootEditor [])
          [35, 120]) [97, 98, 99]) [97, 98, 100])).length
        + (put_word (put_word (put_static_word
            (default_completions ⟨8, 4, 4, 3⟩ bootEditor [])
          [35, 120]) [97, 98, 99]) [97, 98, 100]).static_words.length + 1)
      ((put_word (put_word (put_static_word (default_completions ⟨8, 4, 4, 3⟩ bootEditor [])
        [35, 120]) [97, 98, 99]) [97, 98, 100]).wordindex : Int)
      = (dynSlots ⟨8, 4, 4, 3⟩
          (put_word (put_word (put_static_word
            (default_completions ⟨8, 4, 4, 3⟩ bootEditor [])
          [35, 120]) [97, 98, 99]) [97, 98, 100])).map (fun a : Nat => (a : Int))
        ++ (List.range (put_word (put_word (put_static_word
            (default_completions ⟨8, 4, 4, 3⟩ bootEditor [])
          [35, 120]) [97, 98, 99]) [97, 98, 100]).static_words.length).map
            (fun j => -((j + 1 : Nat) : Int))
        ++ [((put_word (put_word (put_static_word
            (default_completions ⟨8, 4, 4, 3⟩ bootEditor [])
          [35, 120]) [97, 98, 99]) [97, 98, 100]).wordindex : Int)] ∧
    complOrbit
      (put_word (put_word (put_static_word (default_completions ⟨8, 4, 4, 3⟩ bootEditor [])
        [35, 120]) [97, 98, 99]) [97, 98, 100]) 4 2 = [3, 0, -1, 2] ∧
    dynSlots ⟨8, 4, 4, 3⟩
      (put_word (put_word (put_static_word (default_completions ⟨8, 4, 4, 3⟩ bootEditor [])
        [35, 120]) [97, 98, 99]) [97, 98, 100]) = [3, 0] :=
  ⟨(C33_compl_next_word_cycle stockDefines ⟨8, 4, 4, 3⟩ (by decide) _
      (WordState.put_word _ _ (WordState.put_word _ _ (WordState.put_static_word _ _
        (WordState.boot [])))) ).1,
   by decide, by decide⟩

/-- C34: duplicate suppression in `complete_word`. In every state that the
program reaches through `put_word` and `complete_word`, a slot of the ring
flagged `WORD_UNIQUE` does not have its word again in an older slot (a slot
behind it, up to the first empty slot). A call of `complete_word` returns
(within `MAX_WORDS + used + 1` turns of its loops); and when it has matched a
word of the ring (`curr_word >= 0` and `comp_len != 0` afterwards), the slot
`curr_word` holds a word, is flagged `WORD_UNIQUE`, and no older slot holds
its word. -/
theorem C34_duplicate_suppression (d : Defines) (z : Sizes) (hM : 0 < z.MAX_WORDS)
    (s : Editor) (h : WordState d z s) :
    (∀ x y, List.Sublist [x, y] (dynSlots z s) → (s.words x).flags &&& WORD_UNIQUE ≠ 0 →
      (s.words y).word ≠ (s.words x).word) ∧
    (∀ fuel, z.MAX_WORDS + s.static_words.length + 1 ≤ fuel →
      (complete_word d z fuel s).isSome = true) ∧
    (∀ fuel t, complete_word d z fuel s = some t → 0 ≤ t.cw_curr_word →
      t.cw_comp_len ≠ 0 →
      t.cw_curr_word.toNat ∈ dynSlots z t ∧
      (t.words t.cw_curr_word.toNat).word ≠ none ∧
      (t.words t.cw_curr_word.toNat).flags &&& WORD_UNIQUE ≠ 0 ∧
      ∀ y, List.Sublist [t.cw_curr_word.toNat, y] (dynSlots z t) →
        (t.words y).word ≠ (t.words t.cw_curr_word.toNat).word) := by
  have hinv := wordState_inv d z hM s h
  refine ⟨?_, ?_, ?_⟩
  · obtain ⟨L, E, hlay, huq, -⟩ := hinv
    rw [dynSlots_layout z s L E hlay]
    intro x y hxy hf
    exact huq x y hxy (by simp) hf
  · intro fuel hf
    exact (complete_word_spec d z fuel s hinv).1 hf
  · intro fuel t ht h0 hcomp
    obtain ⟨-, L2, E2, hlay2, huq2, -, hfound⟩ := (complete_word_spec d z fuel s hinv).2 t ht
    obtain ⟨hmem, hflag⟩ := hfound h0 hcomp
    rw [dynSlots_layout z t L2 E2 hlay2]
    exact ⟨hmem, hlay2.2.2.2.1 _ hmem, hflag, fun y hxy => huq2 _ y hxy (by simp) hflag⟩

/-- C34 on a ring of six slots with the buffer `ab` and the cursor at its
end, after `put_word` of `abc`, `abd`, `abc`: `complete_word` returns; it
completes to `abc` from the slot 4, the newest, flags that slot and deletes
the older `abc` of the slot 0, so that the slots with a word are 4 and 5. -/
theorem C34_duplicate_suppression_witness :
    (complete_word stockDefines ⟨8, 4, 6, 3⟩ 7
      (put_word (put_word (put_word
        (withLine (default_completions ⟨8, 4, 6, 3⟩ bootEditor []) [97, 98] 2)
        [97, 98, 99]) [97, 98, 100]) [97, 98, 99])).isSome = true ∧
    dynSlots ⟨8, 4, 6, 3⟩
      (put_word (put_word (put_word
        (withLine (default_completions ⟨8, 4, 6, 3⟩ bootEditor []) [97, 98] 2)
        [97, 98, 99]) [97, 98, 100]) [97, 98, 99]) = [4, 5, 0] ∧
    (complete_word stockDefines ⟨8, 4, 6, 3⟩ 7
      (put_word (put_word (put_word
        (withLine (default_completions ⟨8, 4, 6, 3⟩ bootEditor []) [97, 98] 2)
        [97, 98, 99]) [97, 98, 100]) [97, 98, 99])).map
      (fun t => (t.edbuf, t.cw_curr_word)) = some ([97, 98, 99], 4) ∧
    (complete_word stockDefines ⟨8, 4, 6, 3⟩ 7
      (put_word (put_word (put_word
        (withLine (default_completions ⟨8, 4, 6, 3⟩ bootEditor []) [97, 98] 2)
        [97, 98, 99]) [97, 98, 100]) [97, 98, 99])).map
      (fun t => dynSlots ⟨8, 4, 6, 3⟩ t) = some [4, 5] ∧
    (complete_word stockDefines ⟨8, 4, 6, 3⟩ 7
      (put_word (put_word (put_word
        (withLine (default_completions ⟨8, 4, 6, 3⟩ bootEditor []) [97, 98] 2)
        [97, 98, 99]) [97, 98, 100]) [97, 98, 99])).map
      (fun t => (t.words 4).flags) = some 1 ∧
    (complete_word stockDefines ⟨8, 4, 6, 3⟩ 7
      (put_word (put_word (put_word
        (withLine (default_completions ⟨8, 4, 6, 3⟩ bootEditor []) [97, 98] 2)
        [97, 98, 99]) [97, 98, 100]) [97, 98, 99])).map
      (fun t => (t.words 0).word) = some none :=
  ⟨(C34_duplicate_suppression stockDefines ⟨8, 4, 6, 3⟩ (by decide) _
      (WordState.put_word _ _ (WordState.put_word _ _ (WordState.put_word _ _
        (WordState.edit (default_completions ⟨8, 4, 6, 3⟩ bootEditor [])
          (withLine (default_completions ⟨8, 4, 6, 3⟩ bootEditor []) [97, 98] 2)
          (WordState.boot []) rfl rfl rfl rfl rfl rfl))))).2.1 7
      (by decide),
   by decide, by decide, by decide, by decide, by decide⟩

end Powwow
